import Mathlib

/-!
# oocmap: the LazyList engine over the transactional lists table

A shallow embedding of `src/lazylist.cpp`.  The lists table is a finite map from
`ListKey` to byte strings that can be traversed in key order; every list operation
of the source is a function from the table before the transaction to the table after
it (or to the error it throws).  The value codec (`OOCMap_encode`, `OOCMap_decode`)
is a parameter, as it is for the source file.
-/

namespace OOC

/-! ## Keys, values, table -/

/-- Key of the lists table, `struct ListKey { uint32_t listIndex; uint32_t listId; }`,
as it is brace-initialised throughout `lazylist.cpp`. -/
structure ListKey where
  listIndex : Nat
  listId : Nat
deriving DecidableEq, Repr

/-- Modelled from the spec: `ListKey::listIndexLength`, the one reserved sentinel position,
larger than any valid index, under which a list stores its length (declared in `oocmap.h`,
which is not among the sources); positions are unsigned 32-bit ordinals. -/
def ListKey.listIndexLength : Nat := 4294967295

/-- Arithmetic on `uint32_t` wraps around. -/
def u32 (x : Nat) : Nat := x % 4294967296

/-- Conversion of a non-negative `Py_ssize_t` to `uint32_t` (the narrowing in
`.listIndex = index` and in passing a `Py_ssize_t` for an `unsigned int` parameter). -/
def toU32 (x : Int) : Nat := (x % 4294967296).toNat

/-- The product `a * b` of two non-negative values in `Py_ssize_t` arithmetic (signed, 64 bits,
two's complement): the product modulo `2^64`, read as a signed number. -/
def ssizeMul (a b : Nat) : Int :=
  if (a * b) % 18446744073709551616 < 9223372036854775808 then
    (((a * b) % 18446744073709551616 : Nat) : Int)
  else (((a * b) % 18446744073709551616 : Nat) : Int) - 18446744073709551616

/-- Modelled from the spec: keys sort primarily by collection id, secondarily by position
(the table is opened in `oocmap.cpp`, which is not among the sources). -/
def ListKey.lt (a b : ListKey) : Prop :=
  a.listId < b.listId ∨ (a.listId = b.listId ∧ a.listIndex < b.listIndex)

/-- The non-strict key order that goes with `ListKey.lt`. -/
def ListKey.le (a b : ListKey) : Prop :=
  a.listId < b.listId ∨ (a.listId = b.listId ∧ a.listIndex ≤ b.listIndex)

instance : LT ListKey := ⟨ListKey.lt⟩

instance : LE ListKey := ⟨ListKey.le⟩

instance ListKey.decLt (a b : ListKey) : Decidable (a < b) :=
  inferInstanceAs (Decidable (a.listId < b.listId ∨ (a.listId = b.listId ∧ a.listIndex < b.listIndex)))

instance ListKey.decLe (a b : ListKey) : Decidable (a ≤ b) :=
  inferInstanceAs (Decidable (a.listId < b.listId ∨ (a.listId = b.listId ∧ a.listIndex ≤ b.listIndex)))

/-- An `MDB_val`: `mv_size` bytes at `mv_data`; `mv_size` is the length of the list. -/
abbrev MDB_val := List Nat

/-- The lists table `listsDb` as one transaction sees it: a finite map from keys to values.
The first entry with a given key is the binding of that key. -/
abbrev Store := List (ListKey × MDB_val)

/-- The bytes of a `uint32_t` in memory (little endian). -/
def u32Bytes (n : Nat) : MDB_val :=
  [n % 256, n / 256 % 256, n / 65536 % 256, n / 16777216 % 256]

/-- Reading `*reinterpret_cast<uint32_t*>(mv_data)`. -/
def readU32 : MDB_val → Nat
  | [a, b, c, d] => a % 256 + 256 * (b % 256) + 65536 * (c % 256) + 16777216 * (d % 256)
  | _ => 0

/-- Modelled from the spec: `get` by exact key without a cursor (the wrapper is declared in
`db.h`, which is not among the sources); `none` is "not found". -/
def get : Store → ListKey → Option MDB_val
  | [], _ => none
  | e :: rest, key => if e.1 = key then some e.2 else get rest key

/-- Modelled from the spec: `put` by exact key without a cursor (from `db.h`): the key is
bound to the value, replacing an earlier binding. -/
def put (txn : Store) (key : ListKey) (value : MDB_val) : Store :=
  (key, value) :: txn.filter (fun e => decide (e.1 ≠ key))

/-- Removal of the binding of a key, the effect of `cursor_del` on the table. -/
def del (txn : Store) (key : ListKey) : Store :=
  txn.filter (fun e => decide (e.1 ≠ key))

/-- The entry with the least key among the keys that satisfy `p`: where a cursor lands. -/
def seekMin (p : ListKey → Bool) : Store → Option (ListKey × MDB_val)
  | [] => none
  | e :: rest =>
    match seekMin p rest with
    | none => if p e.1 = true then some e else none
    | some b => if p e.1 = true ∧ e.1 ≤ b.1 then some e else some b

/-- The cursor operations `lazylist.cpp` passes to `cursor_get`. -/
inductive MDB_cursor_op where
  | MDB_SET_KEY
  | MDB_SET_RANGE
  | MDB_NEXT
deriving DecidableEq, Repr

/-- Modelled from the spec: `get(cursor, key, mode) -> (key, value, found)` (the wrapper
`cursor_get` is declared in `db.h`).  A cursor stands on a key; `pos` is the requested key
for `MDB_SET_KEY` and `MDB_SET_RANGE` and the key the cursor stands on for `MDB_NEXT`.
On success the cursor stands on the returned key; `none` is "not found", and then the
cursor has not moved.  Writes of the same transaction are visible to the cursor. -/
def cursor_get (txn : Store) (pos : ListKey) : MDB_cursor_op → Option (ListKey × MDB_val)
  | .MDB_SET_KEY => (get txn pos).map (fun v => (pos, v))
  | .MDB_SET_RANGE => seekMin (fun k => decide (pos ≤ k)) txn
  | .MDB_NEXT => seekMin (fun k => decide (pos < k)) txn

/-- What the source throws: the `OocError` codes used in `lazylist.cpp`, and `MdbError` with
its `mdbErrorCode`.  `NullDereference`, `OutOfBoundsWrite` and `FuelExhausted` are not thrown
by the source: the first stands for the use of an unchecked null pointer, the second for a
store past the end of a host list (`PyList_SET_ITEM` at a position that the list does not
have), the third for a loop of the embedding that was given too few steps. -/
inductive OocError where
  | OutOfMemory
  | UnexpectedData
  | IndexError
  | ImmutableValueNotFound
  | AlreadyPythonizedError
  | MdbError (mdbErrorCode : Int)
  | NullDereference
  | FuelExhausted
  | OutOfBoundsWrite
deriving DecidableEq, Repr

/-- The errno `EINVAL`, which the engine reports for a cursor that stands on no entry. -/
def EINVAL : Int := 22

/-- Modelled from the spec: `put(cursor, key, value, mode)` with `MDB_CURRENT` (the wrapper
`cursor_put` is declared in `db.h`): the value of the entry the cursor stands on is
replaced; the key argument is not used to locate it. -/
def cursor_put (txn : Store) (cursor : Option ListKey) (value : MDB_val) : Except OocError Store :=
  match cursor with
  | none => .error (.MdbError EINVAL)
  | some pos => if (get txn pos).isSome then .ok (put txn pos value) else .error (.MdbError EINVAL)

/-- Modelled from the spec: `delete(cursor)` (the wrapper `cursor_del` is declared in `db.h`):
the entry the cursor stands on is removed; a following `MDB_NEXT` finds the entry after it. -/
def cursor_del (txn : Store) (cursor : ListKey) : Store :=
  del txn cursor

/-- An `EncodedValue`: the fixed-size token of one value, `sizeof(EncodedValue)` bytes. -/
structure EncodedValue (size : Nat) where
  bytes : MDB_val
  sized : bytes.length = size
deriving DecidableEq

/-- The collaborators of the list engine that `lazylist.cpp` only calls.
`OOCMap_encode(ooc, value, &encoded, txn, insertedItems, readonly)` may write to the
transaction and to the map of items inserted in it; `OOCMap_decode(ooc, encoded, txn)` reads
the transaction.  `mdb` gives, for the handle of any other open map, the committed content
of its lists table. -/
structure Codec where
  PyObject : Type
  Id2EncodedMap : Type
  noInsertedItems : Id2EncodedMap
  sizeofEncodedValue : Nat
  OOCMap_encode : PyObject → Store → Id2EncodedMap → Bool →
    Except OocError (EncodedValue sizeofEncodedValue × Store × Id2EncodedMap)
  OOCMap_decode : EncodedValue sizeofEncodedValue → Store → Except OocError PyObject
  mdb : Nat → Store

/-- An `OOCLazyListObject`: the map it lives in (`ooc`, compared by identity) and its id. -/
structure OOCLazyListObject where
  ooc : Nat
  listId : Nat
deriving DecidableEq, Repr

/-- The argument of `extend`: a `LazyList`, or another object, which `PyObject_GetIter`
turns into an iterator or refuses.  An iterator is the items `PyIter_Next` returns before it
returns null, and whether that null comes with an exception raised. -/
inductive PyOther (C : Codec) where
  | lazyList (other : OOCLazyListObject)
  | iterable (items : List C.PyObject) (raises : Bool)
  | notIterable

/-! ## The list operations of `lazylist.cpp` -/

/-- `OOCLazyListObject_length`. -/
def OOCLazyListObject_length (self : OOCLazyListObject) (txn : Store) : Except OocError Nat :=
  match get txn ⟨ListKey.listIndexLength, self.listId⟩ with
  | none => .error .UnexpectedData
  | some mdbValue =>
    if mdbValue.length ≠ 4 then .error .UnexpectedData else .ok (readU32 mdbValue)

/-- `OOCLazyList_length`: a read transaction around `OOCLazyListObject_length`. -/
def OOCLazyList_length (self : OOCLazyListObject) (db : Store) : Except OocError Nat :=
  OOCLazyListObject_length self db

/-- `OOCLazyList_item`. -/
def OOCLazyList_item (C : Codec) (self : OOCLazyListObject) (db : Store) (index : Int) :
    Except OocError C.PyObject :=
  if index < 0 then .error .IndexError
  else
    match get db ⟨toU32 index, self.listId⟩ with
    | none => .error .IndexError
    | some mdbValue =>
      if h : mdbValue.length = C.sizeofEncodedValue then C.OOCMap_decode ⟨mdbValue, h⟩ db
      else .error .UnexpectedData

/-- The `while(sourceFound)` loop of the delete branch of `OOCLazyList_setItem`.  The two
cursors stand on `mdbDestKey` and `mdbSourceKey`; `mdbValue` is the value the last
`cursor_get` returned.  The result is the table and where the two cursors stand. -/
def setItem_shift (listId : Nat) :
    Nat → Store → ListKey → ListKey → MDB_val → Except OocError (Store × ListKey × ListKey)
  | 0, _, _, _, _ => .error .FuelExhausted
  | fuel + 1, txn, mdbDestKey, mdbSourceKey, mdbValue =>
    if mdbSourceKey.listIndex = ListKey.listIndexLength ∨ mdbSourceKey.listId ≠ listId then
      .ok (txn, mdbDestKey, mdbSourceKey)
    else
      match cursor_put txn (some mdbDestKey) mdbValue with
      | .error e => .error e
      | .ok txn1 =>
        match cursor_get txn1 mdbDestKey .MDB_NEXT with
        | none => .error .UnexpectedData
        | some (destKey1, _) =>
          match cursor_get txn1 mdbSourceKey .MDB_NEXT with
          | none => .ok (txn1, destKey1, mdbSourceKey)
          | some (sourceKey1, value1) => setItem_shift listId fuel txn1 destKey1 sourceKey1 value1

/-- The `try` block of `OOCLazyList_setItem`, on the open write transaction; `item = none` is
the null item of a deletion. -/
def setItem_try (C : Codec) (self : OOCLazyListObject) (txn : Store) (index : Int)
    (item : Option C.PyObject) : Except OocError Store :=
  let encodedListKey : ListKey := ⟨toU32 index, self.listId⟩
  match item with
  | none =>
    match cursor_get txn encodedListKey .MDB_SET_KEY with
    | none => .error .IndexError
    | some (mdbDestKey, _) =>
      let sourceStart : ListKey := ⟨u32 (encodedListKey.listIndex + 1), self.listId⟩
      let shifted : Except OocError (Store × ListKey × Option ListKey) :=
        match cursor_get txn sourceStart .MDB_SET_RANGE with
        | none => .ok (txn, mdbDestKey, none)
        | some (mdbSourceKey, mdbValue) =>
          match setItem_shift self.listId (txn.length + 1) txn mdbDestKey mdbSourceKey mdbValue with
          | .error e => .error e
          | .ok (txn1, destKey1, sourceKey1) => .ok (txn1, destKey1, some sourceKey1)
      match shifted with
      | .error e => .error e
      | .ok (txn1, destKey1, sourceCursor) =>
        match cursor_put txn1 sourceCursor (u32Bytes destKey1.listIndex) with
        | .error e => .error e
        | .ok txn2 => .ok (cursor_del txn2 destKey1)
  | some item =>
    match OOCLazyListObject_length self txn with
    | .error e => .error e
    | .ok length =>
      if index ≥ (length : Int) then .error .IndexError
      else
        match C.OOCMap_encode item txn C.noInsertedItems false with
        | .error e => .error e
        | .ok (encodedItem, txn1, _) => .ok (put txn1 encodedListKey encodedItem.bytes)

/-- `OOCLazyList_setItem`: the result and the table afterwards; the write transaction is
committed on success and aborted on an error. -/
def OOCLazyList_setItem (C : Codec) (self : OOCLazyListObject) (db : Store) (index : Int)
    (item : Option C.PyObject) : Except OocError Unit × Store :=
  if index < 0 then (.error .IndexError, db)
  else
    match setItem_try C self db index item with
    | .ok txn => (.ok (), txn)
    | .error e => (.error e, db)

/-- The `while(found)` loop of `OOCLazyListObject_eager`: `expected` is
`encodedListKey.listIndex`, the cursor stands on `mdbKey`, and `result` holds the items set
so far.  `PyList_SET_ITEM(result, listItemKey->listIndex, item)` stores at the position of
the key, which is `expected` here, in the list of `length` slots that `PyList_New(length)`
made: a store at a position that is not below `length` writes past the end of the list,
before the check of the length after the loop is reached. -/
def eager_loop (C : Codec) (listId : Nat) (length : Nat) :
    Nat → Store → Nat → ListKey → MDB_val → List C.PyObject →
      Except OocError (Nat × List C.PyObject)
  | 0, _, _, _, _, _ => .error .FuelExhausted
  | fuel + 1, txn, expected, mdbKey, mdbValue, result =>
    if mdbKey.listId ≠ listId ∨ mdbKey.listIndex = ListKey.listIndexLength then
      .ok (expected, result)
    else if mdbKey.listIndex ≠ expected then .error .UnexpectedData
    else if h : mdbValue.length = C.sizeofEncodedValue then
      match C.OOCMap_decode ⟨mdbValue, h⟩ txn with
      | .error e => .error e
      | .ok item =>
        if mdbKey.listIndex ≥ length then .error .OutOfBoundsWrite
        else
          match cursor_get txn mdbKey .MDB_NEXT with
          | none => .ok (u32 (expected + 1), result ++ [item])
          | some (mdbKey1, mdbValue1) =>
            eager_loop C listId length fuel txn (u32 (expected + 1)) mdbKey1 mdbValue1
              (result ++ [item])
    else .error .UnexpectedData

/-- `OOCLazyListObject_eager`: the host list of the decoded items. -/
def OOCLazyListObject_eager (C : Codec) (self : OOCLazyListObject) (txn : Store) :
    Except OocError (List C.PyObject) :=
  match OOCLazyListObject_length self txn with
  | .error e => .error e
  | .ok length =>
    if length ≤ 0 then .ok []
    else
      let scanned : Except OocError (Nat × List C.PyObject) :=
        match cursor_get txn ⟨0, self.listId⟩ .MDB_SET_RANGE with
        | none => .ok (0, [])
        | some (mdbKey, mdbValue) =>
          eager_loop C self.listId length (txn.length + 1) txn 0 mdbKey mdbValue []
      match scanned with
      | .error e => .error e
      | .ok (expected, result) =>
        if expected ≠ length then .error .UnexpectedData else .ok result

/-- `OOCLazyList_eager`: a read transaction of its own on the map of the list, around
`OOCLazyListObject_eager`; `db` is the committed table of that map. -/
def OOCLazyList_eager (C : Codec) (self : OOCLazyListObject) (db : Store) :
    Except OocError (List C.PyObject) :=
  OOCLazyListObject_eager C self db

/-- `OOCLazyListObject_clear`, the `while(found)` loop: the cursor stands on `mdbKey`.  The
result is the table and where the cursor stands. -/
def clear_loop (listId : Nat) : Nat → Store → ListKey → Except OocError (Store × ListKey)
  | 0, _, _ => .error .FuelExhausted
  | fuel + 1, txn, mdbKey =>
    if mdbKey.listId ≠ listId ∨ mdbKey.listIndex = ListKey.listIndexLength then
      .ok (txn, mdbKey)
    else
      let txn1 := cursor_del txn mdbKey
      match cursor_get txn1 mdbKey .MDB_NEXT with
      | none => .ok (txn1, mdbKey)
      | some (mdbKey1, _) => clear_loop listId fuel txn1 mdbKey1

/-- `OOCLazyListObject_clear`. -/
def OOCLazyListObject_clear (self : OOCLazyListObject) (txn : Store) : Except OocError Store :=
  let scanned : Except OocError (Store × Option ListKey) :=
    match cursor_get txn ⟨0, self.listId⟩ .MDB_SET_RANGE with
    | none => .ok (txn, none)
    | some (mdbKey, _) =>
      match clear_loop self.listId (txn.length + 1) txn mdbKey with
      | .error e => .error e
      | .ok (txn1, mdbKey1) => .ok (txn1, some mdbKey1)
  match scanned with
  | .error e => .error e
  | .ok (txn1, cursor) => cursor_put txn1 cursor (u32Bytes 0)

/-- `OOCLazyList_clear`. -/
def OOCLazyList_clear (self : OOCLazyListObject) (db : Store) : Except OocError Unit × Store :=
  match OOCLazyListObject_clear self db with
  | .ok txn => (.ok (), txn)
  | .error e => (.error e, db)

/-- The `while(destEncodedListKey.listIndex < length * count)` loop of
`OOCLazyListObject_inplaceRepeat`: `destIndex` is `destEncodedListKey.listIndex`, the cursor
stands on `mdbSourceKey` and `mdbValue` is the value it returned.  The result is the table
and `destEncodedListKey.listIndex`. -/
def inplaceRepeat_loop (C : Codec) (listId : Nat) (length : Nat) (count : Nat) :
    Nat → Store → Nat → ListKey → MDB_val → Except OocError (Store × Nat)
  | 0, _, _, _, _ => .error .FuelExhausted
  | fuel + 1, txn, destIndex, mdbSourceKey, mdbValue =>
    if (destIndex : Int) < ssizeMul length count then
      if mdbSourceKey.listId ≠ listId ∨ mdbSourceKey.listIndex = ListKey.listIndexLength then
        .ok (txn, destIndex)
      else if mdbValue.length ≠ C.sizeofEncodedValue then .error .UnexpectedData
      else
        let txn1 := put txn ⟨destIndex, listId⟩ mdbValue
        match cursor_get txn1 mdbSourceKey .MDB_NEXT with
        | none => .error .UnexpectedData
        | some (mdbSourceKey1, mdbValue1) =>
          inplaceRepeat_loop C listId length count fuel txn1 (u32 (destIndex + 1))
            mdbSourceKey1 mdbValue1
    else .ok (txn, destIndex)

/-- `OOCLazyListObject_inplaceRepeat(self, txn, unsigned int count)`. -/
def OOCLazyListObject_inplaceRepeat (C : Codec) (self : OOCLazyListObject) (txn : Store)
    (count : Nat) : Except OocError Store :=
  if count ≤ 0 then OOCLazyListObject_clear self txn
  else
    match OOCLazyListObject_length self txn with
    | .error e => .error e
    | .ok length =>
      if length ≤ 0 then .ok txn
      else
        match cursor_get txn ⟨0, self.listId⟩ .MDB_SET_RANGE with
        | none => .error .UnexpectedData
        | some (mdbSourceKey, mdbValue) =>
          match inplaceRepeat_loop C self.listId length count (txn.length + length * count + 1)
              txn length mdbSourceKey mdbValue with
          | .error e => .error e
          | .ok (txn1, newLength) =>
            .ok (put txn1 ⟨ListKey.listIndexLength, self.listId⟩ (u32Bytes newLength))

/-- `OOCLazyList_inplaceRepeat(pySelf, Py_ssize_t count)`: the count is passed on to an
`unsigned int` parameter. -/
def OOCLazyList_inplaceRepeat (C : Codec) (self : OOCLazyListObject) (db : Store)
    (count : Int) : Except OocError Unit × Store :=
  match OOCLazyListObject_inplaceRepeat C self db (toU32 count) with
  | .ok txn => (.ok (), txn)
  | .error e => (.error e, db)

/-- The `while((item = PyIter_Next(iter)))` loop of `OOCLazyListObject_extend(.., PyObject*)`:
`listIndex` is `selfEncodedListKey.listIndex`.  The result is the table, the index and the
items inserted in the transaction. -/
def extend_items (C : Codec) (listId : Nat) :
    List C.PyObject → Store → Nat → C.Id2EncodedMap →
      Except OocError (Store × Nat × C.Id2EncodedMap)
  | [], txn, listIndex, insertedItems => .ok (txn, listIndex, insertedItems)
  | item :: rest, txn, listIndex, insertedItems =>
    match C.OOCMap_encode item txn insertedItems false with
    | .error e => .error e
    | .ok (encodedItem, txn1, insertedItems1) =>
      extend_items C listId rest (put txn1 ⟨listIndex, listId⟩ encodedItem.bytes)
        (u32 (listIndex + 1)) insertedItems1

/-- The `else` branch of `OOCLazyListObject_extend(.., PyObject*)`, for an argument that is
not a `LazyList`: the exception state is not looked at when `PyIter_Next` returns null. -/
def extend_iterable (C : Codec) (self : OOCLazyListObject) (txn : Store)
    (iter : Option (List C.PyObject × Bool)) : Except OocError Store :=
  match iter with
  | none => .error .AlreadyPythonizedError
  | some (items, _) =>
    match OOCLazyListObject_length self txn with
    | .error e => .error e
    | .ok length =>
      match extend_items C self.listId items txn length C.noInsertedItems with
      | .error e => .error e
      | .ok (txn1, newLength, _) =>
        .ok (put txn1 ⟨ListKey.listIndexLength, self.listId⟩ (u32Bytes newLength))

/-- The `while(found)` loop of `OOCLazyListObject_extend(.., OOCLazyListObject*)`: the cursor
stands on `mdbOtherKey` in the range of the other list, `listIndex` is
`selfEncodedListKey.listIndex`.  The result is the table and the index. -/
def extend_copy (C : Codec) (selfId : Nat) (otherId : Nat) :
    Nat → Store → Nat → ListKey → MDB_val → Except OocError (Store × Nat)
  | 0, _, _, _, _ => .error .FuelExhausted
  | fuel + 1, txn, listIndex, mdbOtherKey, mdbValue =>
    if mdbOtherKey.listId ≠ otherId ∨ mdbOtherKey.listIndex = ListKey.listIndexLength then
      .ok (txn, listIndex)
    else if mdbValue.length ≠ C.sizeofEncodedValue then .error .UnexpectedData
    else
      let txn1 := put txn ⟨listIndex, selfId⟩ mdbValue
      match cursor_get txn1 mdbOtherKey .MDB_NEXT with
      | none => .ok (txn1, u32 (listIndex + 1))
      | some (mdbOtherKey1, mdbValue1) =>
        extend_copy C selfId otherId fuel txn1 (u32 (listIndex + 1)) mdbOtherKey1 mdbValue1

/-- `OOCLazyListObject_extend(self, txn, OOCLazyListObject* other)`.  In the last branch the
other list lives in another map: `OOCLazyList_eager` reads it there, and its result is used
without a null check. -/
def OOCLazyListObject_extend_list (C : Codec) (self : OOCLazyListObject) (txn : Store)
    (other : OOCLazyListObject) : Except OocError Store :=
  if other.ooc = self.ooc then
    if self.listId = other.listId then OOCLazyListObject_inplaceRepeat C self txn 2
    else
      match OOCLazyListObject_length self txn with
      | .error e => .error e
      | .ok length =>
        let copied : Except OocError (Store × Nat) :=
          match cursor_get txn ⟨0, other.listId⟩ .MDB_SET_RANGE with
          | none => .ok (txn, length)
          | some (mdbOtherKey, mdbValue) =>
            extend_copy C self.listId other.listId (txn.length + 1) txn length mdbOtherKey mdbValue
        match copied with
        | .error e => .error e
        | .ok (txn1, newLength) =>
          .ok (put txn1 ⟨ListKey.listIndexLength, self.listId⟩ (u32Bytes newLength))
  else
    match OOCLazyList_eager C other (C.mdb other.ooc) with
    | .error _ => .error .NullDereference
    | .ok eager => extend_iterable C self txn (some (eager, false))

/-- `OOCLazyListObject_extend(self, txn, PyObject* pyOther)`. -/
def OOCLazyListObject_extend (C : Codec) (self : OOCLazyListObject) (txn : Store) :
    PyOther C → Except OocError Store
  | .lazyList other => OOCLazyListObject_extend_list C self txn other
  | .iterable items raises => extend_iterable C self txn (some (items, raises))
  | .notIterable => extend_iterable C self txn none

/-- `OOCLazyList_extend` (and `OOCLazyList_inplaceConcat`, which has the same body). -/
def OOCLazyList_extend (C : Codec) (self : OOCLazyListObject) (db : Store) (other : PyOther C) :
    Except OocError Unit × Store :=
  match OOCLazyListObject_extend C self db other with
  | .ok txn => (.ok (), txn)
  | .error e => (.error e, db)

/-- `OOCLazyListObject_append`. -/
def OOCLazyListObject_append (C : Codec) (self : OOCLazyListObject) (txn : Store)
    (item : C.PyObject) : Except OocError Store :=
  match C.OOCMap_encode item txn C.noInsertedItems false with
  | .error e => .error e
  | .ok (encodedItem, txn1, _) =>
    match OOCLazyListObject_length self txn1 with
    | .error e => .error e
    | .ok length =>
      let txn2 := put txn1 ⟨length, self.listId⟩ encodedItem.bytes
      .ok (put txn2 ⟨ListKey.listIndexLength, self.listId⟩ (u32Bytes (u32 (length + 1))))

/-- `OOCLazyList_append`. -/
def OOCLazyList_append (C : Codec) (self : OOCLazyListObject) (db : Store) (item : C.PyObject) :
    Except OocError Unit × Store :=
  match OOCLazyListObject_append C self db item with
  | .ok txn => (.ok (), txn)
  | .error e => (.error e, db)

end OOC

namespace OOC

/-! ## Well-formed lists and the contract of the codec -/

/-- The positions of list `listId` are dense with length `n`: its sentinel record is a
`uint32_t` that holds `n`, and the other entries under the id are exactly at the positions
below `n`. -/
def Dense (s : Store) (listId n : Nat) : Prop :=
  (∃ v, get s ⟨ListKey.listIndexLength, listId⟩ = some v ∧ v.length = 4 ∧ readU32 v = n) ∧
  ∀ i, i ≠ ListKey.listIndexLength → ((get s ⟨i, listId⟩).isSome = true ↔ i < n)

/-- The sentinel record of list `listId` is there, and the other entries under the id are
exactly at the positions from `lo` up to, not including, `hi`: what a cursor relies on. -/
def Span (s : Store) (listId lo hi : Nat) : Prop :=
  hi ≤ ListKey.listIndexLength ∧ (get s ⟨ListKey.listIndexLength, listId⟩).isSome = true ∧
  ∀ i, i ≠ ListKey.listIndexLength → ((get s ⟨i, listId⟩).isSome = true ↔ (lo ≤ i ∧ i < hi))

/-- Every entry of list `listId` other than the sentinel record has the size of a token. -/
def TokenSized (C : Codec) (s : Store) (listId : Nat) : Prop :=
  ∀ i v, i ≠ ListKey.listIndexLength → get s ⟨i, listId⟩ = some v →
    v.length = C.sizeofEncodedValue

/-- List `listId` is well formed with length `n`: the sentinel record holds `n`, the entries
are the tokens at the positions `0 .. n-1`. -/
def WellFormed (C : Codec) (s : Store) (listId n : Nat) : Prop :=
  Dense s listId n ∧ TokenSized C s listId

/-- A check of `Dense` that can be run on a table. -/
def denseCheck (s : Store) (listId n : Nat) : Bool :=
  (match get s ⟨ListKey.listIndexLength, listId⟩ with
    | some v => decide (v.length = 4 ∧ readU32 v = n)
    | none => false) &&
  s.all (fun e => decide (e.1.listId ≠ listId ∨ e.1.listIndex = ListKey.listIndexLength ∨
    e.1.listIndex < n)) &&
  (List.range n).all (fun i => (get s ⟨i, listId⟩).isSome)

/-- A check of `TokenSized` that can be run on a table. -/
def tokenSizedCheck (C : Codec) (s : Store) (listId : Nat) : Bool :=
  s.all (fun e => decide (e.1.listId ≠ listId ∨ e.1.listIndex = ListKey.listIndexLength ∨
    e.2.length = C.sizeofEncodedValue))

/-- A check of `WellFormed` that can be run on a table. -/
def wellFormedCheck (C : Codec) (s : Store) (listId n : Nat) : Bool :=
  denseCheck s listId n && tokenSizedCheck C s listId

/-- Contract of the codec towards list `listId`: whatever `OOCMap_encode` writes to the
transaction, the bindings of the keys of that list stay as they are. -/
def EncodeKeeps (C : Codec) (listId : Nat) : Prop :=
  ∀ (item : C.PyObject) (txn : Store) (m : C.Id2EncodedMap) (readonly : Bool)
    (t : EncodedValue C.sizeofEncodedValue) (txn1 : Store) (m1 : C.Id2EncodedMap),
    C.OOCMap_encode item txn m readonly = .ok (t, txn1, m1) →
      ∀ i, get txn1 ⟨i, listId⟩ = get txn ⟨i, listId⟩

/-- Token `t` is what `OOCMap_encode` returned for `item` in some state of the transaction:
the meaning of "the position holds `encode(item)`" for a codec whose result may depend on
what is stored. -/
def IsTokenOf (C : Codec) (item : C.PyObject) (t : EncodedValue C.sizeofEncodedValue) : Prop :=
  ∃ (txn : Store) (m : C.Id2EncodedMap) (txn1 : Store) (m1 : C.Id2EncodedMap),
    C.OOCMap_encode item txn m false = .ok (t, txn1, m1)

/-- The encoding of `item` in a write transaction succeeds, whatever is stored. -/
def Encodable (C : Codec) (item : C.PyObject) : Prop :=
  ∀ (txn : Store) (m : C.Id2EncodedMap), ∃ r, C.OOCMap_encode item txn m false = .ok r

/-- The mutating operations on a list, with their arguments. -/
inductive Mutation (C : Codec) where
  | set (index : Int) (item : C.PyObject)
  | delete (index : Int)
  | append (item : C.PyObject)
  | extend (other : PyOther C)
  | inplaceRepeat (count : Int)
  | clear

/-- Running a mutation through the entry point of `lazylist.cpp` that implements it. -/
def Mutation.run (C : Codec) (self : OOCLazyListObject) (db : Store) :
    Mutation C → Except OocError Unit × Store
  | .set index item => OOCLazyList_setItem C self db index (some item)
  | .delete index => OOCLazyList_setItem C self db index none
  | .append item => OOCLazyList_append C self db item
  | .extend other => OOCLazyList_extend C self db other
  | .inplaceRepeat count => OOCLazyList_inplaceRepeat C self db count
  | .clear => OOCLazyList_clear self db

/-- The arguments of a mutation of a list of length `n` stay inside the 32-bit position
space: the index of a deletion does not alias the sentinel position, the count of a
repetition is taken as the `unsigned int` it is passed as, and the resulting length is at
most the sentinel position. -/
def Mutation.InRange (C : Codec) (self : OOCLazyListObject) (db : Store) (n : Nat) :
    Mutation C → Prop
  | .set _ _ => True
  | .delete index => toU32 index ≠ ListKey.listIndexLength
  | .append _ => n + 1 ≤ ListKey.listIndexLength
  | .extend (.lazyList other) =>
    if other.ooc = self.ooc then
      if self.listId = other.listId then n * 2 ≤ ListKey.listIndexLength
      else ∃ m, Dense db other.listId m ∧ n + m ≤ ListKey.listIndexLength
    else ∀ items, OOCLazyList_eager C other (C.mdb other.ooc) = .ok items →
      n + items.length ≤ ListKey.listIndexLength
  | .extend (.iterable items _) => n + items.length ≤ ListKey.listIndexLength
  | .extend .notIterable => True
  | .inplaceRepeat count => n * toU32 count ≤ ListKey.listIndexLength
  | .clear => True

/-- The sequence stored under a list id at the positions `0 .. n-1`. -/
def storedSeq (db : Store) (listId n : Nat) : List (Option MDB_val) :=
  (List.range n).map (fun i => get db ⟨i, listId⟩)

/-! ## Concrete codec and tables -/

/-- A codec for examples: the values are numbers, the token of a number is one byte-sized
cell that holds it, and encoding writes nothing. -/
@[reducible]
def natCodec : Codec where
  PyObject := Nat
  Id2EncodedMap := Unit
  noInsertedItems := ()
  sizeofEncodedValue := 1
  OOCMap_encode := fun v txn m _ => .ok (⟨[v], rfl⟩, txn, m)
  OOCMap_decode := fun t _ => .ok (t.bytes.headD 0)
  mdb := fun _ => []

/-- A table with the list `[10, 20, 30]` under id 7 and the list `[40, 50]` under id 8. -/
def db78 : Store :=
  [(⟨0, 7⟩, [10]), (⟨1, 7⟩, [20]), (⟨2, 7⟩, [30]), (⟨ListKey.listIndexLength, 7⟩, u32Bytes 3),
   (⟨0, 8⟩, [40]), (⟨1, 8⟩, [50]), (⟨ListKey.listIndexLength, 8⟩, u32Bytes 2)]

/-- A table with the one-item list `[10]` under id 7. -/
def db7 : Store :=
  [(⟨0, 7⟩, [10]), (⟨ListKey.listIndexLength, 7⟩, u32Bytes 1)]

/-- A table that holds under `listId` a list of `n` items, each the token `v`. -/
def filledList (listId n : Nat) (v : MDB_val) : Store :=
  (⟨ListKey.listIndexLength, listId⟩, u32Bytes n) ::
    (List.range n).map (fun i => ((⟨i, listId⟩ : ListKey), v))

/-- A table with a list of the largest length, `2^32 - 1`, under id 7, and the one-item list
`[40]` under id 8. -/
def dbFull : Store :=
  filledList 7 4294967295 [0] ++ filledList 8 1 [40]

/-- A table with a list of `2^31` items under id 7. -/
def dbHalf : Store :=
  filledList 7 2147483648 [0]

end OOC

namespace OOC

/-! ## Searching: `index` and `count` -/

/-- The errno `EACCES`, which the engine reports for a write in a read-only transaction. -/
def EACCES : Int := 13

/-- The comparison operators of the host language, as `tp_richcompare` and
`PyObject_RichCompareBool` receive them. -/
def Py_LT : Int := 0

/-- The operator `<=`. -/
def Py_LE : Int := 1

/-- The operator `==`. -/
def Py_EQ : Int := 2

/-- The operator `!=`. -/
def Py_NE : Int := 3

/-- The operator `>`. -/
def Py_GT : Int := 4

/-- The operator `>=`. -/
def Py_GE : Int := 5

/-- What the search and comparison code uses besides the codec of the map: the field
`typeCodeWithLength` of an `EncodedValue` (the struct is declared in `oocmap.h`, which is not
among the sources), and `PyObject_RichCompareBool` of the host language, whose result is 1
for true, 0 for false and -1 when the comparison raises. -/
structure Host (C : Codec) where
  typeCodeWithLength : EncodedValue C.sizeofEncodedValue → Nat
  PyObject_RichCompareBool : C.PyObject → C.PyObject → Int → Int

/-- The local `encodedValue` of `index` and `count` after the `try` around `OOCMap_encode`:
the token of the needle, or a value that holds no token and whose `typeCodeWithLength` was
set to `0xff` ("mark the encoded value as unusable"). -/
inductive Needle (C : Codec) where
  | encoded (encodedValue : EncodedValue C.sizeofEncodedValue)
  | unusable

/-- The field `encodedValue.typeCodeWithLength`. -/
def Needle.typeCodeWithLength {C : Codec} (H : Host C) : Needle C → Nat
  | .encoded encodedValue => H.typeCodeWithLength encodedValue
  | .unusable => 255

/-- Modelled from the spec: `encodedValue == *encodedItem`, the comparison of two tokens byte
for byte (`operator==` of `EncodedValue` is declared in `oocmap.h`).  It is evaluated only
when `typeCodeWithLength` is not `0xff`. -/
def Needle.equals {C : Codec} : Needle C → EncodedValue C.sizeofEncodedValue → Bool
  | .encoded encodedValue, encodedItem => decide (encodedValue.bytes = encodedItem.bytes)
  | .unusable, _ => false

/-- The `try` around `OOCMap_encode(.., true)` at the head of `OOCLazyListObject_index` and
`OOCLazyListObject_count`: the needle and the transaction afterwards, or `none` when the
function returns at once because the needle is an immutable value that was never stored. -/
def encodeNeedle (C : Codec) (txn : Store) (value : C.PyObject) :
    Except OocError (Option (Needle C × Store)) :=
  match C.OOCMap_encode value txn C.noInsertedItems true with
  | .ok (encodedValue, txn1, _) => .ok (some (.encoded encodedValue, txn1))
  | .error e =>
    match e with
    | .MdbError mdbErrorCode =>
      if mdbErrorCode ≠ EACCES then .error e else .ok (some (.unusable, txn))
    | .ImmutableValueNotFound => .ok none
    | _ => .error e

/-- The test of one entry in the loops of `index` and `count`: by decoding the entry and
comparing the values with `Py_EQ` when the needle is marked unusable (the result of
`PyObject_RichCompareBool` is used as a condition, so that -1 counts as true), by comparing
the tokens otherwise. -/
def needleMatches (C : Codec) (H : Host C) (value : C.PyObject) (encodedValue : Needle C)
    (txn : Store) (encodedItem : EncodedValue C.sizeofEncodedValue) : Except OocError Bool :=
  if encodedValue.typeCodeWithLength H = 255 then
    match C.OOCMap_decode encodedItem txn with
    | .error e => .error e
    | .ok item => .ok (decide (H.PyObject_RichCompareBool value item Py_EQ ≠ 0))
  else .ok (encodedValue.equals encodedItem)

/-- The `while(found)` loop of `OOCLazyListObject_index`: the cursor stands on `mdbKey` and
`mdbValue` is the value it returned.  The result is the key the loop broke at with
`found` still true, or `none` when it ended with `found` false. -/
def index_loop (C : Codec) (H : Host C) (listId : Nat) (value : C.PyObject)
    (encodedValue : Needle C) (stop : Int) :
    Nat → Store → ListKey → MDB_val → Except OocError (Option ListKey)
  | 0, _, _, _ => .error .FuelExhausted
  | fuel + 1, txn, mdbKey, mdbValue =>
    if (mdbKey.listIndex : Int) ≥ stop ∨ mdbKey.listId ≠ listId ∨
        mdbKey.listIndex = ListKey.listIndexLength then .ok none
    else if h : mdbValue.length = C.sizeofEncodedValue then
      match needleMatches C H value encodedValue txn ⟨mdbValue, h⟩ with
      | .error e => .error e
      | .ok true => .ok (some mdbKey)
      | .ok false =>
        match cursor_get txn mdbKey .MDB_NEXT with
        | none => .ok none
        | some (mdbKey1, mdbValue1) =>
          index_loop C H listId value encodedValue stop fuel txn mdbKey1 mdbValue1
    else .error .UnexpectedData

/-- The normalisation of `start` and `stop` at the head of `OOCLazyListObject_index`: the
length is read only when one of them is negative.  The sums are sums of a negative 64-bit
number and a length below `2^32` and do not overflow. -/
def index_bounds (self : OOCLazyListObject) (txn : Store) (start stop : Int) :
    Except OocError (Int × Int) :=
  let started : Except OocError (Int × Int) :=
    if start < 0 then
      match OOCLazyListObject_length self txn with
      | .error e => .error e
      | .ok length => .ok ((length : Int), if start + length < 0 then 0 else start + length)
    else .ok (-1, start)
  match started with
  | .error e => .error e
  | .ok (length, start1) =>
    if stop < 0 then
      if length < 0 then
        match OOCLazyListObject_length self txn with
        | .error e => .error e
        | .ok length1 => .ok (start1, stop + length1)
      else .ok (start1, stop + length)
    else .ok (start1, stop)

/-- The scan of `OOCLazyListObject_index`, from the opening of the cursor to the end of the
function: the position found, or -1.  `start` and `stop` are normalised, `encodedValue` is
the needle. -/
def index_scan (C : Codec) (H : Host C) (self : OOCLazyListObject) (txn : Store)
    (value : C.PyObject) (encodedValue : Needle C) (start stop : Int) : Except OocError Int :=
  match cursor_get txn ⟨toU32 start, self.listId⟩ .MDB_SET_RANGE with
  | none => .ok (-1)
  | some (mdbKey, mdbValue) =>
    match index_loop C H self.listId value encodedValue stop (txn.length + 1) txn
        mdbKey mdbValue with
    | .error e => .error e
    | .ok none => .ok (-1)
    | .ok (some listKey) => .ok (listKey.listIndex : Int)

/-- `OOCLazyListObject_index(self, txn, value, start, stop)`: the position found, or -1. -/
def OOCLazyListObject_index (C : Codec) (H : Host C) (self : OOCLazyListObject) (txn : Store)
    (value : C.PyObject) (start stop : Int) : Except OocError Int :=
  match index_bounds self txn start stop with
  | .error e => .error e
  | .ok (start1, stop1) =>
    match encodeNeedle C txn value with
    | .error e => .error e
    | .ok none => .ok (-1)
    | .ok (some (encodedValue, txn1)) => index_scan C H self txn1 value encodedValue start1 stop1

/-- The `while(found)` loop of `OOCLazyListObject_count`: the cursor stands on `mdbKey`,
`mdbValue` is the value it returned, `count` is the count so far. -/
def count_loop (C : Codec) (H : Host C) (listId : Nat) (value : C.PyObject)
    (encodedValue : Needle C) :
    Nat → Store → ListKey → MDB_val → Nat → Except OocError Nat
  | 0, _, _, _, _ => .error .FuelExhausted
  | fuel + 1, txn, mdbKey, mdbValue, count =>
    if mdbKey.listId ≠ listId ∨ mdbKey.listIndex = ListKey.listIndexLength then .ok count
    else if h : mdbValue.length = C.sizeofEncodedValue then
      match needleMatches C H value encodedValue txn ⟨mdbValue, h⟩ with
      | .error e => .error e
      | .ok isMatch =>
        let count1 := if isMatch = true then count + 1 else count
        match cursor_get txn mdbKey .MDB_NEXT with
        | none => .ok count1
        | some (mdbKey1, mdbValue1) =>
          count_loop C H listId value encodedValue fuel txn mdbKey1 mdbValue1 count1
    else .error .UnexpectedData

/-- The scan of `OOCLazyListObject_count`, from the opening of the cursor to the end of the
function; `encodedValue` is the needle. -/
def count_scan (C : Codec) (H : Host C) (self : OOCLazyListObject) (txn : Store)
    (value : C.PyObject) (encodedValue : Needle C) : Except OocError Nat :=
  match cursor_get txn ⟨0, self.listId⟩ .MDB_SET_RANGE with
  | none => .ok 0
  | some (mdbKey, mdbValue) =>
    count_loop C H self.listId value encodedValue (txn.length + 1) txn mdbKey mdbValue 0

/-- `OOCLazyListObject_count(self, txn, value)`. -/
def OOCLazyListObject_count (C : Codec) (H : Host C) (self : OOCLazyListObject) (txn : Store)
    (value : C.PyObject) : Except OocError Nat :=
  match encodeNeedle C txn value with
  | .error e => .error e
  | .ok none => .ok 0
  | .ok (some (encodedValue, txn1)) => count_scan C H self txn1 value encodedValue

/-- The codec contract of the search for the needle `value` with token `encodedValue` and
the entries of list `listId`: each of them decodes to a value, and that value equals the
needle (by `Py_EQ`) exactly when its token is byte for byte the token of the needle. -/
def ContentAddressed (C : Codec) (H : Host C) (listId : Nat) (txn : Store) (value : C.PyObject)
    (encodedValue : EncodedValue C.sizeofEncodedValue) : Prop :=
  ∀ (key : ListKey) (encodedItem : EncodedValue C.sizeofEncodedValue),
    key.listId = listId → get txn key = some encodedItem.bytes →
    ∃ item, C.OOCMap_decode encodedItem txn = .ok item ∧
      (H.PyObject_RichCompareBool value item Py_EQ ≠ 0 ↔
        encodedValue.bytes = encodedItem.bytes)

end OOC

namespace OOC

/-! ## Iterating -/

/-- An `OOCLazyListIterObject`: the list it iterates over (null once it is exhausted) and its
cursor (null before the first pull).  An open cursor belongs to the read transaction that
was begun for it, which sees the table as it was then, and stands on a key. -/
structure OOCLazyListIterObject where
  list : Option OOCLazyListObject
  cursor : Option (Store × ListKey)

/-- `OOCLazyListIter_fastnew`, which `OOCLazyList_iter` returns. -/
def OOCLazyListIter_fastnew (list : OOCLazyListObject) : OOCLazyListIterObject :=
  ⟨some list, none⟩

/-- `OOCLazyListIter_iternext`; `db` is the committed table of the map at the time of the
call, which a transaction begun now sees.  The result is the item, `none` for a null
result without an error (the end of the sequence), or the error, together with the
iterator afterwards. -/
def OOCLazyListIter_iternext (C : Codec) (self : OOCLazyListIterObject) (db : Store) :
    Except OocError (Option C.PyObject) × OOCLazyListIterObject :=
  match self.list with
  | none => (.ok none, self)
  | some list =>
    match self.cursor with
    | none =>
      match cursor_get db ⟨0, list.listId⟩ .MDB_SET_KEY with
      | none => (.ok none, ⟨none, none⟩)
      | some (mdbKey, mdbValue) =>
        if h : mdbValue.length = C.sizeofEncodedValue then
          match C.OOCMap_decode ⟨mdbValue, h⟩ db with
          | .error e => (.error e, ⟨some list, none⟩)
          | .ok item => (.ok (some item), ⟨some list, some (db, mdbKey)⟩)
        else (.error .UnexpectedData, ⟨some list, none⟩)
    | some (txn, pos) =>
      match cursor_get txn pos .MDB_NEXT with
      | none => (.ok none, ⟨none, none⟩)
      | some (listKey, mdbValue) =>
        if listKey.listIndex = ListKey.listIndexLength ∨ listKey.listId ≠ list.listId then
          (.ok none, ⟨none, none⟩)
        else if h : mdbValue.length = C.sizeofEncodedValue then
          match C.OOCMap_decode ⟨mdbValue, h⟩ txn with
          | .error e => (.error e, ⟨some list, none⟩)
          | .ok item => (.ok (some item), ⟨some list, some (txn, listKey)⟩)
        else (.error .UnexpectedData, ⟨some list, none⟩)

/-- Pulling an iterator until it signals the end of the sequence, as a `for` loop of the
host language does: the items pulled, or the error of the pull that failed. -/
def pullAll (C : Codec) (db : Store) :
    Nat → OOCLazyListIterObject → Except OocError (List C.PyObject)
  | 0, _ => .error .FuelExhausted
  | fuel + 1, it =>
    match OOCLazyListIter_iternext C it db with
    | (.error e, _) => .error e
    | (.ok none, _) => .ok []
    | (.ok (some item), it1) =>
      match pullAll C db fuel it1 with
      | .error e => .error e
      | .ok items => .ok (item :: items)

/-! ## Comparing -/

/-- How a function that is exposed to the host language ends when it returns null: with an
`OocError` that was pythonized, with the `TypeError`, the `PyErr_BadInternalCall` or the
`ValueError` it set itself, or with an exception that a call into the host language
raised. -/
inductive PyErr where
  | pythonized (error : OocError)
  | TypeError
  | BadInternalCall
  | raised
  | ValueError
deriving DecidableEq, Repr

/-- The second operand of a comparison: a host list (`PyList_Check`), a `LazyList`, or an
object of another kind. -/
inductive PyCompared (C : Codec) where
  | pyList (items : List C.PyObject)
  | lazyList (other : OOCLazyListObject)
  | otherKind

/-- An iterator that `PyObject_GetIter` returns in `OOCLazyList_richcompare`: over a
`LazyList`, with the committed table of its map, or over a host list, with the items it has
not returned yet. -/
inductive PyIter (C : Codec) where
  | lazyListIter (it : OOCLazyListIterObject) (db : Store)
  | listIter (items : List C.PyObject)

/-- `PyIter_Next`: the next item, `none` at the end, or the error that is set. -/
def PyIter_Next (C : Codec) : PyIter C → Except OocError (Option C.PyObject) × PyIter C
  | .lazyListIter it db =>
    ((OOCLazyListIter_iternext C it db).1, .lazyListIter (OOCLazyListIter_iternext C it db).2 db)
  | .listIter [] => (.ok none, .listIter [])
  | .listIter (item :: rest) => (.ok (some item), .listIter rest)

/-- `_computeRichcompareResult(comparisonResult, op)`: `none` is the null result of the
`default` branches. -/
def _computeRichcompareResult (comparisonResult : Int) (op : Int) : Option Bool :=
  if comparisonResult = 0 then
    if op = Py_LT ∨ op = Py_NE ∨ op = Py_GT then some false
    else if op = Py_LE ∨ op = Py_EQ ∨ op = Py_GE then some true
    else none
  else
    let result : Option Bool :=
      if op = Py_LT ∨ op = Py_LE ∨ op = Py_NE then some true
      else if op = Py_GT ∨ op = Py_EQ ∨ op = Py_GE then some false
      else none
    match result with
    | none => none
    | some result => some (if comparisonResult > 0 then !result else result)

/-- The `return _computeRichcompareResult(..)` statements of `OOCLazyList_richcompare`. -/
def richcompare_return (comparisonResult : Int) (op : Int) : Except PyErr Bool :=
  match _computeRichcompareResult comparisonResult op with
  | none => .error .BadInternalCall
  | some result => .ok result

/-- The `while(true)` loop of `OOCLazyList_richcompare`. -/
def richcompare_loop (C : Codec) (H : Host C) (op : Int) :
    Nat → PyIter C → PyIter C → Except PyErr Bool
  | 0, _, _ => .error (.pythonized .FuelExhausted)
  | fuel + 1, selfIter, otherIter =>
    match PyIter_Next C selfIter with
    | (.error e, _) => .error (.pythonized e)
    | (.ok selfItem, selfIter1) =>
      match PyIter_Next C otherIter with
      | (.error e, _) => .error (.pythonized e)
      | (.ok otherItem, otherIter1) =>
        match selfItem, otherItem with
        | none, none => richcompare_return 0 op
        | none, some _ => richcompare_return (-1) op
        | some _, none => richcompare_return 1 op
        | some selfItem, some otherItem =>
          if H.PyObject_RichCompareBool selfItem otherItem Py_LT < 0 then .error .raised
          else if H.PyObject_RichCompareBool selfItem otherItem Py_LT ≠ 0 then
            richcompare_return (-1) op
          else if H.PyObject_RichCompareBool selfItem otherItem Py_GT < 0 then .error .raised
          else if H.PyObject_RichCompareBool selfItem otherItem Py_GT ≠ 0 then
            richcompare_return 1 op
          else richcompare_loop C H op fuel selfIter1 otherIter1

/-- `OOCLazyList_richcompare(pySelf, other, op)`; `db` is the committed table of the map of
`self`, and of `other` when it is a list of the same map. -/
def OOCLazyList_richcompare (C : Codec) (H : Host C) (self : OOCLazyListObject) (db : Store)
    (other : PyCompared C) (op : Int) : Except PyErr Bool :=
  match other with
  | .pyList items =>
    richcompare_loop C H op (db.length + 2)
      (.lazyListIter (OOCLazyListIter_fastnew self) db) (.listIter items)
  | .lazyList other =>
    richcompare_loop C H op (db.length + 2)
      (.lazyListIter (OOCLazyListIter_fastnew self) db)
      (.lazyListIter (OOCLazyListIter_fastnew other)
        (if other.ooc = self.ooc then db else C.mdb other.ooc))
  | .otherKind =>
    if op = Py_EQ then .ok false
    else if op = Py_NE then .ok true
    else .error .TypeError

/-! ## The error indicator after `extend` -/

/-- Whether the error indicator of the host language is set when `OOCLazyList_extend`
returns: an error that was thrown has been pythonized, and an exception that `PyIter_Next`
raised is still set, since the loop of `OOCLazyListObject_extend` takes the null result for
the end of the items and nothing clears the exception. -/
def OOCLazyList_extend_errorOccurred (C : Codec) (self : OOCLazyListObject) (db : Store)
    (other : PyOther C) : Bool :=
  match OOCLazyListObject_extend C self db other with
  | .error _ => true
  | .ok _ =>
    match other with
    | .iterable _ raises => raises
    | _ => false

/-! ## Notions of the specification for searching and comparing -/

/-- The token stored at position `p` of list `listId` is byte for byte the token
`encodedValue`. -/
def TokenAt (db : Store) (listId : Nat) (encodedValue : MDB_val) (p : Nat) : Prop :=
  get db ⟨p, listId⟩ = some encodedValue

instance (db : Store) (listId : Nat) (encodedValue : MDB_val) (p : Nat) :
    Decidable (TokenAt db listId encodedValue p) :=
  inferInstanceAs (Decidable (get db ⟨p, listId⟩ = some encodedValue))

/-- The elements of the host language are totally ordered, and `PyObject_RichCompareBool`
answers `<` and `>` by that order. -/
def Host.TotallyOrdered {C : Codec} (H : Host C) [LinearOrder C.PyObject] : Prop :=
  ∀ a b : C.PyObject,
    H.PyObject_RichCompareBool a b Py_LT = (if a < b then 1 else 0) ∧
    H.PyObject_RichCompareBool a b Py_GT = (if b < a then 1 else 0)

/-- List `list` is stored in `db` with the items `items`: its positions are dense with that
many entries, and `get` returns the items position by position. -/
def StoredItems (C : Codec) (list : OOCLazyListObject) (db : Store)
    (items : List C.PyObject) : Prop :=
  Dense db list.listId items.length ∧
  ∀ k (h : k < items.length), OOCLazyList_item C list db (k : Int) = .ok (items.get ⟨k, h⟩)

/-- The second operand of a comparison with `self` has the items `items`: it is that host
list, or a list stored with these items in the table of its map. -/
def PyCompared.HasItems (C : Codec) (self : OOCLazyListObject) (db : Store) :
    PyCompared C → List C.PyObject → Prop
  | .pyList hostItems, items => hostItems = items
  | .lazyList other, items =>
    StoredItems C other (if other.ooc = self.ooc then db else C.mdb other.ooc) items
  | .otherKind, _ => False

/-- Iterator `it` returns the items `items`, one with each pull, and then signals the end of
the sequence. -/
def PyIter.Yields (C : Codec) : PyIter C → List C.PyObject → Prop
  | it, [] => (PyIter_Next C it).1 = .ok none
  | it, item :: rest =>
    (PyIter_Next C it).1 = .ok (some item) ∧ PyIter.Yields C (PyIter_Next C it).2 rest

/-- Sequence `xs` is lexicographically less than `ys`: at the first position where the two
differ the element of `xs` is the smaller one, or the elements of `xs` are those of `ys` at
the same positions and `xs` is strictly shorter. -/
def LexLess {α : Type} [LT α] (xs ys : List α) : Prop :=
  (∃ k, ∃ hx : k < xs.length, ∃ hy : k < ys.length,
    xs.take k = ys.take k ∧ xs.get ⟨k, hx⟩ < ys.get ⟨k, hy⟩) ∨
  (xs.length < ys.length ∧ ys.take xs.length = xs)

/-- The three-way lexicographic comparison of two sequences over a total order: -1 when the
first is less, 0 when they are equal, 1 when the first is greater. -/
def lexCompare {α : Type} [LinearOrder α] : List α → List α → Int
  | [], [] => 0
  | [], _ :: _ => -1
  | _ :: _, [] => 1
  | a :: as, b :: bs => if a < b then -1 else if b < a then 1 else lexCompare as bs

/-- The host for the example codec: no token has the type code `0xff`, and numbers compare
as numbers. -/
def natHost : Host natCodec where
  typeCodeWithLength := fun _ => 0
  PyObject_RichCompareBool := fun a b op =>
    if op = Py_LT then (if a < b then 1 else 0)
    else if op = Py_LE then (if a ≤ b then 1 else 0)
    else if op = Py_EQ then (if a = b then 1 else 0)
    else if op = Py_NE then (if a ≠ b then 1 else 0)
    else if op = Py_GT then (if b < a then 1 else 0)
    else if op = Py_GE then (if b ≤ a then 1 else 0)
    else -1

/-- A table with the list `[1, 2, 3]` under id 7 and the list `[1, 2]` under id 8. -/
def dbCmp : Store :=
  [(⟨0, 7⟩, [1]), (⟨1, 7⟩, [2]), (⟨2, 7⟩, [3]), (⟨ListKey.listIndexLength, 7⟩, u32Bytes 3),
   (⟨0, 8⟩, [1]), (⟨1, 8⟩, [2]), (⟨ListKey.listIndexLength, 8⟩, u32Bytes 2)]

/-- A table with the empty list under id 7. -/
def dbEmpty : Store :=
  [(⟨ListKey.listIndexLength, 7⟩, u32Bytes 0)]

end OOC

namespace OOC

/-! ## Out-of-place concatenation and repetition -/

/-- `PySequence_Repeat` of the host language on a host list: the list repeated `count`
times, the empty list for a count that is not positive.  Memory is taken to suffice. -/
def PySequence_Repeat {α : Type} (items : List α) (count : Int) : List α :=
  (List.replicate count.toNat items).flatten

/-- `PySequence_Concat` of the host language with a host list as its first operand, which
is `sq_concat` of the host list: the concatenation when the second operand is a host list
too, a `TypeError` otherwise. -/
def PySequence_Concat (C : Codec) (items : List C.PyObject) :
    PyCompared C → Except PyErr (List C.PyObject)
  | .pyList other => .ok (items ++ other)
  | .lazyList _ => .error .TypeError
  | .otherKind => .error .TypeError

/-- `OOCLazyList_concat`: the out-of-place `L + other`. -/
def OOCLazyList_concat (C : Codec) (self : OOCLazyListObject) (db : Store)
    (pyOther : PyCompared C) : Except PyErr (List C.PyObject) :=
  match OOCLazyList_eager C self db with
  | .error e => .error (.pythonized e)
  | .ok eager => PySequence_Concat C eager pyOther

/-- `OOCLazyList_repeat`: the out-of-place `L * count`. -/
def OOCLazyList_repeat (C : Codec) (self : OOCLazyListObject) (db : Store) (count : Int) :
    Except PyErr (List C.PyObject) :=
  match OOCLazyList_eager C self db with
  | .error e => .error (.pythonized e)
  | .ok eager => .ok (PySequence_Repeat eager count)

/-! ## Notions of the specification for frames, consistency and materialisation -/

/-- What `get` returns at the `len` positions from `k` on, up to the first error. -/
def itemsFrom (C : Codec) (self : OOCLazyListObject) (db : Store) :
    Nat → Nat → Except OocError (List C.PyObject)
  | 0, _ => .ok []
  | len + 1, k =>
    match OOCLazyList_item C self db (k : Int) with
    | .error e => .error e
    | .ok item =>
      match itemsFrom C self db len (k + 1) with
      | .error e => .error e
      | .ok items => .ok (item :: items)

/-- The keys of the table are keys of two `uint32_t`: no position exceeds the sentinel
position. -/
def KeysValid (db : Store) : Prop :=
  ∀ k : ListKey, (get db k).isSome = true → k.listIndex ≤ ListKey.listIndexLength

/-- The entries under the id `listId` other than the sentinel record are exactly at the
positions `0 .. n-1`. -/
def PositionsExactly (db : Store) (listId n : Nat) : Prop :=
  ∀ i, i ≠ ListKey.listIndexLength → ((get db ⟨i, listId⟩).isSome = true ↔ i < n)

/-- What the last write of a mutation relies on: a deletion and a clearing (also the
clearing that an in-place repeat with the count 0 is) end with a write through a cursor
that is taken to stand on the sentinel record of the list, so the list has to be well
formed, and the index of a deletion must not alias the sentinel position.  The other
mutations write by key. -/
def Mutation.CursorSafe (C : Codec) (self : OOCLazyListObject) (db : Store) :
    Mutation C → Prop
  | .delete index =>
    (∃ n, Dense db self.listId n) ∧ toU32 index ≠ ListKey.listIndexLength
  | .clear => ∃ n, Dense db self.listId n
  | .inplaceRepeat count => toU32 count = 0 → ∃ n, Dense db self.listId n
  | _ => True

/-- Every entry of list `listId` that is a token decodes. -/
def Decodable (C : Codec) (db : Store) (listId : Nat) : Prop :=
  ∀ (i : Nat) (t : EncodedValue C.sizeofEncodedValue),
    get db ⟨i, listId⟩ = some t.bytes → ∃ item, C.OOCMap_decode t db = .ok item

/-- Contract of the codec: what a token decodes to does not depend on the state of the
table (the token holds its value inline). -/
def DecodeStatic (C : Codec) : Prop :=
  ∀ (t : EncodedValue C.sizeofEncodedValue) (txn txn1 : Store),
    C.OOCMap_decode t txn = C.OOCMap_decode t txn1

/-- Contract of the codec: a token decodes to the value it was made from. -/
def DecodesBack (C : Codec) : Prop :=
  ∀ (item : C.PyObject) (txn : Store) (m : C.Id2EncodedMap) (readonly : Bool)
    (t : EncodedValue C.sizeofEncodedValue) (txn1 : Store) (m1 : C.Id2EncodedMap),
    C.OOCMap_encode item txn m readonly = .ok (t, txn1, m1) →
      C.OOCMap_decode t txn1 = .ok item

/-! ## More concrete codecs and tables -/

/-- A codec for examples whose values were never stored: encoding for a search, in a
read-only transaction, fails with `ImmutableValueNotFound`. -/
@[reducible]
def strangerCodec : Codec where
  PyObject := Nat
  Id2EncodedMap := Unit
  noInsertedItems := ()
  sizeofEncodedValue := 1
  OOCMap_encode := fun v txn m readonly =>
    if readonly = true then .error .ImmutableValueNotFound else .ok (⟨[v], rfl⟩, txn, m)
  OOCMap_decode := fun t _ => .ok (t.bytes.headD 0)
  mdb := fun _ => []

/-- The host for `strangerCodec`. -/
def strangerHost : Host strangerCodec where
  typeCodeWithLength := fun _ => 0
  PyObject_RichCompareBool := fun a b op =>
    if op = Py_EQ then (if a = b then 1 else 0) else -1

/-- A table with the one-item list `[10]` under id 7 and, under id 8, a list of length 2
whose entry at position 1 has two bytes, which is not the size of a token of `natCodec`. -/
def dbBad : Store :=
  [(⟨0, 7⟩, [10]), (⟨ListKey.listIndexLength, 7⟩, u32Bytes 1),
   (⟨0, 8⟩, [40]), (⟨1, 8⟩, [1, 2]), (⟨ListKey.listIndexLength, 8⟩, u32Bytes 2)]

/-- A table with an entry at position 0 under id 7 but no sentinel record for that id,
followed by the one-item list `[40]` under id 8. -/
def dbNoSentinel : Store :=
  [(⟨0, 7⟩, [10]), (⟨0, 8⟩, [40]), (⟨ListKey.listIndexLength, 8⟩, u32Bytes 1)]

/-- A table in which the sentinel record of the list under id 7 holds 0 although there is an
entry at position 0. -/
def dbStale : Store :=
  [(⟨0, 7⟩, [10]), (⟨ListKey.listIndexLength, 7⟩, u32Bytes 0)]

/-- A table in which the sentinel record of the list under id 7 holds 1 and there are
entries at the positions 0 and 1: an extra entry directly after the last position. -/
def dbExtra : Store :=
  [(⟨0, 7⟩, [10]), (⟨1, 7⟩, [20]), (⟨ListKey.listIndexLength, 7⟩, u32Bytes 1)]

/-- A table in which the list under id 7 has the length 3 in its sentinel record and
entries at the positions 0 and 2 only: a gap at position 1. -/
def dbGap : Store :=
  [(⟨0, 7⟩, [10]), (⟨2, 7⟩, [30]), (⟨ListKey.listIndexLength, 7⟩, u32Bytes 3)]

/-- The table of the scenario after 10, 20 and 30 have been appended to the empty list
under id 7. -/
def dbAppended : Store :=
  (OOCLazyList_append natCodec ⟨0, 7⟩
    (OOCLazyList_append natCodec ⟨0, 7⟩
      (OOCLazyList_append natCodec ⟨0, 7⟩ dbEmpty (10 : Nat)).2 (20 : Nat)).2 (30 : Nat)).2

/-- The table of the scenario after the deletion at index 1. -/
def dbDeleted : Store :=
  (OOCLazyList_setItem natCodec ⟨0, 7⟩ dbAppended 1 none).2

/-- The table of the scenario after the extension by the host list `[99]`. -/
def dbExtended : Store :=
  (OOCLazyList_extend natCodec ⟨0, 7⟩ dbDeleted (.iterable [(99 : Nat)] false)).2

/-- The table of the scenario after the in-place repeat with the count 2. -/
def dbRepeated : Store :=
  (OOCLazyList_inplaceRepeat natCodec ⟨0, 7⟩ dbExtended 2).2

end OOC

namespace OOC

/-! ## Membership and the entry points of the search -/

/-- `OOCLazyList_index`, the method `index(value[, start[, stop]])`: `extra` holds the
arguments after the needle as `PyLong_AsSsize_t` converted them.  A result below 0 of
`OOCLazyListObject_index` becomes the `ValueError` "is not in list". -/
def OOCLazyList_index (C : Codec) (H : Host C) (self : OOCLazyListObject) (db : Store)
    (value : C.PyObject) (extra : List Int) : Except PyErr Int :=
  let start : Int :=
    match extra with
    | [] => 0
    | start :: _ => start
  let stop : Int :=
    match extra with
    | _ :: stop :: _ => stop
    | _ => 9223372036854775807
  match OOCLazyListObject_index C H self db value start stop with
  | .error e => .error (.pythonized e)
  | .ok index => if index < 0 then .error .ValueError else .ok index

/-- `OOCLazyList_count`, the method `count(value)`. -/
def OOCLazyList_count (C : Codec) (H : Host C) (self : OOCLazyListObject) (db : Store)
    (value : C.PyObject) : Except PyErr Nat :=
  match OOCLazyListObject_count C H self db value with
  | .error e => .error (.pythonized e)
  | .ok count => .ok count

/-- `OOCLazyList_contains`, the slot `sq_contains`: 1, 0, or the error that was pythonized
where the source returns -1.  `start` and `stop` are the default arguments that the call
`OOCLazyListObject_index(self, txn, item)` takes from the declaration of that function; the
declaration is in the header of the C++ sources, which is not among the sources. -/
def OOCLazyList_contains (C : Codec) (H : Host C) (self : OOCLazyListObject) (db : Store)
    (item : C.PyObject) (start stop : Int) : Except PyErr Int :=
  match OOCLazyListObject_index C H self db item start stop with
  | .error e => .error (.pythonized e)
  | .ok index => if index < 0 then .ok 0 else .ok 1

/-! ## Notions of the specification for membership -/

/-- The comparison of the needle `value` with an item by `Py_EQ` does not raise: it answers
0 or 1. -/
def Host.EqualityDecided {C : Codec} (H : Host C) (value : C.PyObject) : Prop :=
  ∀ item : C.PyObject,
    H.PyObject_RichCompareBool value item Py_EQ = 0 ∨
    H.PyObject_RichCompareBool value item Py_EQ = 1

/-- The entry at position `p` of list `listId` passes the test of the loops of `index` and
`count`: it is there, has the size of a token, and `needleMatches` answers true. -/
def matchesAt (C : Codec) (H : Host C) (value : C.PyObject) (encodedValue : Needle C)
    (txn : Store) (listId : Nat) (p : Nat) : Bool :=
  match get txn ⟨p, listId⟩ with
  | none => false
  | some mdbValue =>
    if h : mdbValue.length = C.sizeofEncodedValue then
      match needleMatches C H value encodedValue txn ⟨mdbValue, h⟩ with
      | .ok isMatch => isMatch
      | .error _ => false
    else false

end OOC

namespace OOC

/-! ## The key order -/

theorem ListKey.lt_iff (a b : ListKey) :
    a < b ↔ (a.listId < b.listId ∨ (a.listId = b.listId ∧ a.listIndex < b.listIndex)) :=
  Iff.rfl

theorem ListKey.le_iff (a b : ListKey) :
    a ≤ b ↔ (a.listId < b.listId ∨ (a.listId = b.listId ∧ a.listIndex ≤ b.listIndex)) :=
  Iff.rfl

theorem ListKey.eq_iff (a b : ListKey) :
    a = b ↔ (a.listIndex = b.listIndex ∧ a.listId = b.listId) := by
  cases a; cases b; simp

theorem ListKey.le_refl (a : ListKey) : a ≤ a := by
  rw [ListKey.le_iff]; omega

theorem ListKey.le_trans {a b c : ListKey} (h1 : a ≤ b) (h2 : b ≤ c) : a ≤ c := by
  rw [ListKey.le_iff] at *; omega

theorem ListKey.lt_of_not_le {a b : ListKey} (h : ¬ a ≤ b) : b < a := by
  rw [ListKey.le_iff] at h; rw [ListKey.lt_iff]; omega

theorem ListKey.le_of_lt {a b : ListKey} (h : a < b) : a ≤ b := by
  rw [ListKey.lt_iff] at h; rw [ListKey.le_iff]; omega

theorem ListKey.eq_or_lt_of_le {a b : ListKey} (h : a ≤ b) : a = b ∨ a < b := by
  rw [ListKey.le_iff] at h; rw [ListKey.lt_iff, ListKey.eq_iff]; omega

/-! ## Reading and writing the table -/

theorem readU32_u32Bytes (n : Nat) : readU32 (u32Bytes n) = n % 4294967296 := by
  simp only [u32Bytes, readU32]; omega

theorem length_u32Bytes (n : Nat) : (u32Bytes n).length = 4 := rfl

theorem readU32_lt (v : MDB_val) : readU32 v < 4294967296 := by
  unfold readU32
  split
  · omega
  · omega

theorem get_filter_ne (s : Store) (k k1 : ListKey) :
    get (s.filter (fun e => decide (e.1 ≠ k))) k1 = if k1 = k then none else get s k1 := by
  induction s with
  | nil => simp [get]
  | cons e rest ih =>
    by_cases he : e.1 = k
    · simp only [List.filter, he, ne_eq, not_true_eq_false, decide_False, get]
      rw [ih]
      by_cases h1 : k1 = k
      · simp [h1]
      · have : ¬ k = k1 := fun h => h1 h.symm
        simp [h1, this]
    · simp only [List.filter, he, ne_eq, not_false_eq_true, decide_True, get]
      rw [ih]
      by_cases h1 : e.1 = k1
      · have : ¬ k1 = k := fun h => he (h1.trans h)
        simp [h1, this]
      · simp [h1]

theorem get_put (s : Store) (k : ListKey) (v : MDB_val) (k1 : ListKey) :
    get (put s k v) k1 = if k1 = k then some v else get s k1 := by
  unfold put
  simp only [get]
  by_cases h : k = k1
  · simp [h]
  · have : ¬ k1 = k := fun h1 => h h1.symm
    simp only [h, this, if_false]
    rw [get_filter_ne]; simp [this]

theorem get_del (s : Store) (k k1 : ListKey) :
    get (del s k) k1 = if k1 = k then none else get s k1 := by
  unfold del; exact get_filter_ne s k k1

theorem get_cursor_del (s : Store) (k k1 : ListKey) :
    get (cursor_del s k) k1 = if k1 = k then none else get s k1 :=
  get_del s k k1

theorem mem_of_get {s : Store} {k : ListKey} {v : MDB_val} (h : get s k = some v) :
    (k, v) ∈ s := by
  induction s with
  | nil => simp [get] at h
  | cons e rest ih =>
    simp only [get] at h
    by_cases he : e.1 = k
    · simp only [he, if_true, Option.some.injEq] at h
      have : e = (k, v) := by cases e; simp_all
      simp [this]
    · simp only [he, if_false] at h
      exact List.mem_cons_of_mem _ (ih h)

theorem get_isSome_of_mem {s : Store} {k : ListKey} {v : MDB_val} (h : (k, v) ∈ s) :
    (get s k).isSome = true := by
  induction s with
  | nil => simp at h
  | cons e rest ih =>
    simp only [get]
    by_cases he : e.1 = k
    · simp [he]
    · simp only [he, if_false]
      rcases List.mem_cons.mp h with h1 | h1
      · exact absurd (by rw [← h1]) he
      · exact ih h1

/-! ## Where a cursor lands -/

theorem seekMin_none {p : ListKey → Bool} {s : Store} (h : seekMin p s = none) :
    ∀ k, p k = true → get s k = none := by
  induction s with
  | nil => intro k _; rfl
  | cons e rest ih =>
    intro k hk
    simp only [seekMin] at h
    cases hr : seekMin p rest with
    | none =>
      rw [hr] at h
      simp only at h
      by_cases hp : p e.1 = true
      · simp [hp] at h
      · simp only [get]
        have : ¬ e.1 = k := fun he => hp (he ▸ hk)
        simp only [this, if_false]
        exact ih hr k hk
    | some b =>
      rw [hr] at h
      simp only at h
      split at h <;> simp at h

theorem seekMin_some {p : ListKey → Bool} {s : Store} {k : ListKey} {v : MDB_val}
    (h : seekMin p s = some (k, v)) :
    p k = true ∧ get s k = some v ∧ ∀ k1, p k1 = true → (get s k1).isSome = true → k ≤ k1 := by
  induction s generalizing k v with
  | nil => simp [seekMin] at h
  | cons e rest ih =>
    simp only [seekMin] at h
    cases hr : seekMin p rest with
    | none =>
      rw [hr] at h
      simp only at h
      by_cases hp : p e.1 = true
      · simp only [hp, if_true, Option.some.injEq] at h
        subst h
        refine ⟨hp, by simp [get], ?_⟩
        intro k1 hk1 hs
        simp only [get] at hs
        by_cases he : k = k1
        · rw [he]; exact ListKey.le_refl _
        · simp only [he, if_false] at hs
          rw [seekMin_none hr k1 hk1] at hs
          simp at hs
      · simp [hp] at h
    | some b =>
      rw [hr] at h
      simp only at h
      obtain ⟨bk, bv⟩ := b
      obtain ⟨hpb, hgb, hminb⟩ := ih hr
      by_cases hc : p e.1 = true ∧ e.1 ≤ bk
      · simp only [hc, and_self, if_true, Option.some.injEq] at h
        subst h
        refine ⟨hc.1, by simp [get], ?_⟩
        intro k1 hk1 hs
        simp only [get] at hs
        by_cases he : k = k1
        · rw [he]; exact ListKey.le_refl _
        · simp only [he, if_false] at hs
          exact ListKey.le_trans hc.2 (hminb k1 hk1 hs)
      · simp only [hc, if_false, Option.some.injEq, Prod.mk.injEq] at h
        obtain ⟨h1, h2⟩ := h
        subst h1; subst h2
        have hne : ¬ e.1 = bk := by
          intro he
          apply hc
          rw [he]
          exact ⟨hpb, ListKey.le_refl _⟩
        refine ⟨hpb, by simp [get, hne, hgb], ?_⟩
        intro k1 hk1 hs
        simp only [get] at hs
        by_cases he : e.1 = k1
        · have hnle : ¬ e.1 ≤ bk := fun hle => hc ⟨he ▸ hk1, hle⟩
          rw [← he]
          exact ListKey.le_of_lt (ListKey.lt_of_not_le hnle)
        · simp only [he, if_false] at hs
          exact hminb k1 hk1 hs

theorem seekMin_eq {p : ListKey → Bool} {s : Store} {k : ListKey} {v : MDB_val}
    (hp : p k = true) (hg : get s k = some v)
    (hmin : ∀ k1, p k1 = true → k1 < k → get s k1 = none) :
    seekMin p s = some (k, v) := by
  cases hr : seekMin p s with
  | none =>
    rw [seekMin_none hr k hp] at hg
    simp at hg
  | some b =>
    obtain ⟨bk, bv⟩ := b
    obtain ⟨hpb, hgb, hminb⟩ := seekMin_some hr
    have hle : bk ≤ k := hminb k hp (by simp [hg])
    rcases ListKey.eq_or_lt_of_le hle with heq | hlt
    · subst heq
      rw [hg] at hgb
      simp only [Option.some.injEq] at hgb
      rw [hgb]
    · rw [hmin bk hpb hlt] at hgb
      simp at hgb

theorem cursor_get_set_key (s : Store) (k : ListKey) :
    cursor_get s k .MDB_SET_KEY = (get s k).map (fun v => (k, v)) := rfl

theorem cursor_get_set_range {s : Store} {pos k : ListKey} {v : MDB_val}
    (hle : pos ≤ k) (hg : get s k = some v)
    (hmin : ∀ k1, pos ≤ k1 → k1 < k → get s k1 = none) :
    cursor_get s pos .MDB_SET_RANGE = some (k, v) := by
  unfold cursor_get
  apply seekMin_eq
  · simpa using hle
  · exact hg
  · intro k1 h1 h2
    exact hmin k1 (by simpa using h1) h2

theorem cursor_get_next {s : Store} {pos k : ListKey} {v : MDB_val}
    (hlt : pos < k) (hg : get s k = some v)
    (hmin : ∀ k1, pos < k1 → k1 < k → get s k1 = none) :
    cursor_get s pos .MDB_NEXT = some (k, v) := by
  unfold cursor_get
  apply seekMin_eq
  · simpa using hlt
  · exact hg
  · intro k1 h1 h2
    exact hmin k1 (by simpa using h1) h2

end OOC

namespace OOC

/-! ## Cursor steps inside one list -/

theorem toU32_natCast {i : Nat} (h : i < 4294967296) : toU32 (i : Int) = i := by
  unfold toU32; omega

theorem u32_of_lt {i : Nat} (h : i < 4294967296) : u32 i = i := by
  unfold u32; omega

theorem key_ne_index {i j id : Nat} (h : i ≠ j) : (⟨i, id⟩ : ListKey) ≠ ⟨j, id⟩ := by
  intro he; rw [ListKey.eq_iff] at he; exact h he.1

theorem key_ne_id {i j a b : Nat} (h : a ≠ b) : (⟨i, a⟩ : ListKey) ≠ ⟨j, b⟩ := by
  intro he; rw [ListKey.eq_iff] at he; exact h he.2

theorem key_lt_mk (i a j b : Nat) :
    (⟨i, a⟩ : ListKey) < ⟨j, b⟩ ↔ (a < b ∨ (a = b ∧ i < j)) := Iff.rfl

theorem key_le_mk (i a j b : Nat) :
    (⟨i, a⟩ : ListKey) ≤ ⟨j, b⟩ ↔ (a < b ∨ (a = b ∧ i ≤ j)) := Iff.rfl

theorem next_to {s : Store} {id j m : Nat} {v : MDB_val} (hjm : j < m)
    (hg : get s ⟨m, id⟩ = some v) (hgap : ∀ i, j < i → i < m → get s ⟨i, id⟩ = none) :
    cursor_get s ⟨j, id⟩ .MDB_NEXT = some (⟨m, id⟩, v) := by
  apply cursor_get_next _ hg
  · intro k1 h1 h2
    have hid : k1.listId = id := by
      rw [ListKey.lt_iff] at h1 h2; simp only at h1 h2; omega
    have h3 := hgap k1.listIndex (by rw [ListKey.lt_iff] at h1; simp only at h1; omega)
      (by rw [ListKey.lt_iff] at h2; simp only at h2; omega)
    have : k1 = ⟨k1.listIndex, id⟩ := by rw [ListKey.eq_iff]; exact ⟨rfl, hid⟩
    rw [this]; exact h3
  · rw [key_lt_mk]; omega

theorem range_to {s : Store} {id j m : Nat} {v : MDB_val} (hjm : j ≤ m)
    (hg : get s ⟨m, id⟩ = some v) (hgap : ∀ i, j ≤ i → i < m → get s ⟨i, id⟩ = none) :
    cursor_get s ⟨j, id⟩ .MDB_SET_RANGE = some (⟨m, id⟩, v) := by
  apply cursor_get_set_range _ hg
  · intro k1 h1 h2
    have hid : k1.listId = id := by
      rw [ListKey.le_iff] at h1; rw [ListKey.lt_iff] at h2; simp only at h1 h2; omega
    have h3 := hgap k1.listIndex (by rw [ListKey.le_iff] at h1; simp only at h1; omega)
      (by rw [ListKey.lt_iff] at h2; simp only at h2; omega)
    have : k1 = ⟨k1.listIndex, id⟩ := by rw [ListKey.eq_iff]; exact ⟨rfl, hid⟩
    rw [this]; exact h3
  · rw [key_le_mk]; omega

/-! ## Dense lists -/

theorem Dense.le_sentinel {s : Store} {id n : Nat} (h : Dense s id n) :
    n ≤ ListKey.listIndexLength := by
  obtain ⟨⟨v, _, _, hr⟩, _⟩ := h
  have := readU32_lt v
  unfold ListKey.listIndexLength
  omega

theorem Dense.get_some {s : Store} {id n i : Nat} (h : Dense s id n) (hi : i < n) :
    ∃ v, get s ⟨i, id⟩ = some v := by
  have hn := h.le_sentinel
  have := (h.2 i (by omega)).mpr hi
  exact Option.isSome_iff_exists.mp this

theorem Dense.get_none {s : Store} {id n i : Nat} (h : Dense s id n) (hi : n ≤ i)
    (hs : i ≠ ListKey.listIndexLength) : get s ⟨i, id⟩ = none := by
  have := (h.2 i hs)
  cases hg : get s ⟨i, id⟩ with
  | none => rfl
  | some v => rw [hg] at this; simp at this; omega

theorem Dense.length_eq {s : Store} {id n : Nat} (h : Dense s id n) (ooc : Nat) :
    OOCLazyListObject_length ⟨ooc, id⟩ s = .ok n := by
  obtain ⟨⟨v, hg, hl, hr⟩, _⟩ := h
  simp [OOCLazyListObject_length, hg, hl, hr]

theorem length_of_sentinel {s : Store} {id m : Nat} (ooc : Nat)
    (hg : get s ⟨ListKey.listIndexLength, id⟩ = some (u32Bytes m)) :
    OOCLazyListObject_length ⟨ooc, id⟩ s = .ok (m % 4294967296) := by
  simp [OOCLazyListObject_length, hg, length_u32Bytes, readU32_u32Bytes]

theorem present_le_length {s : Store} {id n : Nat}
    (h : ∀ i, i < n → (get s ⟨i, id⟩).isSome = true) : n ≤ s.length := by
  have hnd : ((List.range n).map (fun i => (⟨i, id⟩ : ListKey))).Nodup := by
    apply List.Nodup.map _ (List.nodup_range n)
    intro a b hab
    rw [ListKey.eq_iff] at hab
    exact hab.1
  have hsub : (List.range n).map (fun i => (⟨i, id⟩ : ListKey)) ⊆ s.map Prod.fst := by
    intro k hk
    rw [List.mem_map] at hk
    obtain ⟨i, hi, rfl⟩ := hk
    rw [List.mem_range] at hi
    obtain ⟨v, hv⟩ := Option.isSome_iff_exists.mp (h i hi)
    rw [List.mem_map]
    exact ⟨(⟨i, id⟩, v), mem_of_get hv, rfl⟩
  have := (List.subperm_of_subset hnd hsub).length_le
  simpa using this

theorem Dense.le_length {s : Store} {id n : Nat} (h : Dense s id n) : n ≤ s.length := by
  have hn := h.le_sentinel
  exact present_le_length (fun i hi => (h.2 i (by omega)).mpr hi)

/-- Overwriting the entry at a position below the length keeps the list dense. -/
theorem Dense.put_entry {s : Store} {id n j : Nat} (h : Dense s id n) (hj : j < n)
    (v : MDB_val) : Dense (put s ⟨j, id⟩ v) id n := by
  have hn := h.le_sentinel
  obtain ⟨⟨w, hg, hl, hr⟩, hp⟩ := h
  constructor
  · refine ⟨w, ?_, hl, hr⟩
    rw [get_put, if_neg (key_ne_index (by omega)), hg]
  · intro i hi
    rw [get_put]
    by_cases hij : i = j
    · subst hij; simp [hj]
    · rw [if_neg (key_ne_index hij)]; exact hp i hi

end OOC

namespace OOC

/-! ## Cursor steps over a span of positions -/

theorem Dense.span {s : Store} {id n : Nat} (h : Dense s id n) : Span s id 0 n := by
  refine ⟨h.le_sentinel, ?_, ?_⟩
  · obtain ⟨⟨v, hg, _, _⟩, _⟩ := h
    simp [hg]
  · intro i hi
    rw [h.2 i hi]
    omega

theorem Span.absent {s : Store} {id lo hi i : Nat} (h : Span s id lo hi)
    (hi1 : i < lo ∨ hi ≤ i) (hs : i ≠ ListKey.listIndexLength) : get s ⟨i, id⟩ = none := by
  have := h.2.2 i hs
  cases hg : get s ⟨i, id⟩ with
  | none => rfl
  | some v => rw [hg] at this; simp at this; omega

theorem Span.present {s : Store} {id lo hi i : Nat} (h : Span s id lo hi)
    (h1 : lo ≤ i) (h2 : i < hi) : ∃ v, get s ⟨i, id⟩ = some v := by
  have hn := h.1
  exact Option.isSome_iff_exists.mp ((h.2.2 i (by omega)).mpr ⟨h1, h2⟩)

theorem Span.sentinel {s : Store} {id lo hi : Nat} (h : Span s id lo hi) :
    ∃ v, get s ⟨ListKey.listIndexLength, id⟩ = some v :=
  Option.isSome_iff_exists.mp h.2.1

/-- `MDB_NEXT` from position `j`: the next position if it is in the span, the sentinel
record otherwise. -/
theorem Span.next {s : Store} {id lo hi j : Nat} (h : Span s id lo hi)
    (hlo : lo ≤ j + 1) (hj : j < ListKey.listIndexLength) :
    ∃ sk v, cursor_get s ⟨j, id⟩ .MDB_NEXT = some (sk, v) ∧ get s sk = some v ∧
      (j + 1 < hi → sk = ⟨j + 1, id⟩) ∧ (¬ j + 1 < hi → sk = ⟨ListKey.listIndexLength, id⟩) := by
  have hn := h.1
  by_cases hc : j + 1 < hi
  · obtain ⟨v, hv⟩ := h.present hlo hc
    refine ⟨⟨j + 1, id⟩, v, next_to (by omega) hv (by intro i _ _; omega), hv, fun _ => rfl,
      fun hx => absurd hc hx⟩
  · obtain ⟨v, hv⟩ := h.sentinel
    refine ⟨⟨ListKey.listIndexLength, id⟩, v, next_to hj hv ?_, hv, fun hx => absurd hx hc,
      fun _ => rfl⟩
    intro i hi1 hi2
    exact h.absent (Or.inr (by omega)) (by omega)

/-- `MDB_SET_RANGE` at position `j`: that position if it is in the span, the sentinel
record otherwise. -/
theorem Span.range {s : Store} {id lo hi j : Nat} (h : Span s id lo hi)
    (hlo : lo ≤ j) (hj : j ≤ ListKey.listIndexLength) :
    ∃ sk v, cursor_get s ⟨j, id⟩ .MDB_SET_RANGE = some (sk, v) ∧ get s sk = some v ∧
      (j < hi → sk = ⟨j, id⟩) ∧ (¬ j < hi → sk = ⟨ListKey.listIndexLength, id⟩) := by
  have hn := h.1
  by_cases hc : j < hi
  · obtain ⟨v, hv⟩ := h.present hlo hc
    refine ⟨⟨j, id⟩, v, range_to (Nat.le_refl _) hv (by intro i _ _; omega), hv, fun _ => rfl,
      fun hx => absurd hc hx⟩
  · obtain ⟨v, hv⟩ := h.sentinel
    refine ⟨⟨ListKey.listIndexLength, id⟩, v, range_to hj hv ?_, hv, fun hx => absurd hx hc,
      fun _ => rfl⟩
    intro i hi1 hi2
    exact h.absent (Or.inr (by omega)) (by omega)

/-! ## Deleting an item -/

theorem setItem_shift_spec (id n : Nat) :
    ∀ (fuel : Nat) (s : Store) (j : Nat) (sk : ListKey) (v : MDB_val),
      Dense s id n → j < n → n - j ≤ fuel → get s sk = some v →
      (j + 1 < n → sk = ⟨j + 1, id⟩) → (¬ j + 1 < n → sk = ⟨ListKey.listIndexLength, id⟩) →
      ∃ s1, setItem_shift id fuel s ⟨j, id⟩ sk v
            = .ok (s1, ⟨n - 1, id⟩, ⟨ListKey.listIndexLength, id⟩) ∧
        ∀ k, get s1 k = if k.listId = id ∧ j ≤ k.listIndex ∧ k.listIndex < n - 1
          then get s ⟨k.listIndex + 1, id⟩ else get s k := by
  intro fuel
  induction fuel with
  | zero => intro s j sk v _ hj hf; omega
  | succ fuel ih =>
    intro s j sk v hd hj hf hv h1 h2
    have hn := hd.le_sentinel
    by_cases hlast : j + 1 < n
    · have hsk := h1 hlast
      subst hsk
      rw [setItem_shift]
      have hcond : ¬ ((⟨j + 1, id⟩ : ListKey).listIndex = ListKey.listIndexLength ∨
          (⟨j + 1, id⟩ : ListKey).listId ≠ id) := by
        simp only [ne_eq, not_true_eq_false, or_false]; omega
      rw [if_neg hcond]
      obtain ⟨w, hw⟩ := hd.get_some hj
      have hput : cursor_put s (some ⟨j, id⟩) v = .ok (put s ⟨j, id⟩ v) := by
        simp [cursor_put, hw]
      rw [hput]
      simp only
      have hd1 : Dense (put s ⟨j, id⟩ v) id n := hd.put_entry hj v
      have hg1 : get (put s ⟨j, id⟩ v) ⟨j + 1, id⟩ = some v := by
        rw [get_put, if_neg (key_ne_index (by omega))]; exact hv
      have hnext1 : cursor_get (put s ⟨j, id⟩ v) ⟨j, id⟩ .MDB_NEXT = some (⟨j + 1, id⟩, v) :=
        next_to (by omega) hg1 (by intro i _ _; omega)
      rw [hnext1]
      simp only
      obtain ⟨sk2, v2, hnext2, hv2, hin, hout⟩ :=
        hd1.span.next (Nat.zero_le _) (show j + 1 < ListKey.listIndexLength by omega)
      rw [hnext2]
      simp only
      obtain ⟨s2, hs2, hchar⟩ := ih (put s ⟨j, id⟩ v) (j + 1) sk2 v2 hd1 hlast (by omega) hv2
        hin hout
      refine ⟨s2, hs2, ?_⟩
      intro k
      rw [hchar k]
      by_cases hk : k.listId = id ∧ j + 1 ≤ k.listIndex ∧ k.listIndex < n - 1
      · rw [if_pos hk, if_pos ⟨hk.1, by omega, hk.2.2⟩, get_put,
          if_neg (key_ne_index (by omega))]
      · rw [if_neg hk, get_put]
        by_cases hkj : k = ⟨j, id⟩
        · subst hkj
          rw [if_pos rfl, if_pos ⟨rfl, Nat.le_refl _, by simp only; omega⟩, hv]
        · rw [if_neg hkj]
          have : ¬ (k.listId = id ∧ j ≤ k.listIndex ∧ k.listIndex < n - 1) := by
            intro hx
            apply hkj
            rw [ListKey.eq_iff]
            simp only
            constructor
            · by_contra hne
              exact hk ⟨hx.1, by omega, hx.2.2⟩
            · exact hx.1
          rw [if_neg this]
    · have hsk := h2 hlast
      subst hsk
      rw [setItem_shift, if_pos (Or.inl rfl)]
      have hjn : j = n - 1 := by omega
      refine ⟨s, by rw [hjn], ?_⟩
      intro k
      rw [if_neg (by omega)]

end OOC

namespace OOC

theorem sentinel_val : ListKey.listIndexLength = 4294967295 := rfl

/-- Deleting at a valid index: the transaction succeeds, and this is the table afterwards. -/
theorem setItem_delete_spec (C : Codec) (ooc id n i : Nat) (s : Store)
    (hd : Dense s id n) (hi : i < n) :
    ∃ s1, setItem_try C ⟨ooc, id⟩ s (i : Int) none = .ok s1 ∧
      ∀ k, get s1 k =
        if k.listId = id then
          if k.listIndex = ListKey.listIndexLength then some (u32Bytes (n - 1))
          else if k.listIndex < i then get s k
          else if k.listIndex < n - 1 then get s ⟨k.listIndex + 1, id⟩
          else none
        else get s k := by
  have hn := hd.le_sentinel
  have hS := sentinel_val
  obtain ⟨w, hw⟩ := hd.get_some hi
  obtain ⟨sk, v, hrange, hv, hin, hout⟩ :=
    hd.span.range (Nat.zero_le (i + 1)) (show i + 1 ≤ ListKey.listIndexLength by omega)
  obtain ⟨s1, hs1, hchar⟩ := setItem_shift_spec id n (s.length + 1) s i sk v hd hi
    (by have := hd.le_length; omega) hv hin hout
  have hsent : (get s1 ⟨ListKey.listIndexLength, id⟩).isSome = true := by
    rw [hchar, if_neg (by simp only; omega)]
    exact hd.span.2.1
  refine ⟨cursor_del (put s1 ⟨ListKey.listIndexLength, id⟩ (u32Bytes (n - 1))) ⟨n - 1, id⟩, ?_, ?_⟩
  · simp only [setItem_try, toU32_natCast (show i < 4294967296 by omega), cursor_get_set_key, hw,
      Option.map_some', u32_of_lt (show i + 1 < 4294967296 by omega), hrange, hs1, cursor_put,
      hsent, if_true]
  · intro k
    rw [get_cursor_del, get_put, hchar]
    by_cases hid : k.listId = id
    · rw [if_pos hid]
      by_cases hks : k.listIndex = ListKey.listIndexLength
      · have hk : k = ⟨ListKey.listIndexLength, id⟩ := by
          rw [ListKey.eq_iff]; exact ⟨hks, hid⟩
        rw [if_pos hks, if_neg (by rw [hk]; exact key_ne_index (by omega)), if_pos hk]
      · rw [if_neg hks]
        have hk1 : ¬ k = ⟨ListKey.listIndexLength, id⟩ := by
          intro h; rw [ListKey.eq_iff] at h; exact hks h.1
        by_cases hlast : k.listIndex = n - 1
        · have hk : k = ⟨n - 1, id⟩ := by rw [ListKey.eq_iff]; exact ⟨hlast, hid⟩
          rw [if_pos hk, if_neg (by omega), if_neg (by omega)]
        · have hk : ¬ k = ⟨n - 1, id⟩ := by
            intro h; rw [ListKey.eq_iff] at h; exact hlast h.1
          rw [if_neg hk, if_neg hk1]
          by_cases hlt : k.listIndex < i
          · rw [if_pos hlt, if_neg (by omega)]
          · rw [if_neg hlt]
            by_cases hlt2 : k.listIndex < n - 1
            · rw [if_pos hlt2, if_pos ⟨hid, by omega, hlt2⟩]
            · rw [if_neg hlt2, if_neg (by omega)]
              have hk2 : k = ⟨k.listIndex, id⟩ := by rw [ListKey.eq_iff]; exact ⟨rfl, hid⟩
              rw [hk2]
              exact hd.get_none (by omega) hks
    · rw [if_neg hid]
      have h1 : ¬ k = ⟨n - 1, id⟩ := by
        intro h; rw [ListKey.eq_iff] at h; exact hid h.2
      have h2 : ¬ k = ⟨ListKey.listIndexLength, id⟩ := by
        intro h; rw [ListKey.eq_iff] at h; exact hid h.2
      rw [if_neg h1, if_neg h2, if_neg (by intro h; exact hid h.1)]

end OOC

namespace OOC

/-! ## Setting an item, appending an item -/

theorem Dense.congr {s s1 : Store} {id n : Nat} (h : Dense s id n)
    (he : ∀ i, get s1 ⟨i, id⟩ = get s ⟨i, id⟩) : Dense s1 id n := by
  obtain ⟨⟨v, hg, hl, hr⟩, hp⟩ := h
  refine ⟨⟨v, by rw [he]; exact hg, hl, hr⟩, ?_⟩
  intro i hi
  rw [he]
  exact hp i hi

theorem TokenSized.sized_of_get_eq {C : Codec} {s s1 : Store} {id : Nat} (h : TokenSized C s id)
    (he : ∀ i, get s1 ⟨i, id⟩ = get s ⟨i, id⟩) : TokenSized C s1 id := by
  intro i v hi hv
  rw [he] at hv
  exact h i v hi hv

theorem setItem_set_spec (C : Codec) (ooc id n i : Nat) (s : Store) (item : C.PyObject)
    (t : EncodedValue C.sizeofEncodedValue) (s1 : Store) (m1 : C.Id2EncodedMap)
    (hd : Dense s id n) (hi : i < n)
    (he : C.OOCMap_encode item s C.noInsertedItems false = .ok (t, s1, m1)) :
    setItem_try C ⟨ooc, id⟩ s (i : Int) (some item) = .ok (put s1 ⟨i, id⟩ t.bytes) := by
  have hn := hd.le_sentinel
  have hS := sentinel_val
  have hlt : ¬ ((i : Int) ≥ (n : Int)) := by omega
  simp only [setItem_try, hd.length_eq ooc, hlt, if_false, he,
    toU32_natCast (show i < 4294967296 by omega)]

theorem append_spec (C : Codec) (ooc id n : Nat) (s : Store) (item : C.PyObject)
    (t : EncodedValue C.sizeofEncodedValue) (s1 : Store) (m1 : C.Id2EncodedMap)
    (hd : Dense s id n) (hk : EncodeKeeps C id)
    (he : C.OOCMap_encode item s C.noInsertedItems false = .ok (t, s1, m1)) :
    OOCLazyListObject_append C ⟨ooc, id⟩ s item
      = .ok (put (put s1 ⟨n, id⟩ t.bytes) ⟨ListKey.listIndexLength, id⟩
          (u32Bytes (u32 (n + 1)))) := by
  have hd1 : Dense s1 id n := hd.congr (hk item s _ _ t s1 m1 he)
  simp only [OOCLazyListObject_append, he, hd1.length_eq ooc]

/-! ## Clearing a list -/

theorem Span.del_first {s : Store} {id lo hi : Nat} (h : Span s id lo hi) (hlt : lo < hi) :
    Span (cursor_del s ⟨lo, id⟩) id (lo + 1) hi := by
  obtain ⟨hn, hs, hp⟩ := h
  refine ⟨hn, ?_, ?_⟩
  · rw [get_cursor_del, if_neg (key_ne_index (by omega))]; exact hs
  · intro i hi1
    rw [get_cursor_del]
    by_cases hil : i = lo
    · subst hil; simp
    · rw [if_neg (key_ne_index hil), hp i hi1]; omega

theorem clear_loop_spec (id n : Nat) :
    ∀ (fuel : Nat) (s : Store) (j : Nat) (sk : ListKey),
      Span s id j n → n - j + 1 ≤ fuel →
      (j < n → sk = ⟨j, id⟩) → (¬ j < n → sk = ⟨ListKey.listIndexLength, id⟩) →
      ∃ s1, clear_loop id fuel s sk = .ok (s1, ⟨ListKey.listIndexLength, id⟩) ∧
        ∀ k, get s1 k = if k.listId = id ∧ k.listIndex ≠ ListKey.listIndexLength
          then none else get s k := by
  intro fuel
  induction fuel with
  | zero => intro s j sk _ hf; omega
  | succ fuel ih =>
    intro s j sk hsp hf h1 h2
    have hn := hsp.1
    by_cases hlt : j < n
    · have hsk := h1 hlt
      subst hsk
      rw [clear_loop]
      have hcond : ¬ ((⟨j, id⟩ : ListKey).listId ≠ id ∨
          (⟨j, id⟩ : ListKey).listIndex = ListKey.listIndexLength) := by
        simp only [ne_eq, not_true_eq_false, false_or]; omega
      rw [if_neg hcond]
      simp only
      have hsp1 := hsp.del_first hlt
      obtain ⟨sk2, v2, hnext, _, hin, hout⟩ :=
        hsp1.next (Nat.le_refl _) (show j < ListKey.listIndexLength by omega)
      rw [hnext]
      simp only
      obtain ⟨s2, hs2, hchar⟩ := ih (cursor_del s ⟨j, id⟩) (j + 1) sk2 hsp1 (by omega) hin hout
      refine ⟨s2, hs2, ?_⟩
      intro k
      rw [hchar k, get_cursor_del]
      by_cases hk : k.listId = id ∧ k.listIndex ≠ ListKey.listIndexLength
      · rw [if_pos hk, if_pos hk]
      · rw [if_neg hk]
        have : ¬ k = ⟨j, id⟩ := by
          intro hx
          apply hk
          rw [hx]
          exact ⟨rfl, by simp only; omega⟩
        rw [if_neg this, if_neg hk]
    · have hsk := h2 hlt
      subst hsk
      rw [clear_loop, if_pos (Or.inr rfl)]
      refine ⟨s, rfl, ?_⟩
      intro k
      by_cases hk : k.listId = id ∧ k.listIndex ≠ ListKey.listIndexLength
      · rw [if_pos hk]
        have hk2 : k = ⟨k.listIndex, id⟩ := by rw [ListKey.eq_iff]; exact ⟨rfl, hk.1⟩
        rw [hk2]
        have hcase : k.listIndex < j ∨ n ≤ k.listIndex := by omega
        exact hsp.absent hcase hk.2
      · rw [if_neg hk]

/-- Clearing a dense list: the call succeeds, and this is the table afterwards. -/
theorem clear_spec (ooc id n : Nat) (s : Store) (hd : Dense s id n) :
    ∃ s1, OOCLazyListObject_clear ⟨ooc, id⟩ s = .ok s1 ∧
      ∀ k, get s1 k =
        if k.listId = id then
          if k.listIndex = ListKey.listIndexLength then some (u32Bytes 0) else none
        else get s k := by
  have hn := hd.le_sentinel
  obtain ⟨sk, v, hrange, _, hin, hout⟩ :=
    hd.span.range (Nat.le_refl 0) (Nat.zero_le _)
  obtain ⟨s1, hs1, hchar⟩ := clear_loop_spec id n (s.length + 1) s 0 sk hd.span
    (by have := hd.le_length; omega) hin hout
  have hsent : (get s1 ⟨ListKey.listIndexLength, id⟩).isSome = true := by
    rw [hchar, if_neg (by simp)]
    exact hd.span.2.1
  refine ⟨put s1 ⟨ListKey.listIndexLength, id⟩ (u32Bytes 0), ?_, ?_⟩
  · simp only [OOCLazyListObject_clear, hrange, hs1, cursor_put, hsent, if_true]
  · intro k
    rw [get_put, hchar]
    by_cases hid : k.listId = id
    · rw [if_pos hid]
      by_cases hks : k.listIndex = ListKey.listIndexLength
      · have hk : k = ⟨ListKey.listIndexLength, id⟩ := by
          rw [ListKey.eq_iff]; exact ⟨hks, hid⟩
        rw [if_pos hk, if_pos hks]
      · have hk : ¬ k = ⟨ListKey.listIndexLength, id⟩ := by
          intro h; rw [ListKey.eq_iff] at h; exact hks h.1
        rw [if_neg hk, if_neg hks, if_pos ⟨hid, hks⟩]
    · have hk : ¬ k = ⟨ListKey.listIndexLength, id⟩ := by
        intro h; rw [ListKey.eq_iff] at h; exact hid h.2
      rw [if_neg hk, if_neg hid, if_neg (by intro h; exact hid h.1)]

end OOC

namespace OOC

/-! ## Repeating a list in place -/

theorem sub_mod_self {d n : Nat} (h : n ≤ d) : (d - n) % n = d % n := by
  have hd : d = (d - n) + n := by omega
  conv_rhs => rw [hd]
  exact (Nat.add_mod_right _ _).symm

theorem ssizeMul_of_le {n count : Nat} (h : n * count ≤ ListKey.listIndexLength) :
    ssizeMul n count = ((n * count : Nat) : Int) := by
  have hS := sentinel_val
  have hmod : (n * count) % 18446744073709551616 = n * count := by omega
  unfold ssizeMul
  rw [hmod, if_pos (by omega)]

theorem inplaceRepeat_loop_spec (C : Codec) (id n count : Nat) (f : Nat → MDB_val)
    (hn : 0 < n) (hcap : n * count ≤ ListKey.listIndexLength)
    (hf : ∀ r, r < n → (f r).length = C.sizeofEncodedValue) :
    ∀ (fuel : Nat) (s : Store) (d : Nat),
      n ≤ d → d ≤ n * count → n * count - d + 1 ≤ fuel →
      (∀ i, i < d → get s ⟨i, id⟩ = some (f (i % n))) →
      ∃ s1, inplaceRepeat_loop C id n count fuel s d ⟨d - n, id⟩ (f ((d - n) % n))
            = .ok (s1, n * count) ∧
        ∀ k, get s1 k = if k.listId = id ∧ d ≤ k.listIndex ∧ k.listIndex < n * count
          then some (f (k.listIndex % n)) else get s k := by
  have hS := sentinel_val
  intro fuel
  induction fuel with
  | zero => intro s d _ _ hfuel; omega
  | succ fuel ih =>
    intro s d hnd hdP hfuel hinv
    rw [inplaceRepeat_loop, ssizeMul_of_le hcap]
    by_cases hlt : d < n * count
    · have hc1 : ((d : Int) < ((n * count : Nat) : Int)) := by exact_mod_cast hlt
      rw [if_pos hc1]
      have hc2 : ¬ ((⟨d - n, id⟩ : ListKey).listId ≠ id ∨
          (⟨d - n, id⟩ : ListKey).listIndex = ListKey.listIndexLength) := by
        simp only [ne_eq, not_true_eq_false, false_or]; omega
      rw [if_neg hc2]
      have hc3 : ¬ ((f ((d - n) % n)).length ≠ C.sizeofEncodedValue) := by
        rw [ne_eq, not_not]; exact hf _ (Nat.mod_lt _ hn)
      rw [if_neg hc3]
      simp only
      have hinv1 : ∀ i, i < d + 1 →
          get (put s ⟨d, id⟩ (f ((d - n) % n))) ⟨i, id⟩ = some (f (i % n)) := by
        intro i hi
        rw [get_put]
        by_cases hid : i = d
        · subst hid; rw [if_pos rfl, sub_mod_self hnd]
        · rw [if_neg (key_ne_index hid)]; exact hinv i (by omega)
      have hnext : cursor_get (put s ⟨d, id⟩ (f ((d - n) % n))) ⟨d - n, id⟩ .MDB_NEXT
          = some (⟨d + 1 - n, id⟩, f ((d + 1 - n) % n)) := by
        have h1 : d - n + 1 = d + 1 - n := by omega
        rw [← h1]
        exact next_to (by omega) (hinv1 (d - n + 1) (by omega)) (by intro i _ _; omega)
      rw [hnext]
      simp only
      rw [u32_of_lt (show d + 1 < 4294967296 by omega)]
      obtain ⟨s2, hs2, hchar⟩ := ih (put s ⟨d, id⟩ (f ((d - n) % n))) (d + 1) (by omega)
        (by omega) (by omega) hinv1
      refine ⟨s2, hs2, ?_⟩
      intro k
      rw [hchar k, get_put]
      by_cases hk : k.listId = id ∧ d + 1 ≤ k.listIndex ∧ k.listIndex < n * count
      · rw [if_pos hk, if_pos ⟨hk.1, by omega, hk.2.2⟩]
      · rw [if_neg hk]
        by_cases hkd : k = ⟨d, id⟩
        · subst hkd
          rw [if_pos rfl, if_pos ⟨rfl, Nat.le_refl _, hlt⟩, sub_mod_self hnd]
        · rw [if_neg hkd]
          have : ¬ (k.listId = id ∧ d ≤ k.listIndex ∧ k.listIndex < n * count) := by
            intro hx
            apply hkd
            rw [ListKey.eq_iff]
            simp only
            constructor
            · by_contra hne
              exact hk ⟨hx.1, by omega, hx.2.2⟩
            · exact hx.1
          rw [if_neg this]
    · have hc1 : ¬ ((d : Int) < ((n * count : Nat) : Int)) := by
        intro h; exact hlt (by exact_mod_cast h)
      rw [if_neg hc1]
      have hd : d = n * count := by omega
      refine ⟨s, by rw [hd], ?_⟩
      intro k
      rw [if_neg (by omega)]

theorem inplaceRepeat_loop_of_ok (C : Codec) (id n count : Nat) (f : Nat → MDB_val)
    (hn : 0 < n) (hcap : n * count ≤ ListKey.listIndexLength) :
    ∀ (fuel : Nat) (s : Store) (d : Nat) (s1 : Store) (d1 : Nat),
      n ≤ d → d ≤ n * count →
      (∀ i, i < d → get s ⟨i, id⟩ = some (f (i % n))) →
      inplaceRepeat_loop C id n count fuel s d ⟨d - n, id⟩ (f ((d - n) % n)) = .ok (s1, d1) →
      d1 = n * count ∧
        ∀ k, get s1 k = if k.listId = id ∧ d ≤ k.listIndex ∧ k.listIndex < n * count
          then some (f (k.listIndex % n)) else get s k := by
  have hS := sentinel_val
  intro fuel
  induction fuel with
  | zero =>
    intro s d s1 d1 _ _ _ h
    rw [inplaceRepeat_loop] at h
    simp at h
  | succ fuel ih =>
    intro s d s1 d1 hnd hdP hinv h
    rw [inplaceRepeat_loop, ssizeMul_of_le hcap] at h
    by_cases hlt : d < n * count
    · have hc1 : ((d : Int) < ((n * count : Nat) : Int)) := by exact_mod_cast hlt
      rw [if_pos hc1] at h
      have hc2 : ¬ ((⟨d - n, id⟩ : ListKey).listId ≠ id ∨
          (⟨d - n, id⟩ : ListKey).listIndex = ListKey.listIndexLength) := by
        simp only [ne_eq, not_true_eq_false, false_or]; omega
      rw [if_neg hc2] at h
      by_cases hc3 : (f ((d - n) % n)).length ≠ C.sizeofEncodedValue
      · rw [if_pos hc3] at h
        simp at h
      · rw [if_neg hc3] at h
        simp only at h
        have hinv1 : ∀ i, i < d + 1 →
            get (put s ⟨d, id⟩ (f ((d - n) % n))) ⟨i, id⟩ = some (f (i % n)) := by
          intro i hi
          rw [get_put]
          by_cases hid : i = d
          · subst hid; rw [if_pos rfl, sub_mod_self hnd]
          · rw [if_neg (key_ne_index hid)]; exact hinv i (by omega)
        have hnext : cursor_get (put s ⟨d, id⟩ (f ((d - n) % n))) ⟨d - n, id⟩ .MDB_NEXT
            = some (⟨d + 1 - n, id⟩, f ((d + 1 - n) % n)) := by
          have h1 : d - n + 1 = d + 1 - n := by omega
          rw [← h1]
          exact next_to (by omega) (hinv1 (d - n + 1) (by omega)) (by intro i _ _; omega)
        rw [hnext] at h
        simp only at h
        rw [u32_of_lt (show d + 1 < 4294967296 by omega)] at h
        obtain ⟨hd1, hchar⟩ := ih (put s ⟨d, id⟩ (f ((d - n) % n))) (d + 1) s1 d1 (by omega)
          (by omega) hinv1 h
        refine ⟨hd1, ?_⟩
        intro k
        rw [hchar k, get_put]
        by_cases hk : k.listId = id ∧ d + 1 ≤ k.listIndex ∧ k.listIndex < n * count
        · rw [if_pos hk, if_pos ⟨hk.1, by omega, hk.2.2⟩]
        · rw [if_neg hk]
          by_cases hkd : k = ⟨d, id⟩
          · subst hkd
            rw [if_pos rfl, if_pos ⟨rfl, Nat.le_refl _, hlt⟩, sub_mod_self hnd]
          · rw [if_neg hkd]
            have : ¬ (k.listId = id ∧ d ≤ k.listIndex ∧ k.listIndex < n * count) := by
              intro hx
              apply hkd
              rw [ListKey.eq_iff]
              simp only
              constructor
              · by_contra hne
                exact hk ⟨hx.1, by omega, hx.2.2⟩
              · exact hx.1
            rw [if_neg this]
    · have hc1 : ¬ ((d : Int) < ((n * count : Nat) : Int)) := by
        intro hx; exact hlt (by exact_mod_cast hx)
      rw [if_neg hc1] at h
      simp only [Except.ok.injEq, Prod.mk.injEq] at h
      obtain ⟨h1, h2⟩ := h
      subst h1; subst h2
      refine ⟨by omega, ?_⟩
      intro k
      rw [if_neg (by omega)]

/-- What the table looks like once the loop of the in-place repeat has filled the positions
up to `n * count` and the new length has been written. -/
theorem inplaceRepeat_post (id n count : Nat) (s sL : Store) (hd : Dense s id n)
    (hnpos : 0 < n) (hc : 0 < count) (hcap : n * count ≤ ListKey.listIndexLength)
    (hchar : ∀ k, get sL k = if k.listId = id ∧ n ≤ k.listIndex ∧ k.listIndex < n * count
      then some ((get s ⟨k.listIndex % n, id⟩).getD []) else get s k) :
    Dense (put sL ⟨ListKey.listIndexLength, id⟩ (u32Bytes (n * count))) id (n * count) ∧
      (∀ i, i < n * count →
        get (put sL ⟨ListKey.listIndexLength, id⟩ (u32Bytes (n * count))) ⟨i, id⟩
          = get s ⟨i % n, id⟩) ∧
      (∀ k, k.listId ≠ id →
        get (put sL ⟨ListKey.listIndexLength, id⟩ (u32Bytes (n * count))) k = get s k) := by
  have hS := sentinel_val
  have hnS := hd.le_sentinel
  have hfg : ∀ r, r < n → get s ⟨r, id⟩ = some ((get s ⟨r, id⟩).getD []) := by
    intro r hr
    obtain ⟨v, hv⟩ := hd.get_some hr
    rw [hv]; rfl
  refine ⟨?_, ?_, ?_⟩
  · constructor
    · refine ⟨u32Bytes (n * count), by rw [get_put, if_pos rfl], length_u32Bytes _, ?_⟩
      rw [readU32_u32Bytes]; omega
    · intro i hi
      rw [get_put, if_neg (key_ne_index hi), hchar]
      simp only
      by_cases hlt : i < n * count
      · by_cases hin : n ≤ i
        · rw [if_pos ⟨trivial, hin, hlt⟩]; simp [hlt]
        · rw [if_neg (by omega)]
          have := (hd.2 i hi).mpr (by omega)
          simp [this, hlt]
      · have hcount : n ≤ n * count := Nat.le_mul_of_pos_right n hc
        rw [if_neg (by omega)]
        rw [hd.get_none (by omega) hi]
        simp [hlt]
  · intro i hi
    rw [get_put, if_neg (key_ne_index (by omega)), hchar]
    simp only
    by_cases hin : n ≤ i
    · rw [if_pos ⟨trivial, hin, hi⟩]
      exact (hfg (i % n) (Nat.mod_lt _ hnpos)).symm
    · rw [if_neg (by omega), Nat.mod_eq_of_lt (by omega)]
  · intro k hk
    rw [get_put, if_neg (by intro h; rw [ListKey.eq_iff] at h; exact hk h.2), hchar,
      if_neg (by intro h; exact hk h.1)]

theorem inplaceRepeat_first (id n : Nat) (s : Store) (hd : Dense s id n) (hnpos : 0 < n) :
    cursor_get s ⟨0, id⟩ .MDB_SET_RANGE
      = some (⟨n - n, id⟩, (get s ⟨(n - n) % n, id⟩).getD []) := by
  have h0 : (n - n) % n = 0 := by simp
  rw [h0, Nat.sub_self]
  obtain ⟨v, hv⟩ := hd.get_some hnpos
  exact range_to (Nat.le_refl 0) (by rw [hv]; rfl) (by intro i _ _; omega)

/-- Repeating a well-formed list `count ≥ 1` times when the result fits below the sentinel
position: the call succeeds, the list is dense with `n * count` items, item `i` is the old
item `i % n`, and nothing under another id is touched. -/
theorem inplaceRepeat_spec (C : Codec) (ooc id n count : Nat) (s : Store)
    (hd : Dense s id n) (hts : TokenSized C s id) (hc : 0 < count)
    (hcap : n * count ≤ ListKey.listIndexLength) :
    ∃ s1, OOCLazyListObject_inplaceRepeat C ⟨ooc, id⟩ s count = .ok s1 ∧
      Dense s1 id (n * count) ∧
      (∀ i, i < n * count → get s1 ⟨i, id⟩ = get s ⟨i % n, id⟩) ∧
      (∀ k, k.listId ≠ id → get s1 k = get s k) := by
  have hS := sentinel_val
  have hnS := hd.le_sentinel
  have hc0 : ¬ count ≤ 0 := by omega
  by_cases hn : n = 0
  · subst hn
    refine ⟨s, ?_, ?_, ?_, fun _ _ => rfl⟩
    · simp only [OOCLazyListObject_inplaceRepeat, hc0, if_false, hd.length_eq ooc,
        Nat.le_refl, if_true]
    · rw [Nat.zero_mul]; exact hd
    · intro i hi; rw [Nat.zero_mul] at hi; omega
  · have hnpos : 0 < n := by omega
    have hn0 : ¬ n ≤ 0 := by omega
    have hfx : ∀ r, r < n → ∃ v, get s ⟨r, id⟩ = some v ∧ v.length = C.sizeofEncodedValue := by
      intro r hr
      obtain ⟨v, hv⟩ := hd.get_some hr
      exact ⟨v, hv, hts r v (by omega) hv⟩
    have hfg : ∀ r, r < n → get s ⟨r, id⟩ = some ((get s ⟨r, id⟩).getD []) := by
      intro r hr
      obtain ⟨v, hv, _⟩ := hfx r hr
      rw [hv]; rfl
    have hfl : ∀ r, r < n → ((get s ⟨r, id⟩).getD []).length = C.sizeofEncodedValue := by
      intro r hr
      obtain ⟨v, hv, hl⟩ := hfx r hr
      rw [hv]; exact hl
    have hcount : n ≤ n * count := Nat.le_mul_of_pos_right n hc
    obtain ⟨s1, hs1, hchar⟩ := inplaceRepeat_loop_spec C id n count
      (fun r => (get s ⟨r, id⟩).getD []) hnpos hcap hfl (s.length + n * count + 1) s n
      (Nat.le_refl n) hcount (by omega)
      (fun i hi => by
        rw [Nat.mod_eq_of_lt hi]; exact hfg i hi)
    refine ⟨put s1 ⟨ListKey.listIndexLength, id⟩ (u32Bytes (n * count)), ?_,
      inplaceRepeat_post id n count s s1 hd hnpos hc hcap hchar⟩
    simp only [OOCLazyListObject_inplaceRepeat, hc0, if_false, hd.length_eq ooc, hn0,
      inplaceRepeat_first id n s hd hnpos, hs1]

/-- Repeating a dense list `count ≥ 1` times when the result fits below the sentinel
position: if the call succeeds, the list is dense with `n * count` items, item `i` is the
old item `i % n`, and nothing under another id is touched. -/
theorem inplaceRepeat_of_ok (C : Codec) (ooc id n count : Nat) (s s1 : Store)
    (hd : Dense s id n) (hc : 0 < count) (hcap : n * count ≤ ListKey.listIndexLength)
    (h : OOCLazyListObject_inplaceRepeat C ⟨ooc, id⟩ s count = .ok s1) :
    Dense s1 id (n * count) ∧
      (∀ i, i < n * count → get s1 ⟨i, id⟩ = get s ⟨i % n, id⟩) ∧
      (∀ k, k.listId ≠ id → get s1 k = get s k) := by
  have hc0 : ¬ count ≤ 0 := by omega
  by_cases hn : n = 0
  · subst hn
    simp only [OOCLazyListObject_inplaceRepeat, hc0, if_false, hd.length_eq ooc,
      Nat.le_refl, if_true, Except.ok.injEq] at h
    subst h
    refine ⟨by rw [Nat.zero_mul]; exact hd, ?_, fun _ _ => rfl⟩
    intro i hi; rw [Nat.zero_mul] at hi; omega
  · have hnpos : 0 < n := by omega
    have hn0 : ¬ n ≤ 0 := by omega
    have hfg : ∀ r, r < n → get s ⟨r, id⟩ = some ((get s ⟨r, id⟩).getD []) := by
      intro r hr
      obtain ⟨v, hv⟩ := hd.get_some hr
      rw [hv]; rfl
    simp only [OOCLazyListObject_inplaceRepeat, hc0, if_false, hd.length_eq ooc, hn0,
      inplaceRepeat_first id n s hd hnpos] at h
    cases hl : inplaceRepeat_loop C id n count (s.length + n * count + 1) s n ⟨n - n, id⟩
        ((get s ⟨(n - n) % n, id⟩).getD []) with
    | error e => rw [hl] at h; simp at h
    | ok r =>
      obtain ⟨sL, dL⟩ := r
      rw [hl] at h
      simp only [Except.ok.injEq] at h
      obtain ⟨hdL, hchar⟩ := inplaceRepeat_loop_of_ok C id n count
        (fun r => (get s ⟨r, id⟩).getD []) hnpos hcap (s.length + n * count + 1) s n sL dL
        (Nat.le_refl n) (Nat.le_mul_of_pos_right n hc)
        (fun i hi => by rw [Nat.mod_eq_of_lt hi]; exact hfg i hi) hl
      subst hdL
      rw [← h]
      exact inplaceRepeat_post id n count s sL hd hnpos hc hcap hchar

end OOC

namespace OOC

/-! ## Extending a list from another list of the same map -/

theorem Span.of_get_eq {s s1 : Store} {id lo hi : Nat} (h : Span s id lo hi)
    (he : ∀ i, get s1 ⟨i, id⟩ = get s ⟨i, id⟩) : Span s1 id lo hi := by
  obtain ⟨hn, hs, hp⟩ := h
  refine ⟨hn, by rw [he]; exact hs, ?_⟩
  intro i hi1
  rw [he]
  exact hp i hi1

theorem extend_copy_spec (C : Codec) (id oid n m : Nat) (s0 : Store)
    (hne : id ≠ oid) (hdo : Dense s0 oid m) (hto : TokenSized C s0 oid)
    (hcap : n + m ≤ ListKey.listIndexLength) :
    ∀ (fuel : Nat) (s : Store) (j : Nat) (sk : ListKey) (v : MDB_val),
      j ≤ m → m - j + 1 ≤ fuel →
      (∀ k, get s k = if k.listId = id ∧ n ≤ k.listIndex ∧ k.listIndex < n + j
        then get s0 ⟨k.listIndex - n, oid⟩ else get s0 k) →
      get s0 sk = some v →
      (j < m → sk = ⟨j, oid⟩) → (¬ j < m → sk = ⟨ListKey.listIndexLength, oid⟩) →
      ∃ s1, extend_copy C id oid fuel s (n + j) sk v = .ok (s1, n + m) ∧
        ∀ k, get s1 k = if k.listId = id ∧ n ≤ k.listIndex ∧ k.listIndex < n + m
          then get s0 ⟨k.listIndex - n, oid⟩ else get s0 k := by
  have hS := sentinel_val
  have hmS := hdo.le_sentinel
  intro fuel
  induction fuel with
  | zero => intro s j sk v _ hf; omega
  | succ fuel ih =>
    intro s j sk v hjm hf hchar hv hin hout
    by_cases hlt : j < m
    · have hsk := hin hlt
      subst hsk
      rw [extend_copy]
      have hc1 : ¬ ((⟨j, oid⟩ : ListKey).listId ≠ oid ∨
          (⟨j, oid⟩ : ListKey).listIndex = ListKey.listIndexLength) := by
        simp only [ne_eq, not_true_eq_false, false_or]; omega
      rw [if_neg hc1]
      have hc2 : ¬ (v.length ≠ C.sizeofEncodedValue) := by
        rw [ne_eq, not_not]; exact hto j v (by omega) hv
      rw [if_neg hc2]
      simp only
      have hchar1 : ∀ k, get (put s ⟨n + j, id⟩ v) k =
          if k.listId = id ∧ n ≤ k.listIndex ∧ k.listIndex < n + (j + 1)
          then get s0 ⟨k.listIndex - n, oid⟩ else get s0 k := by
        intro k
        rw [get_put, hchar k]
        by_cases hk : k = ⟨n + j, id⟩
        · subst hk
          rw [if_pos rfl, if_pos ⟨rfl, by simp only; omega, by simp only; omega⟩]
          simp only [Nat.add_sub_cancel_left]
          exact hv.symm
        · rw [if_neg hk]
          by_cases hx : k.listId = id ∧ n ≤ k.listIndex ∧ k.listIndex < n + j
          · rw [if_pos hx, if_pos ⟨hx.1, hx.2.1, by omega⟩]
          · rw [if_neg hx]
            have : ¬ (k.listId = id ∧ n ≤ k.listIndex ∧ k.listIndex < n + (j + 1)) := by
              intro hy
              apply hk
              rw [ListKey.eq_iff]
              simp only
              constructor
              · by_contra hne1
                exact hx ⟨hy.1, hy.2.1, by omega⟩
              · exact hy.1
            rw [if_neg this]
      have hsame : ∀ i, get (put s ⟨n + j, id⟩ v) ⟨i, oid⟩ = get s0 ⟨i, oid⟩ := by
        intro i
        rw [hchar1, if_neg (by intro h; exact hne h.1.symm)]
      have hsp : Span (put s ⟨n + j, id⟩ v) oid 0 m := hdo.span.of_get_eq hsame
      obtain ⟨sk2, v2, hnext, hv2, hin2, hout2⟩ :=
        hsp.next (Nat.zero_le _) (show j < ListKey.listIndexLength by omega)
      rw [hnext]
      simp only
      rw [u32_of_lt (show n + j + 1 < 4294967296 by omega)]
      have hv2' : get s0 sk2 = some v2 := by
        by_cases hc : j + 1 < m
        · rw [hin2 hc] at hv2 ⊢; rw [← hsame]; exact hv2
        · rw [hout2 hc] at hv2 ⊢; rw [← hsame]; exact hv2
      exact ih (put s ⟨n + j, id⟩ v) (j + 1) sk2 v2 (by omega) (by omega) hchar1 hv2' hin2 hout2
    · have hsk := hout hlt
      subst hsk
      rw [extend_copy, if_pos (Or.inr rfl)]
      have hj : j = m := by omega
      subst hj
      exact ⟨s, rfl, hchar⟩

theorem extend_copy_of_ok (C : Codec) (id oid n m : Nat) (s0 : Store)
    (hne : id ≠ oid) (hdo : Dense s0 oid m) (hcap : n + m ≤ ListKey.listIndexLength) :
    ∀ (fuel : Nat) (s : Store) (j : Nat) (sk : ListKey) (v : MDB_val) (s1 : Store) (d1 : Nat),
      j ≤ m →
      (∀ k, get s k = if k.listId = id ∧ n ≤ k.listIndex ∧ k.listIndex < n + j
        then get s0 ⟨k.listIndex - n, oid⟩ else get s0 k) →
      get s0 sk = some v →
      (j < m → sk = ⟨j, oid⟩) → (¬ j < m → sk = ⟨ListKey.listIndexLength, oid⟩) →
      extend_copy C id oid fuel s (n + j) sk v = .ok (s1, d1) →
      d1 = n + m ∧
        (∀ k, get s1 k = if k.listId = id ∧ n ≤ k.listIndex ∧ k.listIndex < n + m
          then get s0 ⟨k.listIndex - n, oid⟩ else get s0 k) ∧
        (∀ i w, j ≤ i → i < m → get s0 ⟨i, oid⟩ = some w →
          w.length = C.sizeofEncodedValue) := by
  have hS := sentinel_val
  have hmS := hdo.le_sentinel
  intro fuel
  induction fuel with
  | zero =>
    intro s j sk v s1 d1 _ _ _ _ _ h
    rw [extend_copy] at h
    simp at h
  | succ fuel ih =>
    intro s j sk v s1 d1 hjm hchar hv hin hout h
    by_cases hlt : j < m
    · have hsk := hin hlt
      subst hsk
      rw [extend_copy] at h
      have hc1 : ¬ ((⟨j, oid⟩ : ListKey).listId ≠ oid ∨
          (⟨j, oid⟩ : ListKey).listIndex = ListKey.listIndexLength) := by
        simp only [ne_eq, not_true_eq_false, false_or]; omega
      rw [if_neg hc1] at h
      by_cases hc2 : v.length ≠ C.sizeofEncodedValue
      · rw [if_pos hc2] at h
        simp at h
      · rw [if_neg hc2] at h
        simp only at h
        have hchar1 : ∀ k, get (put s ⟨n + j, id⟩ v) k =
            if k.listId = id ∧ n ≤ k.listIndex ∧ k.listIndex < n + (j + 1)
            then get s0 ⟨k.listIndex - n, oid⟩ else get s0 k := by
          intro k
          rw [get_put, hchar k]
          by_cases hk : k = ⟨n + j, id⟩
          · subst hk
            rw [if_pos rfl, if_pos ⟨rfl, by simp only; omega, by simp only; omega⟩]
            simp only [Nat.add_sub_cancel_left]
            exact hv.symm
          · rw [if_neg hk]
            by_cases hx : k.listId = id ∧ n ≤ k.listIndex ∧ k.listIndex < n + j
            · rw [if_pos hx, if_pos ⟨hx.1, hx.2.1, by omega⟩]
            · rw [if_neg hx]
              have : ¬ (k.listId = id ∧ n ≤ k.listIndex ∧ k.listIndex < n + (j + 1)) := by
                intro hy
                apply hk
                rw [ListKey.eq_iff]
                simp only
                constructor
                · by_contra hne1
                  exact hx ⟨hy.1, hy.2.1, by omega⟩
                · exact hy.1
              rw [if_neg this]
        have hsame : ∀ i, get (put s ⟨n + j, id⟩ v) ⟨i, oid⟩ = get s0 ⟨i, oid⟩ := by
          intro i
          rw [hchar1, if_neg (by intro hx; exact hne hx.1.symm)]
        have hsp : Span (put s ⟨n + j, id⟩ v) oid 0 m := hdo.span.of_get_eq hsame
        obtain ⟨sk2, v2, hnext, hv2, hin2, hout2⟩ :=
          hsp.next (Nat.zero_le _) (show j < ListKey.listIndexLength by omega)
        rw [hnext] at h
        simp only at h
        rw [u32_of_lt (show n + j + 1 < 4294967296 by omega)] at h
        have hv2' : get s0 sk2 = some v2 := by
          by_cases hc : j + 1 < m
          · rw [hin2 hc] at hv2 ⊢; rw [← hsame]; exact hv2
          · rw [hout2 hc] at hv2 ⊢; rw [← hsame]; exact hv2
        obtain ⟨h1, h2, h3⟩ := ih (put s ⟨n + j, id⟩ v) (j + 1) sk2 v2 s1 d1 (by omega) hchar1
          hv2' hin2 hout2 h
        refine ⟨h1, h2, ?_⟩
        intro i w hji him hw
        by_cases hij : i = j
        · subst hij
          rw [hv] at hw
          simp only [Option.some.injEq] at hw
          rw [← hw]
          exact not_not.mp hc2
        · exact h3 i w (by omega) him hw
    · have hsk := hout hlt
      subst hsk
      rw [extend_copy, if_pos (Or.inr rfl)] at h
      simp only [Except.ok.injEq, Prod.mk.injEq] at h
      obtain ⟨h1, h2⟩ := h
      subst h1; subst h2
      have hj : j = m := by omega
      subst hj
      exact ⟨rfl, hchar, fun i w h1 h2 => by omega⟩

/-- What the table looks like once the loop of `extend` has copied the items of the other
list and the new length has been written. -/
theorem extend_list_post (id n m oid : Nat) (s sL : Store)
    (hchar : ∀ k, get sL k = if k.listId = id ∧ n ≤ k.listIndex ∧ k.listIndex < n + m
      then get s ⟨k.listIndex - n, oid⟩ else get s k) :
    ∀ k, get (put sL ⟨ListKey.listIndexLength, id⟩ (u32Bytes (n + m))) k =
      if k.listId = id then
        if k.listIndex = ListKey.listIndexLength then some (u32Bytes (n + m))
        else if n ≤ k.listIndex ∧ k.listIndex < n + m then get s ⟨k.listIndex - n, oid⟩
        else get s k
      else get s k := by
  intro k
  rw [get_put, hchar]
  by_cases hid : k.listId = id
  · rw [if_pos hid]
    by_cases hks : k.listIndex = ListKey.listIndexLength
    · have hk : k = ⟨ListKey.listIndexLength, id⟩ := by
        rw [ListKey.eq_iff]; exact ⟨hks, hid⟩
      rw [if_pos hk, if_pos hks]
    · have hk : ¬ k = ⟨ListKey.listIndexLength, id⟩ := by
        intro h; rw [ListKey.eq_iff] at h; exact hks h.1
      rw [if_neg hk, if_neg hks]
      by_cases hx : n ≤ k.listIndex ∧ k.listIndex < n + m
      · rw [if_pos ⟨hid, hx⟩, if_pos hx]
      · rw [if_neg (by intro h; exact hx h.2), if_neg hx]
  · have hk : ¬ k = ⟨ListKey.listIndexLength, id⟩ := by
      intro h; rw [ListKey.eq_iff] at h; exact hid h.2
    rw [if_neg hk, if_neg hid, if_neg (by intro h; exact hid h.1)]

/-- Extending a dense list from another well-formed list of the same map when the sum of
the lengths fits below the sentinel position: the call succeeds, and this is the table
afterwards. -/
theorem extend_list_spec (C : Codec) (ooc id oid n m : Nat) (s : Store)
    (hne : id ≠ oid) (hd : Dense s id n) (hdo : Dense s oid m) (hto : TokenSized C s oid)
    (hcap : n + m ≤ ListKey.listIndexLength) :
    ∃ s1, OOCLazyListObject_extend_list C ⟨ooc, id⟩ s ⟨ooc, oid⟩ = .ok s1 ∧
      ∀ k, get s1 k =
        if k.listId = id then
          if k.listIndex = ListKey.listIndexLength then some (u32Bytes (n + m))
          else if n ≤ k.listIndex ∧ k.listIndex < n + m then get s ⟨k.listIndex - n, oid⟩
          else get s k
        else get s k := by
  obtain ⟨sk, v, hrange, hv, hin, hout⟩ :=
    hdo.span.range (Nat.le_refl 0) (Nat.zero_le _)
  obtain ⟨s1, hs1, hchar⟩ := extend_copy_spec C id oid n m s hne hdo hto hcap (s.length + 1) s 0
    sk v (Nat.zero_le _) (by have := hdo.le_length; omega)
    (fun k => by rw [if_neg (by omega)]) hv hin hout
  refine ⟨put s1 ⟨ListKey.listIndexLength, id⟩ (u32Bytes (n + m)), ?_,
    extend_list_post id n m oid s s1 hchar⟩
  simp only [OOCLazyListObject_extend_list, if_true, if_neg hne, hd.length_eq ooc, hrange]
  have hs2 : extend_copy C id oid (s.length + 1) s n sk v = .ok (s1, n + m) := hs1
  rw [hs2]

/-- Extending a dense list from another dense list of the same map when the sum of the
lengths fits below the sentinel position: if the call succeeds, this is the table
afterwards, and every item of the other list has the size of a token. -/
theorem extend_list_of_ok (C : Codec) (ooc id oid n m : Nat) (s s1 : Store)
    (hne : id ≠ oid) (hd : Dense s id n) (hdo : Dense s oid m)
    (hcap : n + m ≤ ListKey.listIndexLength)
    (h : OOCLazyListObject_extend_list C ⟨ooc, id⟩ s ⟨ooc, oid⟩ = .ok s1) :
    (∀ k, get s1 k =
        if k.listId = id then
          if k.listIndex = ListKey.listIndexLength then some (u32Bytes (n + m))
          else if n ≤ k.listIndex ∧ k.listIndex < n + m then get s ⟨k.listIndex - n, oid⟩
          else get s k
        else get s k) ∧
      (∀ i w, i < m → get s ⟨i, oid⟩ = some w → w.length = C.sizeofEncodedValue) := by
  obtain ⟨sk, v, hrange, hv, hin, hout⟩ :=
    hdo.span.range (Nat.le_refl 0) (Nat.zero_le _)
  simp only [OOCLazyListObject_extend_list, if_true, if_neg hne, hd.length_eq ooc, hrange] at h
  cases hl : extend_copy C id oid (s.length + 1) s n sk v with
  | error e => rw [hl] at h; simp at h
  | ok r =>
    obtain ⟨sL, dL⟩ := r
    rw [hl] at h
    simp only [Except.ok.injEq] at h
    have hl0 : extend_copy C id oid (s.length + 1) s (n + 0) sk v = .ok (sL, dL) := hl
    obtain ⟨hdL, hchar, hsized⟩ := extend_copy_of_ok C id oid n m s hne hdo hcap
      (s.length + 1) s 0 sk v sL dL (Nat.zero_le _) (fun k => by rw [if_neg (by omega)])
      hv hin hout hl0
    subst hdL
    rw [← h]
    exact ⟨extend_list_post id n m oid s sL hchar, fun i w hi hw => hsized i w (Nat.zero_le _) hi hw⟩

end OOC

namespace OOC

/-! ## Extending a list from the items of an iterator -/

theorem extend_items_spec (C : Codec) (id : Nat) (hk : EncodeKeeps C id) :
    ∀ (items : List C.PyObject) (s : Store) (d : Nat) (m : C.Id2EncodedMap)
      (s1 : Store) (d1 : Nat) (m1 : C.Id2EncodedMap),
      d + items.length ≤ ListKey.listIndexLength →
      extend_items C id items s d m = .ok (s1, d1, m1) →
      d1 = d + items.length ∧
      ∃ toks : List (EncodedValue C.sizeofEncodedValue),
        List.Forall₂ (IsTokenOf C) items toks ∧
        ∀ i, get s1 ⟨i, id⟩ =
          if d ≤ i ∧ i < d + items.length then (toks[i - d]?).map (fun t => t.bytes)
          else get s ⟨i, id⟩ := by
  have hS := sentinel_val
  intro items
  induction items with
  | nil =>
    intro s d m s1 d1 m1 _ h
    simp only [extend_items, Except.ok.injEq, Prod.mk.injEq] at h
    obtain ⟨h1, h2, _⟩ := h
    subst h1; subst h2
    refine ⟨rfl, [], List.Forall₂.nil, ?_⟩
    intro i
    rw [if_neg (by simp only [List.length_nil]; omega)]
  | cons item rest ih =>
    intro s d m s1 d1 m1 hcap h
    rw [List.length_cons] at hcap
    rw [extend_items] at h
    cases he : C.OOCMap_encode item s m false with
    | error e => rw [he] at h; simp at h
    | ok r =>
      obtain ⟨t, sA, mA⟩ := r
      rw [he] at h
      simp only at h
      rw [u32_of_lt (show d + 1 < 4294967296 by omega)] at h
      obtain ⟨hd1, toks, hall, hchar⟩ := ih (put sA ⟨d, id⟩ t.bytes) (d + 1) mA s1 d1 m1
        (by omega) h
      refine ⟨by rw [hd1, List.length_cons]; omega, t :: toks,
        List.Forall₂.cons ⟨s, m, sA, mA, he⟩ hall, ?_⟩
      intro i
      rw [hchar i, List.length_cons]
      by_cases h1 : d + 1 ≤ i ∧ i < d + 1 + rest.length
      · rw [if_pos h1, if_pos ⟨by omega, by omega⟩]
        have hi : i - d = (i - (d + 1)) + 1 := by omega
        rw [hi, List.getElem?_cons_succ]
      · rw [if_neg h1, get_put]
        by_cases h2 : i = d
        · subst h2
          rw [if_pos rfl, if_pos ⟨Nat.le_refl _, by omega⟩, Nat.sub_self]
          simp
        · rw [if_neg (key_ne_index h2), if_neg (by omega)]
          exact hk item s m false t sA mA he i

theorem extend_items_ok (C : Codec) (id : Nat) :
    ∀ (items : List C.PyObject) (s : Store) (d : Nat) (m : C.Id2EncodedMap),
      (∀ item, item ∈ items → Encodable C item) →
      ∃ r, extend_items C id items s d m = .ok r := by
  intro items
  induction items with
  | nil => intro s d m _; exact ⟨_, rfl⟩
  | cons item rest ih =>
    intro s d m hall
    obtain ⟨⟨t, sA, mA⟩, he⟩ := hall item (List.mem_cons_self _ _) s m
    rw [extend_items, he]
    exact ih _ _ _ (fun x hx => hall x (List.mem_cons_of_mem _ hx))

/-- Extending a dense list by the items of an iterator, when the call succeeds and the new
length fits below the sentinel position: this is the list afterwards. -/
theorem extend_iterable_spec (C : Codec) (ooc id n : Nat) (s s1 : Store)
    (items : List C.PyObject) (raises : Bool)
    (hd : Dense s id n) (hk : EncodeKeeps C id)
    (hcap : n + items.length ≤ ListKey.listIndexLength)
    (h : extend_iterable C ⟨ooc, id⟩ s (some (items, raises)) = .ok s1) :
    ∃ toks : List (EncodedValue C.sizeofEncodedValue),
      List.Forall₂ (IsTokenOf C) items toks ∧
      ∀ i, get s1 ⟨i, id⟩ =
        if i = ListKey.listIndexLength then some (u32Bytes (n + items.length))
        else if n ≤ i ∧ i < n + items.length then (toks[i - n]?).map (fun t => t.bytes)
        else get s ⟨i, id⟩ := by
  simp only [extend_iterable, hd.length_eq ooc] at h
  cases hl : extend_items C id items s n C.noInsertedItems with
  | error e => rw [hl] at h; simp at h
  | ok r =>
    obtain ⟨sA, dA, mA⟩ := r
    rw [hl] at h
    simp only [Except.ok.injEq] at h
    obtain ⟨hdA, toks, hall, hchar⟩ := extend_items_spec C id hk items s n _ sA dA mA hcap hl
    subst hdA
    refine ⟨toks, hall, ?_⟩
    intro i
    rw [← h, get_put]
    by_cases hi : i = ListKey.listIndexLength
    · subst hi; rw [if_pos rfl, if_pos rfl]
    · rw [if_neg (key_ne_index hi), if_neg hi, hchar]

theorem extend_iterable_ok (C : Codec) (ooc id n : Nat) (s : Store)
    (items : List C.PyObject) (raises : Bool) (hd : Dense s id n)
    (hall : ∀ item, item ∈ items → Encodable C item) :
    ∃ s1, extend_iterable C ⟨ooc, id⟩ s (some (items, raises)) = .ok s1 := by
  obtain ⟨⟨sA, dA, mA⟩, hl⟩ := extend_items_ok C id items s n C.noInsertedItems hall
  refine ⟨put sA ⟨ListKey.listIndexLength, id⟩ (u32Bytes dA), ?_⟩
  simp only [extend_iterable, hd.length_eq ooc, hl]

end OOC

namespace OOC

/-! ## Well-formedness: checking it, and keeping it -/

theorem dense_of_check {s : Store} {id n : Nat} (h : denseCheck s id n = true) :
    Dense s id n := by
  unfold denseCheck at h
  rw [Bool.and_eq_true, Bool.and_eq_true] at h
  obtain ⟨⟨h1, h2⟩, h3⟩ := h
  constructor
  · cases hg : get s ⟨ListKey.listIndexLength, id⟩ with
    | none => rw [hg] at h1; simp at h1
    | some v =>
      rw [hg] at h1
      simp only [decide_eq_true_eq] at h1
      exact ⟨v, rfl, h1.1, h1.2⟩
  · intro i hi
    constructor
    · intro hs
      obtain ⟨v, hv⟩ := Option.isSome_iff_exists.mp hs
      have hm := mem_of_get hv
      rw [List.all_eq_true] at h2
      have := h2 _ hm
      simp only [ne_eq, not_true_eq_false, false_or, decide_eq_true_eq] at this
      omega
    · intro hlt
      rw [List.all_eq_true] at h3
      exact h3 i (List.mem_range.mpr hlt)

theorem tokenSized_of_check {C : Codec} {s : Store} {id : Nat}
    (h : tokenSizedCheck C s id = true) : TokenSized C s id := by
  intro i v hi hv
  unfold tokenSizedCheck at h
  rw [List.all_eq_true] at h
  have := h _ (mem_of_get hv)
  simp only [ne_eq, not_true_eq_false, false_or, decide_eq_true_eq] at this
  omega

theorem wellFormed_of_check {C : Codec} {s : Store} {id n : Nat}
    (h : wellFormedCheck C s id n = true) : WellFormed C s id n := by
  unfold wellFormedCheck at h
  rw [Bool.and_eq_true] at h
  exact ⟨dense_of_check h.1, tokenSized_of_check h.2⟩

theorem dense_of_gets (s1 : Store) (id N : Nat)
    (hN : N ≤ ListKey.listIndexLength)
    (hs : get s1 ⟨ListKey.listIndexLength, id⟩ = some (u32Bytes N))
    (hp : ∀ i, i ≠ ListKey.listIndexLength → ((get s1 ⟨i, id⟩).isSome = true ↔ i < N)) :
    Dense s1 id N := by
  have hS := sentinel_val
  refine ⟨⟨u32Bytes N, hs, length_u32Bytes _, ?_⟩, hp⟩
  rw [readU32_u32Bytes]; omega

theorem wellFormed_of_gets (C : Codec) (s1 : Store) (id N : Nat)
    (hN : N ≤ ListKey.listIndexLength)
    (hs : get s1 ⟨ListKey.listIndexLength, id⟩ = some (u32Bytes N))
    (hp : ∀ i, i ≠ ListKey.listIndexLength → ((get s1 ⟨i, id⟩).isSome = true ↔ i < N))
    (ht : ∀ i v, i ≠ ListKey.listIndexLength → get s1 ⟨i, id⟩ = some v →
      v.length = C.sizeofEncodedValue) : WellFormed C s1 id N :=
  ⟨dense_of_gets s1 id N hN hs hp, ht⟩

/-- A position that holds an entry of a dense list is below its length. -/
theorem Dense.lt_of_get {s : Store} {id n i : Nat} {v : MDB_val} (hd : Dense s id n)
    (hi : i ≠ ListKey.listIndexLength) (hv : get s ⟨i, id⟩ = some v) : i < n :=
  (hd.2 i hi).mp (by rw [hv]; rfl)

theorem length_lt {self : OOCLazyListObject} {s : Store} {n : Nat}
    (h : OOCLazyListObject_length self s = .ok n) : n < 4294967296 := by
  unfold OOCLazyListObject_length at h
  split at h
  · simp at h
  · split at h
    · simp at h
    · simp only [Except.ok.injEq] at h
      rw [← h]; exact readU32_lt _

/-- Deleting at a valid index of a list with dense positions. -/
theorem delete_dense (C : Codec) (ooc id n i : Nat) (s : Store)
    (hd : Dense s id n) (hi : i < n) :
    ∃ s1, setItem_try C ⟨ooc, id⟩ s (i : Int) none = .ok s1 ∧
      Dense s1 id (n - 1) ∧
      (∀ j, j < i → get s1 ⟨j, id⟩ = get s ⟨j, id⟩) ∧
      (∀ j, i ≤ j → j < n - 1 → get s1 ⟨j, id⟩ = get s ⟨j + 1, id⟩) ∧
      (∀ k, k.listId ≠ id → get s1 k = get s k) := by
  have hn := hd.le_sentinel
  obtain ⟨s1, hs1, hchar⟩ := setItem_delete_spec C ooc id n i s hd hi
  have hvalue : ∀ j, j ≠ ListKey.listIndexLength → get s1 ⟨j, id⟩ =
      if j < i then get s ⟨j, id⟩ else if j < n - 1 then get s ⟨j + 1, id⟩ else none := by
    intro j hj
    rw [hchar]
    simp only [if_true]
    rw [if_neg hj]
  refine ⟨s1, hs1, ?_, ?_, ?_, ?_⟩
  · apply dense_of_gets s1 id (n - 1) (by omega)
    · rw [hchar]; simp
    · intro j hj
      rw [hvalue j hj]
      by_cases h1 : j < i
      · rw [if_pos h1, hd.2 j hj]; omega
      · rw [if_neg h1]
        by_cases h2 : j < n - 1
        · rw [if_pos h2, hd.2 (j + 1) (by omega)]; omega
        · rw [if_neg h2]; simp [h2]
  · intro j hj
    rw [hvalue j (by omega), if_pos hj]
  · intro j h1 h2
    rw [hvalue j (by omega), if_neg (by omega), if_pos h2]
  · intro k hk
    rw [hchar, if_neg hk]

/-- Setting the item at a valid index of a list with dense positions. -/
theorem set_dense (C : Codec) (ooc id n i : Nat) (s : Store) (item : C.PyObject)
    (t : EncodedValue C.sizeofEncodedValue) (sA : Store) (mA : C.Id2EncodedMap)
    (hd : Dense s id n) (hk : EncodeKeeps C id) (hi : i < n)
    (he : C.OOCMap_encode item s C.noInsertedItems false = .ok (t, sA, mA)) :
    setItem_try C ⟨ooc, id⟩ s (i : Int) (some item) = .ok (put sA ⟨i, id⟩ t.bytes) ∧
      Dense (put sA ⟨i, id⟩ t.bytes) id n ∧
      get (put sA ⟨i, id⟩ t.bytes) ⟨i, id⟩ = some t.bytes ∧
      (∀ j, j ≠ i → get (put sA ⟨i, id⟩ t.bytes) ⟨j, id⟩ = get s ⟨j, id⟩) := by
  have hkeep := hk item s _ _ t sA mA he
  refine ⟨setItem_set_spec C ooc id n i s item t sA mA hd hi he,
    (hd.congr hkeep).put_entry hi _, by rw [get_put, if_pos rfl], ?_⟩
  intro j hj
  rw [get_put, if_neg (key_ne_index hj), hkeep]

/-- Setting the item at a valid index of a well-formed list. -/
theorem set_full (C : Codec) (ooc id n i : Nat) (s : Store) (item : C.PyObject)
    (t : EncodedValue C.sizeofEncodedValue) (sA : Store) (mA : C.Id2EncodedMap)
    (hwf : WellFormed C s id n) (hk : EncodeKeeps C id) (hi : i < n)
    (he : C.OOCMap_encode item s C.noInsertedItems false = .ok (t, sA, mA)) :
    setItem_try C ⟨ooc, id⟩ s (i : Int) (some item) = .ok (put sA ⟨i, id⟩ t.bytes) ∧
      WellFormed C (put sA ⟨i, id⟩ t.bytes) id n ∧
      get (put sA ⟨i, id⟩ t.bytes) ⟨i, id⟩ = some t.bytes ∧
      (∀ j, j ≠ i → get (put sA ⟨i, id⟩ t.bytes) ⟨j, id⟩ = get s ⟨j, id⟩) := by
  obtain ⟨hd, hts⟩ := hwf
  obtain ⟨h1, hd1, hat, hother⟩ := set_dense C ooc id n i s item t sA mA hd hk hi he
  refine ⟨h1, ⟨hd1, ?_⟩, hat, hother⟩
  intro j v hj hv
  by_cases hji : j = i
  · subst hji
    rw [hat] at hv
    simp only [Option.some.injEq] at hv
    rw [← hv]; exact t.sized
  · rw [hother j hji] at hv
    exact hts j v hj hv

/-- Appending to a list with dense positions that is shorter than the sentinel position. -/
theorem append_dense (C : Codec) (ooc id n : Nat) (s : Store) (item : C.PyObject)
    (t : EncodedValue C.sizeofEncodedValue) (sA : Store) (mA : C.Id2EncodedMap)
    (hd : Dense s id n) (hk : EncodeKeeps C id)
    (hcap : n + 1 ≤ ListKey.listIndexLength)
    (he : C.OOCMap_encode item s C.noInsertedItems false = .ok (t, sA, mA)) :
    ∃ s1, OOCLazyListObject_append C ⟨ooc, id⟩ s item = .ok s1 ∧
      Dense s1 id (n + 1) ∧
      get s1 ⟨n, id⟩ = some t.bytes ∧
      (∀ j, j < n → get s1 ⟨j, id⟩ = get s ⟨j, id⟩) := by
  have hS := sentinel_val
  have hkeep := hk item s _ _ t sA mA he
  have hu : u32 (n + 1) = n + 1 := u32_of_lt (by omega)
  have hvalue : ∀ j, j ≠ ListKey.listIndexLength →
      get (put (put sA ⟨n, id⟩ t.bytes) ⟨ListKey.listIndexLength, id⟩ (u32Bytes (n + 1)))
        ⟨j, id⟩ = if j = n then some t.bytes else get s ⟨j, id⟩ := by
    intro j hj
    rw [get_put, if_neg (key_ne_index hj), get_put]
    by_cases hjn : j = n
    · subst hjn; rw [if_pos rfl, if_pos rfl]
    · rw [if_neg (key_ne_index hjn), if_neg hjn, hkeep]
  refine ⟨_, by rw [append_spec C ooc id n s item t sA mA hd hk he, hu], ?_, ?_, ?_⟩
  · apply dense_of_gets _ id (n + 1) hcap
    · rw [get_put, if_pos rfl]
    · intro j hj
      rw [hvalue j hj]
      by_cases hjn : j = n
      · subst hjn; simp
      · rw [if_neg hjn, hd.2 j hj]; omega
  · rw [hvalue n (by omega), if_pos rfl]
  · intro j hj
    rw [hvalue j (by omega), if_neg (by omega)]

/-- Appending to a well-formed list that is shorter than the sentinel position. -/
theorem append_full (C : Codec) (ooc id n : Nat) (s : Store) (item : C.PyObject)
    (t : EncodedValue C.sizeofEncodedValue) (sA : Store) (mA : C.Id2EncodedMap)
    (hwf : WellFormed C s id n) (hk : EncodeKeeps C id)
    (hcap : n + 1 ≤ ListKey.listIndexLength)
    (he : C.OOCMap_encode item s C.noInsertedItems false = .ok (t, sA, mA)) :
    ∃ s1, OOCLazyListObject_append C ⟨ooc, id⟩ s item = .ok s1 ∧
      WellFormed C s1 id (n + 1) ∧
      get s1 ⟨n, id⟩ = some t.bytes ∧
      (∀ j, j < n → get s1 ⟨j, id⟩ = get s ⟨j, id⟩) := by
  obtain ⟨hd, hts⟩ := hwf
  obtain ⟨s1, h1, hd1, hat, hother⟩ := append_dense C ooc id n s item t sA mA hd hk hcap he
  refine ⟨s1, h1, ⟨hd1, ?_⟩, hat, hother⟩
  intro j v hj hv
  have hlt := hd1.lt_of_get hj hv
  by_cases hjn : j = n
  · subst hjn
    rw [hat] at hv
    simp only [Option.some.injEq] at hv
    rw [← hv]; exact t.sized
  · rw [hother j (by omega)] at hv
    exact hts j v hj hv

/-- Clearing a well-formed list. -/
theorem clear_full (C : Codec) (ooc id n : Nat) (s : Store) (hd : Dense s id n) :
    ∃ s1, OOCLazyListObject_clear ⟨ooc, id⟩ s = .ok s1 ∧
      WellFormed C s1 id 0 ∧
      (∀ i, i ≠ ListKey.listIndexLength → get s1 ⟨i, id⟩ = none) ∧
      (∀ k, k.listId ≠ id → get s1 k = get s k) := by
  obtain ⟨s1, hs1, hchar⟩ := clear_spec ooc id n s hd
  have hvalue : ∀ i, i ≠ ListKey.listIndexLength → get s1 ⟨i, id⟩ = none := by
    intro i hi
    rw [hchar]
    simp only [if_true]
    rw [if_neg hi]
  refine ⟨s1, hs1, ?_, hvalue, ?_⟩
  · apply wellFormed_of_gets C s1 id 0 (Nat.zero_le _)
    · rw [hchar]; simp
    · intro i hi
      rw [hvalue i hi]; simp
    · intro i v hi hv
      rw [hvalue i hi] at hv; simp at hv
  · intro k hk
    rw [hchar, if_neg hk]

/-- Repeating a well-formed list in place, `count ≥ 1`, the result below the sentinel. -/
theorem repeat_full (C : Codec) (ooc id n count : Nat) (s : Store)
    (hwf : WellFormed C s id n) (hc : 0 < count)
    (hcap : n * count ≤ ListKey.listIndexLength) :
    ∃ s1, OOCLazyListObject_inplaceRepeat C ⟨ooc, id⟩ s count = .ok s1 ∧
      WellFormed C s1 id (n * count) ∧
      (∀ i, i < n * count → get s1 ⟨i, id⟩ = get s ⟨i % n, id⟩) ∧
      (∀ k, k.listId ≠ id → get s1 k = get s k) := by
  obtain ⟨hd, hts⟩ := hwf
  have hn := hd.le_sentinel
  obtain ⟨s1, hs1, hd1, hcont, hframe⟩ := inplaceRepeat_spec C ooc id n count s hd hts hc hcap
  refine ⟨s1, hs1, ⟨hd1, ?_⟩, hcont, hframe⟩
  intro i v hi hv
  have hlt : i < n * count := (hd1.2 i hi).mp (by simp [hv])
  rw [hcont i hlt] at hv
  have hnpos : 0 < n := by
    rcases Nat.eq_zero_or_pos n with h0 | h0
    · rw [h0, Nat.zero_mul] at hlt; omega
    · exact h0
  have := Nat.mod_lt i hnpos
  exact hts (i % n) v (by omega) hv

/-- Extending a well-formed list from another well-formed list of the same map. -/
theorem extend_list_full (C : Codec) (ooc id oid n m : Nat) (s : Store)
    (hne : id ≠ oid) (hwf : WellFormed C s id n) (hwo : WellFormed C s oid m)
    (hcap : n + m ≤ ListKey.listIndexLength) :
    ∃ s1, OOCLazyListObject_extend_list C ⟨ooc, id⟩ s ⟨ooc, oid⟩ = .ok s1 ∧
      WellFormed C s1 id (n + m) ∧
      (∀ k, k < m → get s1 ⟨n + k, id⟩ = get s ⟨k, oid⟩) ∧
      (∀ i, i < n → get s1 ⟨i, id⟩ = get s ⟨i, id⟩) ∧
      (∀ k, k.listId ≠ id → get s1 k = get s k) := by
  obtain ⟨hd, hts⟩ := hwf
  obtain ⟨hdo, hto⟩ := hwo
  have hmS := hdo.le_sentinel
  obtain ⟨s1, hs1, hchar⟩ := extend_list_spec C ooc id oid n m s hne hd hdo hto hcap
  have hvalue : ∀ i, i ≠ ListKey.listIndexLength → get s1 ⟨i, id⟩ =
      if n ≤ i ∧ i < n + m then get s ⟨i - n, oid⟩ else get s ⟨i, id⟩ := by
    intro i hi
    rw [hchar]
    simp only [if_true]
    rw [if_neg hi]
  refine ⟨s1, hs1, ?_, ?_, ?_, ?_⟩
  · apply wellFormed_of_gets C s1 id (n + m) hcap
    · rw [hchar]; simp
    · intro i hi
      rw [hvalue i hi]
      by_cases h1 : n ≤ i ∧ i < n + m
      · rw [if_pos h1, hdo.2 (i - n) (by omega)]; omega
      · rw [if_neg h1, hd.2 i hi]; omega
    · intro i v hi hv
      rw [hvalue i hi] at hv
      by_cases h1 : n ≤ i ∧ i < n + m
      · rw [if_pos h1] at hv; exact hto (i - n) v (by omega) hv
      · rw [if_neg h1] at hv; exact hts i v hi hv
  · intro k hk
    rw [hvalue (n + k) (by omega), if_pos ⟨by omega, by omega⟩, Nat.add_sub_cancel_left]
  · intro i hi
    rw [hvalue i (by have := hd.le_sentinel; omega), if_neg (by omega)]
  · intro k hk
    rw [hchar, if_neg hk]

/-- A successful extension of a list with dense positions from another such list of the
same map: the positions stay dense, and the items of the other list are tokens. -/
theorem extend_list_dense (C : Codec) (ooc id oid n m : Nat) (s s1 : Store)
    (hne : id ≠ oid) (hd : Dense s id n) (hdo : Dense s oid m)
    (hcap : n + m ≤ ListKey.listIndexLength)
    (h : OOCLazyListObject_extend_list C ⟨ooc, id⟩ s ⟨ooc, oid⟩ = .ok s1) :
    Dense s1 id (n + m) ∧
      (∀ k, k < m → get s1 ⟨n + k, id⟩ = get s ⟨k, oid⟩) ∧
      (∀ i, i < n → get s1 ⟨i, id⟩ = get s ⟨i, id⟩) ∧
      (∀ k, k.listId ≠ id → get s1 k = get s k) := by
  have hmS := hdo.le_sentinel
  obtain ⟨hchar, _⟩ := extend_list_of_ok C ooc id oid n m s s1 hne hd hdo hcap h
  have hvalue : ∀ i, i ≠ ListKey.listIndexLength → get s1 ⟨i, id⟩ =
      if n ≤ i ∧ i < n + m then get s ⟨i - n, oid⟩ else get s ⟨i, id⟩ := by
    intro i hi
    rw [hchar]
    simp only [if_true]
    rw [if_neg hi]
  refine ⟨?_, ?_, ?_, ?_⟩
  · apply dense_of_gets s1 id (n + m) hcap
    · rw [hchar]; simp
    · intro i hi
      rw [hvalue i hi]
      by_cases h1 : n ≤ i ∧ i < n + m
      · rw [if_pos h1, hdo.2 (i - n) (by omega)]; omega
      · rw [if_neg h1, hd.2 i hi]; omega
  · intro k hk
    rw [hvalue (n + k) (by omega), if_pos ⟨by omega, by omega⟩, Nat.add_sub_cancel_left]
  · intro i hi
    rw [hvalue i (by have := hd.le_sentinel; omega), if_neg (by omega)]
  · intro k hk
    rw [hchar, if_neg hk]

/-- A successful extension of a list with dense positions by the items of an iterator. -/
theorem extend_iterable_dense (C : Codec) (ooc id n : Nat) (s s1 : Store)
    (items : List C.PyObject) (raises : Bool)
    (hd : Dense s id n) (hk : EncodeKeeps C id)
    (hcap : n + items.length ≤ ListKey.listIndexLength)
    (h : extend_iterable C ⟨ooc, id⟩ s (some (items, raises)) = .ok s1) :
    Dense s1 id (n + items.length) ∧
    ∃ toks : List (EncodedValue C.sizeofEncodedValue),
      List.Forall₂ (IsTokenOf C) items toks ∧
      (∀ k, k < items.length → get s1 ⟨n + k, id⟩ = (toks[k]?).map (fun t => t.bytes)) ∧
      (∀ i, i < n → get s1 ⟨i, id⟩ = get s ⟨i, id⟩) := by
  have hn := hd.le_sentinel
  obtain ⟨toks, hall, hchar⟩ := extend_iterable_spec C ooc id n s s1 items raises hd hk hcap h
  have hlen : toks.length = items.length := hall.length_eq.symm
  have hvalue : ∀ i, i ≠ ListKey.listIndexLength → get s1 ⟨i, id⟩ =
      if n ≤ i ∧ i < n + items.length then (toks[i - n]?).map (fun t => t.bytes)
      else get s ⟨i, id⟩ := by
    intro i hi
    rw [hchar, if_neg hi]
  refine ⟨?_, toks, hall, ?_, ?_⟩
  · apply dense_of_gets s1 id (n + items.length) hcap
    · rw [hchar, if_pos rfl]
    · intro i hi
      rw [hvalue i hi]
      by_cases h1 : n ≤ i ∧ i < n + items.length
      · rw [if_pos h1]
        have hlt : i - n < toks.length := by omega
        rw [List.getElem?_eq_getElem hlt]
        simp only [Option.map_some', Option.isSome_some, true_iff]
        omega
      · rw [if_neg h1, hd.2 i hi]; omega
  · intro k hk1
    rw [hvalue (n + k) (by omega), if_pos ⟨by omega, by omega⟩, Nat.add_sub_cancel_left]
  · intro i hi
    rw [hvalue i (by omega), if_neg (by omega)]

/-- A successful extension of a well-formed list by the items of an iterator. -/
theorem extend_iterable_full (C : Codec) (ooc id n : Nat) (s s1 : Store)
    (items : List C.PyObject) (raises : Bool)
    (hwf : WellFormed C s id n) (hk : EncodeKeeps C id)
    (hcap : n + items.length ≤ ListKey.listIndexLength)
    (h : extend_iterable C ⟨ooc, id⟩ s (some (items, raises)) = .ok s1) :
    WellFormed C s1 id (n + items.length) ∧
    ∃ toks : List (EncodedValue C.sizeofEncodedValue),
      List.Forall₂ (IsTokenOf C) items toks ∧
      (∀ k, k < items.length → get s1 ⟨n + k, id⟩ = (toks[k]?).map (fun t => t.bytes)) ∧
      (∀ i, i < n → get s1 ⟨i, id⟩ = get s ⟨i, id⟩) := by
  obtain ⟨hd, hts⟩ := hwf
  obtain ⟨hd1, toks, hall, hnew, hold⟩ :=
    extend_iterable_dense C ooc id n s s1 items raises hd hk hcap h
  have hlen : toks.length = items.length := hall.length_eq.symm
  refine ⟨⟨hd1, ?_⟩, toks, hall, hnew, hold⟩
  intro i v hi hv
  have hlt := hd1.lt_of_get hi hv
  by_cases h1 : i < n
  · rw [hold i h1] at hv; exact hts i v hi hv
  · have hi2 : i = n + (i - n) := by omega
    rw [hi2, hnew (i - n) (by omega)] at hv
    have hlt2 : i - n < toks.length := by omega
    rw [List.getElem?_eq_getElem hlt2] at hv
    simp only [Option.map_some', Option.some.injEq] at hv
    rw [← hv]; exact (toks[i - n]).sized

end OOC

namespace OOC

/-! ## The entry points: commit on success -/

theorem setItem_ok_iff (C : Codec) (self : OOCLazyListObject) (db db1 : Store) (index : Int)
    (item : Option C.PyObject) :
    OOCLazyList_setItem C self db index item = (.ok (), db1) ↔
      (0 ≤ index ∧ setItem_try C self db index item = .ok db1) := by
  unfold OOCLazyList_setItem
  by_cases h : index < 0
  · rw [if_pos h]
    constructor
    · intro h1; simp at h1
    · intro h1; omega
  · rw [if_neg h]
    cases hr : setItem_try C self db index item with
    | error e => simp
    | ok s => simp; omega

theorem append_ok_iff (C : Codec) (self : OOCLazyListObject) (db db1 : Store)
    (item : C.PyObject) :
    OOCLazyList_append C self db item = (.ok (), db1) ↔
      OOCLazyListObject_append C self db item = .ok db1 := by
  unfold OOCLazyList_append
  cases hr : OOCLazyListObject_append C self db item with
  | error e => simp
  | ok s => simp

theorem extend_ok_iff (C : Codec) (self : OOCLazyListObject) (db db1 : Store)
    (other : PyOther C) :
    OOCLazyList_extend C self db other = (.ok (), db1) ↔
      OOCLazyListObject_extend C self db other = .ok db1 := by
  unfold OOCLazyList_extend
  cases hr : OOCLazyListObject_extend C self db other with
  | error e => simp
  | ok s => simp

theorem inplaceRepeat_ok_iff (C : Codec) (self : OOCLazyListObject) (db db1 : Store)
    (count : Int) :
    OOCLazyList_inplaceRepeat C self db count = (.ok (), db1) ↔
      OOCLazyListObject_inplaceRepeat C self db (toU32 count) = .ok db1 := by
  unfold OOCLazyList_inplaceRepeat
  cases hr : OOCLazyListObject_inplaceRepeat C self db (toU32 count) with
  | error e => simp
  | ok s => simp

theorem clear_ok_iff (self : OOCLazyListObject) (db db1 : Store) :
    OOCLazyList_clear self db = (.ok (), db1) ↔ OOCLazyListObject_clear self db = .ok db1 := by
  unfold OOCLazyList_clear
  cases hr : OOCLazyListObject_clear self db with
  | error e => simp
  | ok s => simp

theorem toU32_lt (x : Int) : toU32 x < 4294967296 := by
  unfold toU32; omega

theorem setItem_try_none_congr (C : Codec) (self : OOCLazyListObject) (db : Store)
    (index : Int) :
    setItem_try C self db index none = setItem_try C self db ((toU32 index : Nat) : Int) none := by
  have h : toU32 ((toU32 index : Nat) : Int) = toU32 index := toU32_natCast (toU32_lt index)
  simp only [setItem_try, h]

/-! ## Tables filled with one token -/

theorem get_append (a b : Store) (k : ListKey) :
    get (a ++ b) k = if (get a k).isSome = true then get a k else get b k := by
  induction a with
  | nil => simp [get]
  | cons e rest ih =>
    simp only [List.cons_append, get]
    by_cases he : e.1 = k
    · simp [he]
    · simp only [he, if_false]; exact ih

theorem get_filled (id n : Nat) (v : MDB_val) (k : ListKey) :
    get ((List.range n).map (fun i => ((⟨i, id⟩ : ListKey), v))) k
      = if k.listId = id ∧ k.listIndex < n then some v else none := by
  induction n with
  | zero => simp [get]
  | succ n ih =>
    rw [List.range_succ, List.map_append, get_append, ih]
    by_cases h : k.listId = id ∧ k.listIndex < n
    · have h1 : k.listIndex < n + 1 := by omega
      simp [h, h1]
    · rw [if_neg h]
      simp only [Option.isSome_none, Bool.false_eq_true, if_false, List.map_cons, List.map_nil,
        get]
      by_cases hk : (⟨n, id⟩ : ListKey) = k
      · rw [if_pos hk, if_pos (by rw [← hk]; exact ⟨rfl, by simp⟩)]
      · rw [if_neg hk, if_neg]
        intro hx
        apply hk
        rw [ListKey.eq_iff]
        simp only
        constructor
        · by_contra hne; exact h ⟨hx.1, by omega⟩
        · exact hx.1.symm

theorem get_filledList (id n : Nat) (v : MDB_val) (k : ListKey) :
    get (filledList id n v) k =
      if k.listId = id then
        if k.listIndex = ListKey.listIndexLength then some (u32Bytes n)
        else if k.listIndex < n then some v else none
      else none := by
  unfold filledList
  simp only [get]
  rw [get_filled]
  by_cases hid : k.listId = id
  · rw [if_pos hid]
    by_cases hs : k.listIndex = ListKey.listIndexLength
    · have : (⟨ListKey.listIndexLength, id⟩ : ListKey) = k := by
        rw [ListKey.eq_iff]; exact ⟨hs.symm, hid.symm⟩
      rw [if_pos this, if_pos hs]
    · have : ¬ (⟨ListKey.listIndexLength, id⟩ : ListKey) = k := by
        intro h; rw [ListKey.eq_iff] at h; exact hs h.1.symm
      rw [if_neg this, if_neg hs]
      by_cases hlt : k.listIndex < n
      · rw [if_pos ⟨hid, hlt⟩, if_pos hlt]
      · rw [if_neg (by intro h; exact hlt h.2), if_neg hlt]
  · have : ¬ (⟨ListKey.listIndexLength, id⟩ : ListKey) = k := by
      intro h; rw [ListKey.eq_iff] at h; exact hid h.2.symm
    rw [if_neg this, if_neg hid, if_neg (by intro h; exact hid h.1)]

theorem length_filledList (id n : Nat) (v : MDB_val) : (filledList id n v).length = n + 1 := by
  simp [filledList]

theorem get_append_left {a b : Store} {k : ListKey} (h : get b k = none) :
    get (a ++ b) k = get a k := by
  rw [get_append]
  cases hg : get a k with
  | none => simp [h]
  | some v => simp

theorem get_append_right {a b : Store} {k : ListKey} (h : get a k = none) :
    get (a ++ b) k = get b k := by
  rw [get_append, h]; simp

/-- A list filled with `n` copies of a token is well formed. -/
theorem filledList_wf (C : Codec) (id n : Nat) (v : MDB_val)
    (hn : n ≤ ListKey.listIndexLength) (hv : v.length = C.sizeofEncodedValue) :
    WellFormed C (filledList id n v) id n := by
  have hg : ∀ i, i ≠ ListKey.listIndexLength → get (filledList id n v) ⟨i, id⟩ =
      if i < n then some v else none := by
    intro i hi
    rw [get_filledList]
    simp only [if_true]
    rw [if_neg hi]
  apply wellFormed_of_gets C _ id n hn
  · rw [get_filledList]; simp
  · intro i hi
    rw [hg i hi]
    by_cases hlt : i < n
    · simp [hlt]
    · simp [hlt]
  · intro i w hi hw
    rw [hg i hi] at hw
    by_cases hlt : i < n
    · rw [if_pos hlt] at hw
      simp only [Option.some.injEq] at hw
      rw [← hw]; exact hv
    · rw [if_neg hlt] at hw; simp at hw

theorem WellFormed.wf_of_get_eq {C : Codec} {s s1 : Store} {id n : Nat} (h : WellFormed C s id n)
    (he : ∀ i, get s1 ⟨i, id⟩ = get s ⟨i, id⟩) : WellFormed C s1 id n :=
  ⟨h.1.congr he, h.2.sized_of_get_eq he⟩

theorem dbFull_get7 (i : Nat) : get dbFull ⟨i, 7⟩ = get (filledList 7 4294967295 [0]) ⟨i, 7⟩ := by
  unfold dbFull
  apply get_append_left
  rw [get_filledList, if_neg (by simp)]

theorem dbFull_get8 (i : Nat) : get dbFull ⟨i, 8⟩ = get (filledList 8 1 [40]) ⟨i, 8⟩ := by
  unfold dbFull
  apply get_append_right
  rw [get_filledList, if_neg (by simp)]

theorem dbFull_wf7 : WellFormed natCodec dbFull 7 4294967295 :=
  (filledList_wf natCodec 7 4294967295 [0] (Nat.le_of_eq sentinel_val.symm) rfl).wf_of_get_eq dbFull_get7

theorem dbFull_wf8 : WellFormed natCodec dbFull 8 1 :=
  (filledList_wf natCodec 8 1 [40] (by rw [sentinel_val]; omega) rfl).wf_of_get_eq dbFull_get8

theorem dbHalf_wf : WellFormed natCodec dbHalf 7 2147483648 :=
  filledList_wf natCodec 7 2147483648 [0] (by rw [sentinel_val]; omega) rfl

theorem natCodec_keeps (id : Nat) : EncodeKeeps natCodec id := by
  intro item txn m readonly t txn1 m1 h i
  simp only [Except.ok.injEq, Prod.mk.injEq] at h
  rw [← h.2.1]

theorem natCodec_encodable (item : natCodec.PyObject) : Encodable natCodec item :=
  fun _ _ => ⟨_, rfl⟩

theorem natCodec_decodeStatic : DecodeStatic natCodec := fun _ _ _ => rfl

theorem natCodec_decodesBack : DecodesBack natCodec := by
  intro item txn m readonly t txn1 m1 h
  simp only [Except.ok.injEq, Prod.mk.injEq] at h
  obtain ⟨h1, _, _⟩ := h
  subst h1
  rfl

theorem natCodec_decodable (db : Store) (listId : Nat) : Decodable natCodec db listId :=
  fun _ _ _ => ⟨_, rfl⟩

end OOC
namespace OOC

/-! ## The list invariant and the postconditions of the mutations -/

/-- C1 (as amended): in a table in which list `self` is well formed with length `n` (the
sentinel record holds `n` and the other entries under the id of the list are exactly at the
positions below `n`), every successful mutation of the list whose arguments stay inside the
32-bit position space (see `Mutation.InRange`) yields a table in which the list is well
formed again: the sentinel record holds the number of entries and the entries are exactly
at the positions below it.  The codec is assumed not to touch the entries of the list while
it encodes. -/
theorem C1_invariant_preserved (C : Codec) (self : OOCLazyListObject) (db db1 : Store) (n : Nat)
    (mu : Mutation C) (hd : Dense db self.listId n) (hk : EncodeKeeps C self.listId)
    (hr : mu.InRange C self db n) (hrun : mu.run C self db = (.ok (), db1)) :
    ∃ n1, Dense db1 self.listId n1 := by
  obtain ⟨ooc, id⟩ := self
  simp only at hd hk
  have hn := hd.le_sentinel
  have hS := sentinel_val
  cases mu with
  | set index item =>
    simp only [Mutation.run] at hrun
    obtain ⟨h0, h⟩ := (setItem_ok_iff C _ db db1 index _).mp hrun
    by_cases hlt : index < (n : Int)
    · cases he : C.OOCMap_encode item db C.noInsertedItems false with
      | error e =>
        simp only [setItem_try, hd.length_eq ooc, he] at h
        split at h <;> simp at h
      | ok r =>
        obtain ⟨t, sA, mA⟩ := r
        lift index to Nat using h0
        have hi : index < n := by exact_mod_cast hlt
        obtain ⟨h1, h2, _⟩ := set_dense C ooc id n index db item t sA mA hd hk hi he
        rw [h1] at h
        simp only [Except.ok.injEq] at h
        exact ⟨n, h ▸ h2⟩
    · have hge : index ≥ (n : Int) := by omega
      simp only [setItem_try, hd.length_eq ooc, hge, if_true] at h
      simp at h
  | delete index =>
    simp only [Mutation.run] at hrun
    simp only [Mutation.InRange] at hr
    obtain ⟨_, h⟩ := (setItem_ok_iff C _ db db1 index _).mp hrun
    rw [setItem_try_none_congr] at h
    by_cases hlt : toU32 index < n
    · obtain ⟨s1, h1, h2, _⟩ := delete_dense C ooc id n (toU32 index) db hd hlt
      rw [h1] at h
      simp only [Except.ok.injEq] at h
      exact ⟨n - 1, h ▸ h2⟩
    · have hnone : get db ⟨toU32 index, id⟩ = none :=
        hd.get_none (by omega) hr
      simp only [setItem_try, toU32_natCast (toU32_lt index), cursor_get_set_key, hnone,
        Option.map_none'] at h
      simp at h
  | append item =>
    simp only [Mutation.run] at hrun
    simp only [Mutation.InRange] at hr
    have h := (append_ok_iff C _ db db1 item).mp hrun
    cases he : C.OOCMap_encode item db C.noInsertedItems false with
    | error e => simp [OOCLazyListObject_append, he] at h
    | ok r =>
      obtain ⟨t, sA, mA⟩ := r
      obtain ⟨s1, h1, h2, _⟩ := append_dense C ooc id n db item t sA mA hd hk hr he
      rw [h1] at h
      simp only [Except.ok.injEq] at h
      exact ⟨n + 1, h ▸ h2⟩
  | extend other =>
    simp only [Mutation.run] at hrun
    have h := (extend_ok_iff C _ db db1 other).mp hrun
    cases other with
    | lazyList other =>
      obtain ⟨oooc, oid⟩ := other
      simp only [Mutation.InRange] at hr
      simp only [OOCLazyListObject_extend, OOCLazyListObject_extend_list] at h
      by_cases hooc : oooc = ooc
      · subst hooc
        by_cases hid : id = oid
        · subst hid
          simp only [if_true] at hr h
          exact ⟨n * 2, (inplaceRepeat_of_ok C oooc id n 2 db db1 hd (by omega) hr h).1⟩
        · simp only [if_true, if_neg hid] at hr
          obtain ⟨m, hdo, hcap⟩ := hr
          have h2 : OOCLazyListObject_extend_list C ⟨oooc, id⟩ db ⟨oooc, oid⟩ = .ok db1 := by
            unfold OOCLazyListObject_extend_list
            exact h
          exact ⟨n + m, (extend_list_dense C oooc id oid n m db db1 hid hd hdo hcap h2).1⟩
      · simp only [if_neg hooc] at hr h
        cases hea : OOCLazyList_eager C ⟨oooc, oid⟩ (C.mdb oooc) with
        | error e => rw [hea] at h; simp at h
        | ok eager =>
          rw [hea] at h
          simp only at h
          exact ⟨n + eager.length,
            (extend_iterable_dense C ooc id n db db1 eager false hd hk (hr eager hea) h).1⟩
    | iterable items raises =>
      simp only [Mutation.InRange] at hr
      simp only [OOCLazyListObject_extend] at h
      exact ⟨n + items.length,
        (extend_iterable_dense C ooc id n db db1 items raises hd hk hr h).1⟩
    | notIterable =>
      simp [OOCLazyListObject_extend, extend_iterable] at h
  | inplaceRepeat count =>
    simp only [Mutation.run] at hrun
    simp only [Mutation.InRange] at hr
    have h := (inplaceRepeat_ok_iff C _ db db1 count).mp hrun
    by_cases hc : toU32 count = 0
    · rw [hc] at h
      simp only [OOCLazyListObject_inplaceRepeat, Nat.le_refl, if_true] at h
      obtain ⟨s1, h1, h2, _⟩ := clear_full C ooc id n db hd
      rw [h1] at h
      simp only [Except.ok.injEq] at h
      exact ⟨0, h ▸ h2.1⟩
    · exact ⟨n * toU32 count,
        (inplaceRepeat_of_ok C ooc id n (toU32 count) db db1 hd (by omega) hr h).1⟩
  | clear =>
    simp only [Mutation.run] at hrun
    have h := (clear_ok_iff _ db db1).mp hrun
    obtain ⟨s1, h1, h2, _⟩ := clear_full C ooc id n db hd
    rw [h1] at h
    simp only [Except.ok.injEq] at h
    exact ⟨0, h ▸ h2.1⟩

end OOC

namespace OOC

/-- C1, instance: appending 40 to the list `[10, 20, 30]` under id 7 of `db78` keeps it well
formed. -/
theorem C1_invariant_preserved_witness :
    Dense db78 7 3 ∧
    (∃ n1, Dense (Mutation.run natCodec ⟨0, 7⟩ db78 (.append (40 : Nat))).2 7 n1) :=
  ⟨dense_of_check (by decide),
    C1_invariant_preserved natCodec ⟨0, 7⟩ db78 _ 3 (.append (40 : Nat))
      (dense_of_check (by decide)) (natCodec_keeps 7)
      (show 3 + 1 ≤ ListKey.listIndexLength by decide) rfl⟩

/-- The table after appending to the list of the largest length in `dbFull`. -/
theorem append_dbFull (item : Nat) :
    OOCLazyList_append natCodec ⟨0, 7⟩ dbFull item =
      (.ok (), put (put dbFull ⟨4294967295, 7⟩ [item]) ⟨ListKey.listIndexLength, 7⟩
        (u32Bytes (u32 (4294967295 + 1)))) := by
  have happ := append_spec natCodec 0 7 4294967295 dbFull item ⟨[item], rfl⟩ dbFull ()
    dbFull_wf7.1 (natCodec_keeps 7) rfl
  simp only [OOCLazyList_append, happ]

/-- C1, counterexample to the claim as stated: the list under id 7 of `dbFull` is well formed
with the largest length `2^32 - 1` (its entries are tokens at the positions below it);
appending to it succeeds, and afterwards the positions of the list are dense for no length
(the token was written over the sentinel record, the length wrapped around to 0, and the
entries are still there). -/
theorem C1_counterexample_append_at_capacity :
    WellFormed natCodec dbFull 7 4294967295 ∧
    (Mutation.run natCodec ⟨0, 7⟩ dbFull (.append (5 : Nat))).1 = .ok () ∧
    ¬ ∃ n1, Dense (Mutation.run natCodec ⟨0, 7⟩ dbFull (.append (5 : Nat))).2 7 n1 := by
  refine ⟨dbFull_wf7, ?_, ?_⟩
  · simp only [Mutation.run, append_dbFull]
  · simp only [Mutation.run, append_dbFull]
    rintro ⟨n1, ⟨v, hg, _, hr⟩, hp⟩
    rw [get_put, if_pos rfl] at hg
    simp only [Option.some.injEq] at hg
    have h0 : n1 = 0 := by
      rw [← hr, ← hg, readU32_u32Bytes]
      decide
    have hsome := (hp 0 (by decide)).mp (by
      rw [get_put, if_neg (key_ne_index (by decide)), get_put,
        if_neg (key_ne_index (by decide)), dbFull_get7, get_filledList]
      simp only [if_true]
      rw [if_neg (by decide)]
      rfl)
    omega

end OOC

namespace OOC

/-- C2: for a well-formed list of length `n` (the sentinel record holds `n`, the other
entries are exactly at the positions below `n`) and a valid index `i < n`, `delete(L, i)`
(`setItem` with no value) succeeds; afterwards the length is `n - 1`, the entry at every
position `j < i` is unchanged, and the entry at every position `j` with `i ≤ j < n - 1` is
the old entry at position `j + 1`.  The list is well formed with the length `n - 1`
afterwards: the entry at the old last position `n - 1` is removed and no entry is left at
a position from `n - 1` on, and the entries under every other id are unchanged. -/
theorem C2_delete_postcondition (C : Codec) (self : OOCLazyListObject) (db : Store) (n i : Nat)
    (hd : Dense db self.listId n) (hi : i < n) :
    ∃ db1, OOCLazyList_setItem C self db (i : Int) none = (.ok (), db1) ∧
      OOCLazyList_length self db1 = .ok (n - 1) ∧
      (∀ j, j < i → get db1 ⟨j, self.listId⟩ = get db ⟨j, self.listId⟩) ∧
      (∀ j, i ≤ j → j < n - 1 → get db1 ⟨j, self.listId⟩ = get db ⟨j + 1, self.listId⟩) ∧
      Dense db1 self.listId (n - 1) ∧
      (∀ j, n - 1 ≤ j → j ≠ ListKey.listIndexLength → get db1 ⟨j, self.listId⟩ = none) ∧
      (∀ k : ListKey, k.listId ≠ self.listId → get db1 k = get db k) := by
  obtain ⟨ooc, id⟩ := self
  obtain ⟨s1, h1, h2, h3, h4, h5⟩ := delete_dense C ooc id n i db hd hi
  exact ⟨s1, (setItem_ok_iff C _ db s1 _ _).mpr ⟨by omega, h1⟩, h2.length_eq ooc, h3, h4, h2,
    fun j hj hs => h2.get_none hj hs, h5⟩

/-- C2, instance: deleting index 1 of the list `[10, 20, 30]` under id 7 of `db78`. -/
theorem C2_delete_postcondition_witness :
    Dense db78 7 3 ∧ 1 < 3 ∧
    ∃ db1, OOCLazyList_setItem natCodec ⟨0, 7⟩ db78 ((1 : Nat) : Int) none = (.ok (), db1) ∧
      OOCLazyList_length ⟨0, 7⟩ db1 = .ok (3 - 1) ∧
      (∀ j, j < 1 → get db1 ⟨j, 7⟩ = get db78 ⟨j, 7⟩) ∧
      (∀ j, 1 ≤ j → j < 3 - 1 → get db1 ⟨j, 7⟩ = get db78 ⟨j + 1, 7⟩) ∧
      Dense db1 7 (3 - 1) ∧
      (∀ j, 3 - 1 ≤ j → j ≠ ListKey.listIndexLength → get db1 ⟨j, 7⟩ = none) ∧
      (∀ k : ListKey, k.listId ≠ 7 → get db1 k = get db78 k) :=
  ⟨dense_of_check (by decide), by decide,
    C2_delete_postcondition natCodec ⟨0, 7⟩ db78 3 1 (dense_of_check (by decide))
      (by decide)⟩

/-- C3 (as amended): for a well-formed list of length `n` (the sentinel record holds `n`,
the other entries are tokens at exactly the positions below `n`) and a count `k ≥ 1` such
that `n * k` is at most the sentinel position `2^32 - 1`, the in-place repeat succeeds;
afterwards the length is `n * k` and the entry at every position `i < n * k` is the old
entry at position `i mod n`. -/
theorem C3_inplaceRepeat_postcondition (C : Codec) (self : OOCLazyListObject) (db : Store)
    (n k : Nat) (hwf : WellFormed C db self.listId n) (hk : 1 ≤ k)
    (hcap : n * k ≤ ListKey.listIndexLength) :
    ∃ db1, OOCLazyList_inplaceRepeat C self db (k : Int) = (.ok (), db1) ∧
      OOCLazyList_length self db1 = .ok (n * k) ∧
      (∀ i, i < n * k → get db1 ⟨i, self.listId⟩ = get db ⟨i % n, self.listId⟩) := by
  obtain ⟨ooc, id⟩ := self
  have hS := sentinel_val
  simp only at hwf
  by_cases hn : n = 0
  · subst hn
    by_cases hc : toU32 (k : Int) = 0
    · obtain ⟨s1, h1, h2, _⟩ := clear_full C ooc id 0 db hwf.1
      refine ⟨s1, (inplaceRepeat_ok_iff C _ db s1 _).mpr ?_, ?_, ?_⟩
      · rw [hc]
        simp only [OOCLazyListObject_inplaceRepeat, Nat.le_refl, if_true]
        exact h1
      · rw [Nat.zero_mul]; exact h2.1.length_eq ooc
      · intro i hi; rw [Nat.zero_mul] at hi; omega
    · obtain ⟨s1, h1, h2, _⟩ := repeat_full C ooc id 0 (toU32 (k : Int)) db hwf (by omega)
        (by rw [Nat.zero_mul]; omega)
      refine ⟨s1, (inplaceRepeat_ok_iff C _ db s1 _).mpr h1, ?_, ?_⟩
      · rw [Nat.zero_mul] at h2 ⊢; exact h2.1.length_eq ooc
      · intro i hi; rw [Nat.zero_mul] at hi; omega
  · have hkn : k ≤ n * k := Nat.le_mul_of_pos_left k (by omega)
    have hku : toU32 (k : Int) = k := toU32_natCast (by omega)
    obtain ⟨s1, h1, h2, h3, _⟩ := repeat_full C ooc id n k db hwf (by omega) hcap
    exact ⟨s1, (inplaceRepeat_ok_iff C _ db s1 _).mpr (by rw [hku]; exact h1),
      h2.1.length_eq ooc, h3⟩

/-- C3, instance: repeating the list `[10, 20, 30]` under id 7 of `db78` twice. -/
theorem C3_inplaceRepeat_postcondition_witness :
    WellFormed natCodec db78 7 3 ∧ 1 ≤ 2 ∧ 3 * 2 ≤ ListKey.listIndexLength ∧
    ∃ db1, OOCLazyList_inplaceRepeat natCodec ⟨0, 7⟩ db78 ((2 : Nat) : Int) = (.ok (), db1) ∧
      OOCLazyList_length ⟨0, 7⟩ db1 = .ok (3 * 2) ∧
      (∀ i, i < 3 * 2 → get db1 ⟨i, 7⟩ = get db78 ⟨i % 3, 7⟩) :=
  ⟨wellFormed_of_check (by decide), by decide, by decide,
    C3_inplaceRepeat_postcondition natCodec ⟨0, 7⟩ db78 3 2 (wellFormed_of_check (by decide))
      (by decide) (by decide)⟩

/-- C3, counterexample to the claim as stated: the one-item list under id 7 of `db7` is well
formed, the count `2^32` is at least 1, and after the in-place repeat with that count the
length is 0, not `1 * 2^32` (the count arrives as the `unsigned int` 0). -/
theorem C3_counterexample_count_two_pow_32 :
    WellFormed natCodec db7 7 1 ∧ (1 : Int) ≤ 4294967296 ∧
    OOCLazyList_length ⟨0, 7⟩ (OOCLazyList_inplaceRepeat natCodec ⟨0, 7⟩ db7 4294967296).2
      = .ok 0 ∧
    OOCLazyList_length ⟨0, 7⟩ (OOCLazyList_inplaceRepeat natCodec ⟨0, 7⟩ db7 4294967296).2
      ≠ .ok (1 * 4294967296) := by
  have h : OOCLazyList_length ⟨0, 7⟩
      (OOCLazyList_inplaceRepeat natCodec ⟨0, 7⟩ db7 4294967296).2 = .ok 0 := by rfl
  refine ⟨wellFormed_of_check (by decide), by decide, h, ?_⟩
  rw [h]
  intro hx
  simp only [Except.ok.injEq] at hx
  omega

/-- C4, the code at negative counts: for the well-formed one-item list under id 7 of `db7`,
the in-place repeat with count `-1` does not clear the list but leaves it with
`2^32 - 1` items (the count arrives as the `unsigned int` `2^32 - 1`), and with count
`-(2^32 - 1)` it leaves the list as it is, with its one item. -/
theorem C4_negative_count_is_not_clear :
    WellFormed natCodec db7 7 1 ∧
    OOCLazyList_length ⟨0, 7⟩ (OOCLazyList_inplaceRepeat natCodec ⟨0, 7⟩ db7 (-1)).2
      = .ok 4294967295 ∧
    get (OOCLazyList_inplaceRepeat natCodec ⟨0, 7⟩ db7 (-1)).2 ⟨0, 7⟩ = some [10] ∧
    OOCLazyList_length ⟨0, 7⟩ (OOCLazyList_inplaceRepeat natCodec ⟨0, 7⟩ db7 (-4294967295)).2
      = .ok 1 ∧
    get (OOCLazyList_inplaceRepeat natCodec ⟨0, 7⟩ db7 (-4294967295)).2 ⟨0, 7⟩ = some [10] := by
  have hwf : WellFormed natCodec db7 7 1 := wellFormed_of_check (by decide)
  have hu : toU32 (-1) = 4294967295 := by decide
  obtain ⟨s1, h1, h2, h3, _⟩ := repeat_full natCodec 0 7 1 4294967295 db7 hwf (by decide)
    (by decide)
  have hrun : OOCLazyList_inplaceRepeat natCodec ⟨0, 7⟩ db7 (-1) = (.ok (), s1) :=
    (inplaceRepeat_ok_iff natCodec _ db7 s1 _).mpr (by rw [hu]; exact h1)
  refine ⟨hwf, ?_, ?_, by rfl, by rfl⟩
  · rw [hrun]
    have := h2.1.length_eq 0
    rw [Nat.one_mul] at this
    exact this
  · rw [hrun]
    have := h3 0 (by decide)
    rw [this]
    rfl

end OOC

namespace OOC

/-! ## At the largest length -/

theorem length_wrapped (ooc id : Nat) (s : Store) :
    OOCLazyListObject_length ⟨ooc, id⟩
      (put s ⟨ListKey.listIndexLength, id⟩ (u32Bytes (u32 (4294967295 + 1)))) = .ok 0 := by
  have hg : get (put s ⟨ListKey.listIndexLength, id⟩ (u32Bytes (u32 (4294967295 + 1))))
      ⟨ListKey.listIndexLength, id⟩ = some (u32Bytes (u32 (4294967295 + 1))) := by
    rw [get_put, if_pos rfl]
  rw [length_of_sentinel ooc hg]
  have : u32 (4294967295 + 1) % 4294967296 = 0 := by decide
  rw [this]

/-- One pass of the copy loop over a source list that has a single item. -/
theorem extend_copy_single (C : Codec) (id oid fuel d j : Nat) (s : Store) (v w : MDB_val)
    (hj : j ≠ ListKey.listIndexLength) (hv : v.length = C.sizeofEncodedValue)
    (hnext : cursor_get (put s ⟨d, id⟩ v) ⟨j, oid⟩ .MDB_NEXT
      = some (⟨ListKey.listIndexLength, oid⟩, w)) :
    extend_copy C id oid (fuel + 1 + 1) s d ⟨j, oid⟩ v = .ok (put s ⟨d, id⟩ v, u32 (d + 1)) := by
  have hc1 : ¬ ((⟨j, oid⟩ : ListKey).listId ≠ oid ∨
      (⟨j, oid⟩ : ListKey).listIndex = ListKey.listIndexLength) := by
    simp only [ne_eq, not_true_eq_false, false_or]; exact hj
  have hc2 : ¬ (v.length ≠ C.sizeofEncodedValue) := by rw [ne_eq, not_not]; exact hv
  rw [extend_copy, if_neg hc1, if_neg hc2]
  simp only
  rw [hnext]
  simp only
  rw [extend_copy, if_pos (Or.inr rfl)]

/-- The entry point `extend` with a list of the same map, from the results of its steps. -/
theorem extend_list_steps (C : Codec) (ooc id oid n d : Nat) (s s1 : Store) (k : ListKey)
    (v : MDB_val) (hne : id ≠ oid)
    (hlen : OOCLazyListObject_length ⟨ooc, id⟩ s = .ok n)
    (hrange : cursor_get s ⟨0, oid⟩ .MDB_SET_RANGE = some (k, v))
    (hcopy : extend_copy C id oid (s.length + 1) s n k v = .ok (s1, d)) :
    OOCLazyList_extend C ⟨ooc, id⟩ s (.lazyList ⟨ooc, oid⟩) =
      (.ok (), put s1 ⟨ListKey.listIndexLength, id⟩ (u32Bytes d)) := by
  simp only [OOCLazyList_extend, OOCLazyListObject_extend, OOCLazyListObject_extend_list, if_true,
    if_neg hne, hlen, hrange, hcopy]

/-- The entry point `extend` with an iterator that yields one item. -/
theorem extend_iterable_single (C : Codec) (ooc id n : Nat) (s s1 : Store) (item : C.PyObject)
    (raises : Bool) (t : EncodedValue C.sizeofEncodedValue) (m1 : C.Id2EncodedMap)
    (hlen : OOCLazyListObject_length ⟨ooc, id⟩ s = .ok n)
    (he : C.OOCMap_encode item s C.noInsertedItems false = .ok (t, s1, m1)) :
    OOCLazyList_extend C ⟨ooc, id⟩ s (.iterable [item] raises) =
      (.ok (), put (put s1 ⟨n, id⟩ t.bytes) ⟨ListKey.listIndexLength, id⟩
        (u32Bytes (u32 (n + 1)))) := by
  simp only [OOCLazyList_extend, OOCLazyListObject_extend, extend_iterable, hlen, extend_items,
    he]

theorem length_append_filled (id1 n1 id2 n2 : Nat) (v1 v2 : MDB_val) :
    (filledList id1 n1 v1 ++ filledList id2 n2 v2).length = (n1 + n2 + 1) + 1 := by
  rw [List.length_append, length_filledList, length_filledList]
  omega

/-- The table after extending the list of the largest length in `dbFull` from the one-item
list under id 8. -/
theorem extend_list_dbFull :
    OOCLazyList_extend natCodec ⟨0, 7⟩ dbFull (.lazyList ⟨0, 8⟩) =
      (.ok (), put (put dbFull ⟨4294967295, 7⟩ [40]) ⟨ListKey.listIndexLength, 7⟩
        (u32Bytes (u32 (4294967295 + 1)))) := by
  have hS := sentinel_val
  have hg0 : get dbFull ⟨0, 8⟩ = some [40] := by
    rw [dbFull_get8, get_filledList, if_pos rfl,
      if_neg (show ¬ (0 : Nat) = ListKey.listIndexLength by omega),
      if_pos (show (0 : Nat) < 1 by omega)]
  have hrange : cursor_get dbFull ⟨0, 8⟩ .MDB_SET_RANGE = some (⟨0, 8⟩, [40]) :=
    range_to (Nat.le_refl 0) hg0 (by intro i _ _; omega)
  have hgx : ∀ i, get (put dbFull ⟨4294967295, 7⟩ [40]) ⟨i, 8⟩ =
      if i = ListKey.listIndexLength then some (u32Bytes 1)
      else if i < 1 then some [40] else none := by
    intro i
    rw [get_put, if_neg (key_ne_id (by omega)), dbFull_get8, get_filledList, if_pos rfl]
  have hnext : cursor_get (put dbFull ⟨4294967295, 7⟩ [40]) ⟨0, 8⟩ .MDB_NEXT
      = some (⟨ListKey.listIndexLength, 8⟩, u32Bytes 1) := by
    apply next_to (by omega)
    · rw [hgx, if_pos rfl]
    · intro i h1 h2
      rw [hgx, if_neg (by omega), if_neg (by omega)]
  have hcopy : extend_copy natCodec 7 8 (dbFull.length + 1) dbFull 4294967295 ⟨0, 8⟩ [40]
      = .ok (put dbFull ⟨4294967295, 7⟩ [40], u32 (4294967295 + 1)) := by
    have hl : dbFull.length = (4294967295 + 1 + 1) + 1 := length_append_filled 7 _ 8 _ _ _
    rw [hl]
    exact extend_copy_single natCodec 7 8 _ 4294967295 0 dbFull [40] (u32Bytes 1) (by omega) rfl
      hnext
  exact extend_list_steps natCodec 0 7 8 4294967295 _ dbFull _ ⟨0, 8⟩ [40] (by omega)
    (dbFull_wf7.1.length_eq 0) hrange hcopy

/-- The table after extending the list of the largest length in `dbFull` by one item of an
iterator. -/
theorem extend_iterable_dbFull (item : Nat) :
    OOCLazyList_extend natCodec ⟨0, 7⟩ dbFull (.iterable [item] false) =
      (.ok (), put (put dbFull ⟨4294967295, 7⟩ [item]) ⟨ListKey.listIndexLength, 7⟩
        (u32Bytes (u32 (4294967295 + 1)))) :=
  extend_iterable_single natCodec 0 7 4294967295 dbFull dbFull item false ⟨[item], rfl⟩ ()
    (dbFull_wf7.1.length_eq 0) rfl

end OOC

namespace OOC

/-- C5 (as amended): for two well-formed lists `self` and `other` of the same map with
different ids (the sentinel record of each holds its length, its other entries are tokens
at exactly the positions below it), of lengths `n` and `m` with `n + m` at most the
sentinel position `2^32 - 1`, `extend(self, other)` succeeds; afterwards the length of `self` is `n + m`, the
value stored at position `n + k` of `self` is byte for byte the value at position `k` of
`other` for every `k < m`, and the positions below `n` of `self` are unchanged. -/
theorem C5_extend_from_list (C : Codec) (self other : OOCLazyListObject) (db : Store)
    (n m : Nat) (hooc : other.ooc = self.ooc) (hne : self.listId ≠ other.listId)
    (hwf : WellFormed C db self.listId n) (hwo : WellFormed C db other.listId m)
    (hcap : n + m ≤ ListKey.listIndexLength) :
    ∃ db1, OOCLazyList_extend C self db (.lazyList other) = (.ok (), db1) ∧
      OOCLazyList_length self db1 = .ok (n + m) ∧
      (∀ k, k < m → get db1 ⟨n + k, self.listId⟩ = get db ⟨k, other.listId⟩) ∧
      (∀ i, i < n → get db1 ⟨i, self.listId⟩ = get db ⟨i, self.listId⟩) := by
  obtain ⟨ooc, id⟩ := self
  obtain ⟨oooc, oid⟩ := other
  simp only at hooc hne hwf hwo
  subst hooc
  obtain ⟨s1, h1, h2, h3, h4, _⟩ := extend_list_full C oooc id oid n m db hne hwf hwo hcap
  exact ⟨s1, (extend_ok_iff C _ db s1 _).mpr h1, h2.1.length_eq oooc, h3, h4⟩

/-- C5, instance: extending the list `[10, 20, 30]` under id 7 of `db78` from the list
`[40, 50]` under id 8. -/
theorem C5_extend_from_list_witness :
    WellFormed natCodec db78 7 3 ∧ WellFormed natCodec db78 8 2 ∧
    3 + 2 ≤ ListKey.listIndexLength ∧
    ∃ db1, OOCLazyList_extend natCodec ⟨0, 7⟩ db78 (.lazyList ⟨0, 8⟩) = (.ok (), db1) ∧
      OOCLazyList_length ⟨0, 7⟩ db1 = .ok (3 + 2) ∧
      (∀ k, k < 2 → get db1 ⟨3 + k, 7⟩ = get db78 ⟨k, 8⟩) ∧
      (∀ i, i < 3 → get db1 ⟨i, 7⟩ = get db78 ⟨i, 7⟩) :=
  ⟨wellFormed_of_check (by decide), wellFormed_of_check (by decide), by decide,
    C5_extend_from_list natCodec ⟨0, 7⟩ ⟨0, 8⟩ db78 3 2 rfl (by decide)
      (wellFormed_of_check (by decide)) (wellFormed_of_check (by decide)) (by decide)⟩

/-- C5, counterexample to the claim as stated: in `dbFull` the list under id 7 is well formed
with the largest length `2^32 - 1` and the list under id 8 is well formed with one item;
after `extend` of the first from the second the length is 0, not `2^32 - 1 + 1`. -/
theorem C5_counterexample_extend_at_capacity :
    WellFormed natCodec dbFull 7 4294967295 ∧ WellFormed natCodec dbFull 8 1 ∧
    OOCLazyList_length ⟨0, 7⟩
      (OOCLazyList_extend natCodec ⟨0, 7⟩ dbFull (.lazyList ⟨0, 8⟩)).2 = .ok 0 ∧
    OOCLazyList_length ⟨0, 7⟩
      (OOCLazyList_extend natCodec ⟨0, 7⟩ dbFull (.lazyList ⟨0, 8⟩)).2
        ≠ .ok (4294967295 + 1) := by
  have h : OOCLazyList_length ⟨0, 7⟩
      (OOCLazyList_extend natCodec ⟨0, 7⟩ dbFull (.lazyList ⟨0, 8⟩)).2 = .ok 0 := by
    rw [extend_list_dbFull]
    exact length_wrapped 0 7 _
  refine ⟨dbFull_wf7, dbFull_wf8, h, ?_⟩
  rw [h]
  intro hx
  simp only [Except.ok.injEq] at hx
  omega

/-- C6 (as amended): for a well-formed list of length `n` (the sentinel record holds `n`,
the other entries are tokens at exactly the positions below `n`) with `2 * n` at most the
sentinel position `2^32 - 1`, `extend(L, L)` succeeds; afterwards the stored sequence is the old
sequence concatenated with itself and the length is `2 * n`. -/
theorem C6_self_extend_doubles (C : Codec) (self : OOCLazyListObject) (db : Store) (n : Nat)
    (hwf : WellFormed C db self.listId n) (hcap : 2 * n ≤ ListKey.listIndexLength) :
    ∃ db1, OOCLazyList_extend C self db (.lazyList self) = (.ok (), db1) ∧
      storedSeq db1 self.listId (2 * n) = storedSeq db self.listId n ++ storedSeq db self.listId n ∧
      OOCLazyList_length self db1 = .ok (2 * n) := by
  obtain ⟨ooc, id⟩ := self
  simp only at hwf
  obtain ⟨s1, h1, h2, h3, _⟩ := repeat_full C ooc id n 2 db hwf (by omega) (by omega)
  have hrun : OOCLazyListObject_extend C ⟨ooc, id⟩ db (.lazyList ⟨ooc, id⟩) = .ok s1 := by
    simp only [OOCLazyListObject_extend, OOCLazyListObject_extend_list, if_true]
    exact h1
  refine ⟨s1, (extend_ok_iff C _ db s1 _).mpr hrun, ?_, ?_⟩
  · have h2n : 2 * n = n + n := by omega
    simp only [storedSeq]
    rw [h2n, List.range_add, List.map_append, List.map_map]
    congr 1
    · apply List.map_congr_left
      intro i hi
      rw [List.mem_range] at hi
      rw [h3 i (by omega), Nat.mod_eq_of_lt hi]
    · apply List.map_congr_left
      intro i hi
      rw [List.mem_range] at hi
      simp only [Function.comp]
      rw [h3 (n + i) (by omega), Nat.add_mod_left, Nat.mod_eq_of_lt hi]
  · have h2n : 2 * n = n * 2 := by omega
    rw [h2n]
    exact h2.1.length_eq ooc

/-- C6, instance: extending the list `[10, 20, 30]` under id 7 of `db78` by itself. -/
theorem C6_self_extend_doubles_witness :
    WellFormed natCodec db78 7 3 ∧ 2 * 3 ≤ ListKey.listIndexLength ∧
    ∃ db1, OOCLazyList_extend natCodec ⟨0, 7⟩ db78 (.lazyList ⟨0, 7⟩) = (.ok (), db1) ∧
      storedSeq db1 7 (2 * 3) = storedSeq db78 7 3 ++ storedSeq db78 7 3 ∧
      OOCLazyList_length ⟨0, 7⟩ db1 = .ok (2 * 3) :=
  ⟨wellFormed_of_check (by decide), by decide,
    C6_self_extend_doubles natCodec ⟨0, 7⟩ db78 3 (wellFormed_of_check (by decide))
      (by decide)⟩

/-- C6, counterexample to the claim as stated: the list under id 7 of `dbHalf` is well
formed with `2^31` items, and whatever `extend(L, L)` leaves in the table, the length read
from it is not twice the old length: a `uint32_t` sentinel record cannot hold `2^32`. -/
theorem C6_counterexample_self_extend_two_pow_31 :
    WellFormed natCodec dbHalf 7 2147483648 ∧
    OOCLazyList_length ⟨0, 7⟩
      (OOCLazyList_extend natCodec ⟨0, 7⟩ dbHalf (.lazyList ⟨0, 7⟩)).2
        ≠ .ok (2 * 2147483648) := by
  refine ⟨dbHalf_wf, ?_⟩
  intro h
  have := length_lt h
  omega

end OOC

namespace OOC

/-- C7 (as amended): for a well-formed list of length `n` (the sentinel record holds `n`,
the other entries are exactly at the positions below `n`) and a finite sequence of `m`
encodable values with `n + m` at most the sentinel position `2^32 - 1`,
`extend(L, seq)` succeeds; afterwards the length is `n + m`, position `n + k` holds the
token `OOCMap_encode` returned for the `k`-th value, the positions below `n` are unchanged,
and the sentinel record is written once: the loop over the values leaves it as it was,
and the final length is written after the loop.  The codec is assumed not to touch the
entries of the list while it encodes. -/
theorem C7_extend_from_sequence (C : Codec) (self : OOCLazyListObject) (db : Store) (n : Nat)
    (items : List C.PyObject) (hd : Dense db self.listId n)
    (hk : EncodeKeeps C self.listId) (henc : ∀ item, item ∈ items → Encodable C item)
    (hcap : n + items.length ≤ ListKey.listIndexLength) :
    ∃ db1 toks, OOCLazyList_extend C self db (.iterable items false) = (.ok (), db1) ∧
      List.Forall₂ (IsTokenOf C) items toks ∧
      OOCLazyList_length self db1 = .ok (n + items.length) ∧
      (∀ k, k < items.length →
        get db1 ⟨n + k, self.listId⟩ = (toks[k]?).map (fun t => t.bytes)) ∧
      (∀ i, i < n → get db1 ⟨i, self.listId⟩ = get db ⟨i, self.listId⟩) ∧
      ∃ txn1 newLength insertedItems,
        extend_items C self.listId items db n C.noInsertedItems
          = .ok (txn1, newLength, insertedItems) ∧
        get txn1 ⟨ListKey.listIndexLength, self.listId⟩
          = get db ⟨ListKey.listIndexLength, self.listId⟩ ∧
        db1 = put txn1 ⟨ListKey.listIndexLength, self.listId⟩ (u32Bytes (n + items.length)) := by
  obtain ⟨ooc, id⟩ := self
  simp only at hd hk
  obtain ⟨⟨sA, dA, mA⟩, hl⟩ := extend_items_ok C id items db n C.noInsertedItems henc
  obtain ⟨hdA, _, _, hchar⟩ := extend_items_spec C id hk items db n _ sA dA mA hcap hl
  subst hdA
  have hrun : extend_iterable C ⟨ooc, id⟩ db (some (items, false))
      = .ok (put sA ⟨ListKey.listIndexLength, id⟩ (u32Bytes (n + items.length))) := by
    simp only [extend_iterable, hd.length_eq ooc, hl]
  obtain ⟨h1, toks, h2, h3, h4⟩ :=
    extend_iterable_dense C ooc id n db _ items false hd hk hcap hrun
  refine ⟨_, toks, (extend_ok_iff C _ db _ _).mpr hrun, h2, h1.length_eq ooc, h3, h4,
    sA, _, mA, hl, ?_, rfl⟩
  rw [hchar, if_neg (by omega)]

/-- C7, instance: extending the list `[10, 20, 30]` under id 7 of `db78` by the values
`99, 98`. -/
theorem C7_extend_from_sequence_witness :
    Dense db78 7 3 ∧ 3 + 2 ≤ ListKey.listIndexLength ∧
    ∃ db1 toks, OOCLazyList_extend natCodec ⟨0, 7⟩ db78 (.iterable [(99 : Nat), 98] false)
        = (.ok (), db1) ∧
      List.Forall₂ (IsTokenOf natCodec) [(99 : Nat), 98] toks ∧
      OOCLazyList_length ⟨0, 7⟩ db1 = .ok (3 + 2) ∧
      (∀ k, k < 2 → get db1 ⟨3 + k, 7⟩ = (toks[k]?).map (fun t => t.bytes)) ∧
      (∀ i, i < 3 → get db1 ⟨i, 7⟩ = get db78 ⟨i, 7⟩) ∧
      ∃ txn1 newLength insertedItems,
        extend_items natCodec 7 [(99 : Nat), 98] db78 3 natCodec.noInsertedItems
          = .ok (txn1, newLength, insertedItems) ∧
        get txn1 ⟨ListKey.listIndexLength, 7⟩ = get db78 ⟨ListKey.listIndexLength, 7⟩ ∧
        db1 = put txn1 ⟨ListKey.listIndexLength, 7⟩ (u32Bytes (3 + 2)) :=
  ⟨dense_of_check (by decide), by decide,
    C7_extend_from_sequence natCodec ⟨0, 7⟩ db78 3 [(99 : Nat), 98]
      (dense_of_check (by decide)) (natCodec_keeps 7)
      (fun item _ => natCodec_encodable item) (by decide)⟩

/-- C7, counterexample to the claim as stated: the list under id 7 of `dbFull` is well
formed with the largest length `2^32 - 1`; after `extend` by the one-value sequence `[5]`
the length is 0, not `2^32 - 1 + 1`. -/
theorem C7_counterexample_extend_at_capacity :
    WellFormed natCodec dbFull 7 4294967295 ∧
    OOCLazyList_length ⟨0, 7⟩
      (OOCLazyList_extend natCodec ⟨0, 7⟩ dbFull (.iterable [(5 : Nat)] false)).2 = .ok 0 ∧
    OOCLazyList_length ⟨0, 7⟩
      (OOCLazyList_extend natCodec ⟨0, 7⟩ dbFull (.iterable [(5 : Nat)] false)).2
        ≠ .ok (4294967295 + 1) := by
  have h : OOCLazyList_length ⟨0, 7⟩
      (OOCLazyList_extend natCodec ⟨0, 7⟩ dbFull (.iterable [(5 : Nat)] false)).2 = .ok 0 := by
    rw [extend_iterable_dbFull]
    exact length_wrapped 0 7 _
  refine ⟨dbFull_wf7, h, ?_⟩
  rw [h]
  intro hx
  simp only [Except.ok.injEq] at hx
  omega

/-- The item read back at a position that holds a token is the decoding of that token. -/
theorem item_of_get (C : Codec) (self : OOCLazyListObject) (db : Store) (i : Nat)
    (t : EncodedValue C.sizeofEncodedValue) (hi : i < 4294967296)
    (hg : get db ⟨i, self.listId⟩ = some t.bytes) :
    OOCLazyList_item C self db (i : Int) = C.OOCMap_decode t db := by
  have h0 : ¬ ((i : Int) < 0) := by omega
  simp only [OOCLazyList_item, h0, if_false, toU32_natCast hi, hg]
  rw [dif_pos t.sized]

/-- C8 (as amended): for a well-formed list of length `n` (the sentinel record holds `n`,
the other entries are exactly at the positions below `n`) with `n + 1 ≤ 2^32 - 1` and a
value `v` whose encoding succeeds with token `t`, `append(L, v)` succeeds; afterwards the
length is `n + 1`, position `n` holds `t`, `get(L, n)` returns `v`, and every position below
`n` is unchanged.  The codec is assumed not to touch the entries of the list while it
encodes; that `get(L, n)` returns `v` rests on the contract that a token decodes,
independently of the table, to the value it was made from. -/
theorem C8_append_postcondition (C : Codec) (self : OOCLazyListObject) (db : Store) (n : Nat)
    (item : C.PyObject) (t : EncodedValue C.sizeofEncodedValue) (txn1 : Store)
    (m1 : C.Id2EncodedMap) (hd : Dense db self.listId n)
    (hk : EncodeKeeps C self.listId) (hcap : n + 1 ≤ ListKey.listIndexLength)
    (he : C.OOCMap_encode item db C.noInsertedItems false = .ok (t, txn1, m1)) :
    ∃ db1, OOCLazyList_append C self db item = (.ok (), db1) ∧
      OOCLazyList_length self db1 = .ok (n + 1) ∧
      get db1 ⟨n, self.listId⟩ = some t.bytes ∧
      OOCLazyList_item C self db1 (n : Int) = C.OOCMap_decode t db1 ∧
      (DecodeStatic C → DecodesBack C → OOCLazyList_item C self db1 (n : Int) = .ok item) ∧
      (∀ j, j < n → get db1 ⟨j, self.listId⟩ = get db ⟨j, self.listId⟩) := by
  have hS := sentinel_val
  obtain ⟨s1, h1, h2, h3, h4⟩ :=
    append_dense C self.ooc self.listId n db item t txn1 m1 hd hk hcap he
  refine ⟨s1, (append_ok_iff C _ db s1 _).mpr h1, h2.length_eq self.ooc, h3,
    item_of_get C self s1 n t (by omega) h3, ?_, h4⟩
  intro hst hback
  rw [item_of_get C self s1 n t (by omega) h3, hst t s1 txn1]
  exact hback item db _ false t txn1 m1 he

/-- C8, instance: appending 40 to the list `[10, 20, 30]` under id 7 of `db78`; afterwards
`get(L, 3)` returns 40. -/
theorem C8_append_postcondition_witness :
    Dense db78 7 3 ∧ 3 + 1 ≤ ListKey.listIndexLength ∧
    ∃ db1, OOCLazyList_append natCodec ⟨0, 7⟩ db78 (40 : Nat) = (.ok (), db1) ∧
      OOCLazyList_length ⟨0, 7⟩ db1 = .ok (3 + 1) ∧
      get db1 ⟨3, 7⟩ = some [40] ∧
      OOCLazyList_item natCodec ⟨0, 7⟩ db1 ((3 : Nat) : Int) = .ok (40 : Nat) ∧
      (∀ j, j < 3 → get db1 ⟨j, 7⟩ = get db78 ⟨j, 7⟩) :=
  ⟨dense_of_check (by decide), by decide,
    match C8_append_postcondition natCodec ⟨0, 7⟩ db78 3 (40 : Nat) ⟨[40], rfl⟩ db78 ()
      (dense_of_check (by decide)) (natCodec_keeps 7) (by decide) rfl with
    | ⟨db1, h1, h2, h3, _, h5, h6⟩ =>
      ⟨db1, h1, h2, h3, h5 natCodec_decodeStatic natCodec_decodesBack, h6⟩⟩

/-- C8, counterexample to the claim as stated: the list under id 7 of `dbFull` is well
formed with the largest length `2^32 - 1`; after `append` of the value 5 the length is 0,
not `2^32 - 1 + 1`. -/
theorem C8_counterexample_append_at_capacity :
    WellFormed natCodec dbFull 7 4294967295 ∧
    OOCLazyList_length ⟨0, 7⟩ (OOCLazyList_append natCodec ⟨0, 7⟩ dbFull (5 : Nat)).2 = .ok 0 ∧
    OOCLazyList_length ⟨0, 7⟩ (OOCLazyList_append natCodec ⟨0, 7⟩ dbFull (5 : Nat)).2
      ≠ .ok (4294967295 + 1) := by
  have h : OOCLazyList_length ⟨0, 7⟩
      (OOCLazyList_append natCodec ⟨0, 7⟩ dbFull (5 : Nat)).2 = .ok 0 := by
    rw [append_dbFull]
    exact length_wrapped 0 7 _
  refine ⟨dbFull_wf7, h, ?_⟩
  rw [h]
  intro hx
  simp only [Except.ok.injEq] at hx
  omega

/-- C9: for a well-formed list of length `n` (the sentinel record holds `n`, the other
entries are exactly at the positions below `n`), an index `i < n` and a value whose encoding
succeeds with token `t`, `set(L, i, v)` succeeds; afterwards position `i` holds `t`, the
length is still `n`, and the entry at every other position is unchanged.  The codec is
assumed not to touch the entries of the list while it encodes. -/
theorem C9_set_postcondition (C : Codec) (self : OOCLazyListObject) (db : Store) (n i : Nat)
    (item : C.PyObject) (t : EncodedValue C.sizeofEncodedValue) (txn1 : Store)
    (m1 : C.Id2EncodedMap) (hd : Dense db self.listId n)
    (hk : EncodeKeeps C self.listId) (hi : i < n)
    (he : C.OOCMap_encode item db C.noInsertedItems false = .ok (t, txn1, m1)) :
    ∃ db1, OOCLazyList_setItem C self db (i : Int) (some item) = (.ok (), db1) ∧
      get db1 ⟨i, self.listId⟩ = some t.bytes ∧
      OOCLazyList_length self db1 = .ok n ∧
      (∀ j, j ≠ i → get db1 ⟨j, self.listId⟩ = get db ⟨j, self.listId⟩) := by
  obtain ⟨h1, h2, h3, h4⟩ :=
    set_dense C self.ooc self.listId n i db item t txn1 m1 hd hk hi he
  exact ⟨_, (setItem_ok_iff C _ db _ _ _).mpr ⟨by omega, h1⟩, h3, h2.length_eq self.ooc, h4⟩

/-- C9, instance: setting index 1 of the list `[10, 20, 30]` under id 7 of `db78` to 77. -/
theorem C9_set_postcondition_witness :
    Dense db78 7 3 ∧ 1 < 3 ∧
    ∃ db1, OOCLazyList_setItem natCodec ⟨0, 7⟩ db78 ((1 : Nat) : Int) (some (77 : Nat))
        = (.ok (), db1) ∧
      get db1 ⟨1, 7⟩ = some [77] ∧
      OOCLazyList_length ⟨0, 7⟩ db1 = .ok 3 ∧
      (∀ j, j ≠ 1 → get db1 ⟨j, 7⟩ = get db78 ⟨j, 7⟩) :=
  ⟨dense_of_check (by decide), by decide,
    C9_set_postcondition natCodec ⟨0, 7⟩ db78 3 1 (77 : Nat) ⟨[77], rfl⟩ db78 ()
      (dense_of_check (by decide)) (natCodec_keeps 7) (by decide) rfl⟩

/-- C10: for a well-formed list (the sentinel record holds its length `n`, the other entries
are exactly at the positions below `n`), `clear(L)` succeeds; afterwards the length is 0, no entry
other than the sentinel record remains under the id of the list, and `get(L, i)` fails with
`IndexError` for every index that does not alias the sentinel position. -/
theorem C10_clear_postcondition (C : Codec) (self : OOCLazyListObject) (db : Store) (n : Nat)
    (hd : Dense db self.listId n) :
    ∃ db1, OOCLazyList_clear self db = (.ok (), db1) ∧
      OOCLazyList_length self db1 = .ok 0 ∧
      (∀ i, i ≠ ListKey.listIndexLength → get db1 ⟨i, self.listId⟩ = none) ∧
      (∀ index : Int, toU32 index ≠ ListKey.listIndexLength →
        OOCLazyList_item C self db1 index = .error .IndexError) := by
  obtain ⟨s1, h1, h2, h3, _⟩ := clear_full C self.ooc self.listId n db hd
  refine ⟨s1, (clear_ok_iff _ db s1).mpr h1, h2.1.length_eq self.ooc, h3, ?_⟩
  intro index hidx
  unfold OOCLazyList_item
  by_cases h0 : index < 0
  · rw [if_pos h0]
  · rw [if_neg h0, h3 _ hidx]

/-- C10, instance: clearing the list `[10, 20, 30]` under id 7 of `db78`. -/
theorem C10_clear_postcondition_witness :
    Dense db78 7 3 ∧
    ∃ db1, OOCLazyList_clear ⟨0, 7⟩ db78 = (.ok (), db1) ∧
      OOCLazyList_length ⟨0, 7⟩ db1 = .ok 0 ∧
      (∀ i, i ≠ ListKey.listIndexLength → get db1 ⟨i, 7⟩ = none) ∧
      (∀ index : Int, toU32 index ≠ ListKey.listIndexLength →
        OOCLazyList_item natCodec ⟨0, 7⟩ db1 index = .error .IndexError) :=
  ⟨dense_of_check (by decide),
    C10_clear_postcondition natCodec ⟨0, 7⟩ db78 3 (dense_of_check (by decide))⟩

end OOC

namespace OOC

/-! ## Bounds errors and failures of the entry points -/

/-- Whatever error a mutation throws, the table afterwards is the table before: the write
transaction is aborted. -/
theorem run_error_unchanged (C : Codec) (self : OOCLazyListObject) (db : Store)
    (mu : Mutation C) (e : OocError) (h : (mu.run C self db).1 = .error e) :
    (mu.run C self db).2 = db := by
  cases mu with
  | set index item =>
    simp only [Mutation.run, OOCLazyList_setItem] at h ⊢
    by_cases h0 : index < 0
    · rw [if_pos h0]
    · rw [if_neg h0] at h ⊢
      cases hr : setItem_try C self db index (some item) with
      | error e1 => rfl
      | ok txn => rw [hr] at h; simp at h
  | delete index =>
    simp only [Mutation.run, OOCLazyList_setItem] at h ⊢
    by_cases h0 : index < 0
    · rw [if_pos h0]
    · rw [if_neg h0] at h ⊢
      cases hr : setItem_try C self db index none with
      | error e1 => rfl
      | ok txn => rw [hr] at h; simp at h
  | append item =>
    simp only [Mutation.run, OOCLazyList_append] at h ⊢
    split
    · rename_i txn hr
      rw [hr] at h
      simp at h
    · rfl
  | extend other =>
    simp only [Mutation.run, OOCLazyList_extend] at h ⊢
    split
    · rename_i txn hr
      rw [hr] at h
      simp at h
    · rfl
  | inplaceRepeat count =>
    simp only [Mutation.run, OOCLazyList_inplaceRepeat] at h ⊢
    split
    · rename_i txn hr
      rw [hr] at h
      simp at h
    · rfl
  | clear =>
    simp only [Mutation.run, OOCLazyList_clear] at h ⊢
    split
    · rename_i txn hr
      rw [hr] at h
      simp at h
    · rfl

/-- `get` at a negative index is an `IndexError`. -/
theorem item_negative (C : Codec) (self : OOCLazyListObject) (db : Store) (index : Int)
    (h : index < 0) : OOCLazyList_item C self db index = .error .IndexError := by
  unfold OOCLazyList_item
  rw [if_pos h]

/-- `get` at an index from the length up to, not including, the sentinel position is an
`IndexError`. -/
theorem item_beyond (C : Codec) (self : OOCLazyListObject) (db : Store) (n i : Nat)
    (hd : Dense db self.listId n) (h1 : n ≤ i) (h2 : i < ListKey.listIndexLength) :
    OOCLazyList_item C self db (i : Int) = .error .IndexError := by
  have hS := sentinel_val
  have h0 : ¬ ((i : Int) < 0) := by omega
  simp only [OOCLazyList_item, h0, if_false, toU32_natCast (show i < 4294967296 by omega),
    hd.get_none h1 (by omega)]

/-- `get` at an index below the length is the decoding of the token stored there. -/
theorem item_inside (C : Codec) (self : OOCLazyListObject) (db : Store) (n i : Nat)
    (hwf : WellFormed C db self.listId n) (hi : i < n) :
    ∃ t : EncodedValue C.sizeofEncodedValue, get db ⟨i, self.listId⟩ = some t.bytes ∧
      OOCLazyList_item C self db (i : Int) = C.OOCMap_decode t db := by
  have hn := hwf.1.le_sentinel
  have hS := sentinel_val
  obtain ⟨v, hv⟩ := hwf.1.get_some hi
  have hsz := hwf.2 i v (by omega) hv
  exact ⟨⟨v, hsz⟩, hv, item_of_get C self db i ⟨v, hsz⟩ (by omega) hv⟩

end OOC

namespace OOC

/-! ## Iterating over a dense list -/

/-- What a successful `get` at a position below the length has read. -/
theorem item_ok_inv (C : Codec) (self : OOCLazyListObject) (db : Store) (n i : Nat)
    (v : C.PyObject) (hd : Dense db self.listId n) (hi : i < n)
    (h : OOCLazyList_item C self db (i : Int) = .ok v) :
    ∃ mv, ∃ hsz : mv.length = C.sizeofEncodedValue,
      get db ⟨i, self.listId⟩ = some mv ∧ C.OOCMap_decode ⟨mv, hsz⟩ db = .ok v := by
  have hn := hd.le_sentinel
  have hS := sentinel_val
  obtain ⟨mv, hmv⟩ := hd.get_some hi
  have h0 : ¬ ((i : Int) < 0) := by omega
  simp only [OOCLazyList_item, h0, if_false, toU32_natCast (show i < 4294967296 by omega),
    hmv] at h
  by_cases hsz : mv.length = C.sizeofEncodedValue
  · rw [dif_pos hsz] at h
    exact ⟨mv, hsz, hmv, h⟩
  · rw [dif_neg hsz] at h
    simp at h

/-- The first pull of a fresh iterator over a non-empty list. -/
theorem iternext_first (C : Codec) (self : OOCLazyListObject) (db : Store) (n : Nat)
    (v : C.PyObject) (hd : Dense db self.listId n) (hn : 0 < n)
    (h : OOCLazyList_item C self db ((0 : Nat) : Int) = .ok v) :
    OOCLazyListIter_iternext C (OOCLazyListIter_fastnew self) db
      = (.ok (some v), ⟨some self, some (db, ⟨0, self.listId⟩)⟩) := by
  obtain ⟨mv, hsz, hmv, hdec⟩ := item_ok_inv C self db n 0 v hd hn h
  simp only [OOCLazyListIter_iternext, OOCLazyListIter_fastnew, cursor_get_set_key, hmv,
    Option.map_some']
  rw [dif_pos hsz, hdec]

/-- The first pull of a fresh iterator over an empty list signals the end. -/
theorem iternext_first_empty (C : Codec) (self : OOCLazyListObject) (db : Store)
    (hd : Dense db self.listId 0) :
    OOCLazyListIter_iternext C (OOCLazyListIter_fastnew self) db = (.ok none, ⟨none, none⟩) := by
  have hS := sentinel_val
  have hnone : get db ⟨0, self.listId⟩ = none := hd.get_none (Nat.le_refl 0) (by omega)
  simp only [OOCLazyListIter_iternext, OOCLazyListIter_fastnew, cursor_get_set_key, hnone,
    Option.map_none']

/-- A later pull while the cursor stands before the last item. -/
theorem iternext_next (C : Codec) (self : OOCLazyListObject) (txn db : Store) (n j : Nat)
    (v : C.PyObject) (hd : Dense txn self.listId n) (hj : j + 1 < n)
    (h : OOCLazyList_item C self txn ((j + 1 : Nat) : Int) = .ok v) :
    OOCLazyListIter_iternext C ⟨some self, some (txn, ⟨j, self.listId⟩)⟩ db
      = (.ok (some v), ⟨some self, some (txn, ⟨j + 1, self.listId⟩)⟩) := by
  have hn := hd.le_sentinel
  have hS := sentinel_val
  obtain ⟨mv, hsz, hmv, hdec⟩ := item_ok_inv C self txn n (j + 1) v hd hj h
  have hnext : cursor_get txn ⟨j, self.listId⟩ .MDB_NEXT = some (⟨j + 1, self.listId⟩, mv) :=
    next_to (by omega) hmv (by intro i _ _; omega)
  simp only [OOCLazyListIter_iternext, hnext]
  rw [if_neg (by simp only [ne_eq, not_true_eq_false, or_false]; omega), dif_pos hsz, hdec]

/-- A pull while the cursor stands on the last item signals the end. -/
theorem iternext_last (C : Codec) (self : OOCLazyListObject) (txn db : Store) (n j : Nat)
    (hd : Dense txn self.listId n) (hj : j + 1 = n) :
    OOCLazyListIter_iternext C ⟨some self, some (txn, ⟨j, self.listId⟩)⟩ db
      = (.ok none, ⟨none, none⟩) := by
  have hn := hd.le_sentinel
  have hS := sentinel_val
  obtain ⟨sk, v, hnext, _, _, hout⟩ := hd.span.next (Nat.zero_le _)
    (show j < ListKey.listIndexLength by omega)
  rw [hout (by omega)] at hnext
  simp only [OOCLazyListIter_iternext, hnext]
  rw [if_pos (Or.inl trivial)]

/-- Pulling to the end from a cursor that stands on position `j`. -/
theorem pullAll_from (C : Codec) (self : OOCLazyListObject) (txn db : Store) (n : Nat)
    (items : List C.PyObject) (hd : Dense txn self.listId n) (hlen : items.length = n)
    (hget : ∀ k (h : k < items.length),
      OOCLazyList_item C self txn (k : Int) = .ok (items.get ⟨k, h⟩)) :
    ∀ (fuel j : Nat), j < n → n - j ≤ fuel →
      pullAll C db fuel ⟨some self, some (txn, ⟨j, self.listId⟩)⟩ = .ok (items.drop (j + 1)) := by
  intro fuel
  induction fuel with
  | zero => intro j hj hf; omega
  | succ fuel ih =>
    intro j hj hf
    by_cases hlast : j + 1 = n
    · rw [pullAll, iternext_last C self txn db n j hd hlast]
      simp only
      rw [List.drop_eq_nil_of_le (by omega)]
    · have hj1 : j + 1 < items.length := by omega
      rw [pullAll, iternext_next C self txn db n j _ hd (by omega) (hget (j + 1) hj1)]
      simp only
      rw [ih (j + 1) (by omega) (by omega)]
      simp only
      rw [List.drop_eq_getElem_cons hj1]
      rfl

/-- Pulling a fresh iterator over a dense list to the end gives the items of the list. -/
theorem pullAll_fresh (C : Codec) (self : OOCLazyListObject) (db : Store) (n : Nat)
    (items : List C.PyObject) (hd : Dense db self.listId n) (hlen : items.length = n)
    (hget : ∀ k (h : k < items.length),
      OOCLazyList_item C self db (k : Int) = .ok (items.get ⟨k, h⟩))
    (fuel : Nat) (hf : n < fuel) :
    pullAll C db fuel (OOCLazyListIter_fastnew self) = .ok items := by
  obtain ⟨fuel, rfl⟩ : ∃ f, fuel = f + 1 := ⟨fuel - 1, by omega⟩
  by_cases hn : n = 0
  · subst hn
    rw [pullAll, iternext_first_empty C self db hd]
    simp only
    rw [List.length_eq_zero.mp hlen]
  · have h0 : 0 < items.length := by omega
    rw [pullAll, iternext_first C self db n _ hd (by omega) (hget 0 h0)]
    simp only
    rw [pullAll_from C self db db n items hd hlen hget fuel 0 (by omega) (by omega)]
    simp only
    have hdrop : items.drop 0 = items.get ⟨0, h0⟩ :: items.drop (0 + 1) :=
      List.drop_eq_getElem_cons h0
    rw [← hdrop]
    rfl

end OOC

namespace OOC

/-! ## Lexicographic comparison -/

theorem lexCompare_self {α : Type} [LinearOrder α] (xs : List α) : lexCompare xs xs = 0 := by
  induction xs with
  | nil => rfl
  | cons a as ih => simp [lexCompare, ih]

theorem lexCompare_eq_zero {α : Type} [LinearOrder α] :
    ∀ (xs ys : List α), lexCompare xs ys = 0 ↔ xs = ys
  | [], [] => by simp [lexCompare]
  | [], _ :: _ => by simp [lexCompare]
  | _ :: _, [] => by simp [lexCompare]
  | a :: as, b :: bs => by
    rw [lexCompare]
    by_cases h1 : a < b
    · rw [if_pos h1]
      constructor
      · intro h; omega
      · intro h
        rw [List.cons.injEq] at h
        exact absurd h.1 (ne_of_lt h1)
    · rw [if_neg h1]
      by_cases h2 : b < a
      · rw [if_pos h2]
        constructor
        · intro h; omega
        · intro h
          rw [List.cons.injEq] at h
          exact absurd h.1.symm (ne_of_lt h2)
      · rw [if_neg h2, lexCompare_eq_zero as bs, List.cons.injEq]
        have hab : a = b := le_antisymm (not_lt.mp h2) (not_lt.mp h1)
        constructor
        · intro h; exact ⟨hab, h⟩
        · intro h; exact h.2

theorem lexCompare_swap {α : Type} [LinearOrder α] :
    ∀ (xs ys : List α), lexCompare ys xs = - lexCompare xs ys
  | [], [] => by simp [lexCompare]
  | [], _ :: _ => by simp [lexCompare]
  | _ :: _, [] => by simp [lexCompare]
  | a :: as, b :: bs => by
    rw [lexCompare, lexCompare]
    by_cases h1 : a < b
    · simp only [if_pos h1, if_neg (not_lt_of_gt h1)]
      rfl
    · by_cases h2 : b < a
      · simp only [if_pos h2, if_neg h1]
      · simp only [if_neg h2, if_neg h1]
        exact lexCompare_swap as bs

theorem lexCompare_range {α : Type} [LinearOrder α] :
    ∀ (xs ys : List α), lexCompare xs ys = -1 ∨ lexCompare xs ys = 0 ∨ lexCompare xs ys = 1
  | [], [] => by simp [lexCompare]
  | [], _ :: _ => by simp [lexCompare]
  | _ :: _, [] => by simp [lexCompare]
  | a :: as, b :: bs => by
    rw [lexCompare]
    by_cases h1 : a < b
    · rw [if_pos h1]; exact Or.inl rfl
    · rw [if_neg h1]
      by_cases h2 : b < a
      · rw [if_pos h2]; exact Or.inr (Or.inr rfl)
      · rw [if_neg h2]; exact lexCompare_range as bs

theorem LexLess.cons_iff {α : Type} [LinearOrder α] (a : α) (as bs : List α) :
    LexLess (a :: as) (a :: bs) ↔ LexLess as bs := by
  constructor
  · rintro (⟨k, hx, hy, htake, hlt⟩ | ⟨hlen, htake⟩)
    · cases k with
      | zero => exact absurd hlt (lt_irrefl a)
      | succ k =>
        refine Or.inl ⟨k, by simpa using hx, by simpa using hy, ?_, ?_⟩
        · simp only [List.take_succ_cons, List.cons.injEq, true_and] at htake
          exact htake
        · simpa using hlt
    · refine Or.inr ⟨by simpa using hlen, ?_⟩
      simp only [List.length_cons, List.take_succ_cons, List.cons.injEq, true_and] at htake
      exact htake
  · rintro (⟨k, hx, hy, htake, hlt⟩ | ⟨hlen, htake⟩)
    · refine Or.inl ⟨k + 1, by simpa using hx, by simpa using hy, ?_, ?_⟩
      · simp only [List.take_succ_cons, htake]
      · simpa using hlt
    · refine Or.inr ⟨by simpa using hlen, ?_⟩
      simp only [List.length_cons, List.take_succ_cons, htake]

theorem LexLess.head_lt {α : Type} [LinearOrder α] {a b : α} (as bs : List α) (h : a < b) :
    LexLess (a :: as) (b :: bs) :=
  Or.inl ⟨0, by simp, by simp, by simp, by simpa using h⟩

theorem LexLess.not_of_head_gt {α : Type} [LinearOrder α] {a b : α} (as bs : List α)
    (h : b < a) : ¬ LexLess (a :: as) (b :: bs) := by
  rintro (⟨k, hx, hy, htake, hlt⟩ | ⟨hlen, htake⟩)
  · cases k with
    | zero =>
      have hab : a < b := by simpa using hlt
      exact lt_asymm h hab
    | succ k =>
      simp only [List.take_succ_cons, List.cons.injEq] at htake
      rw [htake.1] at h
      exact lt_irrefl _ h
  · simp only [List.length_cons, List.take_succ_cons, List.cons.injEq] at htake
    rw [htake.1] at h
    exact lt_irrefl _ h

theorem lexCompare_eq_neg_one {α : Type} [LinearOrder α] :
    ∀ (xs ys : List α), lexCompare xs ys = -1 ↔ LexLess xs ys
  | [], [] => by
    simp only [lexCompare]
    constructor
    · intro h; omega
    · rintro (⟨k, hx, _⟩ | ⟨hlen, _⟩)
      · simp at hx
      · simp at hlen
  | [], b :: bs => by
    simp only [lexCompare, true_iff]
    exact Or.inr ⟨by simp, by simp⟩
  | a :: as, [] => by
    simp only [lexCompare]
    constructor
    · intro h; omega
    · rintro (⟨k, _, hy, _⟩ | ⟨hlen, _⟩)
      · simp at hy
      · simp at hlen
  | a :: as, b :: bs => by
    rw [lexCompare]
    by_cases h1 : a < b
    · rw [if_pos h1]
      exact ⟨fun _ => LexLess.head_lt as bs h1, fun _ => rfl⟩
    · rw [if_neg h1]
      by_cases h2 : b < a
      · rw [if_pos h2]
        constructor
        · intro h; omega
        · intro h; exact absurd h (LexLess.not_of_head_gt as bs h2)
      · rw [if_neg h2]
        have hab : a = b := le_antisymm (not_lt.mp h2) (not_lt.mp h1)
        subst hab
        rw [lexCompare_eq_neg_one as bs, LexLess.cons_iff]

theorem lexCompare_eq_one {α : Type} [LinearOrder α] (xs ys : List α) :
    lexCompare xs ys = 1 ↔ LexLess ys xs := by
  rw [← lexCompare_eq_neg_one, lexCompare_swap xs ys]
  omega

end OOC

namespace OOC

/-! ## The comparison loop -/

theorem listIter_yields (C : Codec) :
    ∀ items : List C.PyObject, PyIter.Yields C (.listIter items) items
  | [] => by simp [PyIter.Yields, PyIter_Next]
  | item :: rest => by
    simp only [PyIter.Yields, PyIter_Next, true_and]
    exact listIter_yields C rest

/-- From a cursor on position `j` of a stored list the iterator returns the items after
that position. -/
theorem lazyListIter_yields_from (C : Codec) (list : OOCLazyListObject) (txn db : Store)
    (items : List C.PyObject) (hs : StoredItems C list txn items) :
    ∀ (d j : Nat), j < items.length → items.length - j ≤ d →
      PyIter.Yields C (.lazyListIter ⟨some list, some (txn, ⟨j, list.listId⟩)⟩ db)
        (items.drop (j + 1)) := by
  intro d
  induction d with
  | zero => intro j hj hd; omega
  | succ d ih =>
    intro j hj hd
    by_cases hlast : j + 1 = items.length
    · rw [List.drop_eq_nil_of_le (by omega)]
      simp only [PyIter.Yields, PyIter_Next,
        iternext_last C list txn db items.length j hs.1 hlast]
    · have hj1 : j + 1 < items.length := by omega
      rw [List.drop_eq_getElem_cons hj1]
      have hstep := iternext_next C list txn db items.length j _ hs.1 hj1 (hs.2 (j + 1) hj1)
      simp only [PyIter.Yields, PyIter_Next, hstep, true_and]
      refine ⟨rfl, ?_⟩
      exact ih (j + 1) hj1 (by omega)

/-- A fresh iterator over a stored list returns its items. -/
theorem lazyListIter_yields (C : Codec) (list : OOCLazyListObject) (db : Store)
    (items : List C.PyObject) (hs : StoredItems C list db items) :
    PyIter.Yields C (.lazyListIter (OOCLazyListIter_fastnew list) db) items := by
  cases items with
  | nil =>
    simp only [PyIter.Yields, PyIter_Next, iternext_first_empty C list db hs.1]
  | cons item rest =>
    have h0 : 0 < (item :: rest).length := by simp
    have hstep := iternext_first C list db _ _ hs.1 h0 (hs.2 0 h0)
    simp only [PyIter.Yields, PyIter_Next, hstep, true_and]
    refine ⟨rfl, ?_⟩
    exact lazyListIter_yields_from C list db db (item :: rest) hs _ 0 h0 (Nat.le_refl _)

/-- The loop of `OOCLazyList_richcompare` over two iterators that return `xs` and `ys`,
with totally ordered elements: it returns the result for the three-way lexicographic
comparison of `xs` and `ys`. -/
theorem richcompare_loop_spec (C : Codec) (H : Host C) [LinearOrder C.PyObject]
    (hto : H.TotallyOrdered) (op : Int) :
    ∀ (fuel : Nat) (xs ys : List C.PyObject) (a b : PyIter C),
      PyIter.Yields C a xs → PyIter.Yields C b ys → xs.length < fuel →
      richcompare_loop C H op fuel a b = richcompare_return (lexCompare xs ys) op := by
  intro fuel
  induction fuel with
  | zero => intro xs ys a b _ _ hf; omega
  | succ fuel ih =>
    intro xs ys a b ha hb hf
    rw [richcompare_loop]
    cases hpa : PyIter_Next C a with
    | mk ra a1 =>
      cases hpb : PyIter_Next C b with
      | mk rb b1 =>
        cases xs with
        | nil =>
          have hra : ra = .ok none := by
            have := ha
            simp only [PyIter.Yields, hpa] at this
            exact this
          subst hra
          cases ys with
          | nil =>
            have hrb : rb = .ok none := by
              have := hb
              simp only [PyIter.Yields, hpb] at this
              exact this
            subst hrb
            rfl
          | cons y ys =>
            have hrb : rb = .ok (some y) := by
              have := hb
              simp only [PyIter.Yields, hpb] at this
              exact this.1
            subst hrb
            rfl
        | cons x xs =>
          have hra : ra = .ok (some x) := by
            have := ha
            simp only [PyIter.Yields, hpa] at this
            exact this.1
          have ha1 : PyIter.Yields C a1 xs := by
            have := ha
            simp only [PyIter.Yields, hpa] at this
            exact this.2
          subst hra
          cases ys with
          | nil =>
            have hrb : rb = .ok none := by
              have := hb
              simp only [PyIter.Yields, hpb] at this
              exact this
            subst hrb
            rfl
          | cons y ys =>
            have hrb : rb = .ok (some y) := by
              have := hb
              simp only [PyIter.Yields, hpb] at this
              exact this.1
            have hb1 : PyIter.Yields C b1 ys := by
              have := hb
              simp only [PyIter.Yields, hpb] at this
              exact this.2
            subst hrb
            simp only [(hto x y).1, (hto x y).2, lexCompare]
            by_cases h1 : x < y
            · simp only [if_pos h1]
              simp
            · simp only [if_neg h1]
              by_cases h2 : y < x
              · simp only [if_pos h2]
                simp
              · simp only [if_neg h2]
                simp only [lt_self_iff_false, ne_eq, not_true_eq_false, if_false]
                exact ih xs ys a1 b1 ha1 hb1 (by simp at hf; omega)

/-- `OOCLazyList_richcompare` of a stored list with a host list or a stored list, with
totally ordered elements. -/
theorem richcompare_spec (C : Codec) (H : Host C) [LinearOrder C.PyObject]
    (hto : H.TotallyOrdered) (self : OOCLazyListObject) (db : Store) (other : PyCompared C)
    (ls ms : List C.PyObject) (hs : StoredItems C self db ls)
    (ho : other.HasItems C self db ms) (op : Int) :
    OOCLazyList_richcompare C H self db other op = richcompare_return (lexCompare ls ms) op := by
  have hlen := hs.1.le_length
  cases other with
  | pyList items =>
    simp only [PyCompared.HasItems] at ho
    subst ho
    simp only [OOCLazyList_richcompare]
    exact richcompare_loop_spec C H hto op _ ls items _ _ (lazyListIter_yields C self db ls hs)
      (listIter_yields C items) (by omega)
  | lazyList other =>
    simp only [PyCompared.HasItems] at ho
    simp only [OOCLazyList_richcompare]
    exact richcompare_loop_spec C H hto op _ ls ms _ _ (lazyListIter_yields C self db ls hs)
      (lazyListIter_yields C other _ ms ho) (by omega)
  | otherKind => exact absurd ho (by simp [PyCompared.HasItems])

end OOC

namespace OOC

/-! ## Iteration and comparison: the claims -/

theorem natHost_totallyOrdered : natHost.TotallyOrdered := by
  intro a b
  simp [natHost, Py_LT, Py_GT, Py_LE, Py_EQ, Py_NE]

theorem dbCmp_items7 : StoredItems natCodec ⟨0, 7⟩ dbCmp [(1 : Nat), 2, 3] := by
  refine ⟨dense_of_check (by decide), ?_⟩
  intro k h
  have h3 : k < 3 := h
  interval_cases k <;> rfl

theorem dbCmp_items8 : StoredItems natCodec ⟨0, 8⟩ dbCmp [(1 : Nat), 2] := by
  refine ⟨dense_of_check (by decide), ?_⟩
  intro k h
  have h3 : k < 2 := h
  interval_cases k <;> rfl

theorem richcompare_return_values (c : Int) (hc : c = -1 ∨ c = 0 ∨ c = 1) :
    richcompare_return c Py_LT = .ok (decide (c = -1)) ∧
    richcompare_return c Py_LE = .ok (decide (c ≠ 1)) ∧
    richcompare_return c Py_GT = .ok (decide (c = 1)) ∧
    richcompare_return c Py_GE = .ok (decide (c ≠ -1)) ∧
    richcompare_return c Py_EQ = .ok (decide (c ≠ -1)) ∧
    richcompare_return c Py_NE = .ok (decide (c = -1)) := by
  rcases hc with rfl | rfl | rfl <;> exact ⟨rfl, rfl, rfl, rfl, rfl, rfl⟩

/-- C11, the code where the first operand is the greater one: the list `[1, 2, 3]` stored
under id 7 of `dbCmp` compares equal (`==` is true, `!=` is false) to the host list
`[1, 2, 2]`, which differs from it in the last element, to the host list `[1, 2]`, which is
shorter, and to the list `[1, 2]` stored under id 8. -/
theorem C11_equal_when_greater :
    StoredItems natCodec ⟨0, 7⟩ dbCmp [(1 : Nat), 2, 3] ∧
    StoredItems natCodec ⟨0, 8⟩ dbCmp [(1 : Nat), 2] ∧
    OOCLazyList_richcompare natCodec natHost ⟨0, 7⟩ dbCmp (.pyList [(1 : Nat), 2, 2]) Py_EQ
      = .ok true ∧
    OOCLazyList_richcompare natCodec natHost ⟨0, 7⟩ dbCmp (.pyList [(1 : Nat), 2, 2]) Py_NE
      = .ok false ∧
    OOCLazyList_richcompare natCodec natHost ⟨0, 7⟩ dbCmp (.pyList [(1 : Nat), 2]) Py_EQ
      = .ok true ∧
    OOCLazyList_richcompare natCodec natHost ⟨0, 7⟩ dbCmp (.lazyList ⟨0, 8⟩) Py_EQ
      = .ok true ∧
    OOCLazyList_richcompare natCodec natHost ⟨0, 7⟩ dbCmp (.lazyList ⟨0, 8⟩) Py_NE
      = .ok false := by
  refine ⟨dbCmp_items7, dbCmp_items8, ?_, ?_, ?_, ?_, ?_⟩
  · rw [richcompare_spec natCodec natHost natHost_totallyOrdered ⟨0, 7⟩ dbCmp _ _ _
      dbCmp_items7 (show PyCompared.HasItems natCodec ⟨0, 7⟩ dbCmp (.pyList _) _ from rfl)]
    rfl
  · rw [richcompare_spec natCodec natHost natHost_totallyOrdered ⟨0, 7⟩ dbCmp _ _ _
      dbCmp_items7 (show PyCompared.HasItems natCodec ⟨0, 7⟩ dbCmp (.pyList _) _ from rfl)]
    rfl
  · rw [richcompare_spec natCodec natHost natHost_totallyOrdered ⟨0, 7⟩ dbCmp _ _ _
      dbCmp_items7 (show PyCompared.HasItems natCodec ⟨0, 7⟩ dbCmp (.pyList _) _ from rfl)]
    rfl
  · rw [richcompare_spec natCodec natHost natHost_totallyOrdered ⟨0, 7⟩ dbCmp _ _ _
      dbCmp_items7 (show PyCompared.HasItems natCodec ⟨0, 7⟩ dbCmp (.lazyList ⟨0, 8⟩) _
        from dbCmp_items8)]
    rfl
  · rw [richcompare_spec natCodec natHost natHost_totallyOrdered ⟨0, 7⟩ dbCmp _ _ _
      dbCmp_items7 (show PyCompared.HasItems natCodec ⟨0, 7⟩ dbCmp (.lazyList ⟨0, 8⟩) _
        from dbCmp_items8)]
    rfl

/-- C12: for a stored list with the items `ls` and a second operand, a host list or a stored
list, with the items `ms`, the elements being totally ordered, `L < M` is true exactly when
`ls` is lexicographically less than `ms` (at the first position where they differ the
element of `ls` is smaller, or `ls` is a strictly shorter prefix of `ms`); `<=`, `>` and
`>=` are the corresponding relations. -/
theorem C12_lexicographic_ordering (C : Codec) (H : Host C) [LinearOrder C.PyObject]
    (hto : H.TotallyOrdered) (self : OOCLazyListObject) (db : Store) (other : PyCompared C)
    (ls ms : List C.PyObject) (hs : StoredItems C self db ls)
    (ho : other.HasItems C self db ms) :
    ∃ lt le gt ge : Bool,
      OOCLazyList_richcompare C H self db other Py_LT = .ok lt ∧
      OOCLazyList_richcompare C H self db other Py_LE = .ok le ∧
      OOCLazyList_richcompare C H self db other Py_GT = .ok gt ∧
      OOCLazyList_richcompare C H self db other Py_GE = .ok ge ∧
      (lt = true ↔ LexLess ls ms) ∧
      (le = true ↔ (LexLess ls ms ∨ ls = ms)) ∧
      (gt = true ↔ LexLess ms ls) ∧
      (ge = true ↔ (LexLess ms ls ∨ ls = ms)) := by
  obtain ⟨h1, h2, h3, h4, _, _⟩ :=
    richcompare_return_values (lexCompare ls ms) (lexCompare_range ls ms)
  have hr := lexCompare_range ls ms
  refine ⟨_, _, _, _,
    (richcompare_spec C H hto self db other ls ms hs ho Py_LT).trans h1,
    (richcompare_spec C H hto self db other ls ms hs ho Py_LE).trans h2,
    (richcompare_spec C H hto self db other ls ms hs ho Py_GT).trans h3,
    (richcompare_spec C H hto self db other ls ms hs ho Py_GE).trans h4, ?_, ?_, ?_, ?_⟩
  · rw [decide_eq_true_iff, lexCompare_eq_neg_one]
  · rw [decide_eq_true_iff, ← lexCompare_eq_neg_one, ← lexCompare_eq_zero]
    omega
  · rw [decide_eq_true_iff, lexCompare_eq_one]
  · rw [decide_eq_true_iff, ← lexCompare_eq_one, ← lexCompare_eq_zero]
    omega

/-- C12, instance: the list `[1, 2, 3]` stored under id 7 of `dbCmp` against the host list
`[1, 2, 4]`; and the two examples of the claim: `[1, 2, 3] < [1, 2, 4]` is true, and
`[1, 2] < [1, 2, 3]` is true for the lists stored under the ids 8 and 7. -/
theorem C12_lexicographic_ordering_witness :
    natHost.TotallyOrdered ∧ StoredItems natCodec ⟨0, 7⟩ dbCmp [(1 : Nat), 2, 3] ∧
    (∃ lt le gt ge : Bool,
      OOCLazyList_richcompare natCodec natHost ⟨0, 7⟩ dbCmp (.pyList [(1 : Nat), 2, 4]) Py_LT
        = .ok lt ∧
      OOCLazyList_richcompare natCodec natHost ⟨0, 7⟩ dbCmp (.pyList [(1 : Nat), 2, 4]) Py_LE
        = .ok le ∧
      OOCLazyList_richcompare natCodec natHost ⟨0, 7⟩ dbCmp (.pyList [(1 : Nat), 2, 4]) Py_GT
        = .ok gt ∧
      OOCLazyList_richcompare natCodec natHost ⟨0, 7⟩ dbCmp (.pyList [(1 : Nat), 2, 4]) Py_GE
        = .ok ge ∧
      (lt = true ↔ LexLess [(1 : Nat), 2, 3] [(1 : Nat), 2, 4]) ∧
      (le = true ↔ (LexLess [(1 : Nat), 2, 3] [(1 : Nat), 2, 4] ∨
        [(1 : Nat), 2, 3] = [(1 : Nat), 2, 4])) ∧
      (gt = true ↔ LexLess [(1 : Nat), 2, 4] [(1 : Nat), 2, 3]) ∧
      (ge = true ↔ (LexLess [(1 : Nat), 2, 4] [(1 : Nat), 2, 3] ∨
        [(1 : Nat), 2, 3] = [(1 : Nat), 2, 4]))) ∧
    OOCLazyList_richcompare natCodec natHost ⟨0, 7⟩ dbCmp (.pyList [(1 : Nat), 2, 4]) Py_LT
      = .ok true ∧
    OOCLazyList_richcompare natCodec natHost ⟨0, 8⟩ dbCmp (.lazyList ⟨0, 7⟩) Py_LT
      = .ok true :=
  ⟨natHost_totallyOrdered, dbCmp_items7,
    C12_lexicographic_ordering natCodec natHost natHost_totallyOrdered ⟨0, 7⟩ dbCmp
      (.pyList [(1 : Nat), 2, 4]) [(1 : Nat), 2, 3] [(1 : Nat), 2, 4] dbCmp_items7 rfl,
    rfl, rfl⟩

/-- C13: for a list whose positions are dense with length `n` and whose `get` returns the
items `items` position by position, pulling a fresh iterator until it signals the end of the
sequence gives exactly these `n` items in this order; for `n = 0` the first pull signals the
end of the sequence. -/
theorem C13_iteration_agrees_with_indexing (C : Codec) (self : OOCLazyListObject) (db : Store)
    (n : Nat) (items : List C.PyObject) (fuel : Nat) (hd : Dense db self.listId n)
    (hlen : items.length = n)
    (hget : ∀ k (h : k < items.length),
      OOCLazyList_item C self db (k : Int) = .ok (items.get ⟨k, h⟩))
    (hf : n < fuel) :
    pullAll C db fuel (OOCLazyListIter_fastnew self) = .ok items ∧
    (n = 0 →
      OOCLazyListIter_iternext C (OOCLazyListIter_fastnew self) db = (.ok none, ⟨none, none⟩)) := by
  refine ⟨pullAll_fresh C self db n items hd hlen hget fuel hf, ?_⟩
  intro h0
  subst h0
  exact iternext_first_empty C self db hd

/-- C13, instance: iterating over the list `[1, 2, 3]` stored under id 7 of `dbCmp`. -/
theorem C13_iteration_agrees_with_indexing_witness :
    Dense dbCmp 7 3 ∧ [(1 : Nat), 2, 3].length = 3 ∧
    (∀ k (h : k < [(1 : Nat), 2, 3].length),
      OOCLazyList_item natCodec ⟨0, 7⟩ dbCmp (k : Int) = .ok ([(1 : Nat), 2, 3].get ⟨k, h⟩)) ∧
    3 < 4 ∧
    pullAll natCodec dbCmp 4 (OOCLazyListIter_fastnew ⟨0, 7⟩) = .ok [(1 : Nat), 2, 3] ∧
    (3 = 0 →
      OOCLazyListIter_iternext natCodec (OOCLazyListIter_fastnew ⟨0, 7⟩) dbCmp
        = (.ok none, ⟨none, none⟩)) :=
  ⟨dbCmp_items7.1, rfl, dbCmp_items7.2, by decide,
    C13_iteration_agrees_with_indexing natCodec ⟨0, 7⟩ dbCmp 3 [(1 : Nat), 2, 3] 4
      dbCmp_items7.1 rfl dbCmp_items7.2 (by decide)⟩

end OOC

namespace OOC

/-! ## The two paths of the search -/

/-- What a cursor returns is an entry of the table. -/
theorem cursor_get_entry {txn : Store} {pos k : ListKey} {v : MDB_val} {op : MDB_cursor_op}
    (h : cursor_get txn pos op = some (k, v)) : get txn k = some v := by
  cases op with
  | MDB_SET_KEY =>
    rw [cursor_get_set_key] at h
    cases hg : get txn pos with
    | none => rw [hg] at h; simp at h
    | some w =>
      rw [hg] at h
      simp only [Option.map_some', Option.some.injEq, Prod.mk.injEq] at h
      rw [← h.1, ← h.2]; exact hg
  | MDB_SET_RANGE => exact (seekMin_some h).2.1
  | MDB_NEXT => exact (seekMin_some h).2.1

/-- The token test with a needle whose type code is not `0xff`. -/
theorem needleMatches_encoded (C : Codec) (H : Host C) (value : C.PyObject)
    (t : EncodedValue C.sizeofEncodedValue) (txn : Store)
    (e : EncodedValue C.sizeofEncodedValue) (htc : H.typeCodeWithLength t ≠ 255) :
    needleMatches C H value (.encoded t) txn e = .ok (decide (t.bytes = e.bytes)) := by
  simp only [needleMatches, Needle.typeCodeWithLength, if_neg htc, Needle.equals]

/-- The value test with a needle that is marked unusable. -/
theorem needleMatches_unusable (C : Codec) (H : Host C) (value : C.PyObject) (txn : Store)
    (e : EncodedValue C.sizeofEncodedValue) (item : C.PyObject)
    (hdec : C.OOCMap_decode e txn = .ok item) :
    needleMatches C H value .unusable txn e
      = .ok (decide (H.PyObject_RichCompareBool value item Py_EQ ≠ 0)) := by
  simp only [needleMatches, Needle.typeCodeWithLength, if_true, hdec]

/-- Under the codec contract the two tests of an entry of the list agree. -/
theorem needleMatches_agree (C : Codec) (H : Host C) (listId : Nat) (txn : Store)
    (value : C.PyObject) (t : EncodedValue C.sizeofEncodedValue)
    (htc : H.typeCodeWithLength t ≠ 255) (hca : ContentAddressed C H listId txn value t)
    (k : ListKey) (mv : MDB_val) (h : mv.length = C.sizeofEncodedValue)
    (hid : k.listId = listId) (hg : get txn k = some mv) :
    needleMatches C H value (.encoded t) txn ⟨mv, h⟩
      = needleMatches C H value .unusable txn ⟨mv, h⟩ := by
  obtain ⟨item, hdec, hiff⟩ := hca k ⟨mv, h⟩ hid hg
  rw [needleMatches_encoded C H value t txn _ htc,
    needleMatches_unusable C H value txn _ item hdec]
  congr 1
  exact (decide_eq_decide.mpr hiff).symm

/-- Two needles whose tests agree on the entries of the list give the same `index` loop. -/
theorem index_loop_congr (C : Codec) (H : Host C) (listId : Nat) (value : C.PyObject)
    (a b : Needle C) (stop : Int) (txn : Store)
    (hm : ∀ (k : ListKey) (mv : MDB_val) (h : mv.length = C.sizeofEncodedValue),
      k.listId = listId → get txn k = some mv →
      needleMatches C H value a txn ⟨mv, h⟩ = needleMatches C H value b txn ⟨mv, h⟩) :
    ∀ (fuel : Nat) (k : ListKey) (v : MDB_val), get txn k = some v →
      index_loop C H listId value a stop fuel txn k v
        = index_loop C H listId value b stop fuel txn k v := by
  intro fuel
  induction fuel with
  | zero => intro k v _; rfl
  | succ fuel ih =>
    intro k v hg
    rw [index_loop, index_loop]
    by_cases hc : (k.listIndex : Int) ≥ stop ∨ k.listId ≠ listId ∨
        k.listIndex = ListKey.listIndexLength
    · rw [if_pos hc, if_pos hc]
    · rw [if_neg hc, if_neg hc]
      by_cases hsz : v.length = C.sizeofEncodedValue
      · rw [dif_pos hsz, dif_pos hsz, hm k v hsz (by tauto) hg]
        cases hr : needleMatches C H value b txn ⟨v, hsz⟩ with
        | error e => rfl
        | ok m =>
          cases m with
          | true => rfl
          | false =>
            simp only
            cases hn : cursor_get txn k .MDB_NEXT with
            | none => rfl
            | some kv =>
              obtain ⟨k1, v1⟩ := kv
              exact ih k1 v1 (cursor_get_entry hn)
      · rw [dif_neg hsz, dif_neg hsz]

/-- Two needles whose tests agree on the entries of the list give the same `count` loop. -/
theorem count_loop_congr (C : Codec) (H : Host C) (listId : Nat) (value : C.PyObject)
    (a b : Needle C) (txn : Store)
    (hm : ∀ (k : ListKey) (mv : MDB_val) (h : mv.length = C.sizeofEncodedValue),
      k.listId = listId → get txn k = some mv →
      needleMatches C H value a txn ⟨mv, h⟩ = needleMatches C H value b txn ⟨mv, h⟩) :
    ∀ (fuel : Nat) (k : ListKey) (v : MDB_val) (count : Nat), get txn k = some v →
      count_loop C H listId value a fuel txn k v count
        = count_loop C H listId value b fuel txn k v count := by
  intro fuel
  induction fuel with
  | zero => intro k v c _; rfl
  | succ fuel ih =>
    intro k v c hg
    rw [count_loop, count_loop]
    by_cases hc : k.listId ≠ listId ∨ k.listIndex = ListKey.listIndexLength
    · rw [if_pos hc, if_pos hc]
    · rw [if_neg hc, if_neg hc]
      by_cases hsz : v.length = C.sizeofEncodedValue
      · rw [dif_pos hsz, dif_pos hsz, hm k v hsz (by tauto) hg]
        cases hr : needleMatches C H value b txn ⟨v, hsz⟩ with
        | error e => rfl
        | ok m =>
          simp only
          cases hn : cursor_get txn k .MDB_NEXT with
          | none => rfl
          | some kv =>
            obtain ⟨k1, v1⟩ := kv
            exact ih k1 v1 _ (cursor_get_entry hn)
      · rw [dif_neg hsz, dif_neg hsz]

theorem natCodec_contentAddressed (listId : Nat) (txn : Store) (value : Nat) :
    ContentAddressed natCodec natHost listId txn value ⟨[value], rfl⟩ := by
  intro key e _ _
  obtain ⟨bytes, hsz⟩ := e
  match bytes, hsz with
  | [x], _ =>
    refine ⟨x, rfl, ?_⟩
    simp [natHost, Py_LT, Py_LE, Py_EQ]

/-- C16: under the codec contract that the value of an entry equals the needle exactly when
its token is byte for byte the token of the needle, the scan of `index` on the fast path
(tokens compared with the token of the needle) returns what the scan on the fallback path
(entries decoded and compared by value) returns, for every start and stop, and so does the
scan of `count`. -/
theorem C16_search_paths_agree (C : Codec) (H : Host C) (self : OOCLazyListObject)
    (txn : Store) (value : C.PyObject) (t : EncodedValue C.sizeofEncodedValue)
    (start stop : Int) (htc : H.typeCodeWithLength t ≠ 255)
    (hca : ContentAddressed C H self.listId txn value t) :
    index_scan C H self txn value (.encoded t) start stop
      = index_scan C H self txn value .unusable start stop ∧
    count_scan C H self txn value (.encoded t) = count_scan C H self txn value .unusable := by
  have hm := needleMatches_agree C H self.listId txn value t htc hca
  constructor
  · unfold index_scan
    cases hr : cursor_get txn ⟨toU32 start, self.listId⟩ .MDB_SET_RANGE with
    | none => rfl
    | some kv =>
      obtain ⟨k, v⟩ := kv
      simp only
      rw [index_loop_congr C H self.listId value _ _ stop txn hm _ k v (cursor_get_entry hr)]
  · unfold count_scan
    cases hr : cursor_get txn ⟨0, self.listId⟩ .MDB_SET_RANGE with
    | none => rfl
    | some kv =>
      obtain ⟨k, v⟩ := kv
      simp only
      rw [count_loop_congr C H self.listId value _ _ txn hm _ k v 0 (cursor_get_entry hr)]

/-- C16, instance: searching 30 in the list `[10, 20, 30]` under id 7 of `db78`, from the
start to the end; both paths find it at position 2 and count it once. -/
theorem C16_search_paths_agree_witness :
    natHost.typeCodeWithLength ⟨[30], rfl⟩ ≠ 255 ∧
    ContentAddressed natCodec natHost 7 db78 (30 : Nat) ⟨[30], rfl⟩ ∧
    (index_scan natCodec natHost ⟨0, 7⟩ db78 (30 : Nat) (.encoded ⟨[30], rfl⟩) 0
        9223372036854775807
      = index_scan natCodec natHost ⟨0, 7⟩ db78 (30 : Nat) .unusable 0 9223372036854775807 ∧
    count_scan natCodec natHost ⟨0, 7⟩ db78 (30 : Nat) (.encoded ⟨[30], rfl⟩)
      = count_scan natCodec natHost ⟨0, 7⟩ db78 (30 : Nat) .unusable) ∧
    index_scan natCodec natHost ⟨0, 7⟩ db78 (30 : Nat) .unusable 0 9223372036854775807
      = .ok 2 ∧
    count_scan natCodec natHost ⟨0, 7⟩ db78 (30 : Nat) .unusable = .ok 1 :=
  ⟨by decide, natCodec_contentAddressed 7 db78 30,
    C16_search_paths_agree natCodec natHost ⟨0, 7⟩ db78 (30 : Nat) ⟨[30], rfl⟩ 0
      9223372036854775807 (by decide) (natCodec_contentAddressed 7 db78 30),
    rfl, rfl⟩

end OOC

namespace OOC

/-! ## Counting on the fast path -/

/-- The `count` loop over a well-formed list from a cursor on position `j`, with a needle
that is a token: the matches at the positions from `j` on are added to the count. -/
theorem count_loop_spec (C : Codec) (H : Host C) (id n : Nat) (txn : Store)
    (value : C.PyObject) (t : EncodedValue C.sizeofEncodedValue)
    (hwf : WellFormed C txn id n) (htc : H.typeCodeWithLength t ≠ 255) :
    ∀ (fuel j : Nat) (sk : ListKey) (v : MDB_val) (c : Nat),
      j ≤ n → n - j < fuel → get txn sk = some v →
      (j < n → sk = ⟨j, id⟩) → (¬ j < n → sk = ⟨ListKey.listIndexLength, id⟩) →
      count_loop C H id value (.encoded t) fuel txn sk v c
        = .ok (c + (List.range' j (n - j)).countP (fun p => decide (TokenAt txn id t.bytes p))) := by
  have hS := sentinel_val
  have hn := hwf.1.le_sentinel
  intro fuel
  induction fuel with
  | zero => intro j sk v c _ hf; omega
  | succ fuel ih =>
    intro j sk v c hjn hf hv hin hout
    rw [count_loop]
    by_cases hlt : j < n
    · have hsk := hin hlt
      subst hsk
      have hc : ¬ ((⟨j, id⟩ : ListKey).listId ≠ id ∨
          (⟨j, id⟩ : ListKey).listIndex = ListKey.listIndexLength) := by
        simp only [ne_eq, not_true_eq_false, false_or]; omega
      have hsz : v.length = C.sizeofEncodedValue := hwf.2 j v (by omega) hv
      rw [if_neg hc, dif_pos hsz, needleMatches_encoded C H value t txn _ htc]
      simp only
      obtain ⟨sk1, v1, hnext, hv1, hin1, hout1⟩ :=
        hwf.1.span.next (Nat.zero_le _) (show j < ListKey.listIndexLength by omega)
      rw [hnext]
      simp only
      rw [ih (j + 1) sk1 v1 _ (by omega) (by omega) hv1 hin1 hout1]
      have hr : List.range' j (n - j) = j :: List.range' (j + 1) (n - (j + 1)) := by
        have : n - j = (n - (j + 1)) + 1 := by omega
        rw [this, List.range'_succ]
      rw [hr, List.countP_cons]
      have hiff : (decide (TokenAt txn id t.bytes j) = true) ↔ t.bytes = v := by
        rw [decide_eq_true_iff]
        unfold TokenAt
        rw [hv, Option.some.injEq]
        exact eq_comm
      by_cases hm : t.bytes = v
      · rw [if_pos (decide_eq_true hm), if_pos (hiff.mpr hm)]
        congr 1
        omega
      · rw [if_neg (by simpa using hm), if_neg (fun hx => hm (hiff.mp hx))]
        congr 1
    · have hsk := hout hlt
      subst hsk
      rw [if_pos (Or.inr rfl)]
      have : n - j = 0 := by omega
      rw [this]
      rfl

/-- The scan of `count` over a well-formed list with a needle that is a token. -/
theorem count_scan_spec (C : Codec) (H : Host C) (self : OOCLazyListObject) (n : Nat)
    (txn : Store) (value : C.PyObject) (t : EncodedValue C.sizeofEncodedValue)
    (hwf : WellFormed C txn self.listId n) (htc : H.typeCodeWithLength t ≠ 255) :
    count_scan C H self txn value (.encoded t)
      = .ok ((List.range n).countP (fun p => decide (TokenAt txn self.listId t.bytes p))) := by
  obtain ⟨sk, v, hrange, hv, hin, hout⟩ :=
    hwf.1.span.range (Nat.le_refl 0) (Nat.zero_le _)
  have hlen := hwf.1.le_length
  unfold count_scan
  rw [hrange]
  simp only
  rw [count_loop_spec C H self.listId n txn value t hwf htc _ 0 sk v 0 (Nat.zero_le _)
    (by omega) hv hin hout, List.range_eq_range']
  simp

/-- C15: for a well-formed list of length `n` and a needle whose encoding in the read
transaction succeeds with the token `t`, `count(L, v)` is the number of positions below `n`
whose stored token is byte for byte `t`, and it is at most `n`.  The codec is assumed not to
touch the entries of the list while it encodes, and never to produce a token with the type
code `0xff`, which the code uses as its mark for "no token". -/
theorem C15_count_result (C : Codec) (H : Host C) (self : OOCLazyListObject) (db : Store)
    (n : Nat) (value : C.PyObject) (t : EncodedValue C.sizeofEncodedValue) (txn1 : Store)
    (m1 : C.Id2EncodedMap) (hwf : WellFormed C db self.listId n)
    (hk : EncodeKeeps C self.listId)
    (he : C.OOCMap_encode value db C.noInsertedItems true = .ok (t, txn1, m1))
    (htc : H.typeCodeWithLength t ≠ 255) :
    OOCLazyListObject_count C H self db value
      = .ok ((List.range n).countP (fun p => decide (TokenAt db self.listId t.bytes p))) ∧
    (List.range n).countP (fun p => decide (TokenAt db self.listId t.bytes p)) ≤ n := by
  have hkeep := hk value db _ _ t txn1 m1 he
  have hwf1 : WellFormed C txn1 self.listId n := hwf.wf_of_get_eq hkeep
  constructor
  · simp only [OOCLazyListObject_count, encodeNeedle, he]
    rw [count_scan_spec C H self n txn1 value t hwf1 htc]
    simp only [TokenAt, hkeep]
  · have := List.countP_le_length (fun p => decide (TokenAt db self.listId t.bytes p))
      (l := List.range n)
    simpa using this

/-- C15, instance: counting 30 in the list `[10, 20, 30]` under id 7 of `db78` gives 1. -/
theorem C15_count_result_witness :
    WellFormed natCodec db78 7 3 ∧ natHost.typeCodeWithLength ⟨[30], rfl⟩ ≠ 255 ∧
    (OOCLazyListObject_count natCodec natHost ⟨0, 7⟩ db78 (30 : Nat)
      = .ok ((List.range 3).countP (fun p => decide (TokenAt db78 7 [30] p))) ∧
    (List.range 3).countP (fun p => decide (TokenAt db78 7 [30] p)) ≤ 3) ∧
    (List.range 3).countP (fun p => decide (TokenAt db78 7 [30] p)) = 1 :=
  ⟨wellFormed_of_check (by decide), by decide,
    C15_count_result natCodec natHost ⟨0, 7⟩ db78 3 (30 : Nat) ⟨[30], rfl⟩ db78 ()
      (wellFormed_of_check (by decide)) (natCodec_keeps 7) rfl (by decide),
    by decide⟩

end OOC

namespace OOC

/-! ## Indices outside the list: the claims -/

/-- C14, the code at a start of `2^32`: in the one-item list `[10]` under id 7 of `db7`,
`index(L, 10, 2^32, 2^63 - 1)` returns position 0, although no position `p` with
`2^32 ≤ p` and `p < 1` exists (the start is narrowed to the `uint32_t` 0); with the start
1 the same search returns -1, "not found". -/
theorem C14_index_start_truncated :
    WellFormed natCodec db7 7 1 ∧
    OOCLazyListObject_index natCodec natHost ⟨0, 7⟩ db7 (10 : Nat) 4294967296
      9223372036854775807 = .ok 0 ∧
    OOCLazyListObject_index natCodec natHost ⟨0, 7⟩ db7 (10 : Nat) 1
      9223372036854775807 = .ok (-1) ∧
    ¬ ∃ p : Nat, (4294967296 : Int) ≤ (p : Int) ∧ p < 1 := by
  refine ⟨wellFormed_of_check (by decide), rfl, rfl, ?_⟩
  rintro ⟨p, h1, h2⟩
  omega

/-- C17, the code when the source of `extend` raises: for the one-item list `[10]` under
id 7 of `db7` and an iterator that returns 5 and then raises, `extend` returns with the
error indicator set, and the table is not the table before: the 5 is stored at position 1
and the length is 2. -/
theorem C17_failed_extend_is_committed :
    WellFormed natCodec db7 7 1 ∧
    OOCLazyList_extend_errorOccurred natCodec ⟨0, 7⟩ db7 (.iterable [(5 : Nat)] true) = true ∧
    (OOCLazyList_extend natCodec ⟨0, 7⟩ db7 (.iterable [(5 : Nat)] true)).2 ≠ db7 ∧
    get (OOCLazyList_extend natCodec ⟨0, 7⟩ db7 (.iterable [(5 : Nat)] true)).2 ⟨1, 7⟩
      = some [5] ∧
    OOCLazyList_length ⟨0, 7⟩
      (OOCLazyList_extend natCodec ⟨0, 7⟩ db7 (.iterable [(5 : Nat)] true)).2 = .ok 2 := by
  refine ⟨wellFormed_of_check (by decide), rfl, by decide, rfl, rfl⟩

/-- C18, the code at the indices `2^32` and `2^32 - 1`: in the one-item list `[10]` under
id 7 of `db7`, `get(L, 2^32)` returns the item at position 0 (the index is narrowed to a
`uint32_t`), and `get(L, 2^32 - 1)` reads the sentinel record and fails with
`UnexpectedData`; neither index is below the length 1, and neither call fails with
`IndexError`, as `get(L, 1)` does. -/
theorem C18_get_index_truncated :
    WellFormed natCodec db7 7 1 ∧
    OOCLazyList_item natCodec ⟨0, 7⟩ db7 4294967296 = .ok 10 ∧
    OOCLazyList_item natCodec ⟨0, 7⟩ db7 4294967295 = .error .UnexpectedData ∧
    OOCLazyList_item natCodec ⟨0, 7⟩ db7 1 = .error .IndexError :=
  ⟨wellFormed_of_check (by decide), rfl, rfl, rfl⟩

/-- C19, the code at the indices `2^32` and `2^32 - 1`: in the one-item list `[10]` under
id 7 of `db7`, `delete(L, 2^32)` succeeds and removes the item at position 0; on the empty
list under id 7 of `dbEmpty`, `delete(L, 2^32 - 1)` succeeds and removes the sentinel
record; and in `db78`, `delete(L, 2^32 - 1)` on the list under id 7 succeeds, stores the
length `2^32 - 1` for it, and overwrites the entries and removes the sentinel record of the
list under id 8. -/
theorem C19_delete_index_truncated :
    WellFormed natCodec db7 7 1 ∧
    OOCLazyList_setItem natCodec ⟨0, 7⟩ db7 4294967296 none
      = (.ok (), [(⟨ListKey.listIndexLength, 7⟩, u32Bytes 0)]) ∧
    WellFormed natCodec dbEmpty 7 0 ∧
    OOCLazyList_setItem natCodec ⟨0, 7⟩ dbEmpty 4294967295 none = (.ok (), []) ∧
    WellFormed natCodec db78 7 3 ∧ WellFormed natCodec db78 8 2 ∧
    (OOCLazyList_setItem natCodec ⟨0, 7⟩ db78 4294967295 none).1 = .ok () ∧
    OOCLazyList_length ⟨0, 7⟩ (OOCLazyList_setItem natCodec ⟨0, 7⟩ db78 4294967295 none).2
      = .ok 4294967295 ∧
    get (OOCLazyList_setItem natCodec ⟨0, 7⟩ db78 4294967295 none).2 ⟨0, 8⟩ = some [20] ∧
    get (OOCLazyList_setItem natCodec ⟨0, 7⟩ db78 4294967295 none).2
      ⟨ListKey.listIndexLength, 8⟩ = none :=
  ⟨wellFormed_of_check (by decide), rfl, wellFormed_of_check (by decide), rfl,
    wellFormed_of_check (by decide), wellFormed_of_check (by decide), rfl, rfl, rfl, rfl⟩

/-- C20: for a list whose sentinel record holds `n` and whose other entries are exactly at
the positions below `n`, an encodable value and any index `i`, `set(L, i, v)` fails with
`IndexError` if and only if `i < 0` or `i ≥ n`. -/
theorem C20_set_bounds_error (C : Codec) (self : OOCLazyListObject) (db : Store) (n : Nat)
    (index : Int) (item : C.PyObject) (hd : Dense db self.listId n)
    (henc : Encodable C item) :
    (OOCLazyList_setItem C self db index (some item)).1 = .error .IndexError ↔
      (index < 0 ∨ index ≥ (n : Int)) := by
  obtain ⟨ooc, id⟩ := self
  unfold OOCLazyList_setItem
  by_cases h0 : index < 0
  · rw [if_pos h0]
    exact ⟨fun _ => Or.inl h0, fun _ => rfl⟩
  · rw [if_neg h0]
    by_cases hge : index ≥ (n : Int)
    · have htry : setItem_try C ⟨ooc, id⟩ db index (some item) = .error .IndexError := by
        simp only [setItem_try, hd.length_eq ooc, if_pos hge]
      rw [htry]
      exact ⟨fun _ => Or.inr hge, fun _ => rfl⟩
    · obtain ⟨⟨t, sA, mA⟩, he⟩ := henc db C.noInsertedItems
      have htry : setItem_try C ⟨ooc, id⟩ db index (some item)
          = .ok (put sA ⟨toU32 index, id⟩ t.bytes) := by
        simp only [setItem_try, hd.length_eq ooc, if_neg hge, he]
      rw [htry]
      constructor
      · intro h; simp at h
      · intro h; omega

/-- C20, instance: setting index 5 of the list `[10, 20, 30]` under id 7 of `db78` fails
with `IndexError`, setting index 2 does not. -/
theorem C20_set_bounds_error_witness :
    Dense db78 7 3 ∧ Encodable natCodec (77 : Nat) ∧
    ((OOCLazyList_setItem natCodec ⟨0, 7⟩ db78 5 (some (77 : Nat))).1 = .error .IndexError ↔
      ((5 : Int) < 0 ∨ (5 : Int) ≥ ((3 : Nat) : Int))) ∧
    (OOCLazyList_setItem natCodec ⟨0, 7⟩ db78 5 (some (77 : Nat))).1 = .error .IndexError ∧
    (OOCLazyList_setItem natCodec ⟨0, 7⟩ db78 2 (some (77 : Nat))).1 = .ok () :=
  ⟨dense_of_check (by decide), natCodec_encodable 77,
    C20_set_bounds_error natCodec ⟨0, 7⟩ db78 3 5 (77 : Nat) (dense_of_check (by decide))
      (natCodec_encodable 77),
    rfl, rfl⟩

end OOC

namespace OOC

/-! ## The search for a position on the fast path -/

/-- The `index` loop over a well-formed list from a cursor on position `j`, with a needle
that is a token: it stops at the first position from `j` on, below `stop`, whose token is
the needle. -/
theorem index_loop_spec (C : Codec) (H : Host C) (id n : Nat) (txn : Store)
    (value : C.PyObject) (t : EncodedValue C.sizeofEncodedValue) (stop : Int)
    (hwf : WellFormed C txn id n) (htc : H.typeCodeWithLength t ≠ 255) :
    ∀ (fuel j : Nat) (sk : ListKey) (v : MDB_val),
      j ≤ n → n - j < fuel → get txn sk = some v →
      (j < n → sk = ⟨j, id⟩) → (¬ j < n → sk = ⟨ListKey.listIndexLength, id⟩) →
      ∃ r, index_loop C H id value (.encoded t) stop fuel txn sk v = .ok r ∧
        ((r = none ∧ ∀ p : Nat, j ≤ p → p < n → (p : Int) < stop →
            ¬ TokenAt txn id t.bytes p) ∨
          (∃ p : Nat, r = some ⟨p, id⟩ ∧ j ≤ p ∧ p < n ∧ (p : Int) < stop ∧
            TokenAt txn id t.bytes p ∧ ∀ q : Nat, j ≤ q → q < p → ¬ TokenAt txn id t.bytes q)) := by
  have hS := sentinel_val
  have hn := hwf.1.le_sentinel
  intro fuel
  induction fuel with
  | zero => intro j sk v _ hf; omega
  | succ fuel ih =>
    intro j sk v hjn hf hv hin hout
    rw [index_loop]
    by_cases hlt : j < n
    · have hsk := hin hlt
      subst hsk
      by_cases hstop : (j : Int) ≥ stop
      · rw [if_pos (Or.inl hstop)]
        refine ⟨none, rfl, Or.inl ⟨rfl, ?_⟩⟩
        intro p h1 _ h3
        omega
      · have hc : ¬ (((⟨j, id⟩ : ListKey).listIndex : Int) ≥ stop ∨
            (⟨j, id⟩ : ListKey).listId ≠ id ∨
            (⟨j, id⟩ : ListKey).listIndex = ListKey.listIndexLength) := by
          simp only [ne_eq, not_true_eq_false, false_or]
          omega
        have hsz : v.length = C.sizeofEncodedValue := hwf.2 j v (by omega) hv
        have hiff : TokenAt txn id t.bytes j ↔ t.bytes = v := by
          unfold TokenAt
          rw [hv, Option.some.injEq]
          exact eq_comm
        rw [if_neg hc, dif_pos hsz, needleMatches_encoded C H value t txn _ htc]
        by_cases hm : t.bytes = v
        · rw [decide_eq_true hm]
          refine ⟨some ⟨j, id⟩, rfl, Or.inr ⟨j, rfl, Nat.le_refl _, hlt, by omega,
            hiff.mpr hm, ?_⟩⟩
          intro q h1 h2
          omega
        · rw [decide_eq_false hm]
          simp only
          obtain ⟨sk1, v1, hnext, hv1, hin1, hout1⟩ :=
            hwf.1.span.next (Nat.zero_le _) (show j < ListKey.listIndexLength by omega)
          rw [hnext]
          simp only
          obtain ⟨r, hr, hchar⟩ := ih (j + 1) sk1 v1 (by omega) (by omega) hv1 hin1 hout1
          refine ⟨r, hr, ?_⟩
          rcases hchar with ⟨hnone, hall⟩ | ⟨p, hp, h1, h2, h3, h4, h5⟩
          · refine Or.inl ⟨hnone, ?_⟩
            intro p h1 h2 h3
            by_cases hpj : p = j
            · subst hpj
              exact fun hx => hm (hiff.mp hx)
            · exact hall p (by omega) h2 h3
          · refine Or.inr ⟨p, hp, by omega, h2, h3, h4, ?_⟩
            intro q hq1 hq2
            by_cases hqj : q = j
            · subst hqj
              exact fun hx => hm (hiff.mp hx)
            · exact h5 q (by omega) hq2
    · have hsk := hout hlt
      subst hsk
      rw [if_pos (Or.inr (Or.inr rfl))]
      refine ⟨none, rfl, Or.inl ⟨rfl, ?_⟩⟩
      intro p h1 h2 _
      omega

/-- The scan of `index` over a well-formed list with a needle that is a token, from a start
that is a `uint32_t`: the first position from the start on, below the stop and below the
length, whose token is the needle, or -1 when there is none. -/
theorem index_scan_spec (C : Codec) (H : Host C) (self : OOCLazyListObject) (n : Nat)
    (txn : Store) (value : C.PyObject) (t : EncodedValue C.sizeofEncodedValue)
    (start : Nat) (stop : Int) (hwf : WellFormed C txn self.listId n)
    (htc : H.typeCodeWithLength t ≠ 255) (hstart : start < 4294967296) :
    ∃ r, index_scan C H self txn value (.encoded t) (start : Int) stop = .ok r ∧
      ((r = -1 ∧ ∀ p : Nat, start ≤ p → p < n → (p : Int) < stop →
          ¬ TokenAt txn self.listId t.bytes p) ∨
        (∃ p : Nat, r = (p : Int) ∧ start ≤ p ∧ p < n ∧ (p : Int) < stop ∧
          TokenAt txn self.listId t.bytes p ∧
          ∀ q : Nat, start ≤ q → q < p → ¬ TokenAt txn self.listId t.bytes q)) := by
  have hS := sentinel_val
  have hn := hwf.1.le_sentinel
  have hlen := hwf.1.le_length
  obtain ⟨sk, v, hrange, hv, hin, hout⟩ :=
    hwf.1.span.range (Nat.zero_le start) (show start ≤ ListKey.listIndexLength by omega)
  unfold index_scan
  rw [toU32_natCast hstart, hrange]
  simp only
  by_cases hlt : start < n
  · obtain ⟨r, hr, hchar⟩ := index_loop_spec C H self.listId n txn value t stop hwf htc
      (txn.length + 1) start sk v (by omega) (by omega) hv hin hout
    rw [hr]
    rcases hchar with ⟨hnone, hall⟩ | ⟨p, hp, h1, h2, h3, h4, h5⟩
    · subst hnone
      exact ⟨-1, rfl, Or.inl ⟨rfl, hall⟩⟩
    · subst hp
      exact ⟨(p : Int), rfl, Or.inr ⟨p, rfl, h1, h2, h3, h4, h5⟩⟩
  · obtain ⟨r, hr, hchar⟩ := index_loop_spec C H self.listId n txn value t stop hwf htc
      (txn.length + 1) n sk v (Nat.le_refl _) (by omega) hv (fun hx => absurd hx (by omega))
      (fun _ => hout hlt)
    rw [hr]
    rcases hchar with ⟨hnone, _⟩ | ⟨p, _, h1, h2, _⟩
    · subst hnone
      refine ⟨-1, rfl, Or.inl ⟨rfl, ?_⟩⟩
      intro p h1 h2 _
      omega
    · omega

/-- The normalisation of `start` and `stop` for a list with dense positions. -/
theorem index_bounds_spec (self : OOCLazyListObject) (txn : Store) (n : Nat)
    (start stop : Int) (hd : Dense txn self.listId n) :
    index_bounds self txn start stop
      = .ok (if start < 0 then (if start + n < 0 then 0 else start + n) else start,
          if stop < 0 then stop + n else stop) := by
  obtain ⟨ooc, id⟩ := self
  unfold index_bounds
  by_cases h1 : start < 0
  · by_cases h2 : stop < 0
    · simp only [if_pos h1, if_pos h2, hd.length_eq ooc]
      rw [if_neg (by omega)]
    · simp only [if_pos h1, if_neg h2, hd.length_eq ooc]
  · by_cases h2 : stop < 0
    · simp only [if_neg h1, if_pos h2, hd.length_eq ooc]
      rw [if_pos (by omega)]
    · simp only [if_neg h1, if_neg h2]

/-- `index` on the fast path, for a start that is below `2^32` once it is normalised: the
smallest position `p` of a well-formed list with `s ≤ p < e` and `p < n` whose token is the
token of the needle, or -1 when there is none; `s` and `e` are the normalised start and
stop. -/
theorem index_result (C : Codec) (H : Host C) (self : OOCLazyListObject) (db : Store)
    (n : Nat) (value : C.PyObject) (t : EncodedValue C.sizeofEncodedValue) (txn1 : Store)
    (m1 : C.Id2EncodedMap) (start stop s e : Int) (hwf : WellFormed C db self.listId n)
    (hk : EncodeKeeps C self.listId)
    (he : C.OOCMap_encode value db C.noInsertedItems true = .ok (t, txn1, m1))
    (htc : H.typeCodeWithLength t ≠ 255)
    (hs : s = if start < 0 then (if start + n < 0 then 0 else start + n) else start)
    (hstop : e = if stop < 0 then stop + n else stop)
    (hlt : s < 4294967296) :
    ∃ r, OOCLazyListObject_index C H self db value start stop = .ok r ∧
      ((r = -1 ∧ ∀ p : Nat, s ≤ (p : Int) → p < n → (p : Int) < e →
          ¬ TokenAt db self.listId t.bytes p) ∨
        (∃ p : Nat, r = (p : Int) ∧ s ≤ (p : Int) ∧ p < n ∧ (p : Int) < e ∧
          TokenAt db self.listId t.bytes p ∧
          ∀ q : Nat, s ≤ (q : Int) → q < p → ¬ TokenAt db self.listId t.bytes q)) := by
  have hkeep := hk value db _ _ t txn1 m1 he
  have hwf1 : WellFormed C txn1 self.listId n := hwf.wf_of_get_eq hkeep
  have hs0 : 0 ≤ s := by
    rw [hs]
    split
    · split <;> omega
    · omega
  obtain ⟨sn, hsn⟩ : ∃ sn : Nat, s = (sn : Int) := ⟨s.toNat, by omega⟩
  obtain ⟨r, hr, hchar⟩ := index_scan_spec C H self n txn1 value t sn e hwf1 htc (by omega)
  refine ⟨r, ?_, ?_⟩
  · simp only [OOCLazyListObject_index, index_bounds_spec self db n start stop hwf.1,
      encodeNeedle, he]
    rw [← hs, ← hstop, hsn]
    exact hr
  · simp only [TokenAt, hkeep] at hchar
    simp only [TokenAt]
    rcases hchar with ⟨h1, h2⟩ | ⟨p, h1, h2, h3, h4, h5, h6⟩
    · refine Or.inl ⟨h1, ?_⟩
      intro p hp1 hp2 hp3
      exact h2 p (by omega) hp2 hp3
    · refine Or.inr ⟨p, h1, by omega, h3, h4, h5, ?_⟩
      intro q hq1 hq2
      exact h6 q (by omega) hq2

end OOC

namespace OOC

/-! ## The iterator after its end, comparison with another kind, search short-circuit -/

/-- After a pull that failed, an iterator that had a list is the fresh iterator over that
list again: its cursor is closed, its list is kept. -/
theorem iternext_error_state (C : Codec) (it : OOCLazyListIterObject) (db : Store)
    (list : OOCLazyListObject) (e : OocError) (hl : it.list = some list)
    (h : (OOCLazyListIter_iternext C it db).1 = .error e) :
    (OOCLazyListIter_iternext C it db).2 = OOCLazyListIter_fastnew list := by
  obtain ⟨l, c⟩ := it
  simp only at hl
  subst hl
  unfold OOCLazyListIter_iternext at h ⊢
  simp only at h ⊢
  cases c with
  | none =>
    simp only at h ⊢
    cases hg : cursor_get db ⟨0, list.listId⟩ .MDB_SET_KEY with
    | none => rw [hg] at h; simp at h
    | some kv =>
      obtain ⟨k, v⟩ := kv
      rw [hg] at h
      simp only at h ⊢
      by_cases hsz : v.length = C.sizeofEncodedValue
      · rw [dif_pos hsz] at h ⊢
        cases hd : C.OOCMap_decode ⟨v, hsz⟩ db with
        | error e1 => rfl
        | ok item => rw [hd] at h; simp at h
      · rw [dif_neg hsz]
        rfl
  | some tp =>
    obtain ⟨txn, pos⟩ := tp
    simp only at h ⊢
    cases hg : cursor_get txn pos .MDB_NEXT with
    | none => rw [hg] at h; simp at h
    | some kv =>
      obtain ⟨k, v⟩ := kv
      rw [hg] at h
      simp only at h ⊢
      by_cases hc : k.listIndex = ListKey.listIndexLength ∨ k.listId ≠ list.listId
      · rw [if_pos hc] at h; simp at h
      · rw [if_neg hc] at h ⊢
        by_cases hsz : v.length = C.sizeofEncodedValue
        · rw [dif_pos hsz] at h ⊢
          cases hd : C.OOCMap_decode ⟨v, hsz⟩ txn with
          | error e1 => rfl
          | ok item => rw [hd] at h; simp at h
        · rw [dif_neg hsz]
          rfl

/-- C21, the code after a failed pull: over the list under id 8 of `dbBad`, whose second
entry does not have the size of a token, the first pull of a fresh iterator returns 40, the
second pull fails with `UnexpectedData`, and the third pull returns 40 again instead of
signalling the end of the sequence: the iterator has started over. -/
theorem C21_iterator_restarts_after_error :
    (OOCLazyListIter_iternext natCodec (OOCLazyListIter_fastnew ⟨0, 8⟩) dbBad).1
      = .ok (some 40) ∧
    (OOCLazyListIter_iternext natCodec
      (OOCLazyListIter_iternext natCodec (OOCLazyListIter_fastnew ⟨0, 8⟩) dbBad).2 dbBad).1
      = .error .UnexpectedData ∧
    (OOCLazyListIter_iternext natCodec
      (OOCLazyListIter_iternext natCodec
        (OOCLazyListIter_iternext natCodec (OOCLazyListIter_fastnew ⟨0, 8⟩) dbBad).2 dbBad).2
      dbBad).1 = .ok (some 40) :=
  ⟨rfl, rfl, rfl⟩

/-- C22: an iterator that had a list and signalled the end of the sequence has no cursor and
no list afterwards, and every later pull signals the end of the sequence again and leaves
it so, whatever the table holds by then. -/
theorem C22_iterator_one_shot (C : Codec) (it it1 : OOCLazyListIterObject) (db : Store)
    (list : OOCLazyListObject) (hl : it.list = some list)
    (h : OOCLazyListIter_iternext C it db = (.ok none, it1)) :
    it1 = ⟨none, none⟩ ∧
    ∀ db1 : Store, OOCLazyListIter_iternext C it1 db1 = (.ok none, it1) := by
  have hstate : it1 = ⟨none, none⟩ := by
    obtain ⟨l, c⟩ := it
    simp only at hl
    subst hl
    unfold OOCLazyListIter_iternext at h
    simp only at h
    cases c with
    | none =>
      simp only at h
      cases hg : cursor_get db ⟨0, list.listId⟩ .MDB_SET_KEY with
      | none =>
        rw [hg] at h
        simp only [Prod.mk.injEq, true_and] at h
        exact h.symm
      | some kv =>
        obtain ⟨k, v⟩ := kv
        rw [hg] at h
        simp only at h
        by_cases hsz : v.length = C.sizeofEncodedValue
        · rw [dif_pos hsz] at h
          cases hd : C.OOCMap_decode ⟨v, hsz⟩ db with
          | error e1 => rw [hd] at h; simp at h
          | ok item => rw [hd] at h; simp at h
        · rw [dif_neg hsz] at h
          simp at h
    | some tp =>
      obtain ⟨txn, pos⟩ := tp
      simp only at h
      cases hg : cursor_get txn pos .MDB_NEXT with
      | none =>
        rw [hg] at h
        simp only [Prod.mk.injEq, true_and] at h
        exact h.symm
      | some kv =>
        obtain ⟨k, v⟩ := kv
        rw [hg] at h
        simp only at h
        by_cases hc : k.listIndex = ListKey.listIndexLength ∨ k.listId ≠ list.listId
        · rw [if_pos hc] at h
          simp only [Prod.mk.injEq, true_and] at h
          exact h.symm
        · rw [if_neg hc] at h
          by_cases hsz : v.length = C.sizeofEncodedValue
          · rw [dif_pos hsz] at h
            cases hd : C.OOCMap_decode ⟨v, hsz⟩ txn with
            | error e1 => rw [hd] at h; simp at h
            | ok item => rw [hd] at h; simp at h
          · rw [dif_neg hsz] at h
            simp at h
  refine ⟨hstate, ?_⟩
  intro db1
  rw [hstate]
  rfl

/-- C22, instance: the fresh iterator over the empty list under id 7 of `dbEmpty` signals
the end at its first pull; pulled again when the table is `db78`, where the list has three
items, it signals the end again. -/
theorem C22_iterator_one_shot_witness :
    (OOCLazyListIter_fastnew ⟨0, 7⟩).list = some ⟨0, 7⟩ ∧
    OOCLazyListIter_iternext natCodec (OOCLazyListIter_fastnew ⟨0, 7⟩) dbEmpty
      = (.ok none, ⟨none, none⟩) ∧
    ((⟨none, none⟩ : OOCLazyListIterObject) = ⟨none, none⟩ ∧
      ∀ db1 : Store, OOCLazyListIter_iternext natCodec ⟨none, none⟩ db1
        = (.ok none, ⟨none, none⟩)) ∧
    OOCLazyListIter_iternext natCodec ⟨none, none⟩ db78 = (.ok none, ⟨none, none⟩) :=
  ⟨rfl, rfl,
    C22_iterator_one_shot natCodec (OOCLazyListIter_fastnew ⟨0, 7⟩) ⟨none, none⟩ dbEmpty
      ⟨0, 7⟩ rfl rfl,
    rfl⟩

/-- C23: compared with a value that is neither a host list nor a stored list, a stored list
is not equal (`==` is false, `!=` is true), and each of `<`, `<=`, `>`, `>=` fails with a
`TypeError`; the table is not looked at. -/
theorem C23_incompatible_kind (C : Codec) (H : Host C) (self : OOCLazyListObject)
    (db : Store) :
    OOCLazyList_richcompare C H self db .otherKind Py_EQ = .ok false ∧
    OOCLazyList_richcompare C H self db .otherKind Py_NE = .ok true ∧
    OOCLazyList_richcompare C H self db .otherKind Py_LT = .error .TypeError ∧
    OOCLazyList_richcompare C H self db .otherKind Py_LE = .error .TypeError ∧
    OOCLazyList_richcompare C H self db .otherKind Py_GT = .error .TypeError ∧
    OOCLazyList_richcompare C H self db .otherKind Py_GE = .error .TypeError :=
  ⟨rfl, rfl, rfl, rfl, rfl, rfl⟩

end OOC

namespace OOC

/-! ## Search short-circuit, the concrete scenario, the failing source of `extend` -/

/-- Start and stop that are not negative are left as they are, and the table is not read. -/
theorem index_bounds_nonneg (self : OOCLazyListObject) (txn : Store) (start stop : Int)
    (h1 : 0 ≤ start) (h2 : 0 ≤ stop) :
    index_bounds self txn start stop = .ok (start, stop) := by
  unfold index_bounds
  simp only [if_neg (not_lt.mpr h1), if_neg (not_lt.mpr h2)]

/-- The normalisation of start and stop succeeds when the length can be read. -/
theorem index_bounds_of_length (self : OOCLazyListObject) (txn : Store) (n : Nat)
    (start stop : Int) (hlen : OOCLazyListObject_length self txn = .ok n) :
    index_bounds self txn start stop
      = .ok (if start < 0 then (if start + n < 0 then 0 else start + n) else start,
          if stop < 0 then stop + n else stop) := by
  unfold index_bounds
  by_cases h1 : start < 0
  · by_cases h2 : stop < 0
    · simp only [if_pos h1, if_pos h2, hlen]
      rw [if_neg (by omega)]
    · simp only [if_pos h1, if_neg h2, hlen]
  · by_cases h2 : stop < 0
    · simp only [if_neg h1, if_pos h2, hlen]
      rw [if_pos (by omega)]
    · simp only [if_neg h1, if_neg h2]

/-- The needle when the encoding fails: no needle for `ImmutableValueNotFound`, the error
itself for every error but that one and `EACCES`. -/
theorem encodeNeedle_error (C : Codec) (txn : Store) (value : C.PyObject) (e : OocError)
    (he : C.OOCMap_encode value txn C.noInsertedItems true = .error e) :
    (e = .ImmutableValueNotFound → encodeNeedle C txn value = .ok none) ∧
    (e ≠ .ImmutableValueNotFound → e ≠ .MdbError EACCES →
      encodeNeedle C txn value = .error e) := by
  unfold encodeNeedle
  rw [he]
  constructor
  · intro h; subst h; rfl
  · intro h1 h2
    cases e with
    | MdbError code =>
      simp only
      rw [if_pos (by intro hc; exact h2 (by rw [hc]))]
    | ImmutableValueNotFound => exact absurd rfl h1
    | OutOfMemory => rfl
    | UnexpectedData => rfl
    | IndexError => rfl
    | AlreadyPythonizedError => rfl
    | NullDereference => rfl
    | FuelExhausted => rfl
    | OutOfBoundsWrite => rfl

/-- C24, counterexample to the claim as stated: for the list under id 7 of `dbNoSentinel`,
which has an entry but no sentinel record, and a needle whose encoding fails with
`ImmutableValueNotFound`, `index` with the start -1 does not return "not found": it reads
the length first and fails with `UnexpectedData`. -/
theorem C24_counterexample_negative_start_reads_length :
    strangerCodec.OOCMap_encode (5 : Nat) dbNoSentinel strangerCodec.noInsertedItems true
      = .error .ImmutableValueNotFound ∧
    OOCLazyListObject_index strangerCodec strangerHost ⟨0, 7⟩ dbNoSentinel (5 : Nat) (-1)
      9223372036854775807 = .error .UnexpectedData ∧
    OOCLazyListObject_index strangerCodec strangerHost ⟨0, 7⟩ dbNoSentinel (5 : Nat) (-1)
      9223372036854775807 ≠ .ok (-1) :=
  ⟨rfl, rfl, by rw [show OOCLazyListObject_index strangerCodec strangerHost ⟨0, 7⟩
    dbNoSentinel (5 : Nat) (-1) 9223372036854775807 = .error .UnexpectedData from rfl]; simp⟩

/-- C24 (as amended): when the encoding of the needle for the search fails with the error
`e`: if `e` is `ImmutableValueNotFound`, `count` returns 0 whatever the table holds, and
`index` returns -1, "not found", whatever the table holds when start and stop are not
negative, and whenever the length of the list can be read otherwise (the normalisation of a
negative start or stop reads the sentinel record before the needle is encoded); if `e` is
neither `ImmutableValueNotFound` nor `EACCES`, `count` and `index` fail with `e` in the
same cases. -/
theorem C24_search_short_circuit (C : Codec) (H : Host C) (self : OOCLazyListObject)
    (txn : Store) (value : C.PyObject) (start stop : Int) (e : OocError)
    (he : C.OOCMap_encode value txn C.noInsertedItems true = .error e) :
    (e = .ImmutableValueNotFound →
      OOCLazyListObject_count C H self txn value = .ok 0 ∧
      (0 ≤ start → 0 ≤ stop →
        OOCLazyListObject_index C H self txn value start stop = .ok (-1)) ∧
      (∀ n, OOCLazyListObject_length self txn = .ok n →
        OOCLazyListObject_index C H self txn value start stop = .ok (-1))) ∧
    (e ≠ .ImmutableValueNotFound → e ≠ .MdbError EACCES →
      OOCLazyListObject_count C H self txn value = .error e ∧
      (0 ≤ start → 0 ≤ stop →
        OOCLazyListObject_index C H self txn value start stop = .error e) ∧
      (∀ n, OOCLazyListObject_length self txn = .ok n →
        OOCLazyListObject_index C H self txn value start stop = .error e)) := by
  obtain ⟨h1, h2⟩ := encodeNeedle_error C txn value e he
  constructor
  · intro hinf
    have hn := h1 hinf
    refine ⟨?_, ?_, ?_⟩
    · simp only [OOCLazyListObject_count, hn]
    · intro hs ht
      simp only [OOCLazyListObject_index, index_bounds_nonneg self txn start stop hs ht, hn]
    · intro n hlen
      simp only [OOCLazyListObject_index, index_bounds_of_length self txn n start stop hlen, hn]
  · intro hne1 hne2
    have hn := h2 hne1 hne2
    refine ⟨?_, ?_, ?_⟩
    · simp only [OOCLazyListObject_count, hn]
    · intro hs ht
      simp only [OOCLazyListObject_index, index_bounds_nonneg self txn start stop hs ht, hn]
    · intro n hlen
      simp only [OOCLazyListObject_index, index_bounds_of_length self txn n start stop hlen, hn]

/-- C24, instance: a needle that was never stored and the list under id 7 of
`dbNoSentinel`, with the default start and stop. -/
theorem C24_search_short_circuit_witness :
    strangerCodec.OOCMap_encode (5 : Nat) dbNoSentinel strangerCodec.noInsertedItems true
      = .error .ImmutableValueNotFound ∧
    OOCLazyListObject_count strangerCodec strangerHost ⟨0, 7⟩ dbNoSentinel (5 : Nat) = .ok 0 ∧
    OOCLazyListObject_index strangerCodec strangerHost ⟨0, 7⟩ dbNoSentinel (5 : Nat) 0
      9223372036854775807 = .ok (-1) :=
  ⟨rfl,
    ((C24_search_short_circuit strangerCodec strangerHost ⟨0, 7⟩ dbNoSentinel (5 : Nat) 0
      9223372036854775807 .ImmutableValueNotFound rfl).1 rfl).1,
    ((C24_search_short_circuit strangerCodec strangerHost ⟨0, 7⟩ dbNoSentinel (5 : Nat) 0
      9223372036854775807 .ImmutableValueNotFound rfl).1 rfl).2.1 (by decide) (by decide)⟩

/-- C25: the scenario on the empty list under id 7, with numbers as values: after 10, 20
and 30 have been appended the length is 3 and `get(1)` is 20; after `delete(1)` the length
is 2 and the sequence is `[10, 30]`; after `extend(L, [99])` the length is 3 and the
sequence is `[10, 30, 99]`; after the in-place repeat with the count 2 the length is 6 and
the sequence is `[10, 30, 99, 10, 30, 99]`.  Every step succeeds. -/
theorem C25_concrete_scenario :
    WellFormed natCodec dbEmpty 7 0 ∧
    (OOCLazyList_append natCodec ⟨0, 7⟩ dbEmpty (10 : Nat)).1 = .ok () ∧
    (OOCLazyList_append natCodec ⟨0, 7⟩
      (OOCLazyList_append natCodec ⟨0, 7⟩ dbEmpty (10 : Nat)).2 (20 : Nat)).1 = .ok () ∧
    (OOCLazyList_append natCodec ⟨0, 7⟩
      (OOCLazyList_append natCodec ⟨0, 7⟩
        (OOCLazyList_append natCodec ⟨0, 7⟩ dbEmpty (10 : Nat)).2 (20 : Nat)).2
      (30 : Nat)).1 = .ok () ∧
    OOCLazyList_length ⟨0, 7⟩ dbAppended = .ok 3 ∧
    OOCLazyList_item natCodec ⟨0, 7⟩ dbAppended 1 = .ok 20 ∧
    (OOCLazyList_setItem natCodec ⟨0, 7⟩ dbAppended 1 none).1 = .ok () ∧
    OOCLazyList_length ⟨0, 7⟩ dbDeleted = .ok 2 ∧
    OOCLazyList_eager natCodec ⟨0, 7⟩ dbDeleted = .ok [10, 30] ∧
    (OOCLazyList_extend natCodec ⟨0, 7⟩ dbDeleted (.iterable [(99 : Nat)] false)).1 = .ok () ∧
    OOCLazyList_length ⟨0, 7⟩ dbExtended = .ok 3 ∧
    OOCLazyList_eager natCodec ⟨0, 7⟩ dbExtended = .ok [10, 30, 99] ∧
    (OOCLazyList_inplaceRepeat natCodec ⟨0, 7⟩ dbExtended 2).1 = .ok () ∧
    OOCLazyList_length ⟨0, 7⟩ dbRepeated = .ok 6 ∧
    OOCLazyList_eager natCodec ⟨0, 7⟩ dbRepeated = .ok [10, 30, 99, 10, 30, 99] :=
  ⟨wellFormed_of_check (by decide), rfl, rfl, rfl, rfl, rfl, rfl, rfl, rfl, rfl, rfl, rfl,
    rfl, rfl, rfl⟩

/-- C28, the code when the source of `extend` raises: for the list `[10, 20, 30]` under
id 7 of `db78` and an iterator that returns 5 and 6 and then raises, `extend` returns with
the error indicator set, and the table is not left as it was: 5 and 6 are stored at the
positions 3 and 4 and the length is 5. -/
theorem C28_failing_source_is_stored :
    WellFormed natCodec db78 7 3 ∧
    OOCLazyList_extend_errorOccurred natCodec ⟨0, 7⟩ db78 (.iterable [(5 : Nat), 6] true)
      = true ∧
    OOCLazyList_length ⟨0, 7⟩
      (OOCLazyList_extend natCodec ⟨0, 7⟩ db78 (.iterable [(5 : Nat), 6] true)).2 = .ok 5 ∧
    get (OOCLazyList_extend natCodec ⟨0, 7⟩ db78 (.iterable [(5 : Nat), 6] true)).2 ⟨3, 7⟩
      = some [5] ∧
    get (OOCLazyList_extend natCodec ⟨0, 7⟩ db78 (.iterable [(5 : Nat), 6] true)).2 ⟨4, 7⟩
      = some [6] ∧
    OOCLazyList_length ⟨0, 7⟩ db78 = .ok 3 ∧
    get db78 ⟨3, 7⟩ = none :=
  ⟨wellFormed_of_check (by decide), rfl, rfl, rfl, rfl, rfl, rfl⟩

end OOC

namespace OOC

/-! ## The frame of the mutations: entries under other ids -/

/-- A write under one id is not seen under another id. -/
theorem get_put_other (s : Store) (i j id otherId : Nat) (v : MDB_val) (hne : otherId ≠ id) :
    get (put s ⟨i, id⟩ v) ⟨j, otherId⟩ = get s ⟨j, otherId⟩ := by
  rw [get_put, if_neg (key_ne_id hne)]

/-- The loop of `extend` over the items of an iterator writes under the id of the list
only. -/
theorem extend_items_frame (C : Codec) (id otherId : Nat) (hne : otherId ≠ id)
    (hk : EncodeKeeps C otherId) :
    ∀ (items : List C.PyObject) (s : Store) (idx : Nat) (m : C.Id2EncodedMap) (s1 : Store)
      (idx1 : Nat) (m1 : C.Id2EncodedMap),
      extend_items C id items s idx m = .ok (s1, idx1, m1) →
      ∀ j, get s1 ⟨j, otherId⟩ = get s ⟨j, otherId⟩ := by
  intro items
  induction items with
  | nil =>
    intro s idx m s1 idx1 m1 h j
    simp only [extend_items, Except.ok.injEq, Prod.mk.injEq] at h
    rw [← h.1]
  | cons item rest ih =>
    intro s idx m s1 idx1 m1 h j
    rw [extend_items] at h
    cases he : C.OOCMap_encode item s m false with
    | error e => rw [he] at h; simp at h
    | ok r =>
      obtain ⟨t, sA, mA⟩ := r
      rw [he] at h
      simp only at h
      rw [ih _ _ _ s1 idx1 m1 h j, get_put_other _ _ _ _ _ _ hne]
      exact hk item s m false t sA mA he j

/-- The copy loop of `extend` from another list writes under the id of the list only. -/
theorem extend_copy_frame (C : Codec) (id oid otherId : Nat) (hne : otherId ≠ id) :
    ∀ (fuel : Nat) (s : Store) (idx : Nat) (sk : ListKey) (v : MDB_val) (s1 : Store)
      (d1 : Nat),
      extend_copy C id oid fuel s idx sk v = .ok (s1, d1) →
      ∀ j, get s1 ⟨j, otherId⟩ = get s ⟨j, otherId⟩ := by
  intro fuel
  induction fuel with
  | zero =>
    intro s idx sk v s1 d1 h
    rw [extend_copy] at h
    simp at h
  | succ fuel ih =>
    intro s idx sk v s1 d1 h j
    rw [extend_copy] at h
    by_cases hc : sk.listId ≠ oid ∨ sk.listIndex = ListKey.listIndexLength
    · rw [if_pos hc] at h
      simp only [Except.ok.injEq, Prod.mk.injEq] at h
      rw [← h.1]
    · rw [if_neg hc] at h
      by_cases hsz : v.length ≠ C.sizeofEncodedValue
      · rw [if_pos hsz] at h
        simp at h
      · rw [if_neg hsz] at h
        simp only at h
        cases hn : cursor_get (put s ⟨idx, id⟩ v) sk .MDB_NEXT with
        | none =>
          rw [hn] at h
          simp only [Except.ok.injEq, Prod.mk.injEq] at h
          rw [← h.1, get_put_other _ _ _ _ _ _ hne]
        | some kv =>
          obtain ⟨k1, v1⟩ := kv
          rw [hn] at h
          simp only at h
          rw [ih _ _ _ _ s1 d1 h j, get_put_other _ _ _ _ _ _ hne]

/-- The loop of the in-place repeat writes under the id of the list only. -/
theorem inplaceRepeat_loop_frame (C : Codec) (id length count otherId : Nat)
    (hne : otherId ≠ id) :
    ∀ (fuel : Nat) (s : Store) (dest : Nat) (sk : ListKey) (v : MDB_val) (s1 : Store)
      (d1 : Nat),
      inplaceRepeat_loop C id length count fuel s dest sk v = .ok (s1, d1) →
      ∀ j, get s1 ⟨j, otherId⟩ = get s ⟨j, otherId⟩ := by
  intro fuel
  induction fuel with
  | zero =>
    intro s dest sk v s1 d1 h
    rw [inplaceRepeat_loop] at h
    simp at h
  | succ fuel ih =>
    intro s dest sk v s1 d1 h j
    rw [inplaceRepeat_loop] at h
    by_cases hlt : (dest : Int) < ssizeMul length count
    · rw [if_pos hlt] at h
      by_cases hc : sk.listId ≠ id ∨ sk.listIndex = ListKey.listIndexLength
      · rw [if_pos hc] at h
        simp only [Except.ok.injEq, Prod.mk.injEq] at h
        rw [← h.1]
      · rw [if_neg hc] at h
        by_cases hsz : v.length ≠ C.sizeofEncodedValue
        · rw [if_pos hsz] at h
          simp at h
        · rw [if_neg hsz] at h
          simp only at h
          cases hn : cursor_get (put s ⟨dest, id⟩ v) sk .MDB_NEXT with
          | none => rw [hn] at h; simp at h
          | some kv =>
            obtain ⟨k1, v1⟩ := kv
            rw [hn] at h
            simp only at h
            rw [ih _ _ _ _ s1 d1 h j, get_put_other _ _ _ _ _ _ hne]
    · rw [if_neg hlt] at h
      simp only [Except.ok.injEq, Prod.mk.injEq] at h
      rw [← h.1]

/-- A successful in-place repeat of a list that is well formed when the count is 0. -/
theorem inplaceRepeat_frame (C : Codec) (self : OOCLazyListObject) (db s1 : Store)
    (count otherId : Nat) (hne : otherId ≠ self.listId)
    (hsafe : count = 0 → ∃ n, Dense db self.listId n)
    (h : OOCLazyListObject_inplaceRepeat C self db count = .ok s1) :
    ∀ j, get s1 ⟨j, otherId⟩ = get db ⟨j, otherId⟩ := by
  intro j
  unfold OOCLazyListObject_inplaceRepeat at h
  by_cases hc : count ≤ 0
  · rw [if_pos hc] at h
    obtain ⟨n, hd⟩ := hsafe (by omega)
    obtain ⟨s2, h2, _, _, hfr⟩ := clear_full C self.ooc self.listId n db hd
    rw [h2] at h
    simp only [Except.ok.injEq] at h
    rw [← h]
    exact hfr ⟨j, otherId⟩ hne
  · rw [if_neg hc] at h
    cases hl : OOCLazyListObject_length self db with
    | error e => rw [hl] at h; simp at h
    | ok length =>
      rw [hl] at h
      simp only at h
      by_cases hz : length ≤ 0
      · rw [if_pos hz] at h
        simp only [Except.ok.injEq] at h
        rw [← h]
      · rw [if_neg hz] at h
        cases hg : cursor_get db ⟨0, self.listId⟩ .MDB_SET_RANGE with
        | none => rw [hg] at h; simp at h
        | some kv =>
          obtain ⟨sk, v⟩ := kv
          rw [hg] at h
          simp only at h
          cases hloop : inplaceRepeat_loop C self.listId length count
              (db.length + length * count + 1) db length sk v with
          | error e => rw [hloop] at h; simp at h
          | ok r =>
            obtain ⟨s2, d2⟩ := r
            rw [hloop] at h
            simp only [Except.ok.injEq] at h
            rw [← h, get_put_other _ _ _ _ _ _ hne]
            exact inplaceRepeat_loop_frame C self.listId length count otherId hne _ _ _ _ _
              s2 d2 hloop j

/-- A successful extension by the items of an iterator. -/
theorem extend_iterable_frame (C : Codec) (self : OOCLazyListObject) (db s1 : Store)
    (iter : Option (List C.PyObject × Bool)) (otherId : Nat) (hne : otherId ≠ self.listId)
    (hk : EncodeKeeps C otherId) (h : extend_iterable C self db iter = .ok s1) :
    ∀ j, get s1 ⟨j, otherId⟩ = get db ⟨j, otherId⟩ := by
  intro j
  unfold extend_iterable at h
  cases iter with
  | none => simp at h
  | some ir =>
    obtain ⟨items, raises⟩ := ir
    simp only at h
    cases hl : OOCLazyListObject_length self db with
    | error e => rw [hl] at h; simp at h
    | ok length =>
      rw [hl] at h
      simp only at h
      cases hi : extend_items C self.listId items db length C.noInsertedItems with
      | error e => rw [hi] at h; simp at h
      | ok r =>
        obtain ⟨s2, d2, m2⟩ := r
        rw [hi] at h
        simp only [Except.ok.injEq] at h
        rw [← h, get_put_other _ _ _ _ _ _ hne]
        exact extend_items_frame C self.listId otherId hne hk items db length _ s2 d2 m2 hi j

/-- A successful extension from a stored list. -/
theorem extend_list_frame (C : Codec) (self other : OOCLazyListObject) (db s1 : Store)
    (otherId : Nat) (hne : otherId ≠ self.listId) (hk : EncodeKeeps C otherId)
    (h : OOCLazyListObject_extend_list C self db other = .ok s1) :
    ∀ j, get s1 ⟨j, otherId⟩ = get db ⟨j, otherId⟩ := by
  intro j
  unfold OOCLazyListObject_extend_list at h
  by_cases hooc : other.ooc = self.ooc
  · rw [if_pos hooc] at h
    by_cases hid : self.listId = other.listId
    · rw [if_pos hid] at h
      exact inplaceRepeat_frame C self db s1 2 otherId hne (by omega) h j
    · rw [if_neg hid] at h
      cases hl : OOCLazyListObject_length self db with
      | error e => rw [hl] at h; simp at h
      | ok length =>
        rw [hl] at h
        simp only at h
        cases hg : cursor_get db ⟨0, other.listId⟩ .MDB_SET_RANGE with
        | none =>
          rw [hg] at h
          simp only [Except.ok.injEq] at h
          rw [← h, get_put_other _ _ _ _ _ _ hne]
        | some kv =>
          obtain ⟨sk, v⟩ := kv
          rw [hg] at h
          simp only at h
          cases hc : extend_copy C self.listId other.listId (db.length + 1) db length sk v with
          | error e => rw [hc] at h; simp at h
          | ok r =>
            obtain ⟨s2, d2⟩ := r
            rw [hc] at h
            simp only [Except.ok.injEq] at h
            rw [← h, get_put_other _ _ _ _ _ _ hne]
            exact extend_copy_frame C self.listId other.listId otherId hne _ _ _ _ _ s2 d2 hc j
  · rw [if_neg hooc] at h
    cases he : OOCLazyList_eager C other (C.mdb other.ooc) with
    | error e => rw [he] at h; simp at h
    | ok eager =>
      rw [he] at h
      simp only at h
      exact extend_iterable_frame C self db s1 _ otherId hne hk h j

end OOC

namespace OOC

/-- C26 (as amended): every mutation of list `self` leaves every entry and the sentinel
record stored under another id as they were, the entries of the source list of `extend`
among them, where for a deletion and a clearing (also the clearing an in-place repeat with
the count 0 is) the list is well formed and the index of the deletion does not alias the
sentinel position (see `Mutation.CursorSafe`).  The codec is assumed not to touch the
entries under that other id while it encodes. -/
theorem C26_frame_across_collections (C : Codec) (self : OOCLazyListObject) (db : Store)
    (mu : Mutation C) (otherId : Nat) (hne : otherId ≠ self.listId)
    (hk : EncodeKeeps C otherId) (hs : mu.CursorSafe C self db) :
    ∀ j, get (mu.run C self db).2 ⟨j, otherId⟩ = get db ⟨j, otherId⟩ := by
  intro j
  cases mu with
  | set index item =>
    simp only [Mutation.run, OOCLazyList_setItem]
    by_cases h0 : index < 0
    · rw [if_pos h0]
    · rw [if_neg h0]
      cases hr : setItem_try C self db index (some item) with
      | error e => rfl
      | ok s1 =>
        simp only
        simp only [setItem_try] at hr
        cases hl : OOCLazyListObject_length self db with
        | error e => rw [hl] at hr; simp at hr
        | ok length =>
          rw [hl] at hr
          simp only at hr
          by_cases hge : index ≥ (length : Int)
          · rw [if_pos hge] at hr; simp at hr
          · rw [if_neg hge] at hr
            cases he : C.OOCMap_encode item db C.noInsertedItems false with
            | error e => rw [he] at hr; simp at hr
            | ok r =>
              obtain ⟨t, sA, mA⟩ := r
              rw [he] at hr
              simp only [Except.ok.injEq] at hr
              rw [← hr, get_put_other _ _ _ _ _ _ hne]
              exact hk item db _ false t sA mA he j
  | delete index =>
    simp only [Mutation.CursorSafe] at hs
    obtain ⟨⟨n, hd⟩, halias⟩ := hs
    simp only [Mutation.run, OOCLazyList_setItem]
    by_cases h0 : index < 0
    · rw [if_pos h0]
    · rw [if_neg h0, setItem_try_none_congr]
      by_cases hlt : toU32 index < n
      · obtain ⟨s1, h1, _, _, _, hfr⟩ :=
          delete_dense C self.ooc self.listId n (toU32 index) db hd hlt
        rw [h1]
        exact hfr ⟨j, otherId⟩ hne
      · have hnone : get db ⟨toU32 index, self.listId⟩ = none :=
          hd.get_none (by omega) halias
        have herr : setItem_try C self db ((toU32 index : Nat) : Int) none
            = .error .IndexError := by
          simp only [setItem_try, toU32_natCast (toU32_lt index), cursor_get_set_key, hnone,
            Option.map_none']
        rw [herr]
  | append item =>
    simp only [Mutation.run, OOCLazyList_append]
    cases hr : OOCLazyListObject_append C self db item with
    | error e => rfl
    | ok s1 =>
      simp only
      unfold OOCLazyListObject_append at hr
      cases he : C.OOCMap_encode item db C.noInsertedItems false with
      | error e => rw [he] at hr; simp at hr
      | ok r =>
        obtain ⟨t, sA, mA⟩ := r
        rw [he] at hr
        simp only at hr
        cases hl : OOCLazyListObject_length self sA with
        | error e => rw [hl] at hr; simp at hr
        | ok length =>
          rw [hl] at hr
          simp only [Except.ok.injEq] at hr
          rw [← hr, get_put_other _ _ _ _ _ _ hne, get_put_other _ _ _ _ _ _ hne]
          exact hk item db _ false t sA mA he j
  | extend other =>
    simp only [Mutation.run, OOCLazyList_extend]
    cases hr : OOCLazyListObject_extend C self db other with
    | error e => rfl
    | ok s1 =>
      simp only
      cases other with
      | lazyList other =>
        exact extend_list_frame C self other db s1 otherId hne hk hr j
      | iterable items raises =>
        exact extend_iterable_frame C self db s1 (some (items, raises)) otherId hne hk hr j
      | notIterable =>
        exact extend_iterable_frame C self db s1 none otherId hne hk hr j
  | inplaceRepeat count =>
    simp only [Mutation.CursorSafe] at hs
    simp only [Mutation.run, OOCLazyList_inplaceRepeat]
    cases hr : OOCLazyListObject_inplaceRepeat C self db (toU32 count) with
    | error e => rfl
    | ok s1 =>
      simp only
      exact inplaceRepeat_frame C self db s1 (toU32 count) otherId hne hs hr j
  | clear =>
    simp only [Mutation.CursorSafe] at hs
    obtain ⟨n, hd⟩ := hs
    simp only [Mutation.run, OOCLazyList_clear]
    obtain ⟨s1, h1, _, _, hfr⟩ := clear_full C self.ooc self.listId n db hd
    rw [h1]
    exact hfr ⟨j, otherId⟩ hne

/-- C26, instance: extending the list under id 7 of `db78` from the list under id 8 leaves
the entries and the sentinel record under id 8 as they were. -/
theorem C26_frame_across_collections_witness :
    (8 : Nat) ≠ 7 ∧ EncodeKeeps natCodec 8 ∧
    ∀ j, get (Mutation.run natCodec ⟨0, 7⟩ db78 (.extend (.lazyList ⟨0, 8⟩))).2 ⟨j, 8⟩
      = get db78 ⟨j, 8⟩ :=
  ⟨by decide, natCodec_keeps 8,
    C26_frame_across_collections natCodec ⟨0, 7⟩ db78 (.extend (.lazyList ⟨0, 8⟩)) 8
      (by decide) (natCodec_keeps 8) trivial⟩

/-- C26, counterexample to the claim as stated: in `dbNoSentinel` the keys sort by id and
the list under id 7 has an entry but no sentinel record; `clear` of that list succeeds, and
afterwards the entry at position 0 of the list under id 8 is not what it was: the cursor
that is taken to stand on the sentinel record of list 7 stands on it, and the length 0 is
written over it. -/
theorem C26_counterexample_clear_without_sentinel :
    (Mutation.run natCodec ⟨0, 7⟩ dbNoSentinel .clear).1 = .ok () ∧
    get dbNoSentinel ⟨0, 8⟩ = some [40] ∧
    get (Mutation.run natCodec ⟨0, 7⟩ dbNoSentinel .clear).2 ⟨0, 8⟩ = some (u32Bytes 0) ∧
    get (Mutation.run natCodec ⟨0, 7⟩ dbNoSentinel .clear).2 ⟨0, 8⟩
      ≠ get dbNoSentinel ⟨0, 8⟩ :=
  ⟨rfl, rfl, rfl, by decide⟩

end OOC

namespace OOC

/-! ## Eager materialisation of a dense list -/

/-- `get` at a position of a dense list, spelled out. -/
theorem item_at (C : Codec) (self : OOCLazyListObject) (db : Store) (n j : Nat) (v : MDB_val)
    (hd : Dense db self.listId n) (hj : j < n) (hv : get db ⟨j, self.listId⟩ = some v) :
    OOCLazyList_item C self db (j : Int) =
      if h : v.length = C.sizeofEncodedValue then C.OOCMap_decode ⟨v, h⟩ db
      else .error .UnexpectedData := by
  have hn := hd.le_sentinel
  have hS := sentinel_val
  have h0 : ¬ ((j : Int) < 0) := by omega
  simp only [OOCLazyList_item, h0, if_false, toU32_natCast (show j < 4294967296 by omega), hv]

/-- The loop of `eager` over a dense list from a cursor on position `j`: it collects what
`get` returns from `j` on, and every store is at a position that the host list has. -/
theorem eager_loop_dense (C : Codec) (self : OOCLazyListObject) (txn : Store) (n : Nat)
    (hd : Dense txn self.listId n) :
    ∀ (fuel j : Nat) (sk : ListKey) (v : MDB_val) (acc : List C.PyObject),
      j ≤ n → n - j < fuel → get txn sk = some v →
      (j < n → sk = ⟨j, self.listId⟩) →
      (¬ j < n → sk = ⟨ListKey.listIndexLength, self.listId⟩) →
      eager_loop C self.listId n fuel txn j sk v acc =
        match itemsFrom C self txn (n - j) j with
        | .error e => .error e
        | .ok items => .ok (n, acc ++ items) := by
  have hS := sentinel_val
  have hn := hd.le_sentinel
  intro fuel
  induction fuel with
  | zero => intro j sk v acc _ hf; omega
  | succ fuel ih =>
    intro j sk v acc hjn hf hv hin hout
    rw [eager_loop]
    by_cases hlt : j < n
    · have hsk := hin hlt
      subst hsk
      have hc : ¬ ((⟨j, self.listId⟩ : ListKey).listId ≠ self.listId ∨
          (⟨j, self.listId⟩ : ListKey).listIndex = ListKey.listIndexLength) := by
        simp only [ne_eq, not_true_eq_false, false_or]; omega
      have hnj : n - j = (n - (j + 1)) + 1 := by omega
      rw [if_neg hc, if_neg (by simp), hnj, itemsFrom, item_at C self txn n j v hd hlt hv]
      by_cases hsz : v.length = C.sizeofEncodedValue
      · rw [dif_pos hsz, dif_pos hsz]
        cases hdec : C.OOCMap_decode ⟨v, hsz⟩ txn with
        | error e => rfl
        | ok item =>
          simp only
          rw [if_neg (show ¬ j ≥ n by omega)]
          obtain ⟨sk1, v1, hnext, hv1, hin1, hout1⟩ :=
            hd.span.next (Nat.zero_le _) (show j < ListKey.listIndexLength by omega)
          rw [hnext]
          simp only
          rw [u32_of_lt (show j + 1 < 4294967296 by omega),
            ih (j + 1) sk1 v1 _ (by omega) (by omega) hv1 hin1 hout1]
          cases hrest : itemsFrom C self txn (n - (j + 1)) (j + 1) with
          | error e => rfl
          | ok items =>
            simp only [List.append_assoc, List.singleton_append]
      · rw [dif_neg hsz, dif_neg hsz]
    · have hsk := hout hlt
      subst hsk
      rw [if_pos (Or.inr rfl)]
      have hj : j = n := by omega
      subst hj
      simp only [Nat.sub_self, itemsFrom, List.append_nil]

/-- `eager` of a dense list returns what `get` returns at the positions below the length,
up to the first error. -/
theorem eager_dense (C : Codec) (self : OOCLazyListObject) (db : Store) (n : Nat)
    (hd : Dense db self.listId n) :
    OOCLazyList_eager C self db = itemsFrom C self db n 0 := by
  have hlen := hd.le_length
  unfold OOCLazyList_eager OOCLazyListObject_eager
  rw [hd.length_eq self.ooc]
  simp only
  by_cases hz : n ≤ 0
  · rw [if_pos hz]
    have : n = 0 := by omega
    subst this
    rfl
  · rw [if_neg hz]
    obtain ⟨sk, v, hrange, hv, hin, hout⟩ := hd.span.range (Nat.le_refl 0) (Nat.zero_le _)
    rw [hrange]
    simp only
    rw [eager_loop_dense C self db n hd _ 0 sk v [] (Nat.zero_le _) (by omega) hv hin hout]
    simp only [Nat.sub_zero, List.nil_append]
    cases hi : itemsFrom C self db n 0 with
    | error e => rfl
    | ok items => simp

/-- The results of `get` from position `k` on, when they are the items of a list. -/
theorem itemsFrom_of_items (C : Codec) (self : OOCLazyListObject) (db : Store)
    (items : List C.PyObject)
    (hget : ∀ k (h : k < items.length),
      OOCLazyList_item C self db (k : Int) = .ok (items.get ⟨k, h⟩)) :
    ∀ (len k : Nat), k + len = items.length →
      itemsFrom C self db len k = .ok (items.drop k) := by
  intro len
  induction len with
  | zero =>
    intro k hk
    rw [itemsFrom, List.drop_eq_nil_of_le (by omega)]
  | succ len ih =>
    intro k hk
    have hlt : k < items.length := by omega
    rw [itemsFrom, hget k hlt]
    simp only
    rw [ih (k + 1) (by omega)]
    simp only
    rw [List.drop_eq_getElem_cons hlt]
    rfl

/-- `eager` of a stored list returns its items. -/
theorem eager_of_storedItems (C : Codec) (self : OOCLazyListObject) (db : Store)
    (items : List C.PyObject) (hs : StoredItems C self db items) :
    OOCLazyList_eager C self db = .ok items := by
  rw [eager_dense C self db items.length hs.1,
    itemsFrom_of_items C self db items hs.2 items.length 0 (by omega)]
  rfl

/-- The results of `get` that `itemsFrom` collects are as many as were asked for, and each
is what `get` returns at its position. -/
theorem itemsFrom_ok (C : Codec) (self : OOCLazyListObject) (db : Store) :
    ∀ (len k : Nat) (items : List C.PyObject), itemsFrom C self db len k = .ok items →
      items.length = len ∧
      ∀ i (h : i < items.length),
        OOCLazyList_item C self db ((k + i : Nat) : Int) = .ok (items.get ⟨i, h⟩) := by
  intro len
  induction len with
  | zero =>
    intro k items h
    simp only [itemsFrom, Except.ok.injEq] at h
    subst h
    exact ⟨rfl, fun i hi => absurd hi (by simp)⟩
  | succ len ih =>
    intro k items h
    rw [itemsFrom] at h
    cases hi : OOCLazyList_item C self db (k : Int) with
    | error e => rw [hi] at h; simp at h
    | ok item =>
      rw [hi] at h
      simp only at h
      cases hr : itemsFrom C self db len (k + 1) with
      | error e => rw [hr] at h; simp at h
      | ok rest =>
        rw [hr] at h
        simp only [Except.ok.injEq] at h
        subst h
        obtain ⟨hl, hall⟩ := ih (k + 1) rest hr
        refine ⟨by simp [hl], ?_⟩
        intro i hi2
        cases i with
        | zero => simpa using hi
        | succ i =>
          have := hall i (by simpa using hi2)
          have hki : k + 1 + i = k + (i + 1) := by omega
          rw [hki] at this
          simpa using this

end OOC

namespace OOC

/-! ## Eager materialisation of an arbitrary table -/

/-- A table whose keys are all checked has valid keys. -/
theorem keysValid_of_all {db : Store}
    (h : db.all (fun e => decide (e.1.listIndex ≤ ListKey.listIndexLength)) = true) :
    KeysValid db := by
  intro k hk
  obtain ⟨v, hv⟩ := Option.isSome_iff_exists.mp hk
  have hm := mem_of_get hv
  rw [List.all_eq_true] at h
  simpa using h _ hm

/-- What a successful read of the length says about the sentinel record. -/
theorem length_ok_inv {self : OOCLazyListObject} {db : Store} {n : Nat}
    (h : OOCLazyListObject_length self db = .ok n) :
    ∃ v, get db ⟨ListKey.listIndexLength, self.listId⟩ = some v ∧ v.length = 4 ∧
      readU32 v = n := by
  unfold OOCLazyListObject_length at h
  cases hg : get db ⟨ListKey.listIndexLength, self.listId⟩ with
  | none => rw [hg] at h; simp at h
  | some v =>
    rw [hg] at h
    simp only at h
    by_cases hl : v.length ≠ 4
    · rw [if_pos hl] at h; simp at h
    · rw [if_neg hl] at h
      simp only [Except.ok.injEq] at h
      exact ⟨v, rfl, by omega, h⟩

/-- The loop of `eager` on any table with valid keys in which the sentinel record of the
list is present.  The cursor stands on `sk`, at or after the first key of the list; the
positions below `j` are present, `j` is at most the length of the host list, and no other
key of the table lies before the cursor.  Then the loop ends within `txn.length + 1 - j`
steps; when it returns, the entries of the list are exactly at the positions below the
count it returns; when it fails, it fails with `UnexpectedData`, with the error of a
decoding, or with a store past the end of the host list, and then every position up to
and including `length` holds an entry. -/
theorem eager_loop_char (C : Codec) (id : Nat) (txn : Store) (length : Nat)
    (hkv : KeysValid txn)
    (hsent : (get txn ⟨ListKey.listIndexLength, id⟩).isSome = true) :
    ∀ (fuel j : Nat) (sk : ListKey) (v : MDB_val) (acc : List C.PyObject),
      j ≤ length →
      (∀ i, i < j → (get txn ⟨i, id⟩).isSome = true) →
      (∀ k : ListKey, (get txn k).isSome = true → (⟨0, id⟩ : ListKey) ≤ k → k < sk →
        k.listId = id ∧ k.listIndex < j) →
      get txn sk = some v → (⟨0, id⟩ : ListKey) ≤ sk →
      txn.length + 1 ≤ j + fuel →
      (∀ e res, eager_loop C id length fuel txn j sk v acc = .ok (e, res) →
        PositionsExactly txn id e) ∧
      (∀ err, eager_loop C id length fuel txn j sk v acc = .error err →
        err = .UnexpectedData ∨ (∃ t, C.OOCMap_decode t txn = .error err) ∨
        (err = .OutOfBoundsWrite ∧
          ∀ i, i ≤ length → (get txn ⟨i, id⟩).isSome = true)) := by
  have hS := sentinel_val
  intro fuel
  induction fuel with
  | zero =>
    intro j sk v acc _ hpres _ _ _ hfuel
    have := present_le_length hpres
    omega
  | succ fuel ih =>
    intro j sk v acc hjl hpres hbefore hv h0 hfuel
    rw [eager_loop]
    have hskS := hkv sk (by rw [hv]; rfl)
    by_cases hc : sk.listId ≠ id ∨ sk.listIndex = ListKey.listIndexLength
    · rw [if_pos hc]
      refine ⟨?_, fun err h => by simp at h⟩
      intro e res h
      simp only [Except.ok.injEq, Prod.mk.injEq] at h
      obtain ⟨he, _⟩ := h
      subst he
      intro i hi
      constructor
      · intro hp
        have hiS := hkv ⟨i, id⟩ hp
        simp only at hiS
        have hlt : (⟨i, id⟩ : ListKey) < sk := by
          rw [ListKey.le_iff] at h0
          rw [ListKey.lt_iff]
          simp only at h0 ⊢
          omega
        exact (hbefore ⟨i, id⟩ hp (by rw [key_le_mk]; omega) hlt).2
      · exact hpres i
    · rw [if_neg hc]
      have hid : sk.listId = id := by
        by_contra hne
        exact hc (Or.inl hne)
      have hidx : sk.listIndex ≠ ListKey.listIndexLength := fun h => hc (Or.inr h)
      by_cases hj : sk.listIndex ≠ j
      · rw [if_pos hj]
        exact ⟨fun e res h => by simp at h, fun err h => by
          simp only [Except.error.injEq] at h
          exact Or.inl h.symm⟩
      · rw [if_neg hj]
        have hj1 : sk.listIndex = j := by
          by_contra hne
          exact hj hne
        have hsk : sk = ⟨j, id⟩ := by
          rw [ListKey.eq_iff]
          exact ⟨hj1, hid⟩
        by_cases hsz : v.length = C.sizeofEncodedValue
        · rw [dif_pos hsz]
          cases hdec : C.OOCMap_decode ⟨v, hsz⟩ txn with
          | error e0 =>
            simp only
            exact ⟨fun e res h => by simp at h, fun err h => by
              simp only [Except.error.injEq] at h
              subst h
              exact Or.inr (Or.inl ⟨_, hdec⟩)⟩
          | ok item =>
            simp only
            by_cases hoob : sk.listIndex ≥ length
            · rw [if_pos hoob]
              refine ⟨fun e res h => by simp at h, fun err h => ?_⟩
              simp only [Except.error.injEq] at h
              refine Or.inr (Or.inr ⟨h.symm, ?_⟩)
              intro i hi
              by_cases hij : i < j
              · exact hpres i hij
              · have : i = j := by omega
                subst this
                rw [← hsk, hv]
                rfl
            · rw [if_neg hoob]
              have hsklt : sk < (⟨ListKey.listIndexLength, id⟩ : ListKey) := by
                rw [ListKey.lt_iff]
                simp only
                omega
              cases hnext : cursor_get txn sk .MDB_NEXT with
              | none =>
                exfalso
                have := seekMin_none hnext ⟨ListKey.listIndexLength, id⟩
                  (by simpa using hsklt)
                rw [this] at hsent
                simp at hsent
              | some b =>
                obtain ⟨k1, v1⟩ := b
                simp only
                obtain ⟨hp1, hg1, hmin1⟩ := seekMin_some hnext
                have hlt1 : sk < k1 := by simpa using hp1
                rw [u32_of_lt (show j + 1 < 4294967296 by omega)]
                apply ih (j + 1) k1 v1 (acc ++ [item])
                · omega
                · intro i hi
                  by_cases hij : i < j
                  · exact hpres i hij
                  · have : i = j := by omega
                    subst this
                    rw [← hsk, hv]
                    rfl
                · intro k hk hk0 hk1
                  by_cases hskk : sk < k
                  · have := hmin1 k (by simpa using hskk) hk
                    rw [ListKey.le_iff] at this
                    rw [ListKey.lt_iff] at hk1
                    omega
                  · have hle : k ≤ sk := by
                      rw [ListKey.lt_iff] at hskk
                      rw [ListKey.le_iff]
                      omega
                    rcases ListKey.eq_or_lt_of_le hle with heq | hlt
                    · subst heq
                      exact ⟨hid, by omega⟩
                    · have := hbefore k hk hk0 hlt
                      exact ⟨this.1, by omega⟩
                · exact hg1
                · exact ListKey.le_trans h0 (ListKey.le_of_lt hlt1)
                · omega
        · rw [dif_neg hsz]
          exact ⟨fun e res h => by simp at h, fun err h => by
            simp only [Except.error.injEq] at h
            exact Or.inl h.symm⟩

/-- The scan of `eager` from the first key of the list, on a table with valid keys in which
the sentinel record of the list is present. -/
theorem eager_scan_char (C : Codec) (self : OOCLazyListObject) (db : Store) (n : Nat)
    (hkv : KeysValid db)
    (hsent : (get db ⟨ListKey.listIndexLength, self.listId⟩).isSome = true)
    (sk : ListKey) (v : MDB_val)
    (hrange : cursor_get db ⟨0, self.listId⟩ .MDB_SET_RANGE = some (sk, v)) :
    (∀ e res, eager_loop C self.listId n (db.length + 1) db 0 sk v [] = .ok (e, res) →
      PositionsExactly db self.listId e) ∧
    (∀ err, eager_loop C self.listId n (db.length + 1) db 0 sk v [] = .error err →
      err = .UnexpectedData ∨ (∃ t, C.OOCMap_decode t db = .error err) ∨
      (err = .OutOfBoundsWrite ∧
        ∀ i, i ≤ n → (get db ⟨i, self.listId⟩).isSome = true)) := by
  obtain ⟨hp, hg, hmin⟩ := seekMin_some hrange
  have h0 : (⟨0, self.listId⟩ : ListKey) ≤ sk := by simpa using hp
  apply eager_loop_char C self.listId db n hkv hsent (db.length + 1) 0 sk v []
  · omega
  · intro i hi
    omega
  · intro k hk hk0 hk1
    have := hmin k (by simpa using hk0) hk
    rw [ListKey.le_iff] at this
    rw [ListKey.lt_iff] at hk1
    omega
  · exact hg
  · exact h0
  · omega

/-- When `eager` returns a list for a sentinel record that holds a length of 1 or more,
the entries of the list are exactly at the positions below that length. -/
theorem eager_ok_positions (C : Codec) (self : OOCLazyListObject) (db : Store) (n : Nat)
    (hkv : KeysValid db) (hlen : OOCLazyListObject_length self db = .ok n) (hn : 1 ≤ n)
    (items : List C.PyObject) (h : OOCLazyList_eager C self db = .ok items) :
    PositionsExactly db self.listId n := by
  obtain ⟨sv, hsv, _, _⟩ := length_ok_inv hlen
  unfold OOCLazyList_eager OOCLazyListObject_eager at h
  rw [hlen] at h
  simp only at h
  rw [if_neg (by omega)] at h
  cases hrange : cursor_get db ⟨0, self.listId⟩ .MDB_SET_RANGE with
  | none =>
    rw [hrange] at h
    simp only at h
    rw [if_pos (by omega)] at h
    simp at h
  | some b =>
    obtain ⟨sk, v⟩ := b
    rw [hrange] at h
    simp only at h
    have hchar := eager_scan_char C self db n hkv (by rw [hsv]; rfl) sk v hrange
    cases hl : eager_loop C self.listId n (db.length + 1) db 0 sk v [] with
    | error e => rw [hl] at h; simp at h
    | ok r =>
      obtain ⟨e, res⟩ := r
      rw [hl] at h
      simp only at h
      by_cases he : e ≠ n
      · rw [if_pos he] at h; simp at h
      · have : e = n := by
          by_contra hne
          exact he hne
        subst this
        exact hchar.1 e res hl

/-- When `eager` fails for a sentinel record that holds a length, it fails with
`UnexpectedData`, with the error of a decoding, or with a store past the end of the host
list, and then every position up to and including the length holds an entry. -/
theorem eager_error_kind (C : Codec) (self : OOCLazyListObject) (db : Store) (n : Nat)
    (hkv : KeysValid db) (hlen : OOCLazyListObject_length self db = .ok n)
    (err : OocError) (h : OOCLazyList_eager C self db = .error err) :
    err = .UnexpectedData ∨ (∃ t, C.OOCMap_decode t db = .error err) ∨
    (err = .OutOfBoundsWrite ∧
      ∀ i, i ≤ n → (get db ⟨i, self.listId⟩).isSome = true) := by
  obtain ⟨sv, hsv, _, _⟩ := length_ok_inv hlen
  unfold OOCLazyList_eager OOCLazyListObject_eager at h
  rw [hlen] at h
  simp only at h
  by_cases hz : n ≤ 0
  · rw [if_pos hz] at h; simp at h
  · rw [if_neg hz] at h
    cases hrange : cursor_get db ⟨0, self.listId⟩ .MDB_SET_RANGE with
    | none =>
      rw [hrange] at h
      simp only at h
      rw [if_pos (by omega)] at h
      simp only [Except.error.injEq] at h
      exact Or.inl h.symm
    | some b =>
      obtain ⟨sk, v⟩ := b
      rw [hrange] at h
      simp only at h
      have hchar := eager_scan_char C self db n hkv (by rw [hsv]; rfl) sk v hrange
      cases hl : eager_loop C self.listId n (db.length + 1) db 0 sk v [] with
      | error e =>
        rw [hl] at h
        simp only [Except.error.injEq] at h
        subst h
        exact hchar.2 e hl
      | ok r =>
        obtain ⟨e, res⟩ := r
        rw [hl] at h
        simp only at h
        by_cases he : e ≠ n
        · rw [if_pos he] at h
          simp only [Except.error.injEq] at h
          exact Or.inl h.symm
        · rw [if_neg he] at h; simp at h

/-- The store past the end of the host list on a concrete table: in `dbExtra` the sentinel
record of list 7 holds 1 and the positions 0 and 1 hold entries; `eager` stores the second
item at position 1 of a host list of one slot. -/
theorem eager_extra_entry_out_of_bounds :
    OOCLazyListObject_length ⟨0, 7⟩ dbExtra = .ok 1 ∧
    OOCLazyList_eager natCodec ⟨0, 7⟩ dbExtra = .error .OutOfBoundsWrite :=
  ⟨rfl, rfl⟩

/-- `eager` of a list whose sentinel record holds 0 returns the empty list. -/
theorem eager_of_length_zero (C : Codec) (self : OOCLazyListObject) (db : Store)
    (hlen : OOCLazyListObject_length self db = .ok 0) :
    OOCLazyList_eager C self db = .ok [] := by
  unfold OOCLazyList_eager OOCLazyListObject_eager
  rw [hlen]
  rfl

/-- `eager` of a list with tokens exactly at the positions below the length that the
sentinel record holds returns their decodings. -/
theorem eager_of_tokens (C : Codec) (self : OOCLazyListObject) (db : Store) (n : Nat)
    (hlen : OOCLazyListObject_length self db = .ok n)
    (items : List C.PyObject) (hl : items.length = n)
    (hpos : PositionsExactly db self.listId n)
    (htok : ∀ k (h : k < items.length), ∃ t : EncodedValue C.sizeofEncodedValue,
      get db ⟨k, self.listId⟩ = some t.bytes ∧
      C.OOCMap_decode t db = .ok (items.get ⟨k, h⟩)) :
    OOCLazyList_eager C self db = .ok items := by
  subst hl
  have hd : Dense db self.listId items.length := ⟨length_ok_inv hlen, hpos⟩
  apply eager_of_storedItems C self db items ⟨hd, ?_⟩
  intro k hk
  obtain ⟨t, hg, hdec⟩ := htok k hk
  rw [item_at C self db items.length k t.bytes hd hk hg, dif_pos t.sized]
  exact hdec

end OOC

namespace OOC

/-! ## C29: what `eager` validates -/

/-- C29, counterexample: in the table `dbStale` the sentinel record of list 7 holds 0 and
there is an entry at position 0, so the entries are not exactly at the positions `0 .. n-1`;
`eager` returns the empty list all the same, because it returns before it scans when the
length is 0. -/
theorem C29_counterexample_stale_entry_not_detected :
    OOCLazyListObject_length ⟨0, 7⟩ dbStale = .ok 0 ∧
    ¬ PositionsExactly dbStale 7 0 ∧
    OOCLazyList_eager natCodec ⟨0, 7⟩ dbStale = .ok [] := by
  refine ⟨rfl, ?_, rfl⟩
  intro h
  have := (h 0 (by decide)).mp (by decide)
  omega

/-- C29, amended: let the sentinel record of `L` hold `n`.  When the entries under the id of
`L` are exactly at the positions `0 .. n-1` and are tokens that decode, `eager(L)` returns
the list of length `n` of their decodings.  When `n` is at least 1, the positions present
are not exactly `0 .. n-1` and the positions `0 .. n` do not all hold an entry (a gap or a
missing tail, with or without further entries behind it), `eager(L)` fails, with
`UnexpectedData` or with the error of the decoding of an entry met before.  When `n` is 0,
`eager(L)` returns the empty list without a scan.  The case in which the positions
`0 .. n-1` and the position `n` all hold an entry is left out. -/
theorem C29_eager_validates_density (C : Codec) (self : OOCLazyListObject) (db : Store)
    (n : Nat) (hlen : OOCLazyListObject_length self db = .ok n) :
    (∀ items : List C.PyObject, items.length = n →
      PositionsExactly db self.listId n →
      (∀ k (h : k < items.length), ∃ t : EncodedValue C.sizeofEncodedValue,
        get db ⟨k, self.listId⟩ = some t.bytes ∧
        C.OOCMap_decode t db = .ok (items.get ⟨k, h⟩)) →
      OOCLazyList_eager C self db = .ok items) ∧
    (1 ≤ n → KeysValid db → ¬ PositionsExactly db self.listId n →
      (∃ i, i ≤ n ∧ get db ⟨i, self.listId⟩ = none) →
      ∃ err, OOCLazyList_eager C self db = .error err ∧
        (err = .UnexpectedData ∨ ∃ t, C.OOCMap_decode t db = .error err)) ∧
    (n = 0 → OOCLazyList_eager C self db = .ok []) := by
  refine ⟨?_, ?_, ?_⟩
  · intro items hl hpos htok
    exact eager_of_tokens C self db n hlen items hl hpos htok
  · intro hn hkv hnot hmiss
    cases h : OOCLazyList_eager C self db with
    | ok items => exact absurd (eager_ok_positions C self db n hkv hlen hn items h) hnot
    | error err =>
      refine ⟨err, rfl, ?_⟩
      rcases eager_error_kind C self db n hkv hlen err h with h1 | h2 | ⟨_, hall⟩
      · exact Or.inl h1
      · exact Or.inr h2
      · obtain ⟨i, hi, hnone⟩ := hmiss
        have := hall i hi
        rw [hnone] at this
        cases this
  · intro hz
    subst hz
    exact eager_of_length_zero C self db hlen

/-- C29, witness: list 7 of `db78`, which is dense, materialises as `[10, 20, 30]`, and the
list 7 of `dbGap`, which has a gap at position 1, makes `eager` fail. -/
theorem C29_eager_validates_density_witness :
    OOCLazyList_eager natCodec ⟨0, 7⟩ db78 = .ok [10, 20, 30] ∧
    get dbGap ⟨1, 7⟩ = none ∧
    ∃ err, OOCLazyList_eager natCodec ⟨0, 7⟩ dbGap = .error err ∧
      (err = .UnexpectedData ∨ ∃ t, natCodec.OOCMap_decode t dbGap = .error err) :=
  ⟨(C29_eager_validates_density natCodec ⟨0, 7⟩ db78 3 rfl).1 [10, 20, 30] rfl
      (dense_of_check (by decide : denseCheck db78 7 3 = true)).2
      (fun k h => by
        have hk : k < 3 := h
        interval_cases k
        · exact ⟨⟨[10], rfl⟩, rfl, rfl⟩
        · exact ⟨⟨[20], rfl⟩, rfl, rfl⟩
        · exact ⟨⟨[30], rfl⟩, rfl, rfl⟩),
    rfl,
    (C29_eager_validates_density natCodec ⟨0, 7⟩ dbGap 3 rfl).2.1 (by decide)
      (keysValid_of_all (by decide))
      (fun h => by
        have := (h 1 (by decide)).mpr (by decide)
        revert this
        decide)
      ⟨1, by decide, rfl⟩⟩

end OOC

namespace OOC

/-! ## No consistency failure on a well-formed list -/

/-- What the `try` around the encoding of the needle ends with: an error of the codec, the
answer "not stored", or a needle and a table in which the entries of the list are as they
were. -/
theorem encodeNeedle_cases (C : Codec) (txn : Store) (value : C.PyObject) (id : Nat)
    (hk : EncodeKeeps C id) :
    (∃ e, encodeNeedle C txn value = .error e ∧
      C.OOCMap_encode value txn C.noInsertedItems true = .error e) ∨
    encodeNeedle C txn value = .ok none ∨
    (∃ needle txn1, encodeNeedle C txn value = .ok (some (needle, txn1)) ∧
      ∀ i, get txn1 ⟨i, id⟩ = get txn ⟨i, id⟩) := by
  unfold encodeNeedle
  cases he : C.OOCMap_encode value txn C.noInsertedItems true with
  | ok r =>
    obtain ⟨t, txn1, m1⟩ := r
    exact Or.inr (Or.inr ⟨.encoded t, txn1, rfl, hk value txn _ true t txn1 m1 he⟩)
  | error e =>
    cases e with
    | MdbError code =>
      simp only
      by_cases hc : code ≠ EACCES
      · rw [if_pos hc]
        exact Or.inl ⟨_, rfl, rfl⟩
      · rw [if_neg hc]
        exact Or.inr (Or.inr ⟨.unusable, txn, rfl, fun _ => rfl⟩)
    | ImmutableValueNotFound => exact Or.inr (Or.inl rfl)
    | OutOfMemory => exact Or.inl ⟨_, rfl, rfl⟩
    | UnexpectedData => exact Or.inl ⟨_, rfl, rfl⟩
    | IndexError => exact Or.inl ⟨_, rfl, rfl⟩
    | AlreadyPythonizedError => exact Or.inl ⟨_, rfl, rfl⟩
    | NullDereference => exact Or.inl ⟨_, rfl, rfl⟩
    | FuelExhausted => exact Or.inl ⟨_, rfl, rfl⟩
    | OutOfBoundsWrite => exact Or.inl ⟨_, rfl, rfl⟩

end OOC

namespace OOC

/-! ## No consistency failure: the mutations -/

end OOC

namespace OOC

/-! ## C27: no consistency failure on well-formed data -/

end OOC

namespace OOC

/-! ## Out-of-place repetition and concatenation -/

theorem PySequence_Repeat_length {α : Type} (items : List α) (count : Int) :
    (PySequence_Repeat items count).length = count.toNat * items.length := by
  unfold PySequence_Repeat
  generalize count.toNat = c
  induction c with
  | zero => simp
  | succ c ih =>
    rw [List.replicate_succ, List.flatten_cons, List.length_append, ih, Nat.succ_mul]
    omega

theorem flatten_replicate_getElem {α : Type} (items : List α) :
    ∀ (c j : Nat) (h : j < ((List.replicate c items).flatten).length)
      (h2 : j % items.length < items.length),
      ((List.replicate c items).flatten)[j] = items[j % items.length] := by
  intro c
  induction c with
  | zero => intro j h; simp at h
  | succ c ih =>
    intro j h h2
    simp only [List.replicate_succ, List.flatten_cons] at h ⊢
    by_cases hj : j < items.length
    · rw [List.getElem_append_left hj]
      simp only [Nat.mod_eq_of_lt hj]
    · have hle : items.length ≤ j := by omega
      rw [List.getElem_append_right hle]
      have hmod : j % items.length = (j - items.length) % items.length :=
        Nat.mod_eq_sub_mod hle
      rw [ih (j - items.length) _ (by rw [← hmod]; exact h2)]
      simp only [hmod]

theorem PySequence_Repeat_getElem {α : Type} (items : List α) (count : Int) (j : Nat)
    (h : j < (PySequence_Repeat items count).length)
    (h2 : j % items.length < items.length) :
    (PySequence_Repeat items count)[j] = items[j % items.length] :=
  flatten_replicate_getElem items count.toNat j h h2

theorem repeat_of_eager (C : Codec) (self : OOCLazyListObject) (db : Store) (count : Int)
    (eager : List C.PyObject) (h : OOCLazyList_eager C self db = .ok eager) :
    OOCLazyList_repeat C self db count = .ok (PySequence_Repeat eager count) := by
  unfold OOCLazyList_repeat
  rw [h]

theorem repeat_ok_inv (C : Codec) (self : OOCLazyListObject) (db : Store) (count : Int)
    (items : List C.PyObject) (h : OOCLazyList_repeat C self db count = .ok items) :
    ∃ eager, OOCLazyList_eager C self db = .ok eager ∧
      items = PySequence_Repeat eager count := by
  unfold OOCLazyList_repeat at h
  cases he : OOCLazyList_eager C self db with
  | error e => rw [he] at h; simp at h
  | ok eager =>
    rw [he] at h
    simp only [Except.ok.injEq] at h
    exact ⟨eager, rfl, h.symm⟩

theorem concat_ok_inv (C : Codec) (self : OOCLazyListObject) (db : Store)
    (ms items : List C.PyObject)
    (h : OOCLazyList_concat C self db (.pyList ms) = .ok items) :
    ∃ eager, OOCLazyList_eager C self db = .ok eager ∧ items = eager ++ ms := by
  unfold OOCLazyList_concat at h
  cases he : OOCLazyList_eager C self db with
  | error e => rw [he] at h; simp at h
  | ok eager =>
    rw [he] at h
    simp only [PySequence_Concat, Except.ok.injEq] at h
    exact ⟨eager, rfl, h.symm⟩

/-- What a successful `eager` of a dense list says: the list it returns has the length of
the stored list, and each position holds a token that decodes to the item. -/
theorem eager_ok_tokens (C : Codec) (self : OOCLazyListObject) (db : Store) (n : Nat)
    (eager : List C.PyObject) (hd : Dense db self.listId n)
    (h : OOCLazyList_eager C self db = .ok eager) :
    eager.length = n ∧
    ∀ i (hi : i < eager.length), ∃ t : EncodedValue C.sizeofEncodedValue,
      get db ⟨i, self.listId⟩ = some t.bytes ∧ C.OOCMap_decode t db = .ok eager[i] := by
  rw [eager_dense C self db n hd] at h
  obtain ⟨hl, hall⟩ := itemsFrom_ok C self db n 0 eager h
  refine ⟨hl, ?_⟩
  intro i hi
  have h1 := hall i hi
  rw [Nat.zero_add] at h1
  obtain ⟨mv, hsz, hg, hdec⟩ := item_ok_inv C self db n i _ hd (by omega) h1
  exact ⟨⟨mv, hsz⟩, hg, by rw [hdec, List.get_eq_getElem]⟩

/-- A list is stored with the items `items` when the positions are dense and each holds a
token that decodes to the item. -/
theorem storedItems_of_tokens (C : Codec) (self : OOCLazyListObject) (db : Store)
    (items : List C.PyObject) (hd : Dense db self.listId items.length)
    (htok : ∀ i (hi : i < items.length), ∃ t : EncodedValue C.sizeofEncodedValue,
      get db ⟨i, self.listId⟩ = some t.bytes ∧ C.OOCMap_decode t db = .ok items[i]) :
    StoredItems C self db items := by
  have hS := sentinel_val
  have hn := hd.le_sentinel
  refine ⟨hd, ?_⟩
  intro k hk
  obtain ⟨t, hg, hdec⟩ := htok k hk
  rw [item_of_get C self db k t (by omega) hg, hdec, List.get_eq_getElem]

/-- The in-place repeat of a well-formed list with a count that is not negative and a
result that fits stores the list that the out-of-place repeat returns. -/
theorem inplaceRepeat_stores_repeat (C : Codec) (self : OOCLazyListObject) (db : Store)
    (n : Nat) (hwf : WellFormed C db self.listId n) (hst : DecodeStatic C)
    (k : Int) (items : List C.PyObject) (hk0 : 0 ≤ k)
    (hcap : (n : Int) * k ≤ (ListKey.listIndexLength : Int))
    (h : OOCLazyList_repeat C self db k = .ok items) :
    (OOCLazyList_inplaceRepeat C self db k).1 = .ok () ∧
    StoredItems C self (OOCLazyList_inplaceRepeat C self db k).2 items := by
  have hS := sentinel_val
  have hn := hwf.1.le_sentinel
  obtain ⟨eager, he, hitems⟩ := repeat_ok_inv C self db k items h
  obtain ⟨hl, htok⟩ := eager_ok_tokens C self db n eager hwf.1 he
  have hlen : items.length = k.toNat * n := by
    rw [hitems, PySequence_Repeat_length, hl]
  obtain ⟨ooc, id⟩ := self
  simp only at hwf htok
  by_cases hz : toU32 k = 0
  · obtain ⟨s1, hs1, hwf1, _⟩ := clear_full C ooc id n db hwf.1
    have hrun : OOCLazyList_inplaceRepeat C ⟨ooc, id⟩ db k = (.ok (), s1) := by
      rw [inplaceRepeat_ok_iff]
      unfold OOCLazyListObject_inplaceRepeat
      rw [if_pos (by omega)]
      exact hs1
    have hnil : items = [] := by
      apply List.length_eq_zero.mp
      rw [hlen]
      by_cases hn0 : n = 0
      · rw [hn0]; rfl
      · obtain ⟨c, rfl⟩ := Int.eq_ofNat_of_zero_le hk0
        have hnc : n * c ≤ ListKey.listIndexLength := by exact_mod_cast hcap
        have hc : c ≤ n * c := Nat.le_mul_of_pos_left c (by omega)
        rw [toU32_natCast (show c < 4294967296 by omega)] at hz
        subst hz
        simp
    rw [hrun, hnil]
    exact ⟨rfl, hwf1.1, fun k hk => absurd hk (by simp)⟩
  · by_cases hn0 : n = 0
    · subst hn0
      have hrun : OOCLazyList_inplaceRepeat C ⟨ooc, id⟩ db k = (.ok (), db) := by
        rw [inplaceRepeat_ok_iff]
        unfold OOCLazyListObject_inplaceRepeat
        rw [if_neg (by omega), hwf.1.length_eq ooc]
        rfl
      have hnil : items = [] := by
        apply List.length_eq_zero.mp
        rw [hlen, Nat.mul_zero]
      rw [hrun, hnil]
      exact ⟨rfl, hwf.1, fun k hk => absurd hk (by simp)⟩
    · obtain ⟨c, rfl⟩ := Int.eq_ofNat_of_zero_le hk0
      have hnc : n * c ≤ ListKey.listIndexLength := by exact_mod_cast hcap
      have hc : c ≤ n * c := Nat.le_mul_of_pos_left c (by omega)
      rw [toU32_natCast (show c < 4294967296 by omega)] at hz
      obtain ⟨s1, hs1, hwf1, hget, _⟩ := repeat_full C ooc id n c db hwf (by omega) hnc
      have hrun : OOCLazyList_inplaceRepeat C ⟨ooc, id⟩ db (c : Int) = (.ok (), s1) := by
        rw [inplaceRepeat_ok_iff, toU32_natCast (show c < 4294967296 by omega)]
        exact hs1
      rw [hrun]
      refine ⟨rfl, ?_⟩
      have hlen1 : items.length = n * c := by
        rw [hlen, Int.toNat_ofNat, Nat.mul_comm]
      apply storedItems_of_tokens
      · rw [hlen1]; exact hwf1.1
      · intro j hj
        have hjn : j % n < n := Nat.mod_lt _ (by omega)
        obtain ⟨t, hg, hdec⟩ := htok (j % n) (by omega)
        refine ⟨t, ?_, ?_⟩
        · rw [hget j (by omega)]
          exact hg
        · rw [hst t s1 db, hdec]
          subst hitems
          rw [PySequence_Repeat_getElem eager _ j hj (by rw [hl]; exact hjn)]
          simp only [hl]

/-- Extending a well-formed list by a host list of encodable values, with a result that
fits, stores the list that the out-of-place concatenation returns. -/
theorem extend_stores_concat (C : Codec) (self : OOCLazyListObject) (db : Store)
    (n : Nat) (hwf : WellFormed C db self.listId n) (hst : DecodeStatic C)
    (hk : EncodeKeeps C self.listId) (hback : DecodesBack C)
    (ms items : List C.PyObject) (henc : ∀ item, item ∈ ms → Encodable C item)
    (hcap : n + ms.length ≤ ListKey.listIndexLength)
    (h : OOCLazyList_concat C self db (.pyList ms) = .ok items) :
    (OOCLazyList_extend C self db (.iterable ms false)).1 = .ok () ∧
    StoredItems C self (OOCLazyList_extend C self db (.iterable ms false)).2 items := by
  have hS := sentinel_val
  obtain ⟨eager, he, hitems⟩ := concat_ok_inv C self db ms items h
  obtain ⟨hl, htok⟩ := eager_ok_tokens C self db n eager hwf.1 he
  obtain ⟨ooc, id⟩ := self
  simp only at hwf htok hk
  obtain ⟨s1, hs1⟩ := extend_iterable_ok C ooc id n db ms false hwf.1 henc
  obtain ⟨hwf1, toks, hfor, hnew, hold⟩ :=
    extend_iterable_full C ooc id n db s1 ms false hwf hk hcap hs1
  have hrun : OOCLazyList_extend C ⟨ooc, id⟩ db (.iterable ms false) = (.ok (), s1) := by
    rw [extend_ok_iff]
    exact hs1
  rw [hrun]
  refine ⟨rfl, ?_⟩
  subst hitems
  have hlen1 : (eager ++ ms).length = n + ms.length := by
    rw [List.length_append, hl]
  apply storedItems_of_tokens
  · rw [hlen1]; exact hwf1.1
  · intro j hj
    by_cases hjn : j < n
    · obtain ⟨t, hg, hdec⟩ := htok j (by omega)
      refine ⟨t, ?_, ?_⟩
      · rw [hold j hjn]; exact hg
      · rw [hst t s1 db, hdec, List.getElem_append_left (by omega)]
    · have hjm : j - n < ms.length := by omega
      have htl : toks.length = ms.length := hfor.length_eq.symm
      have hjt : j - n < toks.length := by omega
      have hrel : IsTokenOf C ms[j - n] toks[j - n] := by
        have := List.Forall₂.get hfor hjm hjt
        simpa [List.get_eq_getElem] using this
      obtain ⟨txn, m, txn1, m1, henc1⟩ := hrel
      refine ⟨toks[j - n], ?_, ?_⟩
      · have := hnew (j - n) hjm
        rw [show n + (j - n) = j by omega] at this
        rw [this, List.getElem?_eq_getElem hjt]
        rfl
      · rw [hst _ s1 txn1, hback _ txn m false _ txn1 m1 henc1,
          List.getElem_append_right (by omega)]
        simp only [hl]

end OOC

namespace OOC

/-! ## C30: in-place and out-of-place repetition and concatenation -/

/-- C30, counterexample: in `db78` the lists 7 and 8 are well formed; `extend` of list 7 by
list 8 succeeds and stores `[10, 20, 30, 40, 50]`, while the out-of-place concatenation of
the same two lists ends with a `TypeError`, because the host list that `eager` returns is
concatenated with host lists only.  And on the one-item list of `db7` the in-place repeat
with the count `2^32` stores the empty list, while the out-of-place repeat returns a list
of `2^32` items. -/
theorem C30_counterexample_concat_refuses_lazy_list :
    WellFormed natCodec db78 7 3 ∧ WellFormed natCodec db78 8 2 ∧
    (OOCLazyList_extend natCodec ⟨0, 7⟩ db78 (.lazyList ⟨0, 8⟩)).1 = .ok () ∧
    OOCLazyList_eager natCodec ⟨0, 7⟩
      (OOCLazyList_extend natCodec ⟨0, 7⟩ db78 (.lazyList ⟨0, 8⟩)).2
        = .ok [10, 20, 30, 40, 50] ∧
    OOCLazyList_concat natCodec ⟨0, 7⟩ db78 (.lazyList ⟨0, 8⟩) = .error .TypeError ∧
    WellFormed natCodec db7 7 1 ∧
    (OOCLazyList_inplaceRepeat natCodec ⟨0, 7⟩ db7 4294967296).1 = .ok () ∧
    OOCLazyList_eager natCodec ⟨0, 7⟩
      (OOCLazyList_inplaceRepeat natCodec ⟨0, 7⟩ db7 4294967296).2 = .ok [] ∧
    ∃ items, OOCLazyList_repeat natCodec ⟨0, 7⟩ db7 4294967296 = .ok items ∧
      items.length = 4294967296 := by
  refine ⟨wellFormed_of_check (by decide), wellFormed_of_check (by decide), rfl, rfl, rfl,
    wellFormed_of_check (by decide), rfl, rfl, ?_⟩
  refine ⟨_, repeat_of_eager natCodec ⟨0, 7⟩ db7 4294967296 [10] rfl, ?_⟩
  rw [PySequence_Repeat_length]
  rfl

/-- C30, amended: let `L` be a well-formed list of length `n`, and let the decoding of a
token not depend on the table.  For every count `k >= 0` with `n * k` at most the sentinel
position, when the out-of-place repeat `L * k` returns a list on the original table, the
in-place repeat `L *= k` succeeds and the sequence stored under `L` afterwards is that
list.  For every host list `M` of encodable values with `n + len(M)` at most the sentinel
position, when the out-of-place concatenation `L + M` returns a list on the original
table, `extend(L, M)` succeeds and the sequence stored under `L` afterwards is that list;
here the codec keeps the entries of the list when it encodes, and a token decodes to the
value it was made from. -/
theorem C30_in_place_agrees_with_out_of_place (C : Codec) (self : OOCLazyListObject)
    (db : Store) (n : Nat) (hwf : WellFormed C db self.listId n) (hst : DecodeStatic C) :
    (∀ (k : Int) (items : List C.PyObject), 0 ≤ k →
      (n : Int) * k ≤ (ListKey.listIndexLength : Int) →
      OOCLazyList_repeat C self db k = .ok items →
      (OOCLazyList_inplaceRepeat C self db k).1 = .ok () ∧
      StoredItems C self (OOCLazyList_inplaceRepeat C self db k).2 items) ∧
    (∀ (ms items : List C.PyObject), EncodeKeeps C self.listId → DecodesBack C →
      (∀ item, item ∈ ms → Encodable C item) →
      n + ms.length ≤ ListKey.listIndexLength →
      OOCLazyList_concat C self db (.pyList ms) = .ok items →
      (OOCLazyList_extend C self db (.iterable ms false)).1 = .ok () ∧
      StoredItems C self (OOCLazyList_extend C self db (.iterable ms false)).2 items) :=
  ⟨fun k items hk0 hcap h => inplaceRepeat_stores_repeat C self db n hwf hst k items hk0 hcap h,
    fun ms items hk hback henc hcap h =>
      extend_stores_concat C self db n hwf hst hk hback ms items henc hcap h⟩

/-- C30, witness: on the list `[10, 20, 30]` under id 7 of `db78`, the in-place repeat with
the count 2 stores `[10, 20, 30, 10, 20, 30]` and the extension by the host list `[99]`
stores `[10, 20, 30, 99]`, the lists that `L * 2` and `L + [99]` return. -/
theorem C30_in_place_agrees_with_out_of_place_witness :
    WellFormed natCodec db78 7 3 ∧
    OOCLazyList_repeat natCodec ⟨0, 7⟩ db78 2 = .ok [10, 20, 30, 10, 20, 30] ∧
    StoredItems natCodec ⟨0, 7⟩ (OOCLazyList_inplaceRepeat natCodec ⟨0, 7⟩ db78 2).2
      [10, 20, 30, 10, 20, 30] ∧
    OOCLazyList_concat natCodec ⟨0, 7⟩ db78 (.pyList [99]) = .ok [10, 20, 30, 99] ∧
    StoredItems natCodec ⟨0, 7⟩
      (OOCLazyList_extend natCodec ⟨0, 7⟩ db78 (.iterable [(99 : Nat)] false)).2
      [10, 20, 30, 99] :=
  ⟨wellFormed_of_check (by decide), rfl,
    ((C30_in_place_agrees_with_out_of_place natCodec ⟨0, 7⟩ db78 3
      (wellFormed_of_check (by decide)) natCodec_decodeStatic).1 2 [10, 20, 30, 10, 20, 30]
      (by decide) (by decide) rfl).2,
    rfl,
    ((C30_in_place_agrees_with_out_of_place natCodec ⟨0, 7⟩ db78 3
      (wellFormed_of_check (by decide)) natCodec_decodeStatic).2 [99] [10, 20, 30, 99]
      (natCodec_keeps 7) natCodec_decodesBack (fun item _ => natCodec_encodable item)
      (by decide) rfl).2⟩

end OOC

namespace OOC

/-! ## The search with any needle -/

theorem matchesAt_eq (C : Codec) (H : Host C) (value : C.PyObject) (needle : Needle C)
    (txn : Store) (id p : Nat) (v : MDB_val) (h : v.length = C.sizeofEncodedValue) (b : Bool)
    (hv : get txn ⟨p, id⟩ = some v)
    (hb : needleMatches C H value needle txn ⟨v, h⟩ = .ok b) :
    matchesAt C H value needle txn id p = b := by
  unfold matchesAt
  rw [hv]
  simp only
  rw [dif_pos h, hb]

theorem matchesAt_true_inv (C : Codec) (H : Host C) (value : C.PyObject) (needle : Needle C)
    (txn : Store) (id p : Nat) (hm : matchesAt C H value needle txn id p = true) :
    ∃ (v : MDB_val) (h : v.length = C.sizeofEncodedValue), get txn ⟨p, id⟩ = some v ∧
      needleMatches C H value needle txn ⟨v, h⟩ = .ok true := by
  unfold matchesAt at hm
  cases hg : get txn ⟨p, id⟩ with
  | none => rw [hg] at hm; simp at hm
  | some v =>
    rw [hg] at hm
    simp only at hm
    by_cases h : v.length = C.sizeofEncodedValue
    · rw [dif_pos h] at hm
      cases hr : needleMatches C H value needle txn ⟨v, h⟩ with
      | error e => rw [hr] at hm; simp at hm
      | ok b =>
        rw [hr] at hm
        simp only at hm
        subst hm
        exact ⟨v, h, rfl, hr⟩
    · rw [dif_neg h] at hm; simp at hm

/-- The test of an entry that decodes gives an answer. -/
theorem needleMatches_ok (C : Codec) (H : Host C) (value : C.PyObject) (needle : Needle C)
    (txn : Store) (e : EncodedValue C.sizeofEncodedValue)
    (hdec : ∃ item, C.OOCMap_decode e txn = .ok item) :
    ∃ b, needleMatches C H value needle txn e = .ok b := by
  obtain ⟨item, hd⟩ := hdec
  unfold needleMatches
  by_cases h : needle.typeCodeWithLength H = 255
  · rw [if_pos h, hd]
    exact ⟨_, rfl⟩
  · rw [if_neg h]
    exact ⟨_, rfl⟩

/-- What a positive test says: the entry decodes to an item that the comparison with the
needle does not answer 0 for, or the entry is byte for byte the token of the needle. -/
theorem needleMatches_true_inv (C : Codec) (H : Host C) (value : C.PyObject)
    (needle : Needle C) (txn : Store) (e : EncodedValue C.sizeofEncodedValue)
    (hm : needleMatches C H value needle txn e = .ok true) :
    (∃ item, C.OOCMap_decode e txn = .ok item ∧
      H.PyObject_RichCompareBool value item Py_EQ ≠ 0) ∨
    (∃ t, needle = .encoded t ∧ t.bytes = e.bytes) := by
  unfold needleMatches at hm
  by_cases h : needle.typeCodeWithLength H = 255
  · rw [if_pos h] at hm
    cases hd : C.OOCMap_decode e txn with
    | error err => rw [hd] at hm; simp at hm
    | ok item =>
      rw [hd] at hm
      simp only [Except.ok.injEq, decide_eq_true_eq] at hm
      exact Or.inl ⟨item, rfl, hm⟩
  · rw [if_neg h] at hm
    cases needle with
    | unusable => simp [Needle.equals] at hm
    | encoded t =>
      simp only [Needle.equals, Except.ok.injEq, decide_eq_true_eq] at hm
      exact Or.inr ⟨t, rfl, hm⟩

/-- The `index` loop over a well-formed list from a cursor on position `j`, when the stop
is beyond the list and the test of every entry gives an answer: it stops at the first
position from `j` on whose entry passes the test. -/
theorem index_loop_matches (C : Codec) (H : Host C) (id n : Nat) (txn : Store)
    (value : C.PyObject) (needle : Needle C) (stop : Int)
    (hwf : WellFormed C txn id n) (hstop : (n : Int) ≤ stop)
    (hok : ∀ (p : Nat) (v : MDB_val) (h : v.length = C.sizeofEncodedValue), p < n →
      get txn ⟨p, id⟩ = some v → ∃ b, needleMatches C H value needle txn ⟨v, h⟩ = .ok b) :
    ∀ (fuel j : Nat) (sk : ListKey) (v : MDB_val),
      j ≤ n → n - j < fuel → get txn sk = some v →
      (j < n → sk = ⟨j, id⟩) → (¬ j < n → sk = ⟨ListKey.listIndexLength, id⟩) →
      ∃ r, index_loop C H id value needle stop fuel txn sk v = .ok r ∧
        ((r = none ∧ ∀ p : Nat, j ≤ p → p < n →
            matchesAt C H value needle txn id p = false) ∨
          (∃ p : Nat, r = some ⟨p, id⟩ ∧ j ≤ p ∧ p < n ∧
            matchesAt C H value needle txn id p = true ∧
            ∀ q : Nat, j ≤ q → q < p → matchesAt C H value needle txn id q = false)) := by
  have hS := sentinel_val
  have hn := hwf.1.le_sentinel
  intro fuel
  induction fuel with
  | zero => intro j sk v _ hf; omega
  | succ fuel ih =>
    intro j sk v hjn hf hv hin hout
    rw [index_loop]
    by_cases hlt : j < n
    · have hsk := hin hlt
      subst hsk
      have hc : ¬ (((⟨j, id⟩ : ListKey).listIndex : Int) ≥ stop ∨
          (⟨j, id⟩ : ListKey).listId ≠ id ∨
          (⟨j, id⟩ : ListKey).listIndex = ListKey.listIndexLength) := by
        simp only [ne_eq, not_true_eq_false, false_or]
        omega
      have hsz : v.length = C.sizeofEncodedValue := hwf.2 j v (by omega) hv
      obtain ⟨b, hb⟩ := hok j v hsz hlt hv
      have hf1 := matchesAt_eq C H value needle txn id j v hsz b hv hb
      rw [if_neg hc, dif_pos hsz, hb]
      cases b with
      | true =>
        refine ⟨some ⟨j, id⟩, rfl, Or.inr ⟨j, rfl, Nat.le_refl _, hlt, hf1, ?_⟩⟩
        intro q h1 h2
        omega
      | false =>
        simp only
        obtain ⟨sk1, v1, hnext, hv1, hin1, hout1⟩ :=
          hwf.1.span.next (Nat.zero_le _) (show j < ListKey.listIndexLength by omega)
        rw [hnext]
        simp only
        obtain ⟨r, hr, hchar⟩ := ih (j + 1) sk1 v1 (by omega) (by omega) hv1 hin1 hout1
        refine ⟨r, hr, ?_⟩
        rcases hchar with ⟨hnone, hall⟩ | ⟨p, hp, h1, h2, h3, h4⟩
        · refine Or.inl ⟨hnone, ?_⟩
          intro p h1 h2
          by_cases hpj : p = j
          · subst hpj
            exact hf1
          · exact hall p (by omega) h2
        · refine Or.inr ⟨p, hp, by omega, h2, h3, ?_⟩
          intro q hq1 hq2
          by_cases hqj : q = j
          · subst hqj
            exact hf1
          · exact h4 q (by omega) hq2
    · have hsk := hout hlt
      subst hsk
      rw [if_pos (Or.inr (Or.inr rfl))]
      refine ⟨none, rfl, Or.inl ⟨rfl, ?_⟩⟩
      intro p h1 h2
      omega

theorem toU32_zero : toU32 0 = 0 := rfl

/-- The scan of `index` from the start 0 with a stop beyond the list: the first position
whose entry passes the test, or -1. -/
theorem index_scan_matches (C : Codec) (H : Host C) (self : OOCLazyListObject) (n : Nat)
    (txn : Store) (value : C.PyObject) (needle : Needle C) (stop : Int)
    (hwf : WellFormed C txn self.listId n) (hstop : (n : Int) ≤ stop)
    (hok : ∀ (p : Nat) (v : MDB_val) (h : v.length = C.sizeofEncodedValue), p < n →
      get txn ⟨p, self.listId⟩ = some v →
      ∃ b, needleMatches C H value needle txn ⟨v, h⟩ = .ok b) :
    ∃ r, index_scan C H self txn value needle 0 stop = .ok r ∧
      ((r = -1 ∧ ∀ p : Nat, p < n →
          matchesAt C H value needle txn self.listId p = false) ∨
        (∃ p : Nat, r = (p : Int) ∧ p < n ∧
          matchesAt C H value needle txn self.listId p = true ∧
          ∀ q : Nat, q < p → matchesAt C H value needle txn self.listId q = false)) := by
  have hlen := hwf.1.le_length
  obtain ⟨sk, v, hrange, hv, hin, hout⟩ :=
    hwf.1.span.range (Nat.le_refl 0) (Nat.zero_le _)
  unfold index_scan
  rw [toU32_zero, hrange]
  simp only
  obtain ⟨r, hr, hchar⟩ := index_loop_matches C H self.listId n txn value needle stop hwf
    hstop hok (txn.length + 1) 0 sk v (Nat.zero_le _) (by omega) hv hin hout
  rw [hr]
  rcases hchar with ⟨hnone, hall⟩ | ⟨p, hp, _, h2, h3, h4⟩
  · subst hnone
    exact ⟨-1, rfl, Or.inl ⟨rfl, fun p hp => hall p (Nat.zero_le _) hp⟩⟩
  · subst hp
    exact ⟨(p : Int), rfl, Or.inr ⟨p, rfl, h2, h3, fun q hq => h4 q (Nat.zero_le _) hq⟩⟩

/-- The `count` loop over a well-formed list from a cursor on position `j`, when the test
of every entry gives an answer: the entries from `j` on that pass the test are counted. -/
theorem count_loop_matches (C : Codec) (H : Host C) (id n : Nat) (txn : Store)
    (value : C.PyObject) (needle : Needle C)
    (hwf : WellFormed C txn id n)
    (hok : ∀ (p : Nat) (v : MDB_val) (h : v.length = C.sizeofEncodedValue), p < n →
      get txn ⟨p, id⟩ = some v → ∃ b, needleMatches C H value needle txn ⟨v, h⟩ = .ok b) :
    ∀ (fuel j : Nat) (sk : ListKey) (v : MDB_val) (c : Nat),
      j ≤ n → n - j < fuel → get txn sk = some v →
      (j < n → sk = ⟨j, id⟩) → (¬ j < n → sk = ⟨ListKey.listIndexLength, id⟩) →
      count_loop C H id value needle fuel txn sk v c
        = .ok (c + (List.range' j (n - j)).countP (matchesAt C H value needle txn id)) := by
  have hS := sentinel_val
  have hn := hwf.1.le_sentinel
  intro fuel
  induction fuel with
  | zero => intro j sk v c _ hf; omega
  | succ fuel ih =>
    intro j sk v c hjn hf hv hin hout
    rw [count_loop]
    by_cases hlt : j < n
    · have hsk := hin hlt
      subst hsk
      have hc : ¬ ((⟨j, id⟩ : ListKey).listId ≠ id ∨
          (⟨j, id⟩ : ListKey).listIndex = ListKey.listIndexLength) := by
        simp only [ne_eq, not_true_eq_false, false_or]; omega
      have hsz : v.length = C.sizeofEncodedValue := hwf.2 j v (by omega) hv
      obtain ⟨b, hb⟩ := hok j v hsz hlt hv
      have hf1 := matchesAt_eq C H value needle txn id j v hsz b hv hb
      rw [if_neg hc, dif_pos hsz, hb]
      simp only
      obtain ⟨sk1, v1, hnext, hv1, hin1, hout1⟩ :=
        hwf.1.span.next (Nat.zero_le _) (show j < ListKey.listIndexLength by omega)
      rw [hnext]
      simp only
      rw [ih (j + 1) sk1 v1 _ (by omega) (by omega) hv1 hin1 hout1]
      have hr : List.range' j (n - j) = j :: List.range' (j + 1) (n - (j + 1)) := by
        have : n - j = (n - (j + 1)) + 1 := by omega
        rw [this, List.range'_succ]
      rw [hr, List.countP_cons, hf1]
      cases b with
      | true =>
        simp only [if_true]
        congr 1
        omega
      | false =>
        simp only [Bool.false_eq_true, if_false]
        congr 1
    · have hsk := hout hlt
      subst hsk
      rw [if_pos (Or.inr rfl)]
      have : n - j = 0 := by omega
      rw [this]
      rfl

theorem count_scan_matches (C : Codec) (H : Host C) (self : OOCLazyListObject) (n : Nat)
    (txn : Store) (value : C.PyObject) (needle : Needle C)
    (hwf : WellFormed C txn self.listId n)
    (hok : ∀ (p : Nat) (v : MDB_val) (h : v.length = C.sizeofEncodedValue), p < n →
      get txn ⟨p, self.listId⟩ = some v →
      ∃ b, needleMatches C H value needle txn ⟨v, h⟩ = .ok b) :
    count_scan C H self txn value needle
      = .ok ((List.range n).countP (matchesAt C H value needle txn self.listId)) := by
  obtain ⟨sk, v, hrange, hv, hin, hout⟩ :=
    hwf.1.span.range (Nat.le_refl 0) (Nat.zero_le _)
  have hlen := hwf.1.le_length
  unfold count_scan
  rw [hrange]
  simp only
  rw [count_loop_matches C H self.listId n txn value needle hwf hok _ 0 sk v 0
    (Nat.zero_le _) (by omega) hv hin hout, List.range_eq_range']
  simp

end OOC

namespace OOC

/-! ## Membership, `index` and `count` on one list -/

theorem encodeNeedle_encoded_inv (C : Codec) (txn : Store) (value : C.PyObject)
    (t : EncodedValue C.sizeofEncodedValue) (txn1 : Store)
    (h : encodeNeedle C txn value = .ok (some (.encoded t, txn1))) :
    ∃ m1, C.OOCMap_encode value txn C.noInsertedItems true = .ok (t, txn1, m1) := by
  unfold encodeNeedle at h
  cases he : C.OOCMap_encode value txn C.noInsertedItems true with
  | ok r =>
    obtain ⟨t0, txn0, m0⟩ := r
    rw [he] at h
    simp only [Except.ok.injEq, Option.some.injEq, Prod.mk.injEq, Needle.encoded.injEq] at h
    obtain ⟨h1, h2⟩ := h
    subst h1
    subst h2
    exact ⟨m0, rfl⟩
  | error e =>
    rw [he] at h
    cases e with
    | MdbError code =>
      simp only at h
      by_cases hc : code ≠ EACCES
      · rw [if_pos hc] at h; simp at h
      · rw [if_neg hc] at h; simp at h
    | ImmutableValueNotFound => simp at h
    | OutOfMemory => simp at h
    | UnexpectedData => simp at h
    | IndexError => simp at h
    | AlreadyPythonizedError => simp at h
    | NullDereference => simp at h
    | FuelExhausted => simp at h
    | OutOfBoundsWrite => simp at h

/-- The method `index` without further arguments searches from 0 up to the largest
`Py_ssize_t`. -/
theorem index_method_default (C : Codec) (H : Host C) (self : OOCLazyListObject)
    (db : Store) (value : C.PyObject) :
    OOCLazyList_index C H self db value [] =
      (match OOCLazyListObject_index C H self db value 0 9223372036854775807 with
        | .error e => .error (.pythonized e)
        | .ok index => if index < 0 then .error .ValueError else .ok index) := rfl

/-- `contains` answers 1 exactly when the method `index` with the same start and stop
returns a position. -/
theorem contains_iff_index (C : Codec) (H : Host C) (self : OOCLazyListObject)
    (db : Store) (value : C.PyObject) :
    OOCLazyList_contains C H self db value 0 9223372036854775807 = .ok 1 ↔
      ∃ p : Nat, OOCLazyList_index C H self db value [] = .ok (p : Int) := by
  rw [index_method_default]
  unfold OOCLazyList_contains
  cases hr : OOCLazyListObject_index C H self db value 0 9223372036854775807 with
  | error e =>
    constructor
    · intro h; cases h
    · rintro ⟨p, h⟩; cases h
  | ok r =>
    simp only
    by_cases hneg : r < 0
    · constructor
      · intro h
        rw [if_pos hneg] at h
        simp only [Except.ok.injEq] at h
        omega
      · rintro ⟨p, h⟩
        rw [if_pos hneg] at h
        cases h
    · constructor
      · intro _
        obtain ⟨p, hp⟩ := Int.eq_ofNat_of_zero_le (show 0 ≤ r by omega)
        refine ⟨p, ?_⟩
        rw [if_neg hneg, hp]
      · intro _
        rw [if_neg hneg]

/-- What `index` from the start 0 with a stop beyond the list and `count` do on a
well-formed list whose entries decode: both fail with the error of the encoding of the
needle, or both answer "not stored", or both scan the list with one needle, and then
`index` returns the first position that passes the test and `count` the number of such
positions. -/
theorem search_outcome (C : Codec) (H : Host C) (self : OOCLazyListObject) (db : Store)
    (n : Nat) (value : C.PyObject) (stop : Int)
    (hwf : WellFormed C db self.listId n) (hk : EncodeKeeps C self.listId)
    (hst : DecodeStatic C) (hdec : Decodable C db self.listId)
    (hstop : (n : Int) ≤ stop) :
    (∃ e, OOCLazyListObject_index C H self db value 0 stop = .error e ∧
      OOCLazyListObject_count C H self db value = .error e) ∨
    (OOCLazyListObject_index C H self db value 0 stop = .ok (-1) ∧
      OOCLazyListObject_count C H self db value = .ok 0) ∨
    (∃ needle txn1, encodeNeedle C db value = .ok (some (needle, txn1)) ∧
      (∀ i, get txn1 ⟨i, self.listId⟩ = get db ⟨i, self.listId⟩) ∧
      OOCLazyListObject_count C H self db value
        = .ok ((List.range n).countP (matchesAt C H value needle txn1 self.listId)) ∧
      ∃ r, OOCLazyListObject_index C H self db value 0 stop = .ok r ∧
        ((r = -1 ∧ ∀ p : Nat, p < n →
            matchesAt C H value needle txn1 self.listId p = false) ∨
          (∃ p : Nat, r = (p : Int) ∧ p < n ∧
            matchesAt C H value needle txn1 self.listId p = true ∧
            ∀ q : Nat, q < p → matchesAt C H value needle txn1 self.listId q = false))) := by
  have h0 : (0 : Int) ≤ stop := by omega
  have hb := index_bounds_nonneg self db 0 stop (Int.le_refl 0) h0
  unfold OOCLazyListObject_index OOCLazyListObject_count
  rw [hb]
  simp only
  rcases encodeNeedle_cases C db value self.listId hk with ⟨e, h1, _⟩ | h1 | ⟨nd, txn1, h1, h2⟩
  · rw [h1]
    exact Or.inl ⟨e, rfl, rfl⟩
  · rw [h1]
    exact Or.inr (Or.inl ⟨rfl, rfl⟩)
  · rw [h1]
    simp only
    have hwf1 : WellFormed C txn1 self.listId n := hwf.wf_of_get_eq h2
    have hok : ∀ (p : Nat) (v : MDB_val) (h : v.length = C.sizeofEncodedValue), p < n →
        get txn1 ⟨p, self.listId⟩ = some v →
        ∃ b, needleMatches C H value nd txn1 ⟨v, h⟩ = .ok b := by
      intro p v h _ hv
      apply needleMatches_ok
      rw [h2] at hv
      obtain ⟨item, hi⟩ := hdec p ⟨v, h⟩ hv
      exact ⟨item, by rw [hst _ txn1 db]; exact hi⟩
    obtain ⟨r, hr, hchar⟩ :=
      index_scan_matches C H self n txn1 value nd stop hwf1 hstop hok
    exact Or.inr (Or.inr ⟨nd, txn1, rfl, h2,
      count_scan_matches C H self n txn1 value nd hwf1 hok, r, hr, hchar⟩)

end OOC

namespace OOC

/-! ## C31: membership, `index` and `count` are consistent -/

theorem natHost_equalityDecided (value : Nat) : natHost.EqualityDecided value := by
  intro item
  by_cases h : value = item
  · right
    simp [natHost, Py_LT, Py_LE, Py_EQ, h]
  · left
    simp [natHost, Py_LT, Py_LE, Py_EQ, h]

/-- C31: for a well-formed list `L` of length `n` whose entries decode and every needle
`v`, `contains(L, v)` answers 1 exactly when `index(L, v)` without further arguments
returns a position, and that is exactly when `count(L, v)` returns a number above 0; and
when `index` returns the position `p`, `p` is below `n` and `get(L, p)` returns `v` itself
(the entry is the token of `v`) or an item that compares equal to `v` (the entry was
decoded and compared).  The default start and stop of the call in `contains` are taken to
be those of the method `index`, 0 and the largest `Py_ssize_t`; the codec is assumed to
keep the entries of the list while it encodes, to decode a token independently of the
table and to the value it was made from, and the comparison with the needle not to
raise. -/
theorem C31_membership_index_count_agree (C : Codec) (H : Host C)
    (self : OOCLazyListObject) (db : Store) (n : Nat) (value : C.PyObject)
    (hwf : WellFormed C db self.listId n) (hk : EncodeKeeps C self.listId)
    (hst : DecodeStatic C) (hback : DecodesBack C) (hdec : Decodable C db self.listId)
    (hcmp : H.EqualityDecided value) :
    (OOCLazyList_contains C H self db value 0 9223372036854775807 = .ok 1 ↔
      ∃ p : Nat, OOCLazyList_index C H self db value [] = .ok (p : Int)) ∧
    ((∃ p : Nat, OOCLazyList_index C H self db value [] = .ok (p : Int)) ↔
      ∃ c : Nat, OOCLazyList_count C H self db value = .ok c ∧ 0 < c) ∧
    (∀ p : Nat, OOCLazyList_index C H self db value [] = .ok (p : Int) →
      p < n ∧ ∃ item, OOCLazyList_item C self db (p : Int) = .ok item ∧
        (item = value ∨ H.PyObject_RichCompareBool value item Py_EQ = 1)) := by
  have hS := sentinel_val
  have hn := hwf.1.le_sentinel
  have hstop : (n : Int) ≤ 9223372036854775807 := by omega
  have out := search_outcome C H self db n value 9223372036854775807 hwf hk hst hdec hstop
  refine ⟨contains_iff_index C H self db value, ?_, ?_⟩
  · rw [index_method_default]
    unfold OOCLazyList_count
    rcases out with ⟨e, hi, hc⟩ | ⟨hi, hc⟩ | ⟨nd, txn1, _, _, hc, r, hi, hchar⟩
    · rw [hi, hc]
      constructor
      · rintro ⟨p, h⟩; cases h
      · rintro ⟨c, h, _⟩; cases h
    · rw [hi, hc]
      constructor
      · rintro ⟨p, h⟩; simp at h
      · rintro ⟨c, h, hpos⟩
        simp only [Except.ok.injEq] at h
        omega
    · rw [hi, hc]
      simp only
      rcases hchar with ⟨hr, hall⟩ | ⟨p, hr, hp, hm, _⟩
      · subst hr
        constructor
        · rintro ⟨p, h⟩; simp at h
        · rintro ⟨c, h, hpos⟩
          simp only [Except.ok.injEq] at h
          subst h
          obtain ⟨a, ha, hma⟩ := List.countP_pos_iff.mp hpos
          rw [List.mem_range] at ha
          rw [hall a ha] at hma
          cases hma
      · subst hr
        constructor
        · intro _
          exact ⟨_, rfl, List.countP_pos_iff.mpr ⟨p, List.mem_range.mpr hp, hm⟩⟩
        · intro _
          exact ⟨p, by rw [if_neg (by omega)]⟩
  · intro p hp
    rw [index_method_default] at hp
    rcases out with ⟨e, hi, _⟩ | ⟨hi, _⟩ | ⟨nd, txn1, hnd, hkeep, _, r, hi, hchar⟩
    · rw [hi] at hp; cases hp
    · rw [hi] at hp; simp at hp
    · rw [hi] at hp
      simp only at hp
      rcases hchar with ⟨hr, _⟩ | ⟨q, hr, hq, hm, _⟩
      · subst hr; simp at hp
      · subst hr
        rw [if_neg (by omega)] at hp
        simp only [Except.ok.injEq, Nat.cast_inj] at hp
        subst hp
        refine ⟨hq, ?_⟩
        obtain ⟨v, h, hg, hmatch⟩ := matchesAt_true_inv C H value nd txn1 self.listId q hm
        rw [hkeep] at hg
        rcases needleMatches_true_inv C H value nd txn1 ⟨v, h⟩ hmatch with
          ⟨item, hd, hne⟩ | ⟨t, hnd1, hbytes⟩
        · refine ⟨item, ?_, Or.inr ?_⟩
          · rw [item_of_get C self db q ⟨v, h⟩ (by omega) hg, hst _ db txn1]
            exact hd
          · rcases hcmp item with h0 | h1
            · exact absurd h0 hne
            · exact h1
        · subst hnd1
          obtain ⟨m1, henc⟩ := encodeNeedle_encoded_inv C db value t txn1 hnd
          refine ⟨value, ?_, Or.inl rfl⟩
          have hgt : get db ⟨q, self.listId⟩ = some t.bytes := by
            rw [hg, hbytes]
          rw [item_of_get C self db q t (by omega) hgt, hst _ db txn1]
          exact hback value db _ true t txn1 m1 henc

/-- C31, instance: the needle 20 in the list `[10, 20, 30]` under id 7 of `db78`: `index`
returns the position 1, `contains` answers 1, `count` returns a number above 0, and
`get(L, 1)` is 20. -/
theorem C31_membership_index_count_agree_witness :
    WellFormed natCodec db78 7 3 ∧
    OOCLazyList_index natCodec natHost ⟨0, 7⟩ db78 (20 : Nat) [] = .ok ((1 : Nat) : Int) ∧
    OOCLazyList_contains natCodec natHost ⟨0, 7⟩ db78 (20 : Nat) 0 9223372036854775807
      = .ok 1 ∧
    (∃ c : Nat, OOCLazyList_count natCodec natHost ⟨0, 7⟩ db78 (20 : Nat) = .ok c ∧ 0 < c) ∧
    (1 < 3 ∧ ∃ item, OOCLazyList_item natCodec ⟨0, 7⟩ db78 ((1 : Nat) : Int) = .ok item ∧
      (item = 20 ∨ natHost.PyObject_RichCompareBool (20 : Nat) item Py_EQ = 1)) :=
  ⟨wellFormed_of_check (by decide), rfl,
    (C31_membership_index_count_agree natCodec natHost ⟨0, 7⟩ db78 3 (20 : Nat)
      (wellFormed_of_check (by decide)) (natCodec_keeps 7) natCodec_decodeStatic
      natCodec_decodesBack (natCodec_decodable db78 7) (natHost_equalityDecided 20)).1.mpr
      ⟨1, rfl⟩,
    (C31_membership_index_count_agree natCodec natHost ⟨0, 7⟩ db78 3 (20 : Nat)
      (wellFormed_of_check (by decide)) (natCodec_keeps 7) natCodec_decodeStatic
      natCodec_decodesBack (natCodec_decodable db78 7) (natHost_equalityDecided 20)).2.1.mp
      ⟨1, rfl⟩,
    (C31_membership_index_count_agree natCodec natHost ⟨0, 7⟩ db78 3 (20 : Nat)
      (wellFormed_of_check (by decide)) (natCodec_keeps 7) natCodec_decodeStatic
      natCodec_decodesBack (natCodec_decodable db78 7) (natHost_equalityDecided 20)).2.2
      1 rfl⟩

/-! ## C32: the comparison table -/

/-- The whole table of `_computeRichcompareResult`: the four ordering operators answer the
relation of the comparison result to 0; `==` answers true for every result that is not
negative and `!=` answers true for the negative results only. -/
theorem computeRichcompareResult_table (c : Int) :
    _computeRichcompareResult c Py_LT = some (decide (c < 0)) ∧
    _computeRichcompareResult c Py_LE = some (decide (c ≤ 0)) ∧
    _computeRichcompareResult c Py_GT = some (decide (0 < c)) ∧
    _computeRichcompareResult c Py_GE = some (decide (0 ≤ c)) ∧
    _computeRichcompareResult c Py_EQ = some (decide (0 ≤ c)) ∧
    _computeRichcompareResult c Py_NE = some (decide (c < 0)) := by
  rcases lt_trichotomy c 0 with h | h | h
  · have h1 : ¬ c = 0 := by omega
    have h2 : ¬ c > 0 := by omega
    have h3 : c ≤ 0 := by omega
    have h4 : ¬ 0 < c := by omega
    have h5 : ¬ 0 ≤ c := by omega
    simp [_computeRichcompareResult, Py_LT, Py_LE, Py_EQ, Py_NE, Py_GT, Py_GE, h, h1, h2, h3,
      h4, h5]
  · subst h
    exact ⟨rfl, rfl, rfl, rfl, rfl, rfl⟩
  · have h1 : ¬ c = 0 := by omega
    have h2 : ¬ c < 0 := by omega
    have h3 : ¬ c ≤ 0 := by omega
    have h4 : c > 0 := h
    have h5 : 0 ≤ c := by omega
    simp [_computeRichcompareResult, Py_LT, Py_LE, Py_EQ, Py_NE, Py_GT, Py_GE, h, h1, h2, h3,
      h5]

/-- `_computeRichcompareResult` fails exactly for an operator code outside the six. -/
theorem computeRichcompareResult_none_iff (c op : Int) :
    _computeRichcompareResult c op = none ↔
      (op ≠ Py_LT ∧ op ≠ Py_LE ∧ op ≠ Py_EQ ∧ op ≠ Py_NE ∧ op ≠ Py_GT ∧ op ≠ Py_GE) := by
  unfold _computeRichcompareResult
  by_cases hc : c = 0
  · rw [if_pos hc]
    by_cases h1 : op = Py_LT ∨ op = Py_NE ∨ op = Py_GT
    · rw [if_pos h1]
      constructor
      · intro h; cases h
      · intro h; rcases h1 with h1 | h1 | h1
        · exact absurd h1 h.1
        · exact absurd h1 h.2.2.2.1
        · exact absurd h1 h.2.2.2.2.1
    · rw [if_neg h1]
      by_cases h2 : op = Py_LE ∨ op = Py_EQ ∨ op = Py_GE
      · rw [if_pos h2]
        constructor
        · intro h; cases h
        · intro h; rcases h2 with h2 | h2 | h2
          · exact absurd h2 h.2.1
          · exact absurd h2 h.2.2.1
          · exact absurd h2 h.2.2.2.2.2
      · rw [if_neg h2]
        constructor
        · intro _
          exact ⟨fun h => h1 (Or.inl h), fun h => h2 (Or.inl h), fun h => h2 (Or.inr (Or.inl h)),
            fun h => h1 (Or.inr (Or.inl h)), fun h => h1 (Or.inr (Or.inr h)),
            fun h => h2 (Or.inr (Or.inr h))⟩
        · intro _; rfl
  · rw [if_neg hc]
    by_cases h1 : op = Py_LT ∨ op = Py_LE ∨ op = Py_NE
    · rw [if_pos h1]
      constructor
      · intro h; cases h
      · intro h; rcases h1 with h1 | h1 | h1
        · exact absurd h1 h.1
        · exact absurd h1 h.2.1
        · exact absurd h1 h.2.2.2.1
    · rw [if_neg h1]
      by_cases h2 : op = Py_GT ∨ op = Py_EQ ∨ op = Py_GE
      · rw [if_pos h2]
        constructor
        · intro h; cases h
        · intro h; rcases h2 with h2 | h2 | h2
          · exact absurd h2 h.2.2.2.2.1
          · exact absurd h2 h.2.2.1
          · exact absurd h2 h.2.2.2.2.2
      · rw [if_neg h2]
        constructor
        · intro _
          exact ⟨fun h => h1 (Or.inl h), fun h => h1 (Or.inr (Or.inl h)),
            fun h => h2 (Or.inr (Or.inl h)), fun h => h1 (Or.inr (Or.inr h)),
            fun h => h2 (Or.inl h), fun h => h2 (Or.inr (Or.inr h))⟩
        · intro _; rfl

/-- C32, the code at a positive comparison result: for the results 1 and 5, which are not
0, `_computeRichcompareResult` answers true for `==` and false for `!=`, the opposite of
the relations `c == 0` and `c != 0`; the four ordering operators answer the relation of the
result to 0.  The comparison of the stored list `[1, 2, 3]` with the host list `[1, 2]`
reaches the table with the result 1 and returns these answers. -/
theorem C32_equality_flipped_when_positive :
    _computeRichcompareResult 1 Py_EQ = some true ∧
    _computeRichcompareResult 1 Py_NE = some false ∧
    _computeRichcompareResult 5 Py_EQ = some true ∧
    _computeRichcompareResult 5 Py_NE = some false ∧
    decide ((1 : Int) = 0) = false ∧ decide ((1 : Int) ≠ 0) = true ∧
    _computeRichcompareResult 1 Py_LT = some false ∧
    _computeRichcompareResult 1 Py_LE = some false ∧
    _computeRichcompareResult 1 Py_GT = some true ∧
    _computeRichcompareResult 1 Py_GE = some true ∧
    _computeRichcompareResult (-1) Py_EQ = some false ∧
    _computeRichcompareResult (-1) Py_NE = some true ∧
    _computeRichcompareResult 0 Py_EQ = some true ∧
    _computeRichcompareResult 0 Py_NE = some false ∧
    OOCLazyList_richcompare natCodec natHost ⟨0, 7⟩ dbCmp (.pyList [(1 : Nat), 2]) Py_NE
      = .ok false :=
  ⟨rfl, rfl, rfl, rfl, rfl, rfl, rfl, rfl, rfl, rfl, rfl, rfl, rfl, rfl, rfl⟩

end OOC
